import Mathlib

/-!
# myuugo front end: semantic pass, parser and lexer

A shallow embedding of `compiler/passes/semantic.go` (the dependency-ordered
driver `Semantic`, `ready`, `alignLocalVars` and the type-inference function
`traverse`) together with the parts of `compiler/lang` and `compiler/parse`
that these functions read, of the recursive-descent parser of
`compiler/parse/parse.go` (the binary levels of expressions, the statements with
their scopes, the declarations of variables, `type_`, `funcDefinition` and
`topLevelStmt`), and of the lexer of `token.go` (`Tokenize` and `getIdentifier`).

Mutable Go state is passed explicitly:

* `*Variable` pointers are natural numbers into a variable store `Vars`;
* a `*Node` that `traverse` mutates is returned as the updated tree;
* a fatal exit (`util.Alarm`, `panic`, a Go run-time panic) is an
  `Except.error`;
* the globals of package `parse` are a `ParserState` that every parsing function
  takes and returns, and a loop of the parser runs for a bounded number of
  rounds;
* a Go `string` is the sequence of items that Go decodes from its bytes, so that
  a slice expression may cut a character of several bytes.
-/

namespace Myuugo

/-! ## lang: types -/

/-- Modelled from the spec: `lang.Type` (§3 Data model), the declaration of which
is not part of the sources at hand. A tagged variant; `UserDefined` is the
spec's `Named`. -/
inductive Ty where
  | int
  | rune
  | bool
  | string
  | void
  | undefined
  | stmt
  | ptr (elem : Ty)
  | array (elem : Ty) (size : Nat)
  | slice (elem : Ty)
  | struct (memberNames : List String) (memberTypes : List Ty)
  | userDefined (name : String) (underlying : Ty)
  | multiple (components : List Ty)
  deriving Repr, Inhabited

/-- The tag of a type, `Type.Kind` in the Go code. -/
inductive TypeKind where
  | TypeInt | TypeRune | TypeBool | TypeString | TypeVoid | TypeUndefined | TypeStmt
  | TypePtr | TypeArray | TypeSlice | TypeStruct | TypeUserDefined | TypeMultiple
  deriving DecidableEq, Repr

/-- Field `Kind` of a type. -/
def Ty.Kind : Ty → TypeKind
  | .int => .TypeInt
  | .rune => .TypeRune
  | .bool => .TypeBool
  | .string => .TypeString
  | .void => .TypeVoid
  | .undefined => .TypeUndefined
  | .stmt => .TypeStmt
  | .ptr _ => .TypePtr
  | .array _ _ => .TypeArray
  | .slice _ => .TypeSlice
  | .struct _ _ => .TypeStruct
  | .userDefined _ _ => .TypeUserDefined
  | .multiple _ => .TypeMultiple

/-- Field `PtrTo` of a type: the pointee of a pointer, the element of an array or
slice, the underlying type of a user-defined type; `none` is Go's `nil`. -/
def Ty.PtrTo : Ty → Option Ty
  | .ptr e => some e
  | .array e _ => some e
  | .slice e => some e
  | .userDefined _ u => some u
  | _ => none

/-- Field `Components` of a type (empty unless the type is a `Multiple`). -/
def Ty.Components : Ty → List Ty
  | .multiple cs => cs
  | _ => []

/-- Field `MemberNames` of a type (empty unless the type is a struct). -/
def Ty.MemberNames : Ty → List String
  | .struct ns _ => ns
  | _ => []

/-- Field `MemberTypes` of a type (empty unless the type is a struct). -/
def Ty.MemberTypes : Ty → List Ty
  | .struct _ ts => ts
  | _ => []

mutual
/-- Modelled from the spec: `lang.TypeEquals` (§4.4), strict structural equality
with no `Undefined` wildcard; the function body is not part of the sources at
hand. -/
def TypeEquals : Ty → Ty → Bool
  | .int, .int => true
  | .rune, .rune => true
  | .bool, .bool => true
  | .string, .string => true
  | .void, .void => true
  | .undefined, .undefined => true
  | .stmt, .stmt => true
  | .ptr a, .ptr b => TypeEquals a b
  | .array a n, .array b m => n == m && TypeEquals a b
  | .slice a, .slice b => TypeEquals a b
  | .struct ns ts, .struct ms us => ns == ms && TypeEqualsList ts us
  | .userDefined n a, .userDefined m b => n == m && TypeEquals a b
  | .multiple ts, .multiple us => TypeEqualsList ts us
  | _, _ => false
/-- Pointwise `TypeEquals` on two sequences of equal length. -/
def TypeEqualsList : List Ty → List Ty → Bool
  | [], [] => true
  | a :: as, b :: bs => TypeEquals a b && TypeEqualsList as bs
  | _, _ => false
end

mutual
/-- Modelled from the spec: `lang.TypeCompatable` (§4.4); the function body is not
part of the sources at hand. `Undefined` is compatible with anything; otherwise
the variants agree and pointer/array/slice elements are compatible, arrays have
equal size, named types have equal declared name (a bare struct declares none),
`Multiple` types have equal arity and pairwise compatible components. -/
def TypeCompatable : Ty → Ty → Bool
  | .undefined, _ => true
  | .int, b => match b with
    | .undefined => true
    | .int => true
    | _ => false
  | .rune, b => match b with
    | .undefined => true
    | .rune => true
    | _ => false
  | .bool, b => match b with
    | .undefined => true
    | .bool => true
    | _ => false
  | .string, b => match b with
    | .undefined => true
    | .string => true
    | _ => false
  | .void, b => match b with
    | .undefined => true
    | .void => true
    | _ => false
  | .stmt, b => match b with
    | .undefined => true
    | .stmt => true
    | _ => false
  | .ptr a, b => match b with
    | .undefined => true
    | .ptr b => TypeCompatable a b
    | _ => false
  | .array a n, b => match b with
    | .undefined => true
    | .array b m => n == m && TypeCompatable a b
    | _ => false
  | .slice a, b => match b with
    | .undefined => true
    | .slice b => TypeCompatable a b
    | _ => false
  | .struct _ _, b => match b with
    | .undefined => true
    | .struct _ _ => true
    | _ => false
  | .userDefined n _, b => match b with
    | .undefined => true
    | .userDefined m _ => n == m
    | _ => false
  | .multiple ts, b => match b with
    | .undefined => true
    | .multiple us => TypeCompatableList ts us
    | _ => false
/-- Equal arity and pairwise `TypeCompatable`. -/
def TypeCompatableList : List Ty → List Ty → Bool
  | [], [] => true
  | a :: as, b :: bs => TypeCompatable a b && TypeCompatableList as bs
  | _, _ => false
end

/-- Modelled from the spec: `lang.IsKindOfNumber`, "integer-kind" (§4.6); the
function body is not part of the sources at hand. -/
def IsKindOfNumber (t : Ty) : Bool :=
  t.Kind == .TypeInt || t.Kind == .TypeRune

/-! ## lang: variables and functions -/

/-- Storage class of a variable. -/
inductive VariableKind where
  | VariableLocal | VariableTopLevel
  deriving DecidableEq, Repr

/-- Modelled from the spec: `lang.Variable` (§3), the declaration of which is not
part of the sources at hand. -/
structure Variable where
  Name : String
  Typ : Ty
  Kind : VariableKind
  Offset : Nat

/-- The variable store: what every `*lang.Variable` points to. -/
abbrev Vars := Nat → Variable

/-- The record `lang.Function` of `compiler/lang/function.go`; `LocalVariables`
holds pointers into the variable store. -/
structure Function where
  Label : String
  ParameterTypes : List Ty
  ReturnValueType : Ty
  LocalVariables : List Nat
  IsDefined : Bool

/-- The constructor `lang.NewFunction`. -/
def NewFunction (label : String) (parameterTypes : List Ty) (returnValueType : Ty) : Function :=
  { Label := label, ParameterTypes := parameterTypes, ReturnValueType := returnValueType,
    LocalVariables := [], IsDefined := false }

/-! ## parse: nodes and programs -/

/-- The binary operator kinds that `traverse` handles after its chain of
`if node.Kind == ...` tests; `Other` stands for any kind the final `switch`
sends to `default`. -/
inductive BinaryKind where
  | NodeSub | NodeMul | NodeDiv | NodeMod | NodeAdd
  | NodeEql | NodeNotEql | NodeLess | NodeLessEql | NodeGreater | NodeGreaterEql
  | NodeLogicalAnd | NodeLogicalOr | Other
  deriving DecidableEq, Repr

/-- The kinds of statement that `traverse` only marks as `Stmt`. -/
inductive MarkerKind where
  | NodeStatementFunctionDeclaration | NodeImportStmt | NodeTypeStmt | NodePackageStmt
  deriving DecidableEq, Repr

/-- The two `var` statements, which `traverse` treats in one branch. -/
inductive VarStmtKind where
  | NodeLocalVarStmt | NodeTopLevelVarStmt
  deriving DecidableEq, Repr

/-- Modelled from the spec: `parse.Node` (§3 "AST Node"), the declaration of which
is not part of the sources at hand: a tagged variant keyed by the node kind,
each variant carrying the fields that `traverse` reads for that kind. The first
field of every variant is the mutable `ExprType`; `FunctionName` is
`node.Env.FunctionName`; a `Variable` is a pointer into the variable store; an
`Option` field may be Go's `nil`. -/
inductive Node where
  | NodeMarker (ExprType : Ty) (kind : MarkerKind)
  | NodeLenCall (ExprType : Ty) (argument : Node)
  | NodePackageDot (ExprType : Ty) (Label : String) (child : Node)
  | NodeLocalVarList (ExprType : Ty) (Children : List Node)
  | NodeExprList (ExprType : Ty) (Children : List Node)
  | NodeStmtList (ExprType : Ty) (Children : List Node)
  | NodeReturn (ExprType : Ty) (FunctionName : String) (Target : Option Node)
  | NodeAssign (ExprType : Ty) (lhs rhs : Node)
  | NodeShortVarDeclStmt (ExprType : Ty) (lhs rhs : Node)
  | NodeMetaIf (ExprType : Ty) (If : Node) (Else : Option Node)
  | NodeIf (ExprType : Ty) (Condition Body : Node)
  | NodeElse (ExprType : Ty) (Body : Node)
  | NodeFor (ExprType : Ty) (Init Condition Update : Option Node) (Body : Node)
  | NodeFunctionDef (ExprType : Ty) (FunctionName : String) (Parameters : List Node) (Body : Node)
  | NodeNot (ExprType : Ty) (Target : Node)
  | NodeAddr (ExprType : Ty) (Target : Node)
  | NodeDeref (ExprType : Ty) (Target : Node)
  | NodeFunctionCall (ExprType : Ty) (In Label : String) (Arguments : List Node)
  | NodeVarStmt (ExprType : Ty) (kind : VarStmtKind) (FunctionName : String)
      (lvar : Node) (value : Option Node)
  | NodeExprStmt (ExprType : Ty) (child : Node)
  | NodeNum (ExprType : Ty) (Val : Int)
  | NodeBool (ExprType : Ty) (Val : Int)
  | NodeLocalVariable (ExprType : Ty) (Variable : Nat)
  | NodeTopLevelVariable (ExprType : Ty) (Label : String) (Variable : Option Nat)
  | NodeString (ExprType : Ty) (Str : Nat)
  | NodeIndex (ExprType : Ty) (Seq Index : Node)
  | NodeAppendCall (ExprType : Ty) (argument1 argument2 : Node)
  | NodeStringCall (ExprType : Ty) (argument : Node)
  | NodeRuneCall (ExprType : Ty) (argument : Node)
  | NodeSliceLiteral (ExprType : Ty) (LiteralType : Ty) (Children : List Node)
  | NodeStructLiteral (ExprType : Ty) (LiteralType : Ty) (MemberNames : List String)
      (MemberValues : List Node)
  | NodeDot (ExprType : Ty) (Owner : Node) (MemberName : String)
  | NodeBinary (ExprType : Ty) (kind : BinaryKind) (Lhs Rhs : Node)
  deriving Repr, Inhabited

/-- Field `ExprType` of a node. -/
def Node.ExprType : Node → Ty
  | .NodeMarker t _ | .NodeLenCall t _ | .NodePackageDot t _ _ | .NodeLocalVarList t _ | .NodeExprList t _
  | .NodeStmtList t _ | .NodeReturn t _ _ | .NodeAssign t _ _ | .NodeShortVarDeclStmt t _ _ | .NodeMetaIf t _ _
  | .NodeIf t _ _ | .NodeElse t _ | .NodeFor t _ _ _ _ | .NodeFunctionDef t _ _ _ | .NodeNot t _ | .NodeAddr t _
  | .NodeDeref t _ | .NodeFunctionCall t _ _ _ | .NodeVarStmt t _ _ _ _ | .NodeExprStmt t _ | .NodeNum t _
  | .NodeBool t _ | .NodeLocalVariable t _ | .NodeTopLevelVariable t _ _ | .NodeString t _ | .NodeIndex t _ _
  | .NodeAppendCall t _ _ | .NodeStringCall t _ | .NodeRuneCall t _ | .NodeSliceLiteral t _ _
  | .NodeStructLiteral t _ _ _ | .NodeDot t _ _ | .NodeBinary t _ _ _ => t

/-- The assignment `node.ExprType = t`. -/
def Node.setExprType (t : Ty) : Node → Node
  | .NodeMarker _ k => .NodeMarker t k
  | .NodeLenCall _ a => .NodeLenCall t a
  | .NodePackageDot _ l c => .NodePackageDot t l c
  | .NodeLocalVarList _ cs => .NodeLocalVarList t cs
  | .NodeExprList _ cs => .NodeExprList t cs
  | .NodeStmtList _ cs => .NodeStmtList t cs
  | .NodeReturn _ f x => .NodeReturn t f x
  | .NodeAssign _ l r => .NodeAssign t l r
  | .NodeShortVarDeclStmt _ l r => .NodeShortVarDeclStmt t l r
  | .NodeMetaIf _ i e => .NodeMetaIf t i e
  | .NodeIf _ c b => .NodeIf t c b
  | .NodeElse _ b => .NodeElse t b
  | .NodeFor _ i c u b => .NodeFor t i c u b
  | .NodeFunctionDef _ f ps b => .NodeFunctionDef t f ps b
  | .NodeNot _ x => .NodeNot t x
  | .NodeAddr _ x => .NodeAddr t x
  | .NodeDeref _ x => .NodeDeref t x
  | .NodeFunctionCall _ i l as => .NodeFunctionCall t i l as
  | .NodeVarStmt _ k f v x => .NodeVarStmt t k f v x
  | .NodeExprStmt _ c => .NodeExprStmt t c
  | .NodeNum _ v => .NodeNum t v
  | .NodeBool _ v => .NodeBool t v
  | .NodeLocalVariable _ v => .NodeLocalVariable t v
  | .NodeTopLevelVariable _ l v => .NodeTopLevelVariable t l v
  | .NodeString _ s => .NodeString t s
  | .NodeIndex _ s i => .NodeIndex t s i
  | .NodeAppendCall _ a b => .NodeAppendCall t a b
  | .NodeStringCall _ a => .NodeStringCall t a
  | .NodeRuneCall _ a => .NodeRuneCall t a
  | .NodeSliceLiteral _ l cs => .NodeSliceLiteral t l cs
  | .NodeStructLiteral _ l ns vs => .NodeStructLiteral t l ns vs
  | .NodeDot _ o m => .NodeDot t o m
  | .NodeBinary _ k l r => .NodeBinary t k l r

/-- Field `Children` of a node: the operands of the list nodes and of the nodes
that the parser builds with `NewNode` or `NewBinaryNode`. -/
def Node.Children : Node → List Node
  | .NodePackageDot _ _ c => [c]
  | .NodeLocalVarList _ cs => cs
  | .NodeExprList _ cs => cs
  | .NodeStmtList _ cs => cs
  | .NodeAssign _ l r => [l, r]
  | .NodeShortVarDeclStmt _ l r => [l, r]
  | .NodeVarStmt _ _ _ v none => [v]
  | .NodeVarStmt _ _ _ v (some x) => [v, x]
  | .NodeExprStmt _ c => [c]
  | .NodeSliceLiteral _ _ cs => cs
  | _ => []

/-- Field `Variable` of a node; `none` is Go's `nil`. -/
def Node.Variable : Node → Option Nat
  | .NodeLocalVariable _ v => some v
  | .NodeTopLevelVariable _ _ v => v
  | _ => none

/-- The assignment `node.In = pkg`; `In` is read for function calls only. -/
def Node.setIn (pkg : String) : Node → Node
  | .NodeFunctionCall t _ l as => .NodeFunctionCall t pkg l as
  | n => n

/-- Modelled from the spec: `parse.Source` (§3), the declaration of which is not
part of the sources at hand: the top-level nodes of one file and the package
names it imports. -/
structure Source where
  Code : List Node
  Packages : List String

/-- Modelled from the spec: `parse.Program` (§3), the declaration of which is not
part of the sources at hand. The registries are association lists in
registration order. -/
structure Program where
  Name : String
  Sources : List Source
  Functions : List Function
  TopLevelVariables : List (String × Nat)
  Traversed : Bool

/-- Modelled from the spec: `Program.FindFunction`, the lookup of a function by
name in the registry of the program; `none` is Go's `nil`. -/
def Program.FindFunction (p : Program) (name : String) : Option Function :=
  p.Functions.find? (fun f => f.Label == name)

/-- Modelled from the spec: `Program.FindTopLevelVariable`, the lookup of a
top-level variable by name in the registry of the program. -/
def Program.FindTopLevelVariable (p : Program) (name : String) : Option Nat :=
  (p.TopLevelVariables.find? (fun e => e.1 == name)).map (fun e => e.2)

/-- The constants of `parse.NodeKind` that `traverse` tests. -/
inductive NodeKind where
  | Marker (k : MarkerKind)
  | VarStmt (k : VarStmtKind)
  | Binary (k : BinaryKind)
  | NodeLenCall | NodePackageDot | NodeLocalVarList | NodeExprList | NodeStmtList
  | NodeReturn | NodeAssign | NodeShortVarDeclStmt | NodeMetaIf | NodeIf | NodeElse
  | NodeFor | NodeFunctionDef | NodeNot | NodeAddr | NodeDeref | NodeFunctionCall
  | NodeExprStmt | NodeNum | NodeBool | NodeLocalVariable | NodeTopLevelVariable
  | NodeString | NodeIndex | NodeAppendCall | NodeStringCall | NodeRuneCall
  | NodeSliceLiteral | NodeStructLiteral | NodeDot
  deriving DecidableEq, Repr

/-- Field `Kind` of a node. -/
def Node.Kind : Node → NodeKind
  | .NodeMarker _ k => .Marker k
  | .NodeLenCall _ _ => .NodeLenCall
  | .NodePackageDot _ _ _ => .NodePackageDot
  | .NodeLocalVarList _ _ => .NodeLocalVarList
  | .NodeExprList _ _ => .NodeExprList
  | .NodeStmtList _ _ => .NodeStmtList
  | .NodeReturn _ _ _ => .NodeReturn
  | .NodeAssign _ _ _ => .NodeAssign
  | .NodeShortVarDeclStmt _ _ _ => .NodeShortVarDeclStmt
  | .NodeMetaIf _ _ _ => .NodeMetaIf
  | .NodeIf _ _ _ => .NodeIf
  | .NodeElse _ _ => .NodeElse
  | .NodeFor _ _ _ _ _ => .NodeFor
  | .NodeFunctionDef _ _ _ _ => .NodeFunctionDef
  | .NodeNot _ _ => .NodeNot
  | .NodeAddr _ _ => .NodeAddr
  | .NodeDeref _ _ => .NodeDeref
  | .NodeFunctionCall _ _ _ _ => .NodeFunctionCall
  | .NodeVarStmt _ k _ _ _ => .VarStmt k
  | .NodeExprStmt _ _ => .NodeExprStmt
  | .NodeNum _ _ => .NodeNum
  | .NodeBool _ _ => .NodeBool
  | .NodeLocalVariable _ _ => .NodeLocalVariable
  | .NodeTopLevelVariable _ _ _ => .NodeTopLevelVariable
  | .NodeString _ _ => .NodeString
  | .NodeIndex _ _ _ => .NodeIndex
  | .NodeAppendCall _ _ _ => .NodeAppendCall
  | .NodeStringCall _ _ => .NodeStringCall
  | .NodeRuneCall _ _ => .NodeRuneCall
  | .NodeSliceLiteral _ _ _ => .NodeSliceLiteral
  | .NodeStructLiteral _ _ _ _ => .NodeStructLiteral
  | .NodeDot _ _ _ => .NodeDot
  | .NodeBinary _ k _ _ => .Binary k

/-- The assignment of new operands to `node.Children`; a list of another length
than the node holds is ignored. -/
def Node.setChildren (cs : List Node) : Node → Node
  | .NodeLocalVarList t _ => .NodeLocalVarList t cs
  | .NodeExprList t _ => .NodeExprList t cs
  | .NodeStmtList t _ => .NodeStmtList t cs
  | .NodeSliceLiteral t l _ => .NodeSliceLiteral t l cs
  | .NodePackageDot t l c =>
    match cs with
    | [c1] => .NodePackageDot t l c1
    | _ => .NodePackageDot t l c
  | .NodeExprStmt t c =>
    match cs with
    | [c1] => .NodeExprStmt t c1
    | _ => .NodeExprStmt t c
  | .NodeAssign t l r =>
    match cs with
    | [l1, r1] => .NodeAssign t l1 r1
    | _ => .NodeAssign t l r
  | .NodeShortVarDeclStmt t l r =>
    match cs with
    | [l1, r1] => .NodeShortVarDeclStmt t l1 r1
    | _ => .NodeShortVarDeclStmt t l r
  | .NodeVarStmt t k f v none =>
    match cs with
    | [v1] => .NodeVarStmt t k f v1 none
    | _ => .NodeVarStmt t k f v none
  | .NodeVarStmt t k f v (some x) =>
    match cs with
    | [v1, x1] => .NodeVarStmt t k f v1 (some x1)
    | _ => .NodeVarStmt t k f v (some x)
  | n => n

mutual
/-- The node is one that `expr` or `exprList` of the parser builds: no statement
occurs in it. -/
def Node.IsExpr : Node → Bool
  | .NodeLenCall _ a => a.IsExpr
  | .NodePackageDot _ _ c => c.IsExpr
  | .NodeExprList _ cs => Node.AllExpr cs
  | .NodeNot _ x => x.IsExpr
  | .NodeAddr _ x => x.IsExpr
  | .NodeDeref _ x => x.IsExpr
  | .NodeFunctionCall _ _ _ as => Node.AllExpr as
  | .NodeNum _ _ => true
  | .NodeBool _ _ => true
  | .NodeLocalVariable _ _ => true
  | .NodeTopLevelVariable _ _ _ => true
  | .NodeString _ _ => true
  | .NodeIndex _ s i => s.IsExpr && i.IsExpr
  | .NodeAppendCall _ a b => a.IsExpr && b.IsExpr
  | .NodeStringCall _ a => a.IsExpr
  | .NodeRuneCall _ a => a.IsExpr
  | .NodeSliceLiteral _ _ cs => Node.AllExpr cs
  | .NodeStructLiteral _ _ _ vs => Node.AllExpr vs
  | .NodeDot _ o _ => o.IsExpr
  | .NodeBinary _ _ l r => l.IsExpr && r.IsExpr
  | _ => false
/-- Every node of the list is an expression. -/
def Node.AllExpr : List Node → Bool
  | [] => true
  | c :: cs => c.IsExpr && Node.AllExpr cs
end

/-! ## passes: failures and the variable store -/

/-- The fatal messages of `semantic.go`, one constant per call site. -/
inductive Msg where
  | lenArgument | returnInVoid | returnMismatch | assignMismatch
  | shortVarDeclComponents | shortVarDeclCount | ifCondition | notOperand
  | derefNonPointer | callArgumentCount | callArgumentType | varStmtMismatch
  | topLevelVariableUndefined | indexNonSequence | indexNonNumber
  | appendFirstArgument | appendSecondArgument | runeArgument | sliceLiteralElement
  | structLiteralMemberType | structLiteralNoMember | dotNoMember | dotNonUserDefined
  | binaryMismatch | arithmeticNonInt | logicalNonBool | functionMissing
  deriving DecidableEq, Repr

/-- Modelled from the spec: the ways in which the semantic pass stops the whole
compilation (§7, "terminating compilation immediately"). `Alarm` is a call of
`util.Alarm`, whose body is not part of the sources at hand; `Panic` is an
explicit `panic(...)`; the other two are Go run-time panics. -/
inductive Failure where
  | Alarm (msg : Msg)
  | Panic (msg : Msg)
  | NilDereference
  | IndexOutOfRange
  deriving DecidableEq, Repr

/-- The store after an assignment through the pointer `v`. -/
def Vars.set (vs : Vars) (v : Nat) (x : Variable) : Vars :=
  fun w => if w = v then x else vs w

/-- The assignment `v.Type = t`. -/
def Vars.setType (vs : Vars) (v : Nat) (t : Ty) : Vars :=
  vs.set v { Name := (vs v).Name, Typ := t, Kind := (vs v).Kind, Offset := (vs v).Offset }

/-- The assignment `v.Offset = o`. -/
def Vars.setOffset (vs : Vars) (v : Nat) (o : Nat) : Vars :=
  vs.set v { Name := (vs v).Name, Typ := (vs v).Typ, Kind := (vs v).Kind, Offset := o }

/-- The function `packageToProgram`: the first program of that name. -/
def packageToProgram (programs : List Program) (name : String) : Option Program :=
  programs.find? (fun p => p.Name == name)

/-- The loop of `alignLocalVars`: every local gets the next multiple of 8. -/
def alignLoop : List Nat → Nat → Vars → Vars
  | [], _, vs => vs
  | lvar :: rest, offset, vs => alignLoop rest (offset + 8) (vs.setOffset lvar (offset + 8))

/-- The function `alignLocalVars`. -/
def alignLocalVars (program : Program) (functionName : String) (vs : Vars) :
    Except Failure Vars :=
  match program.FindFunction functionName with
  | none => .error (.Panic .functionMissing)
  | some fn => .ok (alignLoop fn.LocalVariables 0 vs)

/-- The second loop of the `NodeShortVarDeclStmt` branch: the `i`-th operand of the
left side and its variable get the `i`-th component of the right side's type, or
the type itself when it is no `Multiple`. -/
def bindShortVarDecl (rhsType : Ty) : List Node → Nat → Vars → Except Failure (List Node × Vars)
  | [], _, vs => .ok ([], vs)
  | l :: ls, i, vs =>
    if rhsType.Kind = .TypeMultiple then
      match rhsType.Components[i]? with
      | none => .error .IndexOutOfRange
      | some c =>
        match l.Variable with
        | none => .error .NilDereference
        | some v =>
          match bindShortVarDecl rhsType ls (i + 1) (vs.setType v c) with
          | .error e => .error e
          | .ok (ls1, vs1) => .ok (l.setExprType c :: ls1, vs1)
    else
      match l.Variable with
      | none => .error .NilDereference
      | some v =>
        match bindShortVarDecl rhsType ls (i + 1) (vs.setType v rhsType) with
        | .error e => .error e
        | .ok (ls1, vs1) => .ok (l.setExprType rhsType :: ls1, vs1)

/-- The inner loop of the `NodeStructLiteral` branch over the members of the
struct: `found` becomes true at a member called `name`, whose type has to be
compatible with `ty`. -/
def structLiteralMember (name : String) (ty : Ty) : List String → List Ty → Bool →
    Except Failure Bool
  | [], _, found => .ok found
  | m :: ms, ts, found =>
    if m = name then
      match ts with
      | [] => .error .IndexOutOfRange
      | t :: ts1 =>
        if TypeCompatable ty t then structLiteralMember name ty ms ts1 true
        else .error (.Panic .structLiteralMemberType)
    else structLiteralMember name ty ms ts.tail found

/-- The loop of the `NodeDot` branch: the type of the first member called `name`. -/
def dotMember (name : String) : List String → List Ty → Except Failure Ty
  | [], _ => .error (.Panic .dotNoMember)
  | m :: ms, ts =>
    if name = m then
      match ts with
      | [] => .error .IndexOutOfRange
      | t :: _ => .ok t
    else dotMember name ms ts.tail

/-- The final `switch` of `traverse` on a binary node: the type of the node, given
the type of the left operand. -/
def binaryResult (kind : BinaryKind) (lhsType : Ty) : Except Failure Ty :=
  match kind with
  | .NodeSub | .NodeMul | .NodeDiv | .NodeMod =>
    if lhsType.Kind ≠ .TypeInt then .error (.Alarm .arithmeticNonInt) else .ok .int
  | .NodeAdd => .ok lhsType
  | .NodeEql | .NodeNotEql | .NodeLess | .NodeLessEql | .NodeGreater | .NodeGreaterEql =>
    .ok .bool
  | .NodeLogicalAnd | .NodeLogicalOr =>
    if lhsType.Kind ≠ .TypeBool then .error (.Alarm .logicalNonBool) else .ok .bool
  | .Other => .ok .stmt

/-- The count test of the `NodeShortVarDeclStmt` branch: the left side has to hold
as many operands as the right side's type has components, or as the right side
has operands when its type is no `Multiple`. -/
def shortVarDeclCount (rhsType : Ty) (lhsCount rhsCount : Nat) : Except Failure Unit :=
  if rhsType.Kind = .TypeMultiple then
    (if lhsCount ≠ rhsType.Components.length then .error (.Alarm .shortVarDeclComponents)
     else .ok ())
  else
    (if lhsCount ≠ rhsCount then .error (.Alarm .shortVarDeclCount)
     else .ok ())

/-! ## passes: `traverse` -/

mutual
/-- The function `traverse` of `semantic.go`: the type of a node, the node with the
types written into it, and the variable store afterwards. `programs` and
`program` are the two globals of the package, which `traverse` only reads. -/
def traverse (programs : List Program) (program : Program) :
    Node → Vars → Except Failure (Ty × Node × Vars)
  | .NodeMarker _ k, vs => .ok (.stmt, .NodeMarker .stmt k, vs)
  | .NodeLenCall _ a, vs => do
    let (argType, a1, vs1) ← traverse programs program a vs
    if argType.Kind = .TypeArray ∨ argType.Kind = .TypeSlice ∨ argType.Kind = .TypeString then
      pure (.int, .NodeLenCall .int a1, vs1)
    else throw (.Panic .lenArgument)
  | .NodePackageDot _ label c, vs => do
    let (t, c1, vs1) ← traverse programs program c vs
    pure (t, .NodePackageDot t label (c1.setIn label), vs1)
  | .NodeLocalVarList _ cs, vs => do
    let (_, cs1, vs1) ← traverseList programs program cs vs
    pure (.stmt, .NodeLocalVarList .stmt cs1, vs1)
  | .NodeExprList _ cs, vs => do
    let (types, cs1, vs1) ← traverseList programs program cs vs
    if types.length > 1 then
      pure (.multiple types, .NodeExprList (.multiple types) cs1, vs1)
    else
      match types with
      | [] => throw .IndexOutOfRange
      | t :: _ => pure (t, .NodeExprList t cs1, vs1)
  | .NodeStmtList _ cs, vs => do
    let (_, cs1, vs1) ← traverseList programs program cs vs
    pure (.stmt, .NodeStmtList .stmt cs1, vs1)
  | .NodeReturn _ functionName target, vs =>
    match program.FindFunction functionName with
    | none => throw .NilDereference
    | some fn =>
      if fn.ReturnValueType.Kind = .TypeVoid then
        match target with
        | some _ => throw (.Alarm .returnInVoid)
        | none => pure (.stmt, .NodeReturn .stmt functionName none, vs)
      else
        match target with
        | none => throw .NilDereference
        | some x => do
          let (ty, x1, vs1) ← traverse programs program x vs
          if TypeCompatable fn.ReturnValueType ty then
            pure (.stmt, .NodeReturn .stmt functionName (some x1), vs1)
          else throw (.Alarm .returnMismatch)
  | .NodeAssign _ lhs rhs, vs => do
    let (ltype, lhs1, vs1) ← traverse programs program lhs vs
    let (rtype, rhs1, vs2) ← traverse programs program rhs vs1
    if TypeCompatable ltype rtype then
      pure (.stmt, .NodeAssign .stmt lhs1 rhs1, vs2)
    else throw (.Alarm .assignMismatch)
  | .NodeShortVarDeclStmt _ lhs rhs, vs => do
    let (_, lhs1, vs1) ← traverse programs program lhs vs
    let (rhsType, rhs1, vs2) ← traverse programs program rhs vs1
    shortVarDeclCount rhsType lhs1.Children.length rhs1.Children.length
    let (ls, vs3) ← bindShortVarDecl rhsType lhs1.Children 0 vs2
    pure (.stmt, .NodeShortVarDeclStmt .stmt (lhs1.setChildren ls) rhs1, vs3)
  | .NodeMetaIf _ ifNode elseNode, vs => do
    let (_, if1, vs1) ← traverse programs program ifNode vs
    let (else1, vs2) ← traverseOption programs program elseNode vs1
    pure (.stmt, .NodeMetaIf .stmt if1 else1, vs2)
  | .NodeIf _ cond body, vs => do
    let (_, cond1, vs1) ← traverse programs program cond vs
    let (_, body1, vs2) ← traverse programs program body vs1
    if cond1.ExprType.Kind ≠ .TypeBool then
      throw (.Alarm .ifCondition)
    pure (.stmt, .NodeIf .stmt cond1 body1, vs2)
  | .NodeElse _ body, vs => do
    let (_, body1, vs1) ← traverse programs program body vs
    pure (.stmt, .NodeElse .stmt body1, vs1)
  | .NodeFor _ init cond update body, vs => do
    let (init1, vs1) ← traverseOption programs program init vs
    let (cond1, vs2) ← traverseOption programs program cond vs1
    let (update1, vs3) ← traverseOption programs program update vs2
    let (_, body1, vs4) ← traverse programs program body vs3
    pure (.stmt, .NodeFor .stmt init1 cond1 update1 body1, vs4)
  | .NodeFunctionDef _ functionName parameters body, vs => do
    let (_, parameters1, vs1) ← traverseList programs program parameters vs
    let (_, body1, vs2) ← traverse programs program body vs1
    let vs3 ← alignLocalVars program functionName vs2
    pure (.stmt, .NodeFunctionDef .stmt functionName parameters1 body1, vs3)
  | .NodeNot _ target, vs => do
    let (ty, target1, vs1) ← traverse programs program target vs
    if ty.Kind ≠ .TypeBool then
      throw (.Panic .notOperand)
    pure (.bool, .NodeNot .bool target1, vs1)
  | .NodeAddr _ target, vs => do
    let (ty, target1, vs1) ← traverse programs program target vs
    pure (.ptr ty, .NodeAddr (.ptr ty) target1, vs1)
  | .NodeDeref _ target, vs => do
    let (ty, target1, vs1) ← traverse programs program target vs
    if ty.Kind ≠ .TypePtr then
      throw (.Alarm .derefNonPointer)
    match ty.PtrTo with
    | none => throw .NilDereference
    | some e => pure (e, .NodeDeref e target1, vs1)
  | .NodeFunctionCall _ pkg label arguments, vs =>
    match packageToProgram programs pkg with
    | none => throw .NilDereference
    | some p =>
      match p.FindFunction label with
      | none => do
        let (_, arguments1, vs1) ← traverseList programs program arguments vs
        pure (.undefined, .NodeFunctionCall .undefined "" label arguments1, vs1)
      | some fn => do
        if fn.ParameterTypes.length ≠ arguments.length then
          throw (.Alarm .callArgumentCount)
        let (arguments1, vs1) ← traverseArguments programs program fn.ParameterTypes arguments vs
        pure (fn.ReturnValueType, .NodeFunctionCall fn.ReturnValueType pkg label arguments1, vs1)
  | .NodeVarStmt t kind functionName lvar value, vs =>
    match value with
    | some x => do
      let (lvarType, lvar1, vs1) ← traverse programs program lvar vs
      let (valueType, x1, vs2) ← traverse programs program x vs1
      if lvarType.Kind = .TypeUndefined then
        match lvar1.Variable with
        | none => throw .NilDereference
        | some v =>
          if TypeCompatable valueType valueType then
            if Node.Kind (.NodeVarStmt t kind functionName lvar value) = .NodeLocalVarList then do
              let vs3 ← alignLocalVars program functionName (vs2.setType v valueType)
              pure (.stmt, .NodeVarStmt .stmt kind functionName (lvar1.setExprType valueType)
                (some x1), vs3)
            else
              pure (.stmt, .NodeVarStmt .stmt kind functionName (lvar1.setExprType valueType)
                (some x1), vs2.setType v valueType)
          else throw (.Alarm .varStmtMismatch)
      else
        if TypeCompatable lvarType valueType then
          if Node.Kind (.NodeVarStmt t kind functionName lvar value) = .NodeLocalVarList then do
            let vs3 ← alignLocalVars program functionName vs2
            pure (.stmt, .NodeVarStmt .stmt kind functionName lvar1 (some x1), vs3)
          else
            pure (.stmt, .NodeVarStmt .stmt kind functionName lvar1 (some x1), vs2)
        else throw (.Alarm .varStmtMismatch)
    | none =>
      if Node.Kind (.NodeVarStmt t kind functionName lvar value) = .NodeLocalVarList then do
        let vs1 ← alignLocalVars program functionName vs
        pure (.stmt, .NodeVarStmt .stmt kind functionName lvar none, vs1)
      else
        pure (.stmt, .NodeVarStmt .stmt kind functionName lvar none, vs)
  | .NodeExprStmt _ c, vs => do
    let (_, c1, vs1) ← traverse programs program c vs
    pure (.stmt, .NodeExprStmt .stmt c1, vs1)
  | .NodeNum _ val, vs => .ok (.int, .NodeNum .int val, vs)
  | .NodeBool _ val, vs => .ok (.bool, .NodeBool .bool val, vs)
  | .NodeLocalVariable _ v, vs => .ok ((vs v).Typ, .NodeLocalVariable (vs v).Typ v, vs)
  | .NodeTopLevelVariable _ label _, vs =>
    match program.FindTopLevelVariable label with
    | none => throw (.Panic .topLevelVariableUndefined)
    | some v => pure ((vs v).Typ, .NodeTopLevelVariable (vs v).Typ label (some v), vs)
  | .NodeString _ str, vs => .ok (.string, .NodeString .string str, vs)
  | .NodeIndex _ seq index, vs => do
    let (seqType, seq1, vs1) ← traverse programs program seq vs
    let (indexType, index1, vs2) ← traverse programs program index vs1
    if seqType.Kind ≠ .TypeArray ∧ seqType.Kind ≠ .TypeSlice then
      throw (.Alarm .indexNonSequence)
    if !IsKindOfNumber indexType then
      throw (.Alarm .indexNonNumber)
    match seqType.PtrTo with
    | none => throw .NilDereference
    | some e => pure (e, .NodeIndex e seq1 index1, vs2)
  | .NodeAppendCall _ a b, vs => do
    let (arg1Type, a1, vs1) ← traverse programs program a vs
    let (arg2Type, b1, vs2) ← traverse programs program b vs1
    if arg1Type.Kind ≠ .TypeSlice then
      throw (.Panic .appendFirstArgument)
    match arg1Type.PtrTo with
    | none => throw .NilDereference
    | some e =>
      if TypeEquals e arg2Type then
        pure (arg1Type, .NodeAppendCall arg1Type a1 b1, vs2)
      else throw (.Panic .appendSecondArgument)
  | .NodeStringCall _ a, vs => do
    let (_, a1, vs1) ← traverse programs program a vs
    pure (.string, .NodeStringCall .string a1, vs1)
  | .NodeRuneCall _ a, vs => do
    let (ty, a1, vs1) ← traverse programs program a vs
    if !IsKindOfNumber ty then
      throw (.Panic .runeArgument)
    pure (.rune, .NodeRuneCall .rune a1, vs1)
  | .NodeSliceLiteral _ literalType cs, vs => do
    let (cs1, vs1) ← traverseElements programs program literalType cs vs
    pure (literalType, .NodeSliceLiteral literalType literalType cs1, vs1)
  | .NodeStructLiteral _ literalType names values, vs =>
    match literalType.PtrTo with
    | none => throw .NilDereference
    | some entityType => do
      let (values1, vs1) ← traverseMembers programs program entityType names values vs
      pure (literalType, .NodeStructLiteral literalType literalType names values1, vs1)
  | .NodeDot _ owner memberName, vs => do
    let (ty, owner1, vs1) ← traverse programs program owner vs
    match ty with
    | .userDefined _ entityType =>
      let t ← dotMember memberName entityType.MemberNames entityType.MemberTypes
      pure (t, .NodeDot t owner1 memberName, vs1)
    | .ptr (.userDefined _ entityType) =>
      let t ← dotMember memberName entityType.MemberNames entityType.MemberTypes
      pure (t, .NodeDot t owner1 memberName, vs1)
    | _ => throw (.Panic .dotNonUserDefined)
  | .NodeBinary _ kind lhs rhs, vs => do
    let (lhsType, lhs1, vs1) ← traverse programs program lhs vs
    let (rhsType, rhs1, vs2) ← traverse programs program rhs vs1
    if !TypeCompatable lhsType rhsType then
      throw (.Alarm .binaryMismatch)
    let t ← binaryResult kind lhsType
    pure (t, .NodeBinary t kind lhs1 rhs1, vs2)
/-- The loop `for _, c := range children { traverse(c) }`, with the types that the
calls return. -/
def traverseList (programs : List Program) (program : Program) :
    List Node → Vars → Except Failure (List Ty × List Node × Vars)
  | [], vs => .ok ([], [], vs)
  | c :: cs, vs => do
    let (t, c1, vs1) ← traverse programs program c vs
    let (ts, cs1, vs2) ← traverseList programs program cs vs1
    pure (t :: ts, c1 :: cs1, vs2)
/-- The call `traverse(n)` guarded by `if n != nil`. -/
def traverseOption (programs : List Program) (program : Program) :
    Option Node → Vars → Except Failure (Option Node × Vars)
  | none, vs => .ok (none, vs)
  | some n, vs => do
    let (_, n1, vs1) ← traverse programs program n vs
    pure (some n1, vs1)
/-- The argument loop of the `NodeFunctionCall` branch for a function that was
found: the `i`-th argument has to be compatible with `fn.ParameterTypes[i]`. -/
def traverseArguments (programs : List Program) (program : Program) :
    List Ty → List Node → Vars → Except Failure (List Node × Vars)
  | _, [], vs => .ok ([], vs)
  | [], _ :: _, _ => .error .IndexOutOfRange
  | pt :: pts, a :: as, vs => do
    let (t, a1, vs1) ← traverse programs program a vs
    if !TypeCompatable pt t then
      throw (.Alarm .callArgumentType)
    let (as1, vs2) ← traverseArguments programs program pts as vs1
    pure (a1 :: as1, vs2)
/-- The loop of the `NodeSliceLiteral` branch: every element has to be compatible
with `*node.LiteralType.PtrTo`. -/
def traverseElements (programs : List Program) (program : Program) (literalType : Ty) :
    List Node → Vars → Except Failure (List Node × Vars)
  | [], vs => .ok ([], vs)
  | c :: cs, vs => do
    let (ty, c1, vs1) ← traverse programs program c vs
    match literalType.PtrTo with
    | none => throw .NilDereference
    | some e =>
      if !TypeCompatable e ty then
        throw (.Panic .sliceLiteralElement)
      let (cs1, vs2) ← traverseElements programs program literalType cs vs1
      pure (c1 :: cs1, vs2)
/-- The outer loop of the `NodeStructLiteral` branch over `node.MemberNames`, with
`node.MemberValues[i]` taken from the second list. -/
def traverseMembers (programs : List Program) (program : Program) (entityType : Ty) :
    List String → List Node → Vars → Except Failure (List Node × Vars)
  | [], [], vs => .ok ([], vs)
  | _ :: _, [], _ => .error .IndexOutOfRange
  | [], value :: values, vs => .ok (value :: values, vs)
  | name :: names, value :: values, vs => do
    let (ty, value1, vs1) ← traverse programs program value vs
    let found ← structLiteralMember name ty entityType.MemberNames entityType.MemberTypes false
    if !found then
      throw (.Panic .structLiteralNoMember)
    let (values1, vs2) ← traverseMembers programs program entityType names values vs1
    pure (value1 :: values1, vs2)
end

/-! ## passes: the dependency-ordered driver -/

/-- What a run of `Semantic` does, in order: `Start i flags` is the assignment
`program = p` for the program at index `i` of the slice, with the `Traversed`
flags of all programs at that moment; `Visit i s k` is the call `traverse(node)`
for the `k`-th top-level node of the `s`-th source of that program. -/
inductive Event where
  | Start (program : Nat) (flags : List Bool)
  | Visit (program source node : Nat)
  deriving DecidableEq, Repr

/-- The index of the program an event belongs to. -/
def Event.program : Event → Nat
  | .Start i _ => i
  | .Visit i _ _ => i

/-- The list `imported` that `ready` builds: the package names of all sources. -/
def imported (p : Program) : List String :=
  p.Sources.foldl (fun acc s => acc ++ s.Packages) []

/-- The function `ready`: no program named by an import is still untraversed. -/
def ready (programs : List Program) (p : Program) : Bool :=
  (imported p).all (fun i => programs.all (fun prog => !(prog.Name == i && !prog.Traversed)))

/-- The loop `for _, node := range source.Code { traverse(node) }` for the source
`si` of the program `pi`, from the node at index `k` on. A failure comes with the
events up to it. -/
def traverseCode (programs : List Program) (program : Program) (pi si : Nat) :
    List Node → Nat → Vars → List Event →
    Except (Failure × List Event) (List Node × Vars × List Event)
  | [], _, vs, tr => .ok ([], vs, tr)
  | node :: rest, k, vs, tr =>
    match traverse programs program node vs with
    | .error e => .error (e, tr ++ [.Visit pi si k])
    | .ok (_, node1, vs1) =>
      match traverseCode programs program pi si rest (k + 1) vs1 (tr ++ [.Visit pi si k]) with
      | .error e => .error e
      | .ok (rest1, vs2, tr2) => .ok (node1 :: rest1, vs2, tr2)

/-- The loop `for _, source := range p.Sources` around `traverseCode`, from the
source at index `si` on. -/
def traverseSources (programs : List Program) (program : Program) (pi : Nat) :
    List Source → Nat → Vars → List Event →
    Except (Failure × List Event) (List Source × Vars × List Event)
  | [], _, vs, tr => .ok ([], vs, tr)
  | source :: rest, si, vs, tr =>
    match traverseCode programs program pi si source.Code 0 vs tr with
    | .error e => .error e
    | .ok (code1, vs1, tr1) =>
      match traverseSources programs program pi rest (si + 1) vs1 tr1 with
      | .error e => .error e
      | .ok (rest1, vs2, tr2) => .ok ({ Code := code1, Packages := source.Packages } :: rest1, vs2, tr2)

/-- The program after its traversal: the sources hold the nodes that `traverse`
wrote into, and `p.Traversed = true`. -/
def Program.traversedWith (p : Program) (sources : List Source) : Program :=
  { Name := p.Name, Sources := sources, Functions := p.Functions,
    TopLevelVariables := p.TopLevelVariables, Traversed := true }

/-- How a scan or a run ends. `Aborted` is a fatal exit inside `traverse`, with
the programs as they were when the traversal of the failing program began. -/
inductive Outcome where
  | Returned (programs : List Program) (vars : Vars) (trace : List Event)
  | Aborted (failure : Failure) (programs : List Program) (trace : List Event)
  | OutOfFuel (programs : List Program) (vars : Vars) (trace : List Event)

/-- One scan `for _, p := range programs` of `Semantic`. The slice is
`done ++ todo`, the loop stands at the head of `todo`, and `ok` is the variable
of that name. The result is the slice, the store, the trace and `ok`. -/
def scanLoop : List Program → List Program → Vars → List Event → Bool →
    Except (Failure × List Program × List Event) (List Program × Vars × List Event × Bool)
  | done, [], vs, tr, ok => .ok (done, vs, tr, ok)
  | done, p :: rest, vs, tr, ok =>
    if p.Traversed then scanLoop (done ++ [p]) rest vs tr ok
    else if ready (done ++ p :: rest) p then
      match traverseSources (done ++ p :: rest) p done.length p.Sources 0 vs
          (tr ++ [.Start done.length ((done ++ p :: rest).map (fun q => q.Traversed))]) with
      | .error (e, tr1) => .error (e, done ++ p :: rest, tr1)
      | .ok (sources1, vs1, tr1) =>
        scanLoop (done ++ [p.traversedWith sources1]) rest vs1 tr1 false
    else scanLoop (done ++ [p]) rest vs tr false

/-- The outer `for` of `Semantic`, cut off after `fuel` scans: a scan that saw no
untraversed program ends the loop. -/
def SemanticLoop : Nat → List Program → Vars → List Event → Outcome
  | 0, ps, vs, tr => .OutOfFuel ps vs tr
  | fuel + 1, ps, vs, tr =>
    match scanLoop [] ps vs tr true with
    | .error (e, ps1, tr1) => .Aborted e ps1 tr1
    | .ok (ps1, vs1, tr1, ok) =>
      if ok then .Returned ps1 vs1 tr1 else SemanticLoop fuel ps1 vs1 tr1

/-- The function `Semantic` on the slice `ps`, run for at most `fuel` scans. -/
def Semantic (fuel : Nat) (ps : List Program) (vs : Vars) : Outcome :=
  SemanticLoop fuel ps vs []

/-! ## Specification vocabulary for the driver -/

/-- The number of programs of the slice that are not yet traversed. -/
def untraversed (ps : List Program) : Nat :=
  ps.countP (fun p => !p.Traversed)

/-- The events of the traversal of the nodes `k, k+1, ...` of a source with `n`
more nodes: one `Visit` for each, in order. -/
def codeVisits (pi si : Nat) (k n : Nat) : List Event :=
  (List.range' k n).map (fun j => Event.Visit pi si j)

/-- The events of the traversal of the sources `si, si+1, ...` of a program: one
`Visit` for every top-level node, in source order. -/
def sourceVisits (pi : Nat) : List Source → Nat → List Event
  | [], _ => []
  | source :: rest, si => codeVisits pi si 0 source.Code.length ++ sourceVisits pi rest (si + 1)

/-- How a program of the slice may differ from what it was when the run began: not
at all, or it was untraversed then and is traversed now, under the same name and
with the same imports. -/
def Evolved (p q : Program) : Prop :=
  q = p ∨ (p.Traversed = false ∧ q.Traversed = true ∧ q.Name = p.Name ∧ imported q = imported p)

/-- The programs of an outcome. -/
def Outcome.programs : Outcome → List Program
  | .Returned ps _ _ => ps
  | .Aborted _ ps _ => ps
  | .OutOfFuel ps _ _ => ps

/-- The trace of an outcome. -/
def Outcome.trace : Outcome → List Event
  | .Returned _ _ tr => tr
  | .Aborted _ _ tr => tr
  | .OutOfFuel _ _ tr => tr

/-- What holds when the traversal of the program at index `i` starts after the
events `pre`, with the flags `flags`: the program was untraversed, and every
program of the slice that it imports by name has its flag set, having been
traversed before the run or started earlier in it. -/
def StartOk (ps0 : List Program) (pre : List Event) (i : Nat) (flags : List Bool) : Prop :=
  flags.length = ps0.length ∧ ∃ p, ps0[i]? = some p ∧ p.Traversed = false ∧
    ∀ j q, ps0[j]? = some q → q.Name ∈ imported p →
      flags[j]? = some true ∧ (q.Traversed = true ∨ ∃ f, Event.Start j f ∈ pre)

/-- Every `Start` event of the trace is in dependency-ready order. -/
def TraceOk (ps0 : List Program) (tr : List Event) : Prop :=
  ∀ pre i flags post, tr = pre ++ Event.Start i flags :: post → StartOk ps0 pre i flags

/-- The invariant of a run that began with the slice `ps0`, at a moment when the
slice is `ps` and the trace is `tr`. -/
structure RunInv (ps0 ps : List Program) (tr : List Event) : Prop where
  len : ps.length = ps0.length
  rel : ∀ (i : Nat) (p q : Program), ps0[i]? = some p → ps[i]? = some q → Evolved p q
  traceOk : TraceOk ps0 tr
  idle : ∀ (i : Nat) (p q : Program), ps0[i]? = some p → ps[i]? = some q →
    (q.Traversed = false ∨ p.Traversed = true) → ∀ e ∈ tr, e.program ≠ i
  busy : ∀ (i : Nat) (p q : Program), ps0[i]? = some p → ps[i]? = some q → p.Traversed = false →
    q.Traversed = true → ∃ flags, tr.filter (fun e => decide (e.program = i)) =
      Event.Start i flags :: sourceVisits i p.Sources 0

/-- The part of the invariant that also holds when a traversal has failed. -/
structure AbortInv (ps0 ps : List Program) (tr : List Event) : Prop where
  len : ps.length = ps0.length
  rel : ∀ (i : Nat) (p q : Program), ps0[i]? = some p → ps[i]? = some q → Evolved p q
  traceOk : TraceOk ps0 tr

/-- The invariant on the result of a scan. -/
def ScanInv (ps0 : List Program) :
    Except (Failure × List Program × List Event) (List Program × Vars × List Event × Bool) → Prop
  | .ok (ps1, _, tr1, _) => RunInv ps0 ps1 tr1
  | .error (_, ps1, tr1) => AbortInv ps0 ps1 tr1

/-- The invariant on the outcome of a run. -/
def OutcomeInv (ps0 : List Program) : Outcome → Prop
  | .Returned ps _ tr => RunInv ps0 ps tr
  | .Aborted _ ps tr => AbortInv ps0 ps tr
  | .OutOfFuel ps _ tr => RunInv ps0 ps tr

/-- The program at index `i` of the slice imports the program at index `j`: one of
its sources names it. -/
def Imports (ps : List Program) (i j : Fin ps.length) : Prop :=
  (ps.get j).Name ∈ imported (ps.get i)

/-- No program of the slice imports itself, directly or transitively. -/
def Acyclic (ps : List Program) : Prop :=
  ∀ i : Fin ps.length, ¬ Relation.TransGen (Imports ps) i i

/-- The programs at the indices in `S` form an import cycle, or more generally a
deadlock: each is untraversed and imports by name a program at an index in `S`. -/
def Deadlocked (S : Nat → Prop) (ps : List Program) : Prop :=
  ∀ i, S i → ∃ p, ps[i]? = some p ∧ p.Traversed = false ∧
    ∃ j q, S j ∧ ps[j]? = some q ∧ q.Name ∈ imported p

/-- A run has stopped: it returned with every program traversed, or a traversal
failed. -/
def Outcome.Stopped : Outcome → Prop
  | .Returned ps _ _ => ∀ p ∈ ps, p.Traversed = true
  | .Aborted _ _ _ => True
  | .OutOfFuel _ _ _ => False

/-! ## parse: the tokenizer interface and two statement parsers -/

/-- The constants of `TokenKind` in `token.go`, and those that `parse.go` names
beyond them. -/
inductive TokenKind where
  | TokenNumber | TokenIdentifier | TokenEof | TokenReturn | TokenIf | TokenElse | TokenFor
  | TokenFunc | TokenVar | TokenPackage | TokenEqual | TokenDoubleEqual | TokenNotEqual
  | TokenLessEqual | TokenGreaterEqual | TokenLess | TokenGreater | TokenPlus | TokenMinus
  | TokenStar | TokenSlash | TokenLparen | TokenRparen | TokenLbrace | TokenRbrace
  | TokenSemicolon | TokenNewLine | TokenComma | TokenAmpersand | TokenLSBrace | TokenRSBrace
  | TokenBool | TokenString | TokenImport | TokenType | TokenColonEqual | TokenDot | TokenColon
  | TokenBang | TokenPercent | TokenDoubleAmpersand | TokenDoubleVerticalLine
  deriving DecidableEq, Repr

/-- The record `Token` of `token.go`. -/
structure Token where
  kind : TokenKind
  val : Int
  str : String
  rest : String
  deriving DecidableEq, Repr

/-- The method `Token.Test`. -/
def Token.Test (t : Token) (kind : TokenKind) : Bool :=
  t.kind = kind

/-- The record `Tokenizer` of `token.go`, without the input text. -/
structure Tokenizer where
  tokens : List Token
  pos : Nat

/-- The ways in which the parser stops the compilation: `BadToken` and `Madden`
are the two reporting functions, `IndexOutOfRange` and `NilDereference` are Go
run-time panics. `OutOfFuel` is no outcome of the code: a loop of the model was
given fewer rounds than the code takes. -/
inductive ParseFailure where
  | BadToken
  | Madden
  | IndexOutOfRange
  | NilDereference
  | OutOfFuel
  deriving DecidableEq, Repr

/-- The method `Tokenizer.Fetch`: `t.tokens[t.pos]`. -/
def Tokenizer.Fetch (t : Tokenizer) : Except ParseFailure Token :=
  match t.tokens[t.pos]? with
  | some tok => .ok tok
  | none => .error .IndexOutOfRange

/-- The method `Tokenizer.Prefetch`: `t.tokens[t.pos+n]`. -/
def Tokenizer.Prefetch (t : Tokenizer) (n : Nat) : Except ParseFailure Token :=
  match t.tokens[t.pos + n]? with
  | some tok => .ok tok
  | none => .error .IndexOutOfRange

/-- The method `Tokenizer.Succ`. -/
def Tokenizer.Succ (t : Tokenizer) : Tokenizer :=
  { tokens := t.tokens, pos := t.pos + 1 }

/-- The method `Tokenizer.Test`. -/
def Tokenizer.Test (t : Tokenizer) (kind : TokenKind) : Except ParseFailure Bool :=
  match t.Fetch with
  | .ok tok => .ok (tok.Test kind)
  | .error e => .error e

/-- The method `Tokenizer.Consume`: the result and the tokenizer afterwards. -/
def Tokenizer.Consume (t : Tokenizer) (kind : TokenKind) : Except ParseFailure (Bool × Tokenizer) :=
  match t.Test kind with
  | .ok true => .ok (true, t.Succ)
  | .ok false => .ok (false, t)
  | .error e => .error e

/-- The method `Tokenizer.Expect`. -/
def Tokenizer.Expect (t : Tokenizer) (kind : TokenKind) : Except ParseFailure Tokenizer :=
  match t.Consume kind with
  | .ok (true, t1) => .ok t1
  | .ok (false, _) => .error .Madden
  | .error e => .error e

/-- Modelled from the spec: one scope of the chain of `Environment`s (§3), the
declaration of which is not part of the sources at hand: the locals declared in
the scope, by name, and `FunctionName`. The `parent` of a scope is the next scope
of the chain it stands in. -/
structure Environment where
  locals : List (String × Nat)
  FunctionName : String

/-- The globals of package `parse` that the parsing functions below use: the
tokenizer; `Env` as the chain of scopes from the current one up through `parent`
(the empty chain is Go's `nil`); the named types, the function registry and the
top-level variables of `Env.program`; the variable store, and the number of
variables allocated in it. -/
structure ParserState where
  tokenizer : Tokenizer
  Env : List Environment
  types : List (String × Ty)
  functions : List Function
  vars : Vars
  allocated : Nat
  topLevelVariables : List (String × Nat)

/-- A parsing function: it reads and changes the globals and returns a value or
stops the compilation. -/
abbrev Parser (α : Type) := ParserState → Except ParseFailure (α × ParserState)

/-- The state after the tokenizer has moved to `t`. -/
def ParserState.withTokenizer (s : ParserState) (t : Tokenizer) : ParserState :=
  { tokenizer := t, Env := s.Env, types := s.types, functions := s.functions, vars := s.vars,
    allocated := s.allocated, topLevelVariables := s.topLevelVariables }

/-- The state after an assignment to the variable store. -/
def ParserState.withVars (s : ParserState) (vs : Vars) : ParserState :=
  { tokenizer := s.tokenizer, Env := s.Env, types := s.types, functions := s.functions,
    vars := vs, allocated := s.allocated, topLevelVariables := s.topLevelVariables }

/-- The state after an assignment to `Env`. -/
def ParserState.withEnv (s : ParserState) (env : List Environment) : ParserState :=
  { tokenizer := s.tokenizer, Env := env, types := s.types, functions := s.functions,
    vars := s.vars, allocated := s.allocated, topLevelVariables := s.topLevelVariables }

/-- The state after a change of the function registry. -/
def ParserState.withFunctions (s : ParserState) (fs : List Function) : ParserState :=
  { tokenizer := s.tokenizer, Env := s.Env, types := s.types, functions := fs, vars := s.vars,
    allocated := s.allocated, topLevelVariables := s.topLevelVariables }

/-- The field `Env.FunctionName` that a node created in this state refers to. -/
def ParserState.FunctionName (s : ParserState) : String :=
  match s.Env with
  | [] => ""
  | e :: _ => e.FunctionName

/-- Modelled from the spec: `Program.FindType`, the lookup of a named type by name
in the registry of the program. -/
def ParserState.FindType (s : ParserState) (ident : String) : Option Ty :=
  (s.types.find? (fun e => e.1 == ident)).map (fun e => e.2)

/-- The function `isType` of `parse.go`. -/
def isType (s : ParserState) : Except ParseFailure Bool :=
  match s.tokenizer.Fetch with
  | .error e => .error e
  | .ok tok =>
    if tok.Test .TokenStar || tok.Test .TokenLSBrace then .ok true
    else if !tok.Test .TokenIdentifier then .ok false
    else if tok.str = "int" ∨ tok.str = "rune" ∨ tok.str = "bool" ∨ tok.str = "string" ∨
        tok.str = "struct" then .ok true
    else .ok (s.FindType tok.str).isSome

/-- The function `localVarStmt` of `parse.go`, over the parsing functions it
calls: `localVariableDeclaration`, `type_` and `expr`. -/
def localVarStmt (localVariableDeclaration : Parser Node) (type_ : Parser Ty)
    (expr : Parser Node) : Parser Node := fun s =>
  match s.tokenizer.Expect .TokenVar with
  | .error e => .error e
  | .ok t1 =>
    match localVariableDeclaration (s.withTokenizer t1) with
    | .error e => .error e
    | .ok (v, s2) =>
      match isType s2 with
      | .error e => .error e
      | .ok false =>
        match s2.tokenizer.Expect .TokenEqual with
        | .error e => .error e
        | .ok t3 =>
          match expr (s2.withTokenizer t3) with
          | .error e => .error e
          | .ok (x, s4) =>
            .ok (.NodeVarStmt .undefined .NodeLocalVarStmt s4.FunctionName v (some x), s4)
      | .ok true =>
        match type_ s2 with
        | .error e => .error e
        | .ok (ty, s3) =>
          match v.Variable with
          | none => .error .NilDereference
          | some var =>
            match s3.tokenizer.Consume .TokenEqual with
            | .error e => .error e
            | .ok (true, t4) =>
              match expr ((s3.withVars (s3.vars.setType var ty)).withTokenizer t4) with
              | .error e => .error e
              | .ok (x, s5) =>
                .ok (.NodeVarStmt .undefined .NodeLocalVarStmt s5.FunctionName v (some x), s5)
            | .ok (false, _) =>
              .ok (.NodeVarStmt .undefined .NodeLocalVarStmt s3.FunctionName v none,
                s3.withVars (s3.vars.setType var ty))

/-- The function `localStmt` of `parse.go`, over the parsing functions it calls;
`none` is the `nil` that `simpleStmt` may return. -/
def localStmt (metaIfStmt forStmt localVarStmt1 : Parser Node) (simpleStmt : Parser (Option Node))
    (exprList : Parser Node) : Parser (Option Node) := fun s =>
  match s.tokenizer.Test .TokenIf with
  | .error e => .error e
  | .ok true =>
    match metaIfStmt s with
    | .error e => .error e
    | .ok (n, s1) => .ok (some n, s1)
  | .ok false =>
    match s.tokenizer.Test .TokenFor with
    | .error e => .error e
    | .ok true =>
      match forStmt s with
      | .error e => .error e
      | .ok (n, s1) => .ok (some n, s1)
    | .ok false =>
      match s.tokenizer.Test .TokenVar with
      | .error e => .error e
      | .ok true =>
        match localVarStmt1 s with
        | .error e => .error e
        | .ok (n, s1) => .ok (some n, s1)
      | .ok false =>
        match s.tokenizer.Consume .TokenReturn with
        | .error e => .error e
        | .ok (true, t1) =>
          match t1.Test .TokenNewLine, t1.Test .TokenSemicolon with
          | .error e, _ => .error e
          | .ok true, _ => .ok (some (.NodeReturn .undefined s.FunctionName none), s.withTokenizer t1)
          | .ok false, .error e => .error e
          | .ok false, .ok true =>
            .ok (some (.NodeReturn .undefined s.FunctionName none), s.withTokenizer t1)
          | .ok false, .ok false =>
            match exprList (s.withTokenizer t1) with
            | .error e => .error e
            | .ok (n, s2) => .ok (some (.NodeReturn .undefined s2.FunctionName (some n)), s2)
        | .ok (false, _) => simpleStmt s

/-- A program `main` without functions or top-level variables. -/
def emptyProgram : Program :=
  { Name := "main", Sources := [], Functions := [], TopLevelVariables := [], Traversed := false }

/-! ## Example program sets -/

/-- A store in which every variable is an `int` local called `x`. -/
def exampleVars : Vars :=
  fun _ => { Name := "x", Typ := .int, Kind := .VariableLocal, Offset := 0 }

/-- A program of one source file that holds a package statement and imports the
packages `imports`. -/
def exampleProgram (name : String) (imports : List String) (traversed : Bool) : Program :=
  { Name := name,
    Sources := [{ Code := [.NodeMarker .undefined .NodePackageStmt], Packages := imports }],
    Functions := [], TopLevelVariables := [], Traversed := traversed }

/-- Package `A` imports `B` and `B` imports `A`. -/
def cyclicPrograms : List Program :=
  [exampleProgram "A" ["B"] false, exampleProgram "B" ["A"] false]

/-- Package `A` imports `B`, which imports nothing. -/
def chainPrograms : List Program :=
  [exampleProgram "A" ["B"] false, exampleProgram "B" [] false]

/-- Two programs that have been traversed. -/
def finishedPrograms : List Program :=
  [exampleProgram "A" ["B"] true, exampleProgram "B" [] true]

/-! ## Example inputs of the semantic pass and the parser -/

/-- The statement `a, b = g()` in a package `main` that declares no function `g`;
`a` and `b` are the variables 0 and 1. -/
def assignFromUnresolvedCall : Node :=
  .NodeAssign .undefined
    (.NodeExprList .undefined [.NodeLocalVariable .undefined 0, .NodeLocalVariable .undefined 1])
    (.NodeExprList .undefined [.NodeFunctionCall .undefined "main" "g" []])

/-- The record of a function `f` declared as `func f() int`. -/
def intFunction : Function :=
  { Label := "f", ParameterTypes := [], ReturnValueType := .int, LocalVariables := [],
    IsDefined := true }

/-- A program `main` that declares `func f() int`. -/
def intFunctionProgram : Program :=
  { Name := "main", Sources := [], Functions := [intFunction], TopLevelVariables := [],
    Traversed := false }

/-- A parsing function that is never reached. -/
def unreachedParser (α : Type) : Parser α :=
  fun _ => .error .BadToken

/-- The tokens of `return` at the end of a line, inside `f`. -/
def bareReturnState : ParserState :=
  { tokenizer :=
      { tokens := [{ kind := .TokenReturn, val := 0, str := "return", rest := "return\n" },
          { kind := .TokenNewLine, val := 0, str := "\n", rest := "\n" },
          { kind := .TokenEof, val := 0, str := "", rest := "" }],
        pos := 0 },
    Env := [{ locals := [], FunctionName := "f" }], types := [], functions := [],
    vars := exampleVars, allocated := 0, topLevelVariables := [] }

/-- A store of locals as `localVariableDeclaration` leaves them: the type of every
variable is `Undefined`. -/
def freshVars : Vars :=
  fun _ => { Name := "x", Typ := .undefined, Kind := .VariableLocal, Offset := 0 }

/-- The record of a function `f` declared as `func f() (int, bool)`. -/
def pairFunction : Function :=
  { Label := "f", ParameterTypes := [], ReturnValueType := .multiple [.int, .bool],
    LocalVariables := [0, 1], IsDefined := true }

/-- A program `main` that declares `func f() (int, bool)`. -/
def pairFunctionProgram : Program :=
  { Name := "main", Sources := [], Functions := [pairFunction], TopLevelVariables := [],
    Traversed := false }

/-- A stand-in for `localVariableDeclaration` in examples: it reads one identifier
and returns the node of the variable 0. -/
def declareVariableZero : Parser Node := fun s =>
  match s.tokenizer.Expect .TokenIdentifier with
  | .error e => .error e
  | .ok t1 => .ok (.NodeLocalVariable .undefined 0, s.withTokenizer t1)

/-- The tokens of `var x 1`, inside `f`: neither a type nor `=` follows the name. -/
def varWithoutEqualState : ParserState :=
  { tokenizer :=
      { tokens := [{ kind := .TokenVar, val := 0, str := "var", rest := "var x 1" },
          { kind := .TokenIdentifier, val := 0, str := "x", rest := "x 1" },
          { kind := .TokenNumber, val := 1, str := "1", rest := "1" },
          { kind := .TokenEof, val := 0, str := "", rest := "" }],
        pos := 0 },
    Env := [{ locals := [], FunctionName := "f" }], types := [], functions := [],
    vars := freshVars, allocated := 0, topLevelVariables := [] }

/-- A store in which every variable is a local of type `[]int`. -/
def sliceVars : Vars :=
  fun _ => { Name := "s", Typ := .slice .int, Kind := .VariableLocal, Offset := 0 }

/-! ## Example inputs of the expression branches of `traverse` -/

/-- The expression `1 - g()`, in a package `main` that declares no function `g`. -/
def subUnresolvedCall : Node :=
  .NodeBinary .undefined .NodeSub (.NodeNum .undefined 1)
    (.NodeFunctionCall .undefined "main" "g" [])

/-- The expression `true && g()`, in a package `main` that declares no function
`g`. -/
def andUnresolvedCall : Node :=
  .NodeBinary .undefined .NodeLogicalAnd (.NodeBool .undefined 1)
    (.NodeFunctionCall .undefined "main" "g" [])

/-- The pair of a member name and the type of its value is accepted by a struct
with the members `ms` of the types `ts`: some member has this name, and the type
of the value is compatible with the type of this member. -/
def MemberAccepted (ms : List String) (ts : List Ty) (name : String) (ty : Ty) : Prop :=
  ∃ (j : Nat) (T : Ty), ms[j]? = some name ∧ ts[j]? = some T ∧ TypeCompatable ty T = true

/-- A named struct type `P` with the members `x int` and `y string`. -/
def pointType : Ty :=
  .userDefined "P" (.struct ["x", "y"] [.int, .string])

/-- The record of a function `f` declared as `func f(a int) int`. -/
def unaryFunction : Function :=
  { Label := "f", ParameterTypes := [.int], ReturnValueType := .int, LocalVariables := [0],
    IsDefined := true }

/-- A program `main` that declares `func f(a int) int`. -/
def unaryFunctionProgram : Program :=
  { Name := "main", Sources := [], Functions := [unaryFunction], TopLevelVariables := [],
    Traversed := false }

/-- The record of a function `f` with the locals 3, 1 and 4, in this order. -/
def threeLocalsFunction : Function :=
  { Label := "f", ParameterTypes := [], ReturnValueType := .void, LocalVariables := [3, 1, 4],
    IsDefined := true }

/-- A program `main` that declares `f` with three locals. -/
def threeLocalsProgram : Program :=
  { Name := "main", Sources := [], Functions := [threeLocalsFunction],
    TopLevelVariables := [], Traversed := false }

/-! ## parse: expressions -/

/-- The chain `if tokenizer.Consume(k1) {...} else if tokenizer.Consume(k2) {...}`
of one binary level: the node kind of the first operator of the level that is
consumed, with the tokenizer afterwards; `none` is the final `else`. -/
def consumeOperator (t : Tokenizer) :
    List (TokenKind × BinaryKind) → Except ParseFailure (Option (BinaryKind × Tokenizer))
  | [] => .ok none
  | (tk, k) :: ops =>
    match t.Consume tk with
    | .error e => .error e
    | .ok (true, t1) => .ok (some (k, t1))
    | .ok (false, _) => consumeOperator t ops

/-- The loop `for { ... }` of a binary level with the operators `ops` over the
operand parser `next`, in at most `fuel` rounds; `n` is the node built so far. -/
def binaryLoop (ops : List (TokenKind × BinaryKind)) (next : Parser Node) :
    Nat → Node → Parser Node
  | 0, _, _ => .error .OutOfFuel
  | fuel + 1, n, s =>
    match consumeOperator s.tokenizer ops with
    | .error e => .error e
    | .ok none => .ok (n, s)
    | .ok (some (k, t1)) =>
      match next (s.withTokenizer t1) with
      | .error e => .error e
      | .ok (rhs, s2) => binaryLoop ops next fuel (.NodeBinary .undefined k n rhs) s2

/-- The common shape of `logicalOr`, `logicalAnd`, `equality`, `relational`, `add`
and `mul`: `var n = next()` and then the loop. -/
def binaryLevel (ops : List (TokenKind × BinaryKind)) (next : Parser Node) (fuel : Nat) :
    Parser Node := fun s =>
  match next s with
  | .error e => .error e
  | .ok (n, s1) => binaryLoop ops next fuel n s1

/-- The operators of `mul`, in the order of its tests. -/
def mulOperators : List (TokenKind × BinaryKind) :=
  [(.TokenStar, .NodeMul), (.TokenSlash, .NodeDiv), (.TokenPercent, .NodeMod)]

/-- The operators of `add`, in the order of its tests. -/
def addOperators : List (TokenKind × BinaryKind) :=
  [(.TokenPlus, .NodeAdd), (.TokenMinus, .NodeSub)]

/-- The operators of `relational`, in the order of its tests. -/
def relationalOperators : List (TokenKind × BinaryKind) :=
  [(.TokenLess, .NodeLess), (.TokenLessEqual, .NodeLessEql), (.TokenGreater, .NodeGreater),
    (.TokenGreaterEqual, .NodeGreaterEql)]

/-- The operators of `equality`, in the order of its tests. -/
def equalityOperators : List (TokenKind × BinaryKind) :=
  [(.TokenDoubleEqual, .NodeEql), (.TokenNotEqual, .NodeNotEql)]

/-- The operator of `logicalAnd`. -/
def logicalAndOperators : List (TokenKind × BinaryKind) :=
  [(.TokenDoubleAmpersand, .NodeLogicalAnd)]

/-- The operator of `logicalOr`. -/
def logicalOrOperators : List (TokenKind × BinaryKind) :=
  [(.TokenDoubleVerticalLine, .NodeLogicalOr)]

/-- The function `mul` of `parse.go`, over the function `unary` it calls; every
loop of the expression parser runs for at most `fuel` rounds. -/
def mul (unary : Parser Node) (fuel : Nat) : Parser Node :=
  binaryLevel mulOperators unary fuel

/-- The function `add` of `parse.go`. -/
def add (unary : Parser Node) (fuel : Nat) : Parser Node :=
  binaryLevel addOperators (mul unary fuel) fuel

/-- The function `relational` of `parse.go`. -/
def relational (unary : Parser Node) (fuel : Nat) : Parser Node :=
  binaryLevel relationalOperators (add unary fuel) fuel

/-- The function `equality` of `parse.go`. -/
def equality (unary : Parser Node) (fuel : Nat) : Parser Node :=
  binaryLevel equalityOperators (relational unary fuel) fuel

/-- The function `logicalAnd` of `parse.go`. -/
def logicalAnd (unary : Parser Node) (fuel : Nat) : Parser Node :=
  binaryLevel logicalAndOperators (equality unary fuel) fuel

/-- The function `logicalOr` of `parse.go`. -/
def logicalOr (unary : Parser Node) (fuel : Nat) : Parser Node :=
  binaryLevel logicalOrOperators (logicalAnd unary fuel) fuel

/-- The function `expr` of `parse.go`. -/
def expr (unary : Parser Node) (fuel : Nat) : Parser Node :=
  logicalOr unary fuel

/-- The function `numberLiteral` of `parse.go`. -/
def numberLiteral : Parser Int := fun s =>
  match s.tokenizer.Fetch with
  | .error e => .error e
  | .ok token =>
    if !token.Test .TokenNumber then .error .BadToken
    else .ok (token.val, s.withTokenizer s.tokenizer.Succ)

/-- The function `boolLiteral` of `parse.go`. -/
def boolLiteral : Parser Int := fun s =>
  match s.tokenizer.Fetch with
  | .error e => .error e
  | .ok token =>
    if !token.Test .TokenBool then .error .BadToken
    else .ok (token.val, s.withTokenizer s.tokenizer.Succ)

/-- The function `primary` of `parse.go` up to its third test, over `expr`; what
follows in the function (string, slice and struct literals, names with their
indices and members) is the parameter `operand`. -/
def primary (expr : Parser Node) (operand : Parser Node) : Parser Node := fun s =>
  match s.tokenizer.Consume .TokenLparen with
  | .error e => .error e
  | .ok (true, t1) =>
    match expr (s.withTokenizer t1) with
    | .error e => .error e
    | .ok (n, s2) =>
      match s2.tokenizer.Expect .TokenRparen with
      | .error e => .error e
      | .ok t3 => .ok (n, s2.withTokenizer t3)
  | .ok (false, _) =>
    match s.tokenizer.Test .TokenNumber with
    | .error e => .error e
    | .ok true =>
      match numberLiteral s with
      | .error e => .error e
      | .ok (v, s1) => .ok (.NodeNum .undefined v, s1)
    | .ok false =>
      match s.tokenizer.Test .TokenBool with
      | .error e => .error e
      | .ok true =>
        match boolLiteral s with
        | .error e => .error e
        | .ok (v, s1) => .ok (.NodeBool .undefined v, s1)
      | .ok false => operand s

/-- The function `unary` of `parse.go`, over `primary`; `fuel` bounds the depth of
the calls of `unary` by itself. -/
def unary (primary : Parser Node) : Nat → Parser Node
  | 0, _ => .error .OutOfFuel
  | fuel + 1, s =>
    match s.tokenizer.Consume .TokenPlus with
    | .error e => .error e
    | .ok (true, t1) => primary (s.withTokenizer t1)
    | .ok (false, _) =>
      match s.tokenizer.Consume .TokenMinus with
      | .error e => .error e
      | .ok (true, t1) =>
        match primary (s.withTokenizer t1) with
        | .error e => .error e
        | .ok (n, s2) => .ok (.NodeBinary .undefined .NodeSub (.NodeNum .undefined 0) n, s2)
      | .ok (false, _) =>
        match s.tokenizer.Consume .TokenStar with
        | .error e => .error e
        | .ok (true, t1) =>
          match unary primary fuel (s.withTokenizer t1) with
          | .error e => .error e
          | .ok (n, s2) => .ok (.NodeDeref .undefined n, s2)
        | .ok (false, _) =>
          match s.tokenizer.Consume .TokenAmpersand with
          | .error e => .error e
          | .ok (true, t1) =>
            match unary primary fuel (s.withTokenizer t1) with
            | .error e => .error e
            | .ok (n, s2) => .ok (.NodeAddr .undefined n, s2)
          | .ok (false, _) =>
            match s.tokenizer.Consume .TokenBang with
            | .error e => .error e
            | .ok (true, t1) =>
              match unary primary fuel (s.withTokenizer t1) with
              | .error e => .error e
              | .ok (n, s2) => .ok (.NodeNot .undefined n, s2)
            | .ok (false, _) => primary s

/-- The expression parser with its recursion closed: `expr` over `unary` over
`primary` over `expr` again, nested at most `fuel` deep. -/
def exprOf (operand : Parser Node) : Nat → Parser Node
  | 0 => fun _ => .error .OutOfFuel
  | fuel + 1 => expr (unary (primary (exprOf operand fuel) operand) (fuel + 1)) (fuel + 1)

/-- A token of the given kind, value and text. -/
def mkToken (kind : TokenKind) (val : Int) (str : String) : Token :=
  { kind := kind, val := val, str := str, rest := str }

/-- A parser state at the token `pos` of the given tokens, inside a function `f`
that is registered without parameters. -/
def stateAt (tokens : List Token) (pos : Nat) : ParserState :=
  { tokenizer := { tokens := tokens, pos := pos },
    Env := [{ locals := [], FunctionName := "f" }], types := [],
    functions := [NewFunction "f" [] .undefined], vars := freshVars, allocated := 0,
    topLevelVariables := [] }

/-- The function `unary` over `primary` without the operands that the model
leaves out, and without nested calls of `expr`. -/
def unaryOfLiterals : Parser Node :=
  unary (primary (exprOf (unreachedParser Node) 2) (unreachedParser Node)) 3

/-- The tokens of `1+2*3`. -/
def onePlusTwoTimesThree : List Token :=
  [mkToken .TokenNumber 1 "1", mkToken .TokenPlus 0 "+", mkToken .TokenNumber 2 "2",
    mkToken .TokenStar 0 "*", mkToken .TokenNumber 3 "3", mkToken .TokenEof 0 ""]

/-- The tokens of `1*2+3`. -/
def oneTimesTwoPlusThree : List Token :=
  [mkToken .TokenNumber 1 "1", mkToken .TokenStar 0 "*", mkToken .TokenNumber 2 "2",
    mkToken .TokenPlus 0 "+", mkToken .TokenNumber 3 "3", mkToken .TokenEof 0 ""]

/-- The tokens of `1-2-3`. -/
def oneMinusTwoMinusThree : List Token :=
  [mkToken .TokenNumber 1 "1", mkToken .TokenMinus 0 "-", mkToken .TokenNumber 2 "2",
    mkToken .TokenMinus 0 "-", mkToken .TokenNumber 3 "3", mkToken .TokenEof 0 ""]

/-- The node kind that a binary level with the operators `ops` builds for a token
of kind `kind`, if the token is an operator of the level. -/
def operatorOf (ops : List (TokenKind × BinaryKind)) (kind : TokenKind) : Option BinaryKind :=
  (ops.find? (fun p => p.1 == kind)).map (fun p => p.2)

/-- The operators of all binary levels. -/
def binaryOperators : List (TokenKind × BinaryKind) :=
  logicalOrOperators ++ logicalAndOperators ++ equalityOperators ++ relationalOperators ++
    addOperators ++ mulOperators

/-- The six binary levels of the expression parser: the operators of the level,
the function that parses its operands, and the function of the level itself. -/
def binaryLevels (unary : Parser Node) (fuel : Nat) :
    List (List (TokenKind × BinaryKind) × Parser Node × Parser Node) :=
  [(logicalOrOperators, logicalAnd unary fuel, logicalOr unary fuel),
    (logicalAndOperators, equality unary fuel, logicalAnd unary fuel),
    (equalityOperators, relational unary fuel, equality unary fuel),
    (relationalOperators, add unary fuel, relational unary fuel),
    (addOperators, mul unary fuel, add unary fuel),
    (mulOperators, unary, mul unary fuel)]

/-- The state after `tokenizer.Succ()`. -/
def ParserState.succ (s : ParserState) : ParserState :=
  s.withTokenizer s.tokenizer.Succ

/-! ## parse: scopes, declarations and statements -/

/-- The function `identifier` of `parse.go`. -/
def identifier : Parser String := fun s =>
  match s.tokenizer.Fetch with
  | .error e => .error e
  | .ok token =>
    if !token.Test .TokenIdentifier then .error .BadToken
    else
      match s.tokenizer.Expect .TokenIdentifier with
      | .error e => .error e
      | .ok t1 => .ok (token.str, s.withTokenizer t1)

/-- Modelled from the spec: `Environment.Fork` (§3, `fork()`), the body of which
is not part of the sources at hand: a new child scope without locals, inside the
same function. -/
def Environment.Fork (e : Environment) : Environment :=
  { locals := [], FunctionName := e.FunctionName }

/-- The function `stepIn` of `parse.go`: `Env = Env.Fork()`. -/
def stepIn : Parser Unit := fun s =>
  match s.Env with
  | [] => .error .NilDereference
  | e :: rest => .ok ((), s.withEnv (e.Fork :: e :: rest))

/-- The function `stepInFunction` of `parse.go`: `Env = Env.Fork()` and then
`Env.FunctionName = name`. -/
def stepInFunction (name : String) : Parser Unit := fun s =>
  match s.Env with
  | [] => .error .NilDereference
  | e :: rest => .ok ((), s.withEnv ({ locals := e.Fork.locals, FunctionName := name } :: e :: rest))

/-- The function `stepOut` of `parse.go`: `Env = Env.parent`. -/
def stepOut : Parser Unit := fun s =>
  match s.Env with
  | [] => .error .NilDereference
  | _ :: rest => .ok ((), s.withEnv rest)

/-- The lookup of a function by name in the registry of `Env.program`. -/
def ParserState.FindFunction (s : ParserState) (name : String) : Option Function :=
  s.functions.find? (fun f => f.Label == name)

/-- Modelled from the spec: `Program.RegisterFunction` (§3, "functions: registry by
name"), the body of which is not part of the sources at hand: the record takes
the place of a record of the same name, or is added. -/
def RegisterFunction (fs : List Function) (fn : Function) : List Function :=
  if fs.any (fun f => f.Label == fn.Label) then
    fs.map (fun f => if f.Label == fn.Label then fn else f)
  else fs ++ [fn]

/-- An assignment to a field of the record that is registered under `label`:
`funcDefinition` and `AddLocalVar` hold a pointer to this record. -/
def updateFunction (label : String) (g : Function → Function) (fs : List Function) :
    List Function :=
  fs.map (fun f => if f.Label == label then g f else f)

/-- Modelled from the spec: `Environment.FindLocalVar` (§3, `findLocalInCurrentScope`):
the local of this name declared in this very scope. -/
def Environment.FindLocalVar (e : Environment) (ident : String) : Option Nat :=
  (e.locals.find? (fun l => l.1 == ident)).map (fun l => l.2)

/-- Modelled from the spec: `Environment.AddLocalVar` (§3, `declareLocal`), the body
of which is not part of the sources at hand: a new local variable is allocated,
entered into the current scope and appended to the locals of the current
function of the program. -/
def AddLocalVar (ty : Ty) (name : String) : Parser Nat := fun s =>
  match s.Env with
  | [] => .error .NilDereference
  | e :: rest =>
    match s.FindFunction e.FunctionName with
    | none => .error .NilDereference
    | some _ =>
      .ok (s.allocated,
        { tokenizer := s.tokenizer,
          Env := { locals := (name, s.allocated) :: e.locals, FunctionName := e.FunctionName }
            :: rest,
          types := s.types,
          functions := updateFunction e.FunctionName
            (fun f => { Label := f.Label, ParameterTypes := f.ParameterTypes,
                        ReturnValueType := f.ReturnValueType,
                        LocalVariables := f.LocalVariables ++ [s.allocated],
                        IsDefined := f.IsDefined }) s.functions,
          vars := s.vars.set s.allocated
            { Name := name, Typ := ty, Kind := .VariableLocal, Offset := 0 },
          allocated := s.allocated + 1,
          topLevelVariables := s.topLevelVariables })

/-- The function `localVariableDeclaration` of `parse.go`. -/
def localVariableDeclaration : Parser Node := fun s =>
  match s.tokenizer.Fetch with
  | .error e => .error e
  | .ok _ =>
    match identifier s with
    | .error e => .error e
    | .ok (ident, s1) =>
      match s1.Env with
      | [] => .error .NilDereference
      | e :: _ =>
        match e.FindLocalVar ident with
        | some _ => .error .BadToken
        | none =>
          match AddLocalVar .undefined ident s1 with
          | .error e => .error e
          | .ok (v, s2) => .ok (.NodeLocalVariable .undefined v, s2)

/-- The function `skipEndOfLine` of `parse.go`. -/
def skipEndOfLine (t : Tokenizer) : Except ParseFailure (Bool × Tokenizer) :=
  match t.Consume .TokenSemicolon with
  | .error e => .error e
  | .ok (true, t1) => .ok (true, t1)
  | .ok (false, _) => t.Consume .TokenNewLine

/-- The loop `for tokenizer.Consume(TokenComma) { ... }` of `exprList` and of
`localVarList`, over the parser `item` of one operand, in at most `fuel` rounds. -/
def commaLoop (item : Parser Node) : Nat → List Node → Parser (List Node)
  | 0, _, _ => .error .OutOfFuel
  | fuel + 1, items, s =>
    match s.tokenizer.Consume .TokenComma with
    | .error e => .error e
    | .ok (false, _) => .ok (items, s)
    | .ok (true, t1) =>
      match item (s.withTokenizer t1) with
      | .error e => .error e
      | .ok (x, s2) => commaLoop item fuel (items ++ [x]) s2

/-- The function `exprList` of `parse.go`, over `expr`. -/
def exprList (expr : Parser Node) (fuel : Nat) : Parser Node := fun s =>
  match expr s with
  | .error e => .error e
  | .ok (x, s1) =>
    match commaLoop expr fuel [x] s1 with
    | .error e => .error e
    | .ok (exprs, s2) => .ok (.NodeExprList .undefined exprs, s2)

/-- The function `localVarList` of `parse.go`. -/
def localVarList (fuel : Nat) : Parser Node := fun s =>
  match localVariableDeclaration s with
  | .error e => .error e
  | .ok (x, s1) =>
    match commaLoop localVariableDeclaration fuel [x] s1 with
    | .error e => .error e
    | .ok (lvars, s2) => .ok (.NodeLocalVarList .undefined lvars, s2)

/-- The three forms of statement that `simpleStmt` tells apart. -/
inductive SimpleStmtForm where
  | assign | shortVarDecl | exprStmt
  deriving DecidableEq, Repr

/-- The scan of `simpleStmt` over `tokenizer.Prefetch(pos)` for `pos = 0, 1, ...`,
as a recursion over the tokens from the current one on: the first `=` or `:=`
before the end of the line decides; past the last token `Prefetch` panics. -/
def simpleStmtScan : List Token → Except ParseFailure SimpleStmtForm
  | [] => .error .IndexOutOfRange
  | nxtToken :: rest =>
    if nxtToken.Test .TokenNewLine || nxtToken.Test .TokenSemicolon then .ok .exprStmt
    else if nxtToken.Test .TokenEqual then .ok .assign
    else if nxtToken.Test .TokenColonEqual then .ok .shortVarDecl
    else simpleStmtScan rest

/-- The function `simpleStmt` of `parse.go`, over `expr`; `none` is the `nil` it
returns at the end of a line. -/
def simpleStmt (expr : Parser Node) (fuel : Nat) : Parser (Option Node) := fun s =>
  match s.tokenizer.Test .TokenNewLine with
  | .error e => .error e
  | .ok true => .ok (none, s)
  | .ok false =>
    match s.tokenizer.Test .TokenSemicolon with
    | .error e => .error e
    | .ok true => .ok (none, s)
    | .ok false =>
      match simpleStmtScan (s.tokenizer.tokens.drop s.tokenizer.pos) with
      | .error e => .error e
      | .ok .assign =>
        match exprList expr fuel s with
        | .error e => .error e
        | .ok (n, s1) =>
          match s1.tokenizer.Expect .TokenEqual with
          | .error e => .error e
          | .ok t2 =>
            match exprList expr fuel (s1.withTokenizer t2) with
            | .error e => .error e
            | .ok (m, s3) => .ok (some (.NodeAssign .undefined n m), s3)
      | .ok .shortVarDecl =>
        match localVarList fuel s with
        | .error e => .error e
        | .ok (n, s1) =>
          match s1.tokenizer.Expect .TokenColonEqual with
          | .error e => .error e
          | .ok t2 =>
            match exprList expr fuel (s1.withTokenizer t2) with
            | .error e => .error e
            | .ok (m, s3) => .ok (some (.NodeShortVarDeclStmt .undefined n m), s3)
      | .ok .exprStmt =>
        match expr s with
        | .error e => .error e
        | .ok (x, s1) => .ok (some (.NodeExprStmt .undefined x), s1)

mutual
/-- The function `localStmtList` of `parse.go`, over `expr` and `type_`; `fuel`
bounds the rounds of every loop and the depth of the nesting of statements. -/
def localStmtList (expr : Parser Node) (type_ : Parser Ty) : Nat → Parser Node
  | 0, _ => .error .OutOfFuel
  | fuel + 1, s =>
    match localStmtListLoop expr type_ fuel [] false s with
    | .error e => .error e
    | .ok (stmts, s1) => .ok (.NodeStmtList .undefined stmts, s1)
/-- The loop of `localStmtList`. The statement `localStmt()` returns is never `nil`
here, because the current token is no end of a line; the model stops if it were. -/
def localStmtListLoop (expr : Parser Node) (type_ : Parser Ty) :
    Nat → List Node → Bool → Parser (List Node)
  | 0, _, _, _ => .error .OutOfFuel
  | fuel + 1, stmts, endLineRequired, s =>
    match s.tokenizer.Test .TokenRbrace with
    | .error e => .error e
    | .ok true => .ok (stmts, s)
    | .ok false =>
      if endLineRequired then .error .BadToken
      else
        match skipEndOfLine s.tokenizer with
        | .error e => .error e
        | .ok (true, t1) =>
          localStmtListLoop expr type_ fuel stmts endLineRequired (s.withTokenizer t1)
        | .ok (false, _) =>
          match localStmt (metaIfStmt expr type_ fuel) (forStmt expr type_ fuel)
              (localVarStmt localVariableDeclaration type_ expr) (simpleStmt expr fuel)
              (exprList expr fuel) s with
          | .error e => .error e
          | .ok (none, _) => .error .NilDereference
          | .ok (some stmt, s2) =>
            match skipEndOfLine s2.tokenizer with
            | .error e => .error e
            | .ok (skipped, t3) =>
              localStmtListLoop expr type_ fuel (stmts ++ [stmt]) (!skipped)
                (s2.withTokenizer t3)
/-- The function `metaIfStmt` of `parse.go`. -/
def metaIfStmt (expr : Parser Node) (type_ : Parser Ty) : Nat → Parser Node
  | 0, _ => .error .OutOfFuel
  | fuel + 1, s =>
    match s.tokenizer.Fetch with
    | .error e => .error e
    | .ok token =>
      if !token.Test .TokenIf then .error .BadToken
      else
        match ifStmt expr type_ fuel s with
        | .error e => .error e
        | .ok (ifNode, s1) =>
          match s1.tokenizer.Test .TokenElse with
          | .error e => .error e
          | .ok true =>
            match elseStmt expr type_ fuel s1 with
            | .error e => .error e
            | .ok (elseNode, s2) => .ok (.NodeMetaIf .undefined ifNode (some elseNode), s2)
          | .ok false => .ok (.NodeMetaIf .undefined ifNode none, s1)
/-- The function `ifStmt` of `parse.go`. -/
def ifStmt (expr : Parser Node) (type_ : Parser Ty) : Nat → Parser Node
  | 0, _ => .error .OutOfFuel
  | fuel + 1, s => do
    let (_, s1) ← stepIn s
    let t2 ← s1.tokenizer.Expect .TokenIf
    let (cond, s3) ← expr (s1.withTokenizer t2)
    let t4 ← s3.tokenizer.Expect .TokenLbrace
    let (body, s5) ← localStmtList expr type_ fuel (s3.withTokenizer t4)
    let t6 ← s5.tokenizer.Expect .TokenRbrace
    let (_, s7) ← stepOut (s5.withTokenizer t6)
    pure (.NodeIf .undefined cond body, s7)
/-- The function `elseStmt` of `parse.go`. -/
def elseStmt (expr : Parser Node) (type_ : Parser Ty) : Nat → Parser Node
  | 0, _ => .error .OutOfFuel
  | fuel + 1, s => do
    let t1 ← s.tokenizer.Expect .TokenElse
    let (braced, t2) ← t1.Consume .TokenLbrace
    if braced then
      let (_, s3) ← stepIn (s.withTokenizer t2)
      let (body, s4) ← localStmtList expr type_ fuel s3
      let t5 ← s4.tokenizer.Expect .TokenRbrace
      let (_, s6) ← stepOut (s4.withTokenizer t5)
      pure (.NodeElse .undefined body, s6)
    else
      metaIfStmt expr type_ fuel (s.withTokenizer t2)
/-- The function `forStmt` of `parse.go`. -/
def forStmt (expr : Parser Node) (type_ : Parser Ty) : Nat → Parser Node
  | 0, _ => .error .OutOfFuel
  | fuel + 1, s => do
    let (_, s1) ← stepIn s
    let t2 ← s1.tokenizer.Expect .TokenFor
    let (braced, t3) ← t2.Consume .TokenLbrace
    if braced then
      let (body, s4) ← localStmtList expr type_ fuel (s1.withTokenizer t3)
      let t5 ← s4.tokenizer.Expect .TokenRbrace
      let (_, s6) ← stepOut (s4.withTokenizer t5)
      pure (.NodeFor .undefined none none none body, s6)
    else
      let _ ← t3.Fetch
      let (st, s4) ← simpleStmt expr fuel (s1.withTokenizer t3)
      let (braced2, t5) ← s4.tokenizer.Consume .TokenLbrace
      if braced2 then
        match st with
        | none => throw .NilDereference
        | some (.NodeExprStmt _ cond) =>
          let (body, s6) ← localStmtList expr type_ fuel (s4.withTokenizer t5)
          let t7 ← s6.tokenizer.Expect .TokenRbrace
          let (_, s8) ← stepOut (s6.withTokenizer t7)
          pure (.NodeFor .undefined none (some cond) none body, s8)
        | some _ => throw .BadToken
      else
        let t6 ← t5.Expect .TokenSemicolon
        let (cond, s7) ← expr (s4.withTokenizer t6)
        let t8 ← s7.tokenizer.Expect .TokenSemicolon
        let (update, s9) ← simpleStmt expr fuel (s7.withTokenizer t8)
        let t10 ← s9.tokenizer.Expect .TokenLbrace
        let (body, s11) ← localStmtList expr type_ fuel (s9.withTokenizer t10)
        let t12 ← s11.tokenizer.Expect .TokenRbrace
        let (_, s13) ← stepOut (s11.withTokenizer t12)
        pure (.NodeFor .undefined st (some cond) update body, s13)
end

/-- The statement `if len(parameters) > 0 { tokenizer.Expect(TokenComma) }` of
`funcDefinition`, for `count` parameters so far. -/
def expectSeparator (count : Nat) (t : Tokenizer) : Except ParseFailure Tokenizer :=
  if count > 0 then t.Expect .TokenComma else .ok t

/-- The loop `for !tokenizer.Consume(TokenRparen) { ... }` of `funcDefinition`, in
at most `fuel` rounds; `label` is the name under which the record `fn` is
registered. -/
def parameterLoop (type_ : Parser Ty) (label : String) : Nat → List Node → Parser (List Node)
  | 0, _, _ => .error .OutOfFuel
  | fuel + 1, parameters, s => do
    let (closed, t1) ← s.tokenizer.Consume .TokenRparen
    if closed then
      pure (parameters, s.withTokenizer t1)
    else
      let t2 ← expectSeparator parameters.length t1
      let (lvarNode, s3) ← localVariableDeclaration (s.withTokenizer t2)
      let (ty, s4) ← type_ s3
      match lvarNode.Variable with
      | none => throw .NilDereference
      | some v =>
        parameterLoop type_ label fuel (parameters ++ [lvarNode])
          ((s4.withVars (s4.vars.setType v ty)).withFunctions
            (updateFunction label
              (fun f => { Label := f.Label, ParameterTypes := f.ParameterTypes ++ [ty],
                          ReturnValueType := f.ReturnValueType,
                          LocalVariables := f.LocalVariables, IsDefined := f.IsDefined })
              s4.functions))

/-- The first part of `funcDefinition`, up to the end of the parameter list: the
name of the function and the nodes of its parameters. -/
def funcParameters (type_ : Parser Ty) (fuel : Nat) : Parser (String × List Node) := fun s => do
  let t1 ← s.tokenizer.Expect .TokenFunc
  let (ident, s2) ← identifier (s.withTokenizer t1)
  let (_, s3) ← stepInFunction ident s2
  let t5 ← s3.tokenizer.Expect .TokenLparen
  let (parameters, s6) ← parameterLoop type_ s3.FunctionName fuel []
    ((s3.withFunctions
      (RegisterFunction s3.functions (NewFunction s3.FunctionName [] .undefined))).withTokenizer
      t5)
  pure ((ident, parameters), s6)

/-- The assignment `fn.ReturnValueType = ty` to the record registered under
`label`. -/
def setReturnValueType (label : String) (ty : Ty) (s : ParserState) : ParserState :=
  s.withFunctions (updateFunction label
    (fun f => { Label := f.Label, ParameterTypes := f.ParameterTypes, ReturnValueType := ty,
                LocalVariables := f.LocalVariables, IsDefined := f.IsDefined }) s.functions)

/-- The loop `for tokenizer.Consume(TokenComma) { types = append(types, type_()) }`
of `funcDefinition`, in at most `fuel` rounds. -/
def returnTypeLoop (type_ : Parser Ty) : Nat → List Ty → Parser (List Ty)
  | 0, _, _ => .error .OutOfFuel
  | fuel + 1, types, s => do
    let (more, t1) ← s.tokenizer.Consume .TokenComma
    if more then
      let (ty, s2) ← type_ (s.withTokenizer t1)
      returnTypeLoop type_ fuel (types ++ [ty]) s2
    else
      pure (types, s)

/-- The second part of `funcDefinition`, from `fn.ReturnValueType = ...` up to
`var node *Node`, for the record registered under `label`. -/
def funcReturnType (type_ : Parser Ty) (label : String) (fuel : Nat) : Parser Unit := fun s => do
  let s1 := setReturnValueType label .void s
  let (paren, t2) ← s1.tokenizer.Consume .TokenLparen
  if paren then
    let (ty, s3) ← type_ (s1.withTokenizer t2)
    let (types, s4) ← returnTypeLoop type_ fuel [ty] s3
    let t5 ← s4.tokenizer.Expect .TokenRparen
    pure ((), setReturnValueType label (.multiple types) (s4.withTokenizer t5))
  else
    if (← isType s1) then
      let (ty, s3) ← type_ s1
      pure ((), setReturnValueType label ty s3)
    else
      pure ((), s1)

/-- The function `funcDefinition` of `parse.go`, over `type_` and `localStmtList`:
its first two parts and then the body or the bare declaration. -/
def funcDefinition (type_ : Parser Ty) (localStmtList : Parser Node) (fuel : Nat) :
    Parser Node := fun s => do
  let ((ident, parameters), s1) ← funcParameters type_ fuel s
  let (_, s2) ← funcReturnType type_ ident fuel s1
  let (braced, t3) ← s2.tokenizer.Consume .TokenLbrace
  if braced then
    let (body, s4) ← localStmtList (s2.withTokenizer t3)
    let t5 ← s4.tokenizer.Expect .TokenRbrace
    let (_, s7) ← stepOut ((s4.withTokenizer t5).withFunctions
      (updateFunction ident
        (fun f => { Label := f.Label, ParameterTypes := f.ParameterTypes,
                    ReturnValueType := f.ReturnValueType,
                    LocalVariables := f.LocalVariables, IsDefined := true }) s4.functions))
    pure (.NodeFunctionDef .undefined ident parameters body, s7)
  else
    let (_, s4) ← stepOut (s2.withTokenizer t3)
    pure (.NodeMarker .undefined .NodeStatementFunctionDeclaration, s4)

/-- The function `topLevelStmt` of `parse.go`, over the three parsing functions it
calls. -/
def topLevelStmt (funcDefinition topLevelVarStmt typeStmt : Parser Node) : Parser Node :=
  fun s => do
    if (← s.tokenizer.Test .TokenFunc) then
      funcDefinition s
    else if (← s.tokenizer.Test .TokenVar) then
      topLevelVarStmt s
    else if (← s.tokenizer.Test .TokenType) then
      typeStmt s
    else
      if (← s.tokenizer.Test .TokenIf) then
        let _ ← s.tokenizer.Fetch
        throw .BadToken
      if (← s.tokenizer.Test .TokenFor) then
        let _ ← s.tokenizer.Fetch
        throw .BadToken
      if (← s.tokenizer.Test .TokenReturn) then
        let _ ← s.tokenizer.Fetch
        throw .BadToken
      let _ ← s.tokenizer.Fetch
      throw .BadToken

/-! ## Specification vocabulary for the parser -/

/-- The fields of a function record other than its locals. -/
def Function.signature (f : Function) : String × List Ty × Ty × Bool :=
  (f.Label, f.ParameterTypes, f.ReturnValueType, f.IsDefined)

/-- A parsing function that changes nothing but the tokenizer. -/
def OnlyTokenizer {α : Type} (p : Parser α) : Prop :=
  ∀ s a s1, p s = .ok (a, s1) → s1 = s.withTokenizer s1.tokenizer

/-- From `s` to `s1` the chain of scopes keeps its depth and every scope above the
current one, and every function record keeps all fields but its locals. -/
structure Frame (s s1 : ParserState) : Prop where
  depth : s1.Env.length = s.Env.length
  parents : s1.Env.tail = s.Env.tail
  signatures : s1.functions.map Function.signature = s.functions.map Function.signature

/-- A parsing function that returns inside the scope in which it was called. -/
def Keeps {α : Type} (p : Parser α) : Prop :=
  ∀ s a s1, p s = .ok (a, s1) → Frame s s1

/-- A parsing function after which `Env` is the scope it was before the call, the
function records keeping all fields but their locals. -/
def Balanced {α : Type} (p : Parser α) : Prop :=
  ∀ s a s1, p s = .ok (a, s1) →
    s1.Env = s.Env ∧ s1.functions.map Function.signature = s.functions.map Function.signature

/-- The statement parsers at one amount of fuel: the list parsers return inside
the scope of the call, and the four scoped statements are balanced. -/
def StatementsKeep (expr : Parser Node) (type_ : Parser Ty) (fuel : Nat) : Prop :=
  Keeps (localStmtList expr type_ fuel) ∧
  (∀ stmts b, Keeps (localStmtListLoop expr type_ fuel stmts b)) ∧
  Balanced (metaIfStmt expr type_ fuel) ∧ Balanced (ifStmt expr type_ fuel) ∧
  Balanced (elseStmt expr type_ fuel) ∧ Balanced (forStmt expr type_ fuel)

/-- From `s` to `s1` the chain of scopes keeps its depth and every scope above the
current one. -/
def SameScope (s s1 : ParserState) : Prop :=
  s1.Env.length = s.Env.length ∧ s1.Env.tail = s.Env.tail

/-- The type of the variable of a parameter node in the store `vs`. -/
def variableType (vs : Vars) (n : Node) : Ty :=
  match n.Variable with
  | some v => (vs v).Typ
  | none => .undefined

/-- A stand-in for `type_` in examples: it reads the name of a basic type. -/
def basicType : Parser Ty := fun s =>
  match identifier s with
  | .error e => .error e
  | .ok (ident, s1) =>
    if ident = "int" then .ok (.int, s1)
    else if ident = "rune" then .ok (.rune, s1)
    else if ident = "bool" then .ok (.bool, s1)
    else if ident = "string" then .ok (.string, s1)
    else .error .BadToken

/-- The invariant of the parameter loop of `funcDefinition`: every parameter node
so far refers to a variable that has been allocated, and the record registered
under `label` carries the types of these variables, in order, the return type
`rt`, and `IsDefined = false`. -/
def ParametersRegistered (label : String) (rt : Ty) (parameters : List Node)
    (s : ParserState) : Prop :=
  (∀ p ∈ parameters, ∃ v, p = Node.NodeLocalVariable .undefined v ∧ v < s.allocated) ∧
  (s.FindFunction label).map Function.signature =
    some (label, parameters.map (variableType s.vars), rt, false)

/-! ## Example inputs of the statement parsers -/

/-- The tokens of `if 1 { } else { }`. -/
def ifElseTokens : List Token :=
  [mkToken .TokenIf 0 "if", mkToken .TokenNumber 1 "1", mkToken .TokenLbrace 0 "\x7b",
    mkToken .TokenRbrace 0 "\x7d", mkToken .TokenElse 0 "else", mkToken .TokenLbrace 0 "\x7b",
    mkToken .TokenRbrace 0 "\x7d", mkToken .TokenNewLine 0 "\n", mkToken .TokenEof 0 ""]

/-- The tokens of a `for` statement of three lines: `for 1 {`, `x := 1` and `}`. -/
def forTokens : List Token :=
  [mkToken .TokenFor 0 "for", mkToken .TokenNumber 1 "1", mkToken .TokenLbrace 0 "\x7b",
    mkToken .TokenNewLine 0 "\n", mkToken .TokenIdentifier 0 "x",
    mkToken .TokenColonEqual 0 ":=", mkToken .TokenNumber 1 "1", mkToken .TokenNewLine 0 "\n",
    mkToken .TokenRbrace 0 "\x7d", mkToken .TokenNewLine 0 "\n", mkToken .TokenEof 0 ""]

/-- The tokens of `func g(a int) bool { }`. -/
def funcTokens : List Token :=
  [mkToken .TokenFunc 0 "func", mkToken .TokenIdentifier 0 "g", mkToken .TokenLparen 0 "(",
    mkToken .TokenIdentifier 0 "a", mkToken .TokenIdentifier 0 "int",
    mkToken .TokenRparen 0 ")", mkToken .TokenIdentifier 0 "bool", mkToken .TokenLbrace 0 "\x7b",
    mkToken .TokenRbrace 0 "\x7d", mkToken .TokenNewLine 0 "\n", mkToken .TokenEof 0 ""]

/-- The tokens of `func g()`, a declaration without a body. -/
def funcDeclarationTokens : List Token :=
  [mkToken .TokenFunc 0 "func", mkToken .TokenIdentifier 0 "g", mkToken .TokenLparen 0 "(",
    mkToken .TokenRparen 0 ")", mkToken .TokenNewLine 0 "\n", mkToken .TokenEof 0 ""]

/-! ## parse: the productions of `simpleStmt` -/

/-- The branch that `simpleStmt` takes for each form of statement, each as it
stands in the code: `exprList = exprList`, `localVarList := exprList`, `expr`. -/
def simpleStmtAs (expr : Parser Node) (fuel : Nat) : SimpleStmtForm → Parser (Option Node)
  | .assign => fun s =>
    match exprList expr fuel s with
    | .error e => .error e
    | .ok (n, s1) =>
      match s1.tokenizer.Expect .TokenEqual with
      | .error e => .error e
      | .ok t2 =>
        match exprList expr fuel (s1.withTokenizer t2) with
        | .error e => .error e
        | .ok (m, s3) => .ok (some (.NodeAssign .undefined n m), s3)
  | .shortVarDecl => fun s =>
    match localVarList fuel s with
    | .error e => .error e
    | .ok (n, s1) =>
      match s1.tokenizer.Expect .TokenColonEqual with
      | .error e => .error e
      | .ok t2 =>
        match exprList expr fuel (s1.withTokenizer t2) with
        | .error e => .error e
        | .ok (m, s3) => .ok (some (.NodeShortVarDeclStmt .undefined n m), s3)
  | .exprStmt => fun s =>
    match expr s with
    | .error e => .error e
    | .ok (x, s1) => .ok (some (.NodeExprStmt .undefined x), s1)

/-- Following the words of the specification: a terminator of a statement is a
newline or a semicolon. -/
def Token.IsTerminator (t : Token) : Bool :=
  t.Test .TokenNewLine || t.Test .TokenSemicolon

/-- Following the words of the specification: the first `=` or `:=` token found
before the next newline or semicolon, if there is one. -/
def firstAssignToken (tokens : List Token) : Option Token :=
  (tokens.takeWhile (fun t => !t.IsTerminator)).find?
    (fun t => t.Test .TokenEqual || t.Test .TokenColonEqual)

/-- The tokens of `x = 1` and the end of the line. -/
def assignTokens : List Token :=
  [mkToken .TokenIdentifier 0 "x", mkToken .TokenEqual 0 "=", mkToken .TokenNumber 1 "1",
    mkToken .TokenNewLine 0 "\n", mkToken .TokenEof 0 ""]

/-- The tokens of `f()` and a closing brace at the end of a file that has no
newline at its end. -/
def callAtEndTokens : List Token :=
  [mkToken .TokenIdentifier 0 "f", mkToken .TokenLparen 0 "(", mkToken .TokenRparen 0 ")",
    mkToken .TokenRbrace 0 "\x7d", mkToken .TokenEof 0 ""]

/-! ## Specification vocabulary for the types that `traverse` writes -/

/-- The control and declaration nodes: `if` (with or without `else`), `else`,
`for`, a statement list, the package, import and type statements, the definition
of a function and the declaration of a function without a body. -/
def Node.IsControlOrDeclaration : Node → Bool
  | .NodeMarker _ _ => true
  | .NodeStmtList _ _ => true
  | .NodeMetaIf _ _ _ => true
  | .NodeIf _ _ _ => true
  | .NodeElse _ _ => true
  | .NodeFor _ _ _ _ _ => true
  | .NodeFunctionDef _ _ _ _ => true
  | _ => false

/-- The statement `x := 1` as the parser builds it: the variable 0 is declared
with the type `Undefined`. -/
def declareOne : Node :=
  .NodeShortVarDeclStmt .undefined (.NodeLocalVarList .undefined [.NodeLocalVariable .undefined 0])
    (.NodeExprList .undefined [.NodeNum .undefined 1])

/-! ## parse: top-level variables and `type_` -/

/-- Modelled from the spec: `Program.FindTopLevelVariable` on the program of `Env`
(§3, the registry of top-level variables): the lookup by name. -/
def ParserState.FindTopLevelVariable (s : ParserState) (ident : String) : Option Nat :=
  (s.topLevelVariables.find? (fun e => e.1 == ident)).map (fun e => e.2)

/-- Modelled from the spec: `Program.AddTopLevelVariable` (§3), the body of which
is not part of the sources at hand: a new variable is allocated and appended to
the registry of top-level variables. -/
def AddTopLevelVariable (ty : Ty) (name : String) (s : ParserState) : Nat × ParserState :=
  (s.allocated,
    { tokenizer := s.tokenizer, Env := s.Env, types := s.types, functions := s.functions,
      vars := s.vars.set s.allocated
        { Name := name, Typ := ty, Kind := .VariableTopLevel, Offset := 0 },
      allocated := s.allocated + 1,
      topLevelVariables := s.topLevelVariables ++ [(name, s.allocated)] })

/-- The function `topLevelVariableDeclaration` of `parse.go`. -/
def topLevelVariableDeclaration : Parser Node := fun s =>
  match s.tokenizer.Fetch with
  | .error e => .error e
  | .ok _ =>
    match identifier s with
    | .error e => .error e
    | .ok (ident, s1) =>
      match s1.Env with
      | [] => .error .NilDereference
      | _ :: _ =>
        match s1.FindTopLevelVariable ident with
        | some _ => .error .BadToken
        | none =>
          .ok (.NodeTopLevelVariable .undefined ident
            (some (AddTopLevelVariable .undefined ident s1).1),
            (AddTopLevelVariable .undefined ident s1).2)

/-- The function `topLevelVarStmt` of `parse.go`, over `type_`. -/
def topLevelVarStmt (type_ : Parser Ty) : Parser Node := fun s =>
  match s.tokenizer.Expect .TokenVar with
  | .error e => .error e
  | .ok t1 =>
    match topLevelVariableDeclaration (s.withTokenizer t1) with
    | .error e => .error e
    | .ok (v, s2) =>
      match type_ s2 with
      | .error e => .error e
      | .ok (ty, s3) =>
        match v.Variable with
        | none => .error .NilDereference
        | some var =>
          .ok (.NodeVarStmt .undefined .NodeTopLevelVarStmt s3.FunctionName v none,
            s3.withVars (s3.vars.setType var ty))

mutual
/-- The function `type_` of `parse.go`, in at most `fuel` nested calls and rounds
of the loop over the members of a struct. The last two lines of the code are
`ty, _ := Env.program.FindType(ident)` and `return ty`: for a name that is not
registered, `unknown` stands for the `Type` that `FindType` returns next to
`false`, which `type_` passes on. -/
def type_ (unknown : Ty) : Nat → Parser Ty
  | 0, _ => .error .OutOfFuel
  | fuel + 1, s =>
    match s.tokenizer.Consume .TokenStar with
    | .error e => .error e
    | .ok (true, t1) =>
      match type_ unknown fuel (s.withTokenizer t1) with
      | .error e => .error e
      | .ok (ty, s2) => .ok (.ptr ty, s2)
    | .ok (false, _) =>
      match s.tokenizer.Consume .TokenLSBrace with
      | .error e => .error e
      | .ok (true, t1) =>
        match t1.Consume .TokenRSBrace with
        | .error e => .error e
        | .ok (true, t2) =>
          match type_ unknown fuel (s.withTokenizer t2) with
          | .error e => .error e
          | .ok (ty, s3) => .ok (.slice ty, s3)
        | .ok (false, _) =>
          match numberLiteral (s.withTokenizer t1) with
          | .error e => .error e
          | .ok (arraySize, s2) =>
            match s2.tokenizer.Expect .TokenRSBrace with
            | .error e => .error e
            | .ok t3 =>
              match type_ unknown fuel (s2.withTokenizer t3) with
              | .error e => .error e
              | .ok (ty, s4) => .ok (.array ty arraySize.toNat, s4)
      | .ok (false, _) =>
        match identifier s with
        | .error e => .error e
        | .ok (ident, s1) =>
          if ident = "int" then .ok (.int, s1)
          else if ident = "rune" then .ok (.rune, s1)
          else if ident = "bool" then .ok (.bool, s1)
          else if ident = "string" then .ok (.string, s1)
          else if ident = "struct" then
            match s1.tokenizer.Expect .TokenLbrace with
            | .error e => .error e
            | .ok t2 =>
              match t2.Expect .TokenNewLine with
              | .error e => .error e
              | .ok t3 =>
                match structMembers unknown fuel [] [] (s1.withTokenizer t3) with
                | .error e => .error e
                | .ok (members, s4) => .ok (.struct members.1 members.2, s4)
          else .ok ((s1.FindType ident).getD unknown, s1)
/-- The loop `for !tokenizer.Consume(TokenRbrace) { ... }` of `type_` over the
members of a struct. -/
def structMembers (unknown : Ty) : Nat → List String → List Ty → Parser (List String × List Ty)
  | 0, _, _, _ => .error .OutOfFuel
  | fuel + 1, names, types, s =>
    match s.tokenizer.Consume .TokenRbrace with
    | .error e => .error e
    | .ok (true, t1) => .ok ((names, types), s.withTokenizer t1)
    | .ok (false, _) =>
      match identifier s with
      | .error e => .error e
      | .ok (name, s1) =>
        match type_ unknown fuel s1 with
        | .error e => .error e
        | .ok (ty, s2) =>
          match s2.tokenizer.Expect .TokenNewLine with
          | .error e => .error e
          | .ok t3 => structMembers unknown fuel (names ++ [name]) (types ++ [ty])
              (s2.withTokenizer t3)
end

/-- A parser state at the first token of `x x`, in a scope of the function `f` that
declares `y`, inside a scope that declares `x`; `x` is also a top-level variable. -/
def shadowingState : ParserState :=
  { tokenizer := { tokens := [mkToken .TokenIdentifier 0 "x", mkToken .TokenIdentifier 0 "x",
      mkToken .TokenEof 0 ""], pos := 0 },
    Env := [{ locals := [("y", 1)], FunctionName := "f" },
            { locals := [("x", 0)], FunctionName := "f" }],
    types := [],
    functions := [{ Label := "f", ParameterTypes := [], ReturnValueType := .undefined,
                    LocalVariables := [0, 1], IsDefined := false }],
    vars := freshVars, allocated := 3, topLevelVariables := [("x", 2)] }

/-- The tokens of the top-level statement `var x foo`. -/
def varUnknownTypeTokens : List Token :=
  [mkToken .TokenVar 0 "var", mkToken .TokenIdentifier 0 "x", mkToken .TokenIdentifier 0 "foo",
    mkToken .TokenNewLine 0 "\n", mkToken .TokenEof 0 ""]

/-! ## token.go: strings -/

/-- One item of a Go string as `range` and `[]rune` read it: a character of the
text, or a byte that starts no character (what is left of a character of
several bytes once its first bytes are cut off), which is read as U+FFFD and is
one byte wide. -/
inductive Piece where
  | rune (c : Char)
  | stray
  deriving DecidableEq, Repr

/-- A Go `string`: a sequence of bytes, held as the items it decodes to. -/
abbrev GoString := List Piece

/-- The number of bytes of a character in a Go string (`utf8.RuneLen`). -/
def runeLen (c : Char) : Nat :=
  if c.toNat < 128 then 1 else if c.toNat < 2048 then 2 else if c.toNat < 65536 then 3 else 4

/-- The character that Go reads at an item. -/
def Piece.decode : Piece → Char
  | .rune c => c
  | .stray => Char.ofNat 0xFFFD

/-- The number of bytes of an item. -/
def Piece.width : Piece → Nat
  | .rune c => runeLen c
  | .stray => 1

/-- The Go string of a text. -/
def GoString.ofString (s : String) : GoString :=
  s.data.map .rune

/-- The built-in `len(s)`: the number of bytes. -/
def byteLen (s : GoString) : Nat :=
  (s.map Piece.width).sum

/-- The text of a Go string, a stray byte shown as U+FFFD. -/
def GoString.text (s : GoString) : String :=
  String.mk (s.map Piece.decode)

/-- The ways in which the lexer stops the program: the two reporting functions
`madden` and `errorAt`, and the Go run-time panics of a slice expression and of
an index out of range. -/
inductive LexFailure where
  | Madden
  | ErrorAt
  | SliceOutOfRange
  | IndexOutOfRange
  deriving DecidableEq, Repr

/-- The slice expression `s[n:]`: the string without its first `n` bytes. A cut
inside a character leaves the rest of its bytes as stray bytes. -/
def dropBytes : Nat → GoString → Except LexFailure GoString
  | 0, s => .ok s
  | _ + 1, [] => .error .SliceOutOfRange
  | n + 1, .stray :: s => dropBytes n s
  | n + 1, .rune c :: s =>
    if runeLen c ≤ n + 1 then dropBytes (n + 1 - runeLen c) s
    else .ok (List.replicate (runeLen c - (n + 1)) .stray ++ s)

/-- The slice expression `s[:n]`: the first `n` bytes of the string. -/
def takeBytes : Nat → GoString → Except LexFailure GoString
  | 0, _ => .ok []
  | _ + 1, [] => .error .SliceOutOfRange
  | n + 1, .stray :: s =>
    match takeBytes n s with
    | .error e => .error e
    | .ok r => .ok (.stray :: r)
  | n + 1, .rune c :: s =>
    if runeLen c ≤ n + 1 then
      match takeBytes (n + 1 - runeLen c) s with
      | .error e => .error e
      | .ok r => .ok (.rune c :: r)
    else .ok (List.replicate (n + 1) .stray)

/-- Go's `strings.HasPrefix` for a text `start`. -/
def HasPrefix (s : GoString) (start : String) : Bool :=
  (GoString.ofString start).isPrefixOf s

/-- Go's `unicode.IsSpace`: `'\t'`, `'\n'`, `'\v'`, `'\f'`, `'\r'`, `' '`, U+0085 and
U+00A0 in Latin-1, and beyond Latin-1 the characters with the property
White_Space. -/
def IsSpace (c : Char) : Bool :=
  (9 ≤ c.toNat && c.toNat ≤ 13) || c.toNat == 0x20 || c.toNat == 0x85 || c.toNat == 0xA0 ||
    c.toNat == 0x1680 || (0x2000 ≤ c.toNat && c.toNat ≤ 0x200A) || c.toNat == 0x2028 ||
    c.toNat == 0x2029 || c.toNat == 0x202F || c.toNat == 0x205F || c.toNat == 0x3000

/-- Modelled from the spec: `runeAt`, which is not part of the sources at hand and
which the spec does not describe: by its name and its use in `Tokenize`, the
character at the index `i` of the string as Go reads it. `Tokenize` passes the
index 0 only, and only for a string that is not empty. -/
def runeAt (s : GoString) (i : Nat) : Except LexFailure Char :=
  match s[i]? with
  | some p => .ok p.decode
  | none => .error .IndexOutOfRange

/-- What `Tokenize` and `getIdentifier` call and the sources at hand do not hold:
the functions `isAlpha`, `isAlnum` and `strtoi` of the package, which the spec
does not describe either, and the table of digits behind `unicode.IsDigit` of
Go's library. The model takes them as they are given; every theorem states
what it uses of them. -/
structure Callees where
  isAlpha : Char → Bool
  isAlnum : Char → Bool
  strtoi : GoString → Int × GoString
  IsDigit : Char → Bool

/-! ## token.go: `getIdentifier` and `Tokenize` -/

/-- The loop of `getIdentifier` over the characters of `s`: `first` is `i == 0`,
`res` the identifier read so far. -/
def getIdentifierLoop (h : Callees) : Bool → String → GoString → String × GoString
  | _, res, [] => (res, [])
  | first, res, p :: s =>
    if (first && h.IsDigit p.decode) || !(h.isAlnum p.decode || p.decode == '_') then
      (res, p :: s)
    else getIdentifierLoop h false (res.push p.decode) s

/-- The function `getIdentifier` of `token.go`. -/
def getIdentifier (h : Callees) (s : GoString) : String × GoString :=
  getIdentifierLoop h true "" s

/-- The constructor `NewToken`. -/
def NewToken (kind : TokenKind) (str : String) (rest : String) : Token :=
  { kind := kind, val := 0, str := str, rest := rest }

/-- The slice `symbols` of `Tokenize`, every constant with its string. -/
def symbols : List (TokenKind × String) :=
  [(.TokenDoubleEqual, "=="), (.TokenNotEqual, "!="), (.TokenGreaterEqual, ">="),
    (.TokenLessEqual, "<="), (.TokenPlus, "+"), (.TokenMinus, "-"), (.TokenStar, "*"),
    (.TokenSlash, "/"), (.TokenLparen, "("), (.TokenRparen, ")"), (.TokenLess, "<"),
    (.TokenGreater, ">"), (.TokenSemicolon, ";"), (.TokenNewLine, "\n"), (.TokenEqual, "="),
    (.TokenLbrace, "\x7b"), (.TokenRbrace, "\x7d"), (.TokenComma, ","), (.TokenAmpersand, "&"),
    (.TokenLSBrace, "["), (.TokenRSBrace, "]")]

/-- The slice `keywords` of `Tokenize`, every constant with its string. -/
def keywords : List (TokenKind × String) :=
  [(.TokenPackage, "package"), (.TokenReturn, "return"), (.TokenFunc, "func"),
    (.TokenElse, "else"), (.TokenFor, "for"), (.TokenVar, "var"), (.TokenIf, "if")]

/-- The loop over `symbols` in `Tokenize`: the first symbol that the input
starts with. -/
def findSymbol (input : GoString) : Option (TokenKind × String) :=
  symbols.find? (fun symbol => HasPrefix input symbol.2)

/-- The branch of `Tokenize` for a rune literal: the token of the literal and the
input after it. -/
def runeLiteral (input : GoString) : Except LexFailure (Token × GoString) :=
  match takeBytes 3 input with
  | .error e => .error e
  | .ok str =>
    match dropBytes 1 input with
    | .error e => .error e
    | .ok input1 =>
      match runeAt input1 0 with
      | .error e => .error e
      | .ok content =>
        match dropBytes 1 input1 with
        | .error e => .error e
        | .ok input2 =>
          match runeAt input2 0 with
          | .error e => .error e
          | .ok close =>
            if close != '\'' then .error .Madden
            else
              match dropBytes 1 input2 with
              | .error e => .error e
              | .ok input3 =>
                .ok ({ kind := .TokenNumber, val := content.toNat, str := str.text,
                       rest := input.text }, input3)

/-- One round of the loop `for input != ""` of `Tokenize`, for an input that is
not empty: the token that the round appends, if it appends one, and the input
of the next round. -/
def tokenizeStep (h : Callees) (input : GoString) : Except LexFailure (Option Token × GoString) :=
  match findSymbol input with
  | some symbol =>
    match dropBytes (byteLen (GoString.ofString symbol.2)) input with
    | .error e => .error e
    | .ok rest => .ok (some (NewToken symbol.1 symbol.2 input.text), rest)
  | none =>
    match runeAt input 0 with
    | .error e => .error e
    | .ok c =>
      if h.isAlpha c || c == '_' then
        match keywords.find? (fun keyword => keyword.2 == (getIdentifier h input).1) with
        | some keyword =>
          .ok (some (NewToken keyword.1 keyword.2 input.text), (getIdentifier h input).2)
        | none =>
          .ok (some (NewToken .TokenIdentifier (getIdentifier h input).1 input.text),
            (getIdentifier h input).2)
      else if IsSpace c then
        match dropBytes 1 input with
        | .error e => .error e
        | .ok rest => .ok (none, rest)
      else if h.IsDigit c then
        .ok (some { kind := .TokenNumber, val := (h.strtoi input).1,
                    str := toString (h.strtoi input).1, rest := input.text },
          (h.strtoi input).2)
      else if c == '\'' then
        match runeLiteral input with
        | .error e => .error e
        | .ok (token, rest) => .ok (some token, rest)
      else .error .ErrorAt

/-- The loop `for input != ""` of `Tokenize` and the `EOF` token after it, in at
most `fuel` rounds; `none` says that the rounds did not suffice. -/
def tokenizeLoop (h : Callees) : Nat → List Token → GoString →
    Option (Except LexFailure (List Token))
  | 0, _, _ => none
  | fuel + 1, tokens, input =>
    if input = [] then some (.ok (tokens ++ [NewToken .TokenEof "" ""]))
    else
      match tokenizeStep h input with
      | .error e => some (.error e)
      | .ok (token, rest) => tokenizeLoop h fuel (tokens ++ token.toList) rest

/-- The method `Tokenize` of `token.go`: the tokens it leaves in `t.tokens`. -/
def Tokenize (h : Callees) (fuel : Nat) (input : GoString) :
    Option (Except LexFailure (List Token)) :=
  tokenizeLoop h fuel [] input

/-! ## Example callees and inputs of the lexer -/

/-- The loop of `asciiCallees.strtoi`: the value of the decimal digits at the
start of the string, and the string after them. -/
def readDigits : Int → GoString → Int × GoString
  | v, [] => (v, [])
  | v, p :: s =>
    if 48 ≤ p.decode.toNat ∧ p.decode.toNat ≤ 57 then
      readDigits (10 * v + (p.decode.toNat - 48 : Nat)) s
    else (v, p :: s)

/-- Callees for the examples, which hold ASCII text only: the letters and the
digits of ASCII, and a `strtoi` that reads the decimal digits at the start of
the string. -/
def asciiCallees : Callees :=
  { isAlpha := fun c => (97 ≤ c.toNat && c.toNat ≤ 122) || (65 ≤ c.toNat && c.toNat ≤ 90),
    isAlnum := fun c => (97 ≤ c.toNat && c.toNat ≤ 122) || (65 ≤ c.toNat && c.toNat ≤ 90) ||
      (48 ≤ c.toNat && c.toNat ≤ 57),
    strtoi := readDigits 0,
    IsDigit := fun c => 48 ≤ c.toNat && c.toNat ≤ 57 }

/-! ## Specification vocabulary for the lexer -/

/-- What the rounds of `Tokenize` need of the callees to make progress: a letter
is a character of an identifier and no digit, `_` is no digit, and `strtoi`
returns less than it was given when the string starts with a digit. -/
structure Callees.Progress (h : Callees) : Prop where
  alpha_alnum : ∀ c, h.isAlpha c = true → h.isAlnum c = true
  alpha_not_digit : ∀ c, h.isAlpha c = true → h.IsDigit c = false
  underscore_not_digit : h.IsDigit '_' = false
  strtoi_shortens : ∀ (p : Piece) (s : GoString), h.IsDigit p.decode = true →
    byteLen (h.strtoi (p :: s)).2 < byteLen (p :: s)

/-- The first characters of the symbols of `Tokenize`. -/
def symbolStarts : List Char :=
  symbols.filterMap (fun symbol => symbol.2.data.head?)

/-- Following the words of the specification: a decimal digit. -/
def IsDecimalDigit (c : Char) : Bool :=
  48 ≤ c.toNat && c.toNat ≤ 57

/-- Following the words of the specification: a non-negative decimal integer
literal is a sequence of one or more decimal digits. -/
def IsLiteral (ds : List Char) : Bool :=
  !ds.isEmpty && ds.all IsDecimalDigit

/-- Following the words of the specification: the value of a decimal literal. -/
def decimalValue (ds : List Char) : Nat :=
  ds.foldl (fun v d => 10 * v + (d.toNat - 48)) 0

/-- The four operators `+`, `-`, `*`, `/`. -/
inductive Operator where
  | plus | minus | star | slash
  deriving DecidableEq, Repr

/-- The character of an operator. -/
def Operator.char : Operator → Char
  | .plus => '+'
  | .minus => '-'
  | .star => '*'
  | .slash => '/'

/-- The kind of token of an operator. -/
def Operator.kind : Operator → TokenKind
  | .plus => .TokenPlus
  | .minus => .TokenMinus
  | .star => .TokenStar
  | .slash => .TokenSlash

/-- Following the words of the specification: an input made of decimal literals
separated by single operators, given by its first literal and the pairs of an
operator and a literal that follow. -/
def literalsText : List Char → List (Operator × List Char) → GoString
  | first, [] => first.map .rune
  | first, x :: more => first.map .rune ++ .rune x.1.char :: literalsText x.2 more

/-- Following the words of the specification: one `Number` token per literal,
carrying the value of the literal, and one symbol token per operator, in source
order, followed by `EOF`; every token as its kind and its value. -/
def literalsTokens : List Char → List (Operator × List Char) → List (TokenKind × Int)
  | first, [] => [(.TokenNumber, (decimalValue first : Int)), (.TokenEof, 0)]
  | first, x :: more =>
    (.TokenNumber, (decimalValue first : Int)) :: (x.1.kind, 0) :: literalsTokens x.2 more

/-- What the lexing of decimal literals needs of the callees: a decimal digit is
a digit for `unicode.IsDigit` and no letter, and for a string that starts with a
decimal literal whose value fits the type `int`, and goes on with no further
decimal digit, `strtoi` returns the value of the literal and the string after
it. -/
structure Callees.ReadsDecimal (h : Callees) : Prop where
  digit : ∀ c, IsDecimalDigit c = true → h.IsDigit c = true ∧ h.isAlpha c = false
  strtoi_literal : ∀ (ds : List Char) (rest : GoString), IsLiteral ds = true →
    decimalValue ds < 2 ^ 63 →
    (∀ p s, rest = p :: s → IsDecimalDigit p.decode = false) →
    h.strtoi (ds.map .rune ++ rest) = ((decimalValue ds : Int), rest)

/-! ## parse: the name of the module -/

/-- What `readModuleNameIfExists` sees of the files: whether `os.Stat` of Go's
library finds a file at a path, and the text that `util.ReadFile`, which is not
part of the sources at hand, returns for it. -/
structure Files where
  Stat : String → Bool
  ReadFile : String → String

/-- The function `forceTrailingSlash` of `parse.go`; `strings.HasSuffix(path, "/")`
says that the last character of `path` is `/`. -/
def forceTrailingSlash (path : String) : String :=
  if !(path.data.getLast? == some '/') then path ++ "/" else path

/-- The expression `strings.Split(s, sep)[0]` for a separator of one character:
the text before the first separator, all of `s` when it holds none. -/
def firstField (sep : Char) (s : String) : String :=
  String.mk (s.data.takeWhile (fun c => c != sep))

/-- The function `readModuleNameIfExists` of `parse.go`. -/
def readModuleNameIfExists (files : Files) (path : String) : String :=
  if !files.Stat (forceTrailingSlash path ++ "go.mod") then ""
  else firstField ' ' (firstField '\n' (files.ReadFile (forceTrailingSlash path ++ "go.mod")))

/-- A directory `proj` with a `go.mod` whose first line is `module example.com/m`. -/
def moduleFiles : Files :=
  { Stat := fun p => p == "proj/go.mod",
    ReadFile := fun p => if p == "proj/go.mod" then "module example.com/m\n\ngo 1.16\n" else "" }

/-! ## Specification vocabulary for `getIdentifier` -/

/-- Following the words of the specification: an alphanumeric character or an
underscore. -/
def IsIdentifierChar (h : Callees) (c : Char) : Bool :=
  h.isAlnum c || c == '_'

/-- Following the words of the specification: a string that consists only of
alphanumeric characters and underscores and does not begin with a digit. -/
def IsIdentifierText (h : Callees) (s : GoString) : Prop :=
  (∀ p ∈ s, IsIdentifierChar h p.decode = true) ∧
  ∀ p, s.head? = some p → h.IsDigit p.decode = false

/-- The pair of a member name and the type of its value passes the test of the
`NodeStructLiteral` branch for a struct with the members `ms` of the types `ts`:
some member has this name, and the type of the value is compatible with the type
of every member of this name. -/
def MemberAcceptedEvery (ms : List String) (ts : List Ty) (name : String) (ty : Ty) : Prop :=
  name ∈ ms ∧
    ∀ (j : Nat) (T : Ty), ms[j]? = some name → ts[j]? = some T → TypeCompatable ty T = true

/-- A named struct type `P` with two members of the name `x`, as `type_` accepts
it: `struct { x int; x string }`. -/
def duplicateMemberType : Ty :=
  .userDefined "P" (.struct ["x", "x"] [.int, .string])

/-! # Theorems -/

/-! ## Traces of the inner loops -/

theorem traverseCode_ok {programs : List Program} {program : Program} {pi si : Nat} :
    ∀ (code : List Node) (k : Nat) (vs : Vars) (tr : List Event)
      {code1 : List Node} {vs1 : Vars} {tr1 : List Event},
      traverseCode programs program pi si code k vs tr = .ok (code1, vs1, tr1) →
      tr1 = tr ++ codeVisits pi si k code.length
  | [], k, vs, tr, code1, vs1, tr1, h => by
    simp [traverseCode] at h
    simp [codeVisits, h.2.2.symm]
  | node :: rest, k, vs, tr, code1, vs1, tr1, h => by
    simp only [traverseCode] at h
    cases h1 : traverse programs program node vs with
    | error e => simp [h1] at h
    | ok r =>
      obtain ⟨t, node1, vs2⟩ := r
      simp only [h1] at h
      cases h2 : traverseCode programs program pi si rest (k + 1) vs2 (tr ++ [.Visit pi si k]) with
      | error e => simp [h2] at h
      | ok r2 =>
        obtain ⟨rest1, vs3, tr3⟩ := r2
        simp only [h2, Except.ok.injEq, Prod.mk.injEq] at h
        have ih := traverseCode_ok rest (k + 1) vs2 (tr ++ [.Visit pi si k]) h2
        rw [← h.2.2, ih]
        simp [codeVisits, List.range'_succ]

theorem traverseCode_error {programs : List Program} {program : Program} {pi si : Nat} :
    ∀ (code : List Node) (k : Nat) (vs : Vars) (tr : List Event)
      {e : Failure} {tr1 : List Event},
      traverseCode programs program pi si code k vs tr = .error (e, tr1) →
      ∃ extra, tr1 = tr ++ extra ∧ ∀ ev ∈ extra, ∃ s j, ev = Event.Visit pi s j
  | [], k, vs, tr, e, tr1, h => by simp [traverseCode] at h
  | node :: rest, k, vs, tr, e, tr1, h => by
    simp only [traverseCode] at h
    cases h1 : traverse programs program node vs with
    | error e1 =>
      simp only [h1, Except.error.injEq, Prod.mk.injEq] at h
      exact ⟨[.Visit pi si k], h.2.symm, by simp⟩
    | ok r =>
      obtain ⟨t, node1, vs2⟩ := r
      simp only [h1] at h
      cases h2 : traverseCode programs program pi si rest (k + 1) vs2 (tr ++ [.Visit pi si k]) with
      | error e2 =>
        obtain ⟨e3, tr3⟩ := e2
        simp only [h2, Except.error.injEq, Prod.mk.injEq] at h
        obtain ⟨extra, hx, hv⟩ := traverseCode_error rest (k + 1) vs2 (tr ++ [.Visit pi si k]) h2
        refine ⟨.Visit pi si k :: extra, ?_, ?_⟩
        · rw [← h.2, hx]; simp
        · intro ev hev
          rcases List.mem_cons.1 hev with rfl | hev
          · exact ⟨si, k, rfl⟩
          · exact hv ev hev
      | ok r2 => simp [h2] at h

theorem traverseSources_ok {programs : List Program} {program : Program} {pi : Nat} :
    ∀ (sources : List Source) (si : Nat) (vs : Vars) (tr : List Event)
      {sources1 : List Source} {vs1 : Vars} {tr1 : List Event},
      traverseSources programs program pi sources si vs tr = .ok (sources1, vs1, tr1) →
      tr1 = tr ++ sourceVisits pi sources si ∧
        sources1.map Source.Packages = sources.map Source.Packages
  | [], si, vs, tr, sources1, vs1, tr1, h => by
    simp [traverseSources] at h
    simp [sourceVisits, h.1.symm, h.2.2.symm]
  | source :: rest, si, vs, tr, sources1, vs1, tr1, h => by
    simp only [traverseSources] at h
    cases h1 : traverseCode programs program pi si source.Code 0 vs tr with
    | error e => simp [h1] at h
    | ok r =>
      obtain ⟨code1, vs2, tr2⟩ := r
      simp only [h1] at h
      cases h2 : traverseSources programs program pi rest (si + 1) vs2 tr2 with
      | error e => simp [h2] at h
      | ok r2 =>
        obtain ⟨rest1, vs3, tr3⟩ := r2
        simp only [h2, Except.ok.injEq, Prod.mk.injEq] at h
        obtain ⟨ih1, ih2⟩ := traverseSources_ok rest (si + 1) vs2 tr2 h2
        have hc := traverseCode_ok source.Code 0 vs tr h1
        refine ⟨?_, ?_⟩
        · rw [← h.2.2, ih1, hc]; simp [sourceVisits]
        · rw [← h.1]; simp [ih2]

theorem traverseSources_error {programs : List Program} {program : Program} {pi : Nat} :
    ∀ (sources : List Source) (si : Nat) (vs : Vars) (tr : List Event)
      {e : Failure} {tr1 : List Event},
      traverseSources programs program pi sources si vs tr = .error (e, tr1) →
      ∃ extra, tr1 = tr ++ extra ∧ ∀ ev ∈ extra, ∃ s j, ev = Event.Visit pi s j
  | [], si, vs, tr, e, tr1, h => by simp [traverseSources] at h
  | source :: rest, si, vs, tr, e, tr1, h => by
    simp only [traverseSources] at h
    cases h1 : traverseCode programs program pi si source.Code 0 vs tr with
    | error e1 =>
      obtain ⟨e2, tr2⟩ := e1
      simp only [h1, Except.error.injEq, Prod.mk.injEq] at h
      obtain ⟨extra, hx, hv⟩ := traverseCode_error source.Code 0 vs tr h1
      exact ⟨extra, by rw [← h.2, hx], hv⟩
    | ok r =>
      obtain ⟨code1, vs2, tr2⟩ := r
      simp only [h1] at h
      cases h2 : traverseSources programs program pi rest (si + 1) vs2 tr2 with
      | error e2 =>
        obtain ⟨e3, tr3⟩ := e2
        simp only [h2, Except.error.injEq, Prod.mk.injEq] at h
        obtain ⟨extra, hx, hv⟩ := traverseSources_error rest (si + 1) vs2 tr2 h2
        have hc := traverseCode_ok source.Code 0 vs tr h1
        refine ⟨codeVisits pi si 0 source.Code.length ++ extra, ?_, ?_⟩
        · rw [← h.2, hx, hc]; simp
        · intro ev hev
          rcases List.mem_append.1 hev with hev | hev
          · simp only [codeVisits, List.mem_map] at hev
            obtain ⟨j, _, rfl⟩ := hev
            exact ⟨si, j, rfl⟩
          · exact hv ev hev
      | ok r2 => simp [h2] at h

theorem sourceVisits_program (pi : Nat) :
    ∀ (sources : List Source) (si : Nat), ∀ ev ∈ sourceVisits pi sources si, ∃ s j, ev = Event.Visit pi s j
  | [], _, ev, h => by simp [sourceVisits] at h
  | source :: rest, si, ev, h => by
    simp only [sourceVisits, List.mem_append] at h
    rcases h with h | h
    · simp only [codeVisits, List.mem_map] at h
      obtain ⟨j, _, rfl⟩ := h
      exact ⟨si, j, rfl⟩
    · exact sourceVisits_program pi rest (si + 1) ev h

theorem imported_eq_foldl (p : Program) :
    imported p = (p.Sources.map Source.Packages).foldl (fun acc l => acc ++ l) [] := by
  simp [imported, List.foldl_map]

theorem imported_traversedWith (p : Program) (sources : List Source)
    (h : sources.map Source.Packages = p.Sources.map Source.Packages) :
    imported (p.traversedWith sources) = imported p := by
  rw [imported_eq_foldl, imported_eq_foldl]
  simp [Program.traversedWith, h]

theorem TraceOk.nil (ps0 : List Program) : TraceOk ps0 [] := by
  intro pre i flags post h
  simp at h

theorem TraceOk.append {ps0 : List Program} {tr extra : List Event} (h : TraceOk ps0 tr)
    (hx : ∀ a i f post, extra = a ++ Event.Start i f :: post → StartOk ps0 (tr ++ a) i f) :
    TraceOk ps0 (tr ++ extra) := by
  intro pre i flags post heq
  rcases List.append_eq_append_iff.1 heq with ⟨a, hpre, hextra⟩ | ⟨c, htr, hc⟩
  · rw [hpre]
    exact hx a i flags post hextra
  · cases c with
    | nil =>
      simp only [List.nil_append] at hc
      simp only [List.append_nil] at htr
      have := hx [] i flags post hc.symm
      simpa [htr] using this
    | cons x c =>
      simp only [List.cons_append, List.cons.injEq] at hc
      rw [← hc.1] at htr
      exact h pre i flags c htr

theorem TraceOk.append_visits {ps0 : List Program} {tr extra : List Event} (h : TraceOk ps0 tr)
    (hx : ∀ ev ∈ extra, ∃ pi s j, ev = Event.Visit pi s j) : TraceOk ps0 (tr ++ extra) := by
  refine h.append ?_
  intro a i f post heq
  have hmem : Event.Start i f ∈ extra := by rw [heq]; simp
  obtain ⟨pi, s, j, hev⟩ := hx _ hmem
  cases hev

theorem TraceOk.snoc_start {ps0 : List Program} {tr : List Event} {i : Nat} {flags : List Bool}
    (h : TraceOk ps0 tr) (hs : StartOk ps0 tr i flags) :
    TraceOk ps0 (tr ++ [Event.Start i flags]) := by
  refine h.append ?_
  intro a j f post heq
  cases a with
  | nil =>
    simp only [List.nil_append, List.cons.injEq, Event.Start.injEq] at heq
    obtain ⟨⟨rfl, rfl⟩, _⟩ := heq
    simpa using hs
  | cons x a =>
    simp only [List.cons_append, List.cons.injEq] at heq
    have := heq.2
    simp at this

theorem getElem?_middle {α : Type} (done rest : List α) (x : α) :
    (done ++ x :: rest)[done.length]? = some x := by
  rw [List.getElem?_append_right (Nat.le_refl _)]
  simp

theorem getElem?_middle_ne {α : Type} (done rest : List α) (x y : α) {i : Nat}
    (h : i ≠ done.length) : (done ++ x :: rest)[i]? = (done ++ y :: rest)[i]? := by
  rcases Nat.lt_or_gt_of_ne h with h1 | h1
  · rw [List.getElem?_append_left h1, List.getElem?_append_left h1]
  · rw [List.getElem?_append_right (Nat.le_of_lt h1), List.getElem?_append_right (Nat.le_of_lt h1)]
    obtain ⟨k, hk⟩ : ∃ k, i - done.length = k + 1 := ⟨i - done.length - 1, by omega⟩
    rw [hk]
    simp

theorem Evolved.refl (p : Program) : Evolved p p := Or.inl rfl

theorem Evolved.eq_of_untraversed {p q : Program} (h : Evolved p q) (hq : q.Traversed = false) :
    q = p := by
  rcases h with h | ⟨_, h, _⟩
  · exact h
  · rw [hq] at h; cases h

theorem Evolved.name {p q : Program} (h : Evolved p q) : q.Name = p.Name := by
  rcases h with h | ⟨_, _, h, _⟩
  · rw [h]
  · exact h

theorem Evolved.imported {p q : Program} (h : Evolved p q) : imported q = imported p := by
  rcases h with h | ⟨_, _, _, h⟩
  · rw [h]
  · exact h

theorem Evolved.mono {p q : Program} (h : Evolved p q) (hp : p.Traversed = true) : q = p := by
  rcases h with h | ⟨h, _⟩
  · exact h
  · rw [hp] at h; cases h

theorem RunInv.init (ps0 : List Program) : RunInv ps0 ps0 [] where
  len := rfl
  rel := by
    intro i p q hp hq
    rw [hp] at hq
    cases hq
    exact Evolved.refl p
  traceOk := TraceOk.nil ps0
  idle := by intro i p q _ _ _ e he; simp at he
  busy := by
    intro i p q hp hq h1 h2
    rw [hp] at hq
    cases hq
    rw [h1] at h2
    cases h2

theorem ready_iff (ps : List Program) (p : Program) :
    ready ps p = true ↔
      ∀ i ∈ imported p, ∀ prog ∈ ps, prog.Name = i → prog.Traversed = true := by
  simp only [ready, List.all_eq_true, Bool.not_eq_true', Bool.and_eq_false_imp, beq_iff_eq,
    Bool.not_eq_false']

theorem RunInv.startOk {ps0 done rest : List Program} {p : Program} {tr : List Event}
    (h : RunInv ps0 (done ++ p :: rest) tr) (hp : p.Traversed = false)
    (hr : ready (done ++ p :: rest) p = true) :
    StartOk ps0 tr done.length ((done ++ p :: rest).map (fun q => q.Traversed)) := by
  have hlen := h.len
  refine ⟨by simpa using hlen, ?_⟩
  have hi : done.length < ps0.length := by
    rw [← hlen]; simp
  refine ⟨ps0[done.length], List.getElem?_eq_getElem hi, ?_, ?_⟩
  · have hev := h.rel done.length ps0[done.length] p (List.getElem?_eq_getElem hi)
      (getElem?_middle done rest p)
    have := hev.eq_of_untraversed hp
    rw [← this]; exact hp
  · intro j q hq hmem
    have hev := h.rel done.length ps0[done.length] p (List.getElem?_eq_getElem hi)
      (getElem?_middle done rest p)
    have hpe := hev.eq_of_untraversed hp
    rw [← hpe] at hmem
    have hj : j < (done ++ p :: rest).length := by
      rw [hlen]
      exact (List.getElem?_eq_some.1 hq).1
    have hq1 : (done ++ p :: rest)[j]? = some (done ++ p :: rest)[j] := List.getElem?_eq_getElem hj
    have hevj := h.rel j q _ hq hq1
    have htrav : ((done ++ p :: rest)[j]).Traversed = true :=
      (ready_iff _ _).1 hr q.Name hmem _ (List.getElem_mem hj) hevj.name
    refine ⟨?_, ?_⟩
    · rw [List.getElem?_map, hq1]; simp [htrav]
    · by_cases hq0 : q.Traversed = true
      · exact Or.inl hq0
      · right
        have hq0 : q.Traversed = false := by simpa using hq0
        obtain ⟨flags, hf⟩ := h.busy j q _ hq hq1 hq0 htrav
        refine ⟨flags, ?_⟩
        have : Event.Start j flags ∈ tr.filter (fun e => decide (e.program = j)) := by
          rw [hf]; simp
        exact (List.mem_filter.1 this).1

theorem filter_sourceVisits_self (i : Nat) (sources : List Source) (si : Nat) :
    (sourceVisits i sources si).filter (fun e => decide (e.program = i)) =
      sourceVisits i sources si := by
  rw [List.filter_eq_self]
  intro e he
  obtain ⟨s, j, rfl⟩ := sourceVisits_program i sources si e he
  simp [Event.program]

theorem filter_sourceVisits_ne {i j : Nat} (h : i ≠ j) (sources : List Source) (si : Nat) :
    (sourceVisits i sources si).filter (fun e => decide (e.program = j)) = [] := by
  rw [List.filter_eq_nil_iff]
  intro e he
  obtain ⟨s, k, rfl⟩ := sourceVisits_program i sources si e he
  simp [Event.program, h]

theorem RunInv.step {ps0 done rest : List Program} {p : Program} {tr : List Event}
    {sources1 : List Source}
    (h : RunInv ps0 (done ++ p :: rest) tr) (hp : p.Traversed = false)
    (hr : ready (done ++ p :: rest) p = true)
    (hs : sources1.map Source.Packages = p.Sources.map Source.Packages) :
    RunInv ps0 (done ++ p.traversedWith sources1 :: rest)
      (tr ++ [Event.Start done.length ((done ++ p :: rest).map (fun q => q.Traversed))] ++
        sourceVisits done.length p.Sources 0) := by
  have hlen := h.len
  have hi : done.length < ps0.length := by
    rw [← hlen]; simp
  have hp0 : ps0[done.length]? = some p := by
    have hev := h.rel done.length ps0[done.length] p (List.getElem?_eq_getElem hi)
      (getElem?_middle done rest p)
    rw [List.getElem?_eq_getElem hi, hev.eq_of_untraversed hp]
  constructor
  · simpa using hlen
  · intro j a b ha hb
    by_cases hj : j = done.length
    · subst hj
      rw [getElem?_middle] at hb
      rw [hp0] at ha
      cases ha; cases hb
      exact Or.inr ⟨hp, rfl, rfl, imported_traversedWith _ _ hs⟩
    · rw [getElem?_middle_ne done rest _ p hj] at hb
      exact h.rel j a b ha hb
  · exact (h.traceOk.snoc_start (h.startOk hp hr)).append_visits (fun ev hev => by
      obtain ⟨s, k, rfl⟩ := sourceVisits_program _ _ _ ev hev
      exact ⟨_, s, k, rfl⟩)
  · intro j a b ha hb hcond e he
    by_cases hj : j = done.length
    · subst hj
      rw [getElem?_middle] at hb
      rw [hp0] at ha
      cases ha; cases hb
      rcases hcond with hc | hc
      · simp [Program.traversedWith] at hc
      · rw [hp] at hc; cases hc
    · rw [getElem?_middle_ne done rest _ p hj] at hb
      simp only [List.append_assoc, List.mem_append, List.mem_singleton] at he
      rcases he with he | he | he
      · exact h.idle j a b ha hb hcond e he
      · rw [he]; simpa [Event.program] using Ne.symm hj
      · obtain ⟨s, k, rfl⟩ := sourceVisits_program _ _ _ e he
        simpa [Event.program] using Ne.symm hj
  · intro j a b ha hb h1 h2
    by_cases hj : j = done.length
    · subst hj
      rw [hp0] at ha
      cases ha
      refine ⟨(done ++ p :: rest).map (fun q => q.Traversed), ?_⟩
      have hidle := h.idle done.length p p hp0 (getElem?_middle done rest p) (Or.inl hp)
      have hnil : tr.filter (fun e => decide (e.program = done.length)) = [] := by
        rw [List.filter_eq_nil_iff]
        intro e he
        simpa using hidle e he
      rw [List.append_assoc, List.filter_append, hnil, List.nil_append, List.singleton_append,
        List.filter_cons_of_pos (by simp [Event.program]), filter_sourceVisits_self]
    · rw [getElem?_middle_ne done rest _ p hj] at hb
      obtain ⟨flags, hf⟩ := h.busy j a b ha hb h1 h2
      refine ⟨flags, ?_⟩
      rw [List.append_assoc, List.filter_append, hf, List.singleton_append,
        List.filter_cons_of_neg (by simpa [Event.program] using Ne.symm hj),
        filter_sourceVisits_ne (Ne.symm hj), List.append_nil]

theorem RunInv.toAbortInv {ps0 ps : List Program} {tr : List Event} (h : RunInv ps0 ps tr) :
    AbortInv ps0 ps tr := ⟨h.len, h.rel, h.traceOk⟩

theorem scanLoop_inv (ps0 : List Program) :
    ∀ (todo done : List Program) (vs : Vars) (tr : List Event) (ok : Bool),
      RunInv ps0 (done ++ todo) tr → ScanInv ps0 (scanLoop done todo vs tr ok)
  | [], done, vs, tr, ok, h => by
    simpa [scanLoop, ScanInv] using h
  | p :: rest, done, vs, tr, ok, h => by
    have hassoc : ∀ x : Program, (done ++ [x]) ++ rest = done ++ x :: rest := by
      intro x; simp
    unfold scanLoop
    by_cases hp : p.Traversed = true
    · rw [if_pos hp]
      exact scanLoop_inv ps0 rest (done ++ [p]) vs tr ok (by rw [hassoc]; exact h)
    · rw [if_neg hp]
      have hp : p.Traversed = false := by simpa using hp
      by_cases hr : ready (done ++ p :: rest) p = true
      · rw [if_pos hr]
        cases hts : traverseSources (done ++ p :: rest) p done.length p.Sources 0 vs
            (tr ++ [.Start done.length ((done ++ p :: rest).map (fun q => q.Traversed))]) with
        | error e =>
          obtain ⟨e, tr1⟩ := e
          obtain ⟨extra, hx, hv⟩ := traverseSources_error _ _ _ _ hts
          simp only [ScanInv]
          refine ⟨h.len, h.rel, ?_⟩
          rw [hx]
          exact (h.traceOk.snoc_start (h.startOk hp hr)).append_visits (fun ev hev => by
            obtain ⟨s, k, rfl⟩ := hv ev hev
            exact ⟨_, s, k, rfl⟩)
        | ok r =>
          obtain ⟨sources1, vs1, tr1⟩ := r
          obtain ⟨htr, hs⟩ := traverseSources_ok _ _ _ _ hts
          simp only []
          refine scanLoop_inv ps0 rest (done ++ [p.traversedWith sources1]) vs1 tr1 false ?_
          rw [hassoc, htr]
          exact h.step hp hr hs
      · rw [if_neg hr]
        exact scanLoop_inv ps0 rest (done ++ [p]) vs tr false (by rw [hassoc]; exact h)

theorem SemanticLoop_inv (ps0 : List Program) :
    ∀ (fuel : Nat) (ps : List Program) (vs : Vars) (tr : List Event),
      RunInv ps0 ps tr → OutcomeInv ps0 (SemanticLoop fuel ps vs tr)
  | 0, ps, vs, tr, h => by simpa [SemanticLoop, OutcomeInv] using h
  | fuel + 1, ps, vs, tr, h => by
    have hs := scanLoop_inv ps0 ps [] vs tr true (by simpa using h)
    unfold SemanticLoop
    cases hscan : scanLoop [] ps vs tr true with
    | error e =>
      obtain ⟨e, ps1, tr1⟩ := e
      rw [hscan] at hs
      simpa [OutcomeInv, ScanInv] using hs
    | ok r =>
      obtain ⟨ps1, vs1, tr1, ok⟩ := r
      rw [hscan] at hs
      simp only [ScanInv] at hs
      cases ok with
      | true => simpa [OutcomeInv] using hs
      | false => simpa using SemanticLoop_inv ps0 fuel ps1 vs1 tr1 hs

theorem Semantic_inv (fuel : Nat) (ps : List Program) (vs : Vars) :
    OutcomeInv ps (Semantic fuel ps vs) :=
  SemanticLoop_inv ps fuel ps vs [] (RunInv.init ps)

theorem scanLoop_all_traversed :
    ∀ (todo done : List Program) (vs : Vars) (tr : List Event) (ok : Bool),
      (∀ p ∈ todo, p.Traversed = true) →
      scanLoop done todo vs tr ok = .ok (done ++ todo, vs, tr, ok)
  | [], done, vs, tr, ok, _ => by simp [scanLoop]
  | p :: rest, done, vs, tr, ok, h => by
    have hp : p.Traversed = true := h p (List.mem_cons_self _ _)
    unfold scanLoop
    rw [if_pos hp, scanLoop_all_traversed rest (done ++ [p]) vs tr ok
      (fun q hq => h q (List.mem_cons_of_mem _ hq))]
    simp

theorem scanLoop_ok_true :
    ∀ (todo done : List Program) (vs : Vars) (tr : List Event) (ok : Bool)
      {ps1 : List Program} {vs1 : Vars} {tr1 : List Event},
      scanLoop done todo vs tr ok = .ok (ps1, vs1, tr1, true) →
      ok = true ∧ ∀ p ∈ todo, p.Traversed = true
  | [], done, vs, tr, ok, ps1, vs1, tr1, h => by
    simp only [scanLoop, Except.ok.injEq, Prod.mk.injEq] at h
    exact ⟨h.2.2.2, by simp⟩
  | p :: rest, done, vs, tr, ok, ps1, vs1, tr1, h => by
    unfold scanLoop at h
    by_cases hp : p.Traversed = true
    · rw [if_pos hp] at h
      obtain ⟨h1, h2⟩ := scanLoop_ok_true rest (done ++ [p]) vs tr ok h
      refine ⟨h1, ?_⟩
      intro q hq
      rcases List.mem_cons.1 hq with rfl | hq
      · exact hp
      · exact h2 q hq
    · rw [if_neg hp] at h
      by_cases hr : ready (done ++ p :: rest) p = true
      · rw [if_pos hr] at h
        cases hts : traverseSources (done ++ p :: rest) p done.length p.Sources 0 vs
            (tr ++ [.Start done.length ((done ++ p :: rest).map (fun q => q.Traversed))]) with
        | error e =>
          rw [hts] at h
          cases h
        | ok r =>
          obtain ⟨sources1, vs2, tr2⟩ := r
          rw [hts] at h
          simp only [] at h
          have := (scanLoop_ok_true rest _ vs2 tr2 false h).1
          cases this
      · rw [if_neg hr] at h
        have := (scanLoop_ok_true rest _ vs tr false h).1
        cases this

theorem untraversed_middle_false (done rest : List Program) {p : Program}
    (hp : p.Traversed = false) :
    untraversed (done ++ p :: rest) = untraversed done + untraversed rest + 1 := by
  simp [untraversed, List.countP_append, List.countP_cons, hp]
  omega

theorem untraversed_middle_true (done rest : List Program) {p : Program}
    (hp : p.Traversed = true) :
    untraversed (done ++ p :: rest) = untraversed done + untraversed rest := by
  simp [untraversed, List.countP_append, List.countP_cons, hp]

theorem scanLoop_untraversed_le :
    ∀ (todo done : List Program) (vs : Vars) (tr : List Event) (ok : Bool)
      {ps1 : List Program} {vs1 : Vars} {tr1 : List Event} {ok1 : Bool},
      scanLoop done todo vs tr ok = .ok (ps1, vs1, tr1, ok1) →
      untraversed ps1 ≤ untraversed (done ++ todo)
  | [], done, vs, tr, ok, ps1, vs1, tr1, ok1, h => by
    simp only [scanLoop, Except.ok.injEq, Prod.mk.injEq] at h
    rw [← h.1]; simp
  | p :: rest, done, vs, tr, ok, ps1, vs1, tr1, ok1, h => by
    have hassoc : ∀ x : Program, (done ++ [x]) ++ rest = done ++ x :: rest := by
      intro x; simp
    unfold scanLoop at h
    by_cases hp : p.Traversed = true
    · rw [if_pos hp] at h
      have := scanLoop_untraversed_le rest (done ++ [p]) vs tr ok h
      rwa [hassoc] at this
    · rw [if_neg hp] at h
      have hp : p.Traversed = false := by simpa using hp
      by_cases hr : ready (done ++ p :: rest) p = true
      · rw [if_pos hr] at h
        cases hts : traverseSources (done ++ p :: rest) p done.length p.Sources 0 vs
            (tr ++ [.Start done.length ((done ++ p :: rest).map (fun q => q.Traversed))]) with
        | error e =>
          rw [hts] at h
          cases h
        | ok r =>
          obtain ⟨sources1, vs2, tr2⟩ := r
          rw [hts] at h
          simp only [] at h
          have := scanLoop_untraversed_le rest _ vs2 tr2 false h
          rw [hassoc, untraversed_middle_true done rest
            (show (p.traversedWith sources1).Traversed = true from rfl)] at this
          rw [untraversed_middle_false done rest hp]
          omega
      · rw [if_neg hr] at h
        have := scanLoop_untraversed_le rest (done ++ [p]) vs tr false h
        rwa [hassoc] at this

theorem scanLoop_progress :
    ∀ (todo done : List Program) (vs : Vars) (tr : List Event) (ok : Bool)
      {ps1 : List Program} {vs1 : Vars} {tr1 : List Event} {ok1 : Bool},
      (∃ p ∈ todo, p.Traversed = false ∧ ready (done ++ todo) p = true) →
      scanLoop done todo vs tr ok = .ok (ps1, vs1, tr1, ok1) →
      untraversed ps1 < untraversed (done ++ todo)
  | [], done, vs, tr, ok, ps1, vs1, tr1, ok1, hex, h => by
    obtain ⟨p, hp, _⟩ := hex
    simp at hp
  | p :: rest, done, vs, tr, ok, ps1, vs1, tr1, ok1, hex, h => by
    have hassoc : ∀ x : Program, (done ++ [x]) ++ rest = done ++ x :: rest := by
      intro x; simp
    obtain ⟨q, hq, hqt, hqr⟩ := hex
    unfold scanLoop at h
    by_cases hp : p.Traversed = true
    · rw [if_pos hp] at h
      have hq' : q ∈ rest := by
        rcases List.mem_cons.1 hq with rfl | hq
        · rw [hp] at hqt; cases hqt
        · exact hq
      have := scanLoop_progress rest (done ++ [p]) vs tr ok
        ⟨q, hq', hqt, by rw [hassoc]; exact hqr⟩ h
      rwa [hassoc] at this
    · rw [if_neg hp] at h
      have hp : p.Traversed = false := by simpa using hp
      by_cases hr : ready (done ++ p :: rest) p = true
      · rw [if_pos hr] at h
        cases hts : traverseSources (done ++ p :: rest) p done.length p.Sources 0 vs
            (tr ++ [.Start done.length ((done ++ p :: rest).map (fun q => q.Traversed))]) with
        | error e =>
          rw [hts] at h
          cases h
        | ok r =>
          obtain ⟨sources1, vs2, tr2⟩ := r
          rw [hts] at h
          simp only [] at h
          have := scanLoop_untraversed_le rest _ vs2 tr2 false h
          rw [hassoc, untraversed_middle_true done rest
            (show (p.traversedWith sources1).Traversed = true from rfl)] at this
          rw [untraversed_middle_false done rest hp]
          omega
      · rw [if_neg hr] at h
        have hq' : q ∈ rest := by
          rcases List.mem_cons.1 hq with rfl | hq
          · exact absurd hqr hr
          · exact hq
        have := scanLoop_progress rest (done ++ [p]) vs tr false
          ⟨q, hq', hqt, by rw [hassoc]; exact hqr⟩ h
        rwa [hassoc] at this

theorem Acyclic.exists_minimal {ps : List Program} (hac : Acyclic ps)
    (S : Set (Fin ps.length)) (hS : S.Nonempty) :
    ∃ m ∈ S, ∀ x ∈ S, ¬ Imports ps m x := by
  let r : Fin ps.length → Fin ps.length → Prop := fun a b => Relation.TransGen (Imports ps) b a
  have htrans : IsTrans (Fin ps.length) r := ⟨fun a b c hab hbc => Relation.TransGen.trans hbc hab⟩
  have hirr : IsIrrefl (Fin ps.length) r := ⟨fun a h => hac a h⟩
  have hwf : WellFounded r := Finite.wellFounded_of_trans_of_irrefl r
  obtain ⟨m, hm, hmin⟩ := hwf.has_min S hS
  exact ⟨m, hm, fun x hx himp => hmin x hx (Relation.TransGen.single himp)⟩

theorem RunInv.exists_ready {ps0 ps : List Program} {tr : List Event} (h : RunInv ps0 ps tr)
    (hac : Acyclic ps0) (hex : ∃ p ∈ ps, p.Traversed = false) :
    ∃ p ∈ ps, p.Traversed = false ∧ ready ps p = true := by
  have hlen := h.len
  obtain ⟨p, hp, hpt⟩ := hex
  obtain ⟨k, hk, hkp⟩ := List.getElem_of_mem hp
  let S : Set (Fin ps0.length) := {i | ∃ q, ps[i.1]? = some q ∧ q.Traversed = false}
  have hS : S.Nonempty := ⟨⟨k, hlen ▸ hk⟩, p, by simp [List.getElem?_eq_getElem hk, hkp], hpt⟩
  obtain ⟨m, ⟨q, hq, hqt⟩, hmin⟩ := hac.exists_minimal S hS
  have hq0 : ps0[m.1]? = some q := by
    have hm0 : ps0[m.1]? = some ps0[m.1] := List.getElem?_eq_getElem m.2
    have := (h.rel m.1 _ q hm0 hq).eq_of_untraversed hqt
    rw [hm0, this]
  refine ⟨q, List.getElem?_mem hq, hqt, ?_⟩
  rw [ready_iff]
  intro name hname prog hprog hpn
  obtain ⟨x, hx, hxp⟩ := List.getElem_of_mem hprog
  by_contra hcon
  have hpt : prog.Traversed = false := by simpa using hcon
  have hx0 : x < ps0.length := hlen ▸ hx
  have hxq : ps[x]? = some prog := by rw [List.getElem?_eq_getElem hx, hxp]
  have hxS : (⟨x, hx0⟩ : Fin ps0.length) ∈ S := ⟨prog, hxq, hpt⟩
  apply hmin ⟨x, hx0⟩ hxS
  have hx00 : ps0[x]? = some ps0[x] := List.getElem?_eq_getElem hx0
  have hprog0 := (h.rel x _ prog hx00 hxq).eq_of_untraversed hpt
  have hm0 : ps0[m.1] = q := by
    have := List.getElem?_eq_getElem m.2
    rw [hq0] at this
    exact (Option.some.inj this).symm
  show (ps0.get ⟨x, hx0⟩).Name ∈ imported (ps0.get m)
  simp only [List.get_eq_getElem]
  rw [hm0, ← hprog0, hpn]
  exact hname

theorem SemanticLoop_stops (ps0 : List Program) (hac : Acyclic ps0) :
    ∀ (n : Nat) (ps : List Program) (vs : Vars) (tr : List Event),
      RunInv ps0 ps tr → untraversed ps ≤ n → (SemanticLoop (n + 1) ps vs tr).Stopped := by
  intro n
  induction n with
  | zero =>
    intro ps vs tr h hn
    have hall : ∀ p ∈ ps, p.Traversed = true := by
      intro p hp
      have : untraversed ps = 0 := by omega
      simp only [untraversed, List.countP_eq_zero] at this
      simpa using this p hp
    simp only [SemanticLoop, scanLoop_all_traversed ps [] vs tr true hall, List.nil_append,
      if_true, Outcome.Stopped]
    exact hall
  | succ n ih =>
    intro ps vs tr h hn
    unfold SemanticLoop
    cases hscan : scanLoop [] ps vs tr true with
    | error e =>
      obtain ⟨e, ps1, tr1⟩ := e
      simp [Outcome.Stopped]
    | ok r =>
      obtain ⟨ps1, vs1, tr1, ok⟩ := r
      cases ok with
      | true =>
        have hall := (scanLoop_ok_true ps [] vs tr true hscan).2
        rw [scanLoop_all_traversed ps [] vs tr true hall] at hscan
        simp only [List.nil_append, Except.ok.injEq, Prod.mk.injEq] at hscan
        simp only [if_true, Outcome.Stopped]
        rw [← hscan.1]
        exact hall
      | false =>
        simp only [Bool.false_eq_true, if_false]
        have hinv : RunInv ps0 ps1 tr1 := by
          have := scanLoop_inv ps0 ps [] vs tr true (by simpa using h)
          rw [hscan] at this
          exact this
        have hex : ∃ p ∈ ps, p.Traversed = false := by
          by_contra hcon
          have hall : ∀ p ∈ ps, p.Traversed = true := by
            intro p hp
            by_contra hpt
            exact hcon ⟨p, hp, by simpa using hpt⟩
          rw [scanLoop_all_traversed ps [] vs tr true hall] at hscan
          simp at hscan
        have hlt := scanLoop_progress ps [] vs tr true
          (by simpa using h.exists_ready hac hex) hscan
        simp only [List.nil_append] at hlt
        exact ih ps1 vs1 tr1 hinv (by omega)

theorem OutcomeInv.toAbort {ps0 : List Program} {o : Outcome} (h : OutcomeInv ps0 o) :
    AbortInv ps0 o.programs o.trace := by
  cases o with
  | Returned ps vs tr => exact RunInv.toAbortInv h
  | Aborted e ps tr => exact h
  | OutOfFuel ps vs tr => exact RunInv.toAbortInv h

theorem Acyclic.of_rank {ps : List Program} (rank : Fin ps.length → Nat)
    (h : ∀ i j, Imports ps i j → rank j < rank i) : Acyclic ps := by
  have key : ∀ i j, Relation.TransGen (Imports ps) i j → rank j < rank i := by
    intro i j hij
    induction hij with
    | single hab => exact h _ _ hab
    | tail _ hbc ih => exact Nat.lt_trans (h _ _ hbc) ih
  intro i hi
  exact Nat.lt_irrefl _ (key i i hi)

theorem chainPrograms_acyclic : Acyclic chainPrograms := by
  refine Acyclic.of_rank (fun i => if i.1 = 0 then 1 else 0) ?_
  intro i j hij
  have hi : i.1 < 2 := i.2
  have hj : j.1 < 2 := j.2
  obtain ⟨i, _⟩ := i
  obtain ⟨j, _⟩ := j
  simp only at hi hj
  interval_cases i <;> interval_cases j <;>
    simp [Imports, chainPrograms, exampleProgram, imported] at hij ⊢

mutual
theorem TypeCompatable_self : ∀ t : Ty, TypeCompatable t t = true
  | .int | .rune | .bool | .string | .void | .undefined | .stmt => by simp [TypeCompatable]
  | .ptr e => by simpa [TypeCompatable] using TypeCompatable_self e
  | .array e n => by simpa [TypeCompatable] using TypeCompatable_self e
  | .slice e => by simpa [TypeCompatable] using TypeCompatable_self e
  | .struct _ _ => by simp [TypeCompatable]
  | .userDefined _ _ => by simp [TypeCompatable]
  | .multiple ts => by simpa [TypeCompatable] using TypeCompatableList_self ts
theorem TypeCompatableList_self : ∀ ts : List Ty, TypeCompatableList ts ts = true
  | [] => by simp [TypeCompatableList]
  | t :: ts => by
    simp [TypeCompatableList, TypeCompatable_self t, TypeCompatableList_self ts]
end

theorem TypeCompatable_undefined_right (t : Ty) : TypeCompatable t .undefined = true := by
  cases t <;> simp [TypeCompatable]

theorem TypeEquals_undefined_right (t : Ty) (h : TypeEquals t .undefined = true) :
    t = .undefined := by
  cases t <;> simp [TypeEquals] at h ⊢

theorem Except.bind_ok_inv {ε α β : Type} {x : Except ε α} {f : α → Except ε β} {b : β}
    (h : (x >>= f) = .ok b) : ∃ a, x = .ok a ∧ f a = .ok b := by
  cases x with
  | error e => cases h
  | ok a => exact ⟨a, rfl, h⟩

mutual
theorem traverse_expr_vars (programs : List Program) (program : Program) :
    ∀ (n : Node) (vs : Vars) (t : Ty) (n1 : Node) (vs1 : Vars), n.IsExpr = true →
      traverse programs program n vs = .ok (t, n1, vs1) → vs1 = vs
  | .NodeLenCall _ a, vs, t, n1, vs1, he, h => by
    rw [traverse] at h
    obtain ⟨⟨t2, a1, vs2⟩, h1, h2⟩ := Except.bind_ok_inv h
    have := traverse_expr_vars programs program a vs t2 a1 vs2 (by simpa [Node.IsExpr] using he) h1
    subst this
    simp only [pure, Except.pure, throw, throwThe, MonadExceptOf.throw] at h2
    split at h2
    · simp only [Except.ok.injEq, Prod.mk.injEq] at h2
      exact h2.2.2.symm
    · cases h2
  | .NodePackageDot _ _ c, vs, t, n1, vs1, he, h => by
    rw [traverse] at h
    obtain ⟨⟨t2, a1, vs2⟩, h1, h2⟩ := Except.bind_ok_inv h
    have := traverse_expr_vars programs program c vs t2 a1 vs2 (by simpa [Node.IsExpr] using he) h1
    subst this
    simp only [pure, Except.pure, Except.ok.injEq, Prod.mk.injEq] at h2
    exact h2.2.2.symm
  | .NodeExprList _ cs, vs, t, n1, vs1, he, h => by
    rw [traverse] at h
    obtain ⟨⟨ts, cs1, vs2⟩, h1, h2⟩ := Except.bind_ok_inv h
    have := traverseList_expr_vars programs program cs vs ts cs1 vs2
      (by simpa [Node.IsExpr] using he) h1
    subst this
    simp only [pure, Except.pure, throw, throwThe, MonadExceptOf.throw] at h2
    split at h2
    · simp only [Except.ok.injEq, Prod.mk.injEq] at h2
      exact h2.2.2.symm
    · split at h2
      · cases h2
      · simp only [Except.ok.injEq, Prod.mk.injEq] at h2
        exact h2.2.2.symm
  | .NodeNot _ x, vs, t, n1, vs1, he, h => by
    rw [traverse] at h
    obtain ⟨⟨t2, a1, vs2⟩, h1, h2⟩ := Except.bind_ok_inv h
    have := traverse_expr_vars programs program x vs t2 a1 vs2 (by simpa [Node.IsExpr] using he) h1
    subst this
    simp only [pure, Except.pure, throw, throwThe, MonadExceptOf.throw, bind, Except.bind] at h2
    split at h2
    · cases h2
    · simp only [Except.ok.injEq, Prod.mk.injEq] at h2
      exact h2.2.2.symm
  | .NodeAddr _ x, vs, t, n1, vs1, he, h => by
    rw [traverse] at h
    obtain ⟨⟨t2, a1, vs2⟩, h1, h2⟩ := Except.bind_ok_inv h
    have := traverse_expr_vars programs program x vs t2 a1 vs2 (by simpa [Node.IsExpr] using he) h1
    subst this
    simp only [pure, Except.pure, Except.ok.injEq, Prod.mk.injEq] at h2
    exact h2.2.2.symm
  | .NodeDeref _ x, vs, t, n1, vs1, he, h => by
    rw [traverse] at h
    obtain ⟨⟨t2, a1, vs2⟩, h1, h2⟩ := Except.bind_ok_inv h
    have := traverse_expr_vars programs program x vs t2 a1 vs2 (by simpa [Node.IsExpr] using he) h1
    subst this
    simp only [pure, Except.pure, throw, throwThe, MonadExceptOf.throw, bind, Except.bind] at h2
    split at h2
    · cases h2
    · split at h2
      · cases h2
      · simp only [Except.ok.injEq, Prod.mk.injEq] at h2
        exact h2.2.2.symm
  | .NodeFunctionCall _ pkg label as, vs, t, n1, vs1, he, h => by
    rw [traverse] at h
    split at h
    · cases h
    · split at h
      · obtain ⟨⟨ts, as1, vs2⟩, h1, h2⟩ := Except.bind_ok_inv h
        have := traverseList_expr_vars programs program as vs ts as1 vs2
          (by simpa [Node.IsExpr] using he) h1
        subst this
        simp only [pure, Except.pure, Except.ok.injEq, Prod.mk.injEq] at h2
        exact h2.2.2.symm
      · rename_i fn _
        simp only [pure, Except.pure, throw, throwThe, MonadExceptOf.throw, bind, Except.bind] at h
        split at h
        · cases h
        · cases h1 : traverseArguments programs program fn.ParameterTypes as vs with
          | error e => simp [h1] at h
          | ok r =>
            obtain ⟨as1, vs2⟩ := r
            have := traverseArguments_expr_vars programs program fn.ParameterTypes as vs as1 vs2
              (by simpa [Node.IsExpr] using he) h1
            subst this
            simp only [h1, Except.ok.injEq, Prod.mk.injEq] at h
            exact h.2.2.symm
  | .NodeNum _ _, vs, t, n1, vs1, he, h => by
    rw [traverse] at h
    simp only [Except.ok.injEq, Prod.mk.injEq] at h
    exact h.2.2.symm
  | .NodeBool _ _, vs, t, n1, vs1, he, h => by
    rw [traverse] at h
    simp only [Except.ok.injEq, Prod.mk.injEq] at h
    exact h.2.2.symm
  | .NodeLocalVariable _ _, vs, t, n1, vs1, he, h => by
    rw [traverse] at h
    simp only [Except.ok.injEq, Prod.mk.injEq] at h
    exact h.2.2.symm
  | .NodeTopLevelVariable _ _ _, vs, t, n1, vs1, he, h => by
    rw [traverse] at h
    split at h
    · cases h
    · simp only [pure, Except.pure, Except.ok.injEq, Prod.mk.injEq] at h
      exact h.2.2.symm
  | .NodeString _ _, vs, t, n1, vs1, he, h => by
    rw [traverse] at h
    simp only [Except.ok.injEq, Prod.mk.injEq] at h
    exact h.2.2.symm
  | .NodeIndex _ s i, vs, t, n1, vs1, he, h => by
    rw [traverse] at h
    simp only [Node.IsExpr, Bool.and_eq_true] at he
    obtain ⟨⟨t2, a1, vs2⟩, h1, h2⟩ := Except.bind_ok_inv h
    obtain ⟨⟨t3, a3, vs3⟩, h3, h4⟩ := Except.bind_ok_inv h2
    have e1 := traverse_expr_vars programs program s vs t2 a1 vs2 he.1 h1
    subst e1
    have e2 := traverse_expr_vars programs program i vs2 t3 a3 vs3 he.2 h3
    subst e2
    simp only [pure, Except.pure, throw, throwThe, MonadExceptOf.throw, bind, Except.bind] at h4
    split at h4
    · cases h4
    · split at h4
      · cases h4
      · split at h4
        · cases h4
        · simp only [Except.ok.injEq, Prod.mk.injEq] at h4
          exact h4.2.2.symm
  | .NodeAppendCall _ a b, vs, t, n1, vs1, he, h => by
    rw [traverse] at h
    simp only [Node.IsExpr, Bool.and_eq_true] at he
    obtain ⟨⟨t2, a1, vs2⟩, h1, h2⟩ := Except.bind_ok_inv h
    obtain ⟨⟨t3, a3, vs3⟩, h3, h4⟩ := Except.bind_ok_inv h2
    have e1 := traverse_expr_vars programs program a vs t2 a1 vs2 he.1 h1
    subst e1
    have e2 := traverse_expr_vars programs program b vs2 t3 a3 vs3 he.2 h3
    subst e2
    simp only [pure, Except.pure, throw, throwThe, MonadExceptOf.throw, bind, Except.bind] at h4
    split at h4
    · cases h4
    · split at h4
      · cases h4
      · split at h4
        · simp only [Except.ok.injEq, Prod.mk.injEq] at h4
          exact h4.2.2.symm
        · cases h4
  | .NodeStringCall _ a, vs, t, n1, vs1, he, h => by
    rw [traverse] at h
    obtain ⟨⟨t2, a1, vs2⟩, h1, h2⟩ := Except.bind_ok_inv h
    have := traverse_expr_vars programs program a vs t2 a1 vs2 (by simpa [Node.IsExpr] using he) h1
    subst this
    simp only [pure, Except.pure, Except.ok.injEq, Prod.mk.injEq] at h2
    exact h2.2.2.symm
  | .NodeRuneCall _ a, vs, t, n1, vs1, he, h => by
    rw [traverse] at h
    obtain ⟨⟨t2, a1, vs2⟩, h1, h2⟩ := Except.bind_ok_inv h
    have := traverse_expr_vars programs program a vs t2 a1 vs2 (by simpa [Node.IsExpr] using he) h1
    subst this
    simp only [pure, Except.pure, throw, throwThe, MonadExceptOf.throw, bind, Except.bind] at h2
    split at h2
    · cases h2
    · simp only [Except.ok.injEq, Prod.mk.injEq] at h2
      exact h2.2.2.symm
  | .NodeSliceLiteral _ lt cs, vs, t, n1, vs1, he, h => by
    rw [traverse] at h
    obtain ⟨⟨cs1, vs2⟩, h1, h2⟩ := Except.bind_ok_inv h
    have := traverseElements_expr_vars programs program lt cs vs cs1 vs2
      (by simpa [Node.IsExpr] using he) h1
    subst this
    simp only [pure, Except.pure, Except.ok.injEq, Prod.mk.injEq] at h2
    exact h2.2.2.symm
  | .NodeStructLiteral _ lt names values, vs, t, n1, vs1, he, h => by
    rw [traverse] at h
    split at h
    · cases h
    · rename_i entityType _
      obtain ⟨⟨values1, vs2⟩, h1, h2⟩ := Except.bind_ok_inv h
      have := traverseMembers_expr_vars programs program entityType names values vs values1 vs2
        (by simpa [Node.IsExpr] using he) h1
      subst this
      simp only [pure, Except.pure, Except.ok.injEq, Prod.mk.injEq] at h2
      exact h2.2.2.symm
  | .NodeDot _ o m, vs, t, n1, vs1, he, h => by
    rw [traverse] at h
    obtain ⟨⟨t2, a1, vs2⟩, h1, h2⟩ := Except.bind_ok_inv h
    have := traverse_expr_vars programs program o vs t2 a1 vs2 (by simpa [Node.IsExpr] using he) h1
    subst this
    simp only [pure, Except.pure, throw, throwThe, MonadExceptOf.throw] at h2
    split at h2
    · obtain ⟨t3, _, h3⟩ := Except.bind_ok_inv h2
      simp only [Except.ok.injEq, Prod.mk.injEq] at h3
      exact h3.2.2.symm
    · obtain ⟨t3, _, h3⟩ := Except.bind_ok_inv h2
      simp only [Except.ok.injEq, Prod.mk.injEq] at h3
      exact h3.2.2.symm
    · cases h2
  | .NodeBinary _ k l r, vs, t, n1, vs1, he, h => by
    rw [traverse] at h
    simp only [Node.IsExpr, Bool.and_eq_true] at he
    obtain ⟨⟨t2, a1, vs2⟩, h1, h2⟩ := Except.bind_ok_inv h
    obtain ⟨⟨t3, a3, vs3⟩, h3, h4⟩ := Except.bind_ok_inv h2
    have e1 := traverse_expr_vars programs program l vs t2 a1 vs2 he.1 h1
    subst e1
    have e2 := traverse_expr_vars programs program r vs2 t3 a3 vs3 he.2 h3
    subst e2
    simp only [pure, Except.pure, throw, throwThe, MonadExceptOf.throw, bind, Except.bind] at h4
    split at h4
    · cases h4
    · split at h4
      · cases h4
      · simp only [Except.ok.injEq, Prod.mk.injEq] at h4
        exact h4.2.2.symm
  | .NodeMarker _ _, _, _, _, _, he, _ => by simp [Node.IsExpr] at he
  | .NodeLocalVarList _ _, _, _, _, _, he, _ => by simp [Node.IsExpr] at he
  | .NodeStmtList _ _, _, _, _, _, he, _ => by simp [Node.IsExpr] at he
  | .NodeReturn _ _ _, _, _, _, _, he, _ => by simp [Node.IsExpr] at he
  | .NodeAssign _ _ _, _, _, _, _, he, _ => by simp [Node.IsExpr] at he
  | .NodeShortVarDeclStmt _ _ _, _, _, _, _, he, _ => by simp [Node.IsExpr] at he
  | .NodeMetaIf _ _ _, _, _, _, _, he, _ => by simp [Node.IsExpr] at he
  | .NodeIf _ _ _, _, _, _, _, he, _ => by simp [Node.IsExpr] at he
  | .NodeElse _ _, _, _, _, _, he, _ => by simp [Node.IsExpr] at he
  | .NodeFor _ _ _ _ _, _, _, _, _, he, _ => by simp [Node.IsExpr] at he
  | .NodeFunctionDef _ _ _ _, _, _, _, _, he, _ => by simp [Node.IsExpr] at he
  | .NodeVarStmt _ _ _ _ _, _, _, _, _, he, _ => by simp [Node.IsExpr] at he
  | .NodeExprStmt _ _, _, _, _, _, he, _ => by simp [Node.IsExpr] at he
termination_by structural n => n
theorem traverseList_expr_vars (programs : List Program) (program : Program) :
    ∀ (cs : List Node) (vs : Vars) (ts : List Ty) (cs1 : List Node) (vs1 : Vars),
      Node.AllExpr cs = true →
      traverseList programs program cs vs = .ok (ts, cs1, vs1) → vs1 = vs
  | [], vs, ts, cs1, vs1, _, h => by
    rw [traverseList] at h
    simp only [Except.ok.injEq, Prod.mk.injEq] at h
    exact h.2.2.symm
  | c :: cs, vs, ts, cs1, vs1, he, h => by
    rw [traverseList] at h
    simp only [Node.AllExpr, Bool.and_eq_true] at he
    obtain ⟨⟨t2, a1, vs2⟩, h1, h2⟩ := Except.bind_ok_inv h
    obtain ⟨⟨t3, a3, vs3⟩, h3, h4⟩ := Except.bind_ok_inv h2
    have e1 := traverse_expr_vars programs program c vs t2 a1 vs2 he.1 h1
    subst e1
    have e2 := traverseList_expr_vars programs program cs vs2 t3 a3 vs3 he.2 h3
    subst e2
    simp only [pure, Except.pure, Except.ok.injEq, Prod.mk.injEq] at h4
    exact h4.2.2.symm
termination_by structural cs => cs
theorem traverseArguments_expr_vars (programs : List Program) (program : Program) :
    ∀ (pts : List Ty) (as : List Node) (vs : Vars) (as1 : List Node) (vs1 : Vars),
      Node.AllExpr as = true →
      traverseArguments programs program pts as vs = .ok (as1, vs1) → vs1 = vs
  | _, [], vs, as1, vs1, _, h => by
    rw [traverseArguments] at h
    simp only [Except.ok.injEq, Prod.mk.injEq] at h
    exact h.2.symm
  | [], _ :: _, vs, as1, vs1, _, h => by
    rw [traverseArguments] at h
    cases h
  | pt :: pts, a :: as, vs, as1, vs1, he, h => by
    rw [traverseArguments] at h
    simp only [Node.AllExpr, Bool.and_eq_true] at he
    obtain ⟨⟨t2, a1, vs2⟩, h1, h2⟩ := Except.bind_ok_inv h
    have e1 := traverse_expr_vars programs program a vs t2 a1 vs2 he.1 h1
    subst e1
    simp only [pure, Except.pure, throw, throwThe, MonadExceptOf.throw, bind, Except.bind] at h2
    split at h2
    · cases h2
    · cases h3 : traverseArguments programs program pts as vs2 with
      | error e => simp [h3] at h2
      | ok r =>
        obtain ⟨as2, vs3⟩ := r
        have e2 := traverseArguments_expr_vars programs program pts as vs2 as2 vs3 he.2 h3
        subst e2
        simp only [h3, Except.ok.injEq, Prod.mk.injEq] at h2
        exact h2.2.symm
termination_by structural _ as => as
theorem traverseElements_expr_vars (programs : List Program) (program : Program)
    (literalType : Ty) :
    ∀ (cs : List Node) (vs : Vars) (cs1 : List Node) (vs1 : Vars),
      Node.AllExpr cs = true →
      traverseElements programs program literalType cs vs = .ok (cs1, vs1) → vs1 = vs
  | [], vs, cs1, vs1, _, h => by
    rw [traverseElements] at h
    simp only [Except.ok.injEq, Prod.mk.injEq] at h
    exact h.2.symm
  | c :: cs, vs, cs1, vs1, he, h => by
    rw [traverseElements] at h
    simp only [Node.AllExpr, Bool.and_eq_true] at he
    obtain ⟨⟨t2, a1, vs2⟩, h1, h2⟩ := Except.bind_ok_inv h
    have e1 := traverse_expr_vars programs program c vs t2 a1 vs2 he.1 h1
    subst e1
    simp only [pure, Except.pure, throw, throwThe, MonadExceptOf.throw, bind, Except.bind] at h2
    split at h2
    · cases h2
    · split at h2
      · cases h2
      · cases h3 : traverseElements programs program literalType cs vs2 with
        | error e => simp [h3] at h2
        | ok r =>
          obtain ⟨cs2, vs3⟩ := r
          have e2 := traverseElements_expr_vars programs program literalType cs vs2 cs2 vs3
            he.2 h3
          subst e2
          simp only [h3, Except.ok.injEq, Prod.mk.injEq] at h2
          exact h2.2.symm
termination_by structural cs => cs
theorem traverseMembers_expr_vars (programs : List Program) (program : Program)
    (entityType : Ty) :
    ∀ (names : List String) (values : List Node) (vs : Vars) (values1 : List Node) (vs1 : Vars),
      Node.AllExpr values = true →
      traverseMembers programs program entityType names values vs = .ok (values1, vs1) →
      vs1 = vs
  | [], [], vs, values1, vs1, _, h => by
    rw [traverseMembers] at h
    simp only [Except.ok.injEq, Prod.mk.injEq] at h
    exact h.2.symm
  | _ :: _, [], vs, values1, vs1, _, h => by
    rw [traverseMembers] at h
    cases h
  | [], _ :: _, vs, values1, vs1, _, h => by
    rw [traverseMembers] at h
    simp only [Except.ok.injEq, Prod.mk.injEq] at h
    exact h.2.symm
  | name :: names, value :: values, vs, values1, vs1, he, h => by
    rw [traverseMembers] at h
    simp only [Node.AllExpr, Bool.and_eq_true] at he
    obtain ⟨⟨t2, a1, vs2⟩, h1, h2⟩ := Except.bind_ok_inv h
    have e1 := traverse_expr_vars programs program value vs t2 a1 vs2 he.1 h1
    subst e1
    obtain ⟨found, _, h3⟩ := Except.bind_ok_inv h2
    simp only [pure, Except.pure, throw, throwThe, MonadExceptOf.throw, bind, Except.bind] at h3
    split at h3
    · cases h3
    · cases h4 : traverseMembers programs program entityType names values vs2 with
      | error e => simp [h4] at h3
      | ok r =>
        obtain ⟨values2, vs3⟩ := r
        have e2 := traverseMembers_expr_vars programs program entityType names values vs2
          values2 vs3 he.2 h4
        subst e2
        simp only [h4, Except.ok.injEq, Prod.mk.injEq] at h3
        exact h3.2.symm
termination_by structural _ values => values
end

theorem traverseList_localVariables (programs : List Program) (program : Program) (vs : Vars) :
    ∀ xs : List (Ty × Nat),
      traverseList programs program (xs.map (fun x => Node.NodeLocalVariable x.1 x.2)) vs =
        .ok (xs.map (fun x => (vs x.2).Typ),
          xs.map (fun x => Node.NodeLocalVariable (vs x.2).Typ x.2), vs)
  | [] => by simp [traverseList]
  | x :: xs => by
    simp only [List.map_cons]
    rw [traverseList, traverse]
    simp [bind, Except.bind, traverseList_localVariables programs program vs xs, pure,
      Except.pure]

theorem Vars.setType_typ_self (vs : Vars) (v : Nat) (t : Ty) : ((vs.setType v t) v).Typ = t := by
  simp [Vars.setType, Vars.set]

theorem Vars.setType_other (vs : Vars) {v w : Nat} (t : Ty) (h : w ≠ v) :
    (vs.setType v t) w = vs w := by
  simp [Vars.setType, Vars.set, h]

theorem bindShortVarDecl_multiple (cs : List Ty) :
    ∀ (ys : List (Ty × Nat)) (i : Nat) (vs : Vars), i + ys.length ≤ cs.length →
      ∃ vs3, bindShortVarDecl (.multiple cs)
          (ys.map (fun x => Node.NodeLocalVariable x.1 x.2)) i vs =
          .ok (List.zipWith (fun x c => Node.NodeLocalVariable c x.2) ys (cs.drop i), vs3) ∧
        (∀ v, v ∉ ys.map Prod.snd → vs3 v = vs v) ∧
        ((ys.map Prod.snd).Nodup → ∀ (j : Nat) (x : Ty × Nat), ys[j]? = some x →
          cs[i + j]? = some (vs3 x.2).Typ)
  | [], i, vs, _ => by
    refine ⟨vs, ?_, ?_, ?_⟩
    · simp [bindShortVarDecl]
    · intro v _; rfl
    · intro _ j x hx; simp at hx
  | y :: ys, i, vs, hlen => by
    simp only [List.length_cons] at hlen
    have hi : i < cs.length := by omega
    obtain ⟨vs3, h1, h2, h3⟩ := bindShortVarDecl_multiple cs ys (i + 1)
      (vs.setType y.2 cs[i]) (by omega)
    refine ⟨vs3, ?_, ?_, ?_⟩
    · simp only [List.map_cons]
      rw [bindShortVarDecl]
      simp only [Ty.Kind, if_true, Ty.Components, List.getElem?_eq_getElem hi, Node.Variable, h1,
        Node.setExprType]
      have hd : cs.drop i = cs[i] :: cs.drop (i + 1) := List.drop_eq_getElem_cons hi
      rw [hd, List.zipWith_cons_cons]
    · intro v hv
      simp only [List.map_cons, List.mem_cons, not_or] at hv
      rw [h2 v hv.2, Vars.setType_other _ _ hv.1]
    · intro hnd j x hx
      simp only [List.map_cons, List.nodup_cons] at hnd
      cases j with
      | zero =>
        simp only [List.getElem?_cons_zero, Option.some.injEq] at hx
        subst hx
        rw [h2 _ hnd.1, Vars.setType_typ_self]
        simp [List.getElem?_eq_getElem hi]
      | succ j =>
        simp only [List.getElem?_cons_succ] at hx
        have := h3 hnd.2 j x hx
        rw [← this]
        congr 1
        omega

theorem traverse_localVarList (programs : List Program) (program : Program) (tl : Ty)
    (xs : List (Ty × Nat)) (vs : Vars) :
    traverse programs program
        (.NodeLocalVarList tl (xs.map (fun x => Node.NodeLocalVariable x.1 x.2))) vs =
      .ok (.stmt, .NodeLocalVarList .stmt
        (xs.map (fun x => Node.NodeLocalVariable (vs x.2).Typ x.2)), vs) := by
  rw [traverse, traverseList_localVariables]
  rfl

theorem traverse_exprList_call (programs : List Program) (program : Program) (tr tc : Ty)
    (pkg label : String) (arguments : List Node) (p : Program) (fn : Function) (vs : Vars)
    (t : Ty) (n : Node) (vs1 : Vars)
    (hp : packageToProgram programs pkg = some p) (hf : p.FindFunction label = some fn)
    (h : traverse programs program
      (.NodeExprList tr [.NodeFunctionCall tc pkg label arguments]) vs = .ok (t, n, vs1)) :
    t = fn.ReturnValueType := by
  rw [traverse] at h
  obtain ⟨⟨ts, cs1, vs2⟩, h1, h2⟩ := Except.bind_ok_inv h
  rw [traverseList] at h1
  obtain ⟨⟨t3, c3, vs3⟩, h3, h4⟩ := Except.bind_ok_inv h1
  rw [traverse] at h3
  simp only [hp, hf] at h3
  have h6 : fn.ReturnValueType = t3 := by
    split at h3
    · simp [throw, throwThe, MonadExceptOf.throw, bind, Except.bind] at h3
    · simp only [pure, Except.pure, bind, Except.bind] at h3
      cases ha : traverseArguments programs program fn.ParameterTypes arguments vs with
      | error e => simp [ha] at h3
      | ok r =>
        simp only [ha, Except.ok.injEq, Prod.mk.injEq] at h3
        exact h3.1
  simp only [traverseList, bind, Except.bind, pure, Except.pure, Except.ok.injEq,
    Prod.mk.injEq] at h4
  rw [← h4.1, ← h6] at h2
  simp only [List.length_singleton, gt_iff_lt, Nat.lt_irrefl, if_false, pure, Except.pure,
    Except.ok.injEq, Prod.mk.injEq] at h2
  exact h2.1.symm

theorem Deadlocked.not_ready {S : Nat → Prop} {done rest : List Program} {p : Program}
    (h : Deadlocked S (done ++ p :: rest)) (hS : S done.length) :
    p.Traversed = false ∧ ready (done ++ p :: rest) p = false := by
  obtain ⟨p1, hp1, hpt, j, q, _, hq, hmem⟩ := h done.length hS
  rw [getElem?_middle] at hp1
  cases hp1
  refine ⟨hpt, ?_⟩
  by_contra hcon
  have hr : ready (done ++ p :: rest) p = true := by simpa using hcon
  obtain ⟨q1, hq1, hq1t, _⟩ := h j ‹S j›
  rw [hq] at hq1
  cases hq1
  have := (ready_iff _ _).1 hr q.Name hmem q (List.getElem?_mem hq) rfl
  rw [hq1t] at this
  cases this

theorem Deadlocked.update {S : Nat → Prop} {done rest : List Program} {p p1 : Program}
    (h : Deadlocked S (done ++ p :: rest)) (hS : ¬ S done.length) :
    Deadlocked S (done ++ p1 :: rest) := by
  intro i hi
  have hne : i ≠ done.length := fun he => hS (he ▸ hi)
  obtain ⟨a, ha, hat, j, q, hj, hq, hmem⟩ := h i hi
  have hnej : j ≠ done.length := fun he => hS (he ▸ hj)
  refine ⟨a, ?_, hat, j, q, hj, ?_, hmem⟩
  · rw [getElem?_middle_ne done rest p1 p hne]; exact ha
  · rw [getElem?_middle_ne done rest p1 p hnej]; exact hq

theorem scanLoop_deadlocked (S : Nat → Prop) :
    ∀ (todo done : List Program) (vs : Vars) (tr : List Event) (ok : Bool)
      {ps1 : List Program} {vs1 : Vars} {tr1 : List Event} {ok1 : Bool},
      Deadlocked S (done ++ todo) →
      scanLoop done todo vs tr ok = .ok (ps1, vs1, tr1, ok1) →
      Deadlocked S ps1
  | [], done, vs, tr, ok, ps1, vs1, tr1, ok1, hd, h => by
    simp only [scanLoop, Except.ok.injEq, Prod.mk.injEq] at h
    rw [← h.1]
    simpa using hd
  | p :: rest, done, vs, tr, ok, ps1, vs1, tr1, ok1, hd, h => by
    have hassoc : ∀ x : Program, (done ++ [x]) ++ rest = done ++ x :: rest := by
      intro x; simp
    unfold scanLoop at h
    by_cases hp : p.Traversed = true
    · rw [if_pos hp] at h
      exact scanLoop_deadlocked S rest (done ++ [p]) vs tr ok (by rw [hassoc]; exact hd) h
    · rw [if_neg hp] at h
      by_cases hr : ready (done ++ p :: rest) p = true
      · rw [if_pos hr] at h
        have hS : ¬ S done.length := by
          intro hS
          have := (hd.not_ready hS).2
          rw [hr] at this
          cases this
        cases hts : traverseSources (done ++ p :: rest) p done.length p.Sources 0 vs
            (tr ++ [.Start done.length ((done ++ p :: rest).map (fun q => q.Traversed))]) with
        | error e =>
          rw [hts] at h
          cases h
        | ok r =>
          obtain ⟨sources1, vs2, tr2⟩ := r
          rw [hts] at h
          simp only [] at h
          exact scanLoop_deadlocked S rest _ vs2 tr2 false
            (by rw [hassoc]; exact hd.update hS) h
      · rw [if_neg hr] at h
        exact scanLoop_deadlocked S rest (done ++ [p]) vs tr false (by rw [hassoc]; exact hd) h

theorem SemanticLoop_deadlocked (S : Nat → Prop) (i0 : Nat) (hi0 : S i0) :
    ∀ (fuel : Nat) (ps : List Program) (vs : Vars) (tr : List Event), Deadlocked S ps →
      ∀ ps1 vs1 tr1, SemanticLoop fuel ps vs tr ≠ .Returned ps1 vs1 tr1
  | 0, ps, vs, tr, _, ps1, vs1, tr1 => by simp [SemanticLoop]
  | fuel + 1, ps, vs, tr, hd, ps1, vs1, tr1 => by
    unfold SemanticLoop
    cases hscan : scanLoop [] ps vs tr true with
    | error e =>
      obtain ⟨e, ps2, tr2⟩ := e
      simp
    | ok r =>
      obtain ⟨ps2, vs2, tr2, ok⟩ := r
      cases ok with
      | true =>
        exfalso
        have hall := (scanLoop_ok_true ps [] vs tr true hscan).2
        obtain ⟨p, hp, hpt, _⟩ := hd i0 hi0
        have := hall p (List.getElem?_mem hp)
        rw [hpt] at this
        cases this
      | false =>
        simp only [Bool.false_eq_true, if_false]
        exact SemanticLoop_deadlocked S i0 hi0 fuel ps2 vs2 tr2
          (scanLoop_deadlocked S ps [] vs tr true (by simpa using hd) hscan) ps1 vs1 tr1

/-- For every program set with an import cycle among untraversed programs,
`Semantic` never returns, however many scans it is given: it keeps scanning, or
stops only because a traversal of some other program fails. No branch of the
driver reports a circular dependency. -/
theorem Semantic_cycle_never_returns (S : Nat → Prop) (i0 : Nat) (hi0 : S i0)
    (ps : List Program) (hd : Deadlocked S ps) (fuel : Nat) (vs : Vars)
    (ps1 : List Program) (vs1 : Vars) (tr1 : List Event) :
    Semantic fuel ps vs ≠ .Returned ps1 vs1 tr1 :=
  SemanticLoop_deadlocked S i0 hi0 fuel ps vs [] hd ps1 vs1 tr1

theorem mem_codeVisits {pi si k0 n a s k : Nat} :
    Event.Visit a s k ∈ codeVisits pi si k0 n ↔ a = pi ∧ s = si ∧ k0 ≤ k ∧ k < k0 + n := by
  simp only [codeVisits, List.mem_map, List.mem_range'_1, Event.Visit.injEq]
  constructor
  · rintro ⟨j, ⟨h1, h2⟩, rfl, rfl, rfl⟩
    exact ⟨rfl, rfl, h1, h2⟩
  · rintro ⟨rfl, rfl, h1, h2⟩
    exact ⟨k, ⟨h1, h2⟩, rfl, rfl, rfl⟩

theorem codeVisits_nodup (pi si k0 n : Nat) : (codeVisits pi si k0 n).Nodup := by
  unfold codeVisits
  refine List.Nodup.map ?_ (List.nodup_range' k0 n)
  intro a b h
  simpa using h

theorem mem_sourceVisits (pi : Nat) {a s k : Nat} :
    ∀ (sources : List Source) (si : Nat),
      Event.Visit a s k ∈ sourceVisits pi sources si ↔
        a = pi ∧ si ≤ s ∧ ∃ src, sources[s - si]? = some src ∧ k < src.Code.length
  | [], si => by simp [sourceVisits]
  | source :: rest, si => by
    simp only [sourceVisits, List.mem_append, mem_codeVisits, mem_sourceVisits pi rest (si + 1)]
    constructor
    · rintro (⟨rfl, rfl, _, h⟩ | ⟨rfl, h1, src, h2, h3⟩)
      · exact ⟨rfl, Nat.le_refl _, source, by simp, by simpa using h⟩
      · refine ⟨rfl, by omega, src, ?_, h3⟩
        have : s - si = (s - (si + 1)) + 1 := by omega
        rw [this, List.getElem?_cons_succ]
        exact h2
    · rintro ⟨rfl, h1, src, h2, h3⟩
      by_cases hs : s = si
      · subst hs
        simp only [Nat.sub_self, List.getElem?_cons_zero, Option.some.injEq] at h2
        subst h2
        exact Or.inl ⟨rfl, rfl, Nat.zero_le _, by simpa using h3⟩
      · right
        refine ⟨rfl, by omega, src, ?_, h3⟩
        have : s - si = (s - (si + 1)) + 1 := by omega
        rw [this, List.getElem?_cons_succ] at h2
        exact h2

theorem sourceVisits_nodup (pi : Nat) :
    ∀ (sources : List Source) (si : Nat), (sourceVisits pi sources si).Nodup
  | [], _ => by simp [sourceVisits]
  | source :: rest, si => by
    simp only [sourceVisits]
    refine List.Nodup.append (codeVisits_nodup _ _ _ _) (sourceVisits_nodup pi rest (si + 1)) ?_
    intro e h1 h2
    obtain ⟨s, k, rfl⟩ := sourceVisits_program pi rest (si + 1) e h2
    have := (mem_codeVisits.1 h1).2.1
    have := ((mem_sourceVisits pi rest (si + 1)).1 h2).2.1
    omega

theorem count_visit_of_filter {tr : List Event} {i : Nat} {flags : List Bool} {p : Program}
    (h : tr.filter (fun e => decide (e.program = i)) =
      Event.Start i flags :: sourceVisits i p.Sources 0)
    {s k : Nat} {src : Source} (hs : p.Sources[s]? = some src) (hk : k < src.Code.length) :
    tr.count (Event.Visit i s k) = 1 := by
  have h1 : tr.count (Event.Visit i s k) =
      (tr.filter (fun e => decide (e.program = i))).count (Event.Visit i s k) := by
    rw [List.count_filter]
    simp [Event.program]
  rw [h1, h, List.count_cons_of_ne (by simp)]
  exact List.count_eq_one_of_mem (sourceVisits_nodup i p.Sources 0)
    ((mem_sourceVisits i p.Sources 0).2 ⟨rfl, Nat.zero_le _, src, by simpa using hs, hk⟩)

/-! ## Expression branches of `traverse` and the offsets of locals -/

theorem TypeCompatable_int_left (t : Ty) (h : TypeCompatable .int t = true) :
    t = .int ∨ t = .undefined := by
  cases t <;> simp [TypeCompatable] at h ⊢

theorem TypeCompatable_bool_left (t : Ty) (h : TypeCompatable .bool t = true) :
    t = .bool ∨ t = .undefined := by
  cases t <;> simp [TypeCompatable] at h ⊢

theorem Ty.eq_int_of_kind (t : Ty) (h : t.Kind = .TypeInt) : t = .int := by
  cases t <;> simp [Ty.Kind] at h ⊢

theorem Ty.eq_bool_of_kind (t : Ty) (h : t.Kind = .TypeBool) : t = .bool := by
  cases t <;> simp [Ty.Kind] at h ⊢

theorem traverse_binary_ok (programs : List Program) (program : Program) (t0 : Ty)
    (kind : BinaryKind) (lhs rhs : Node) (vs : Vars) (r : Ty × Node × Vars)
    (h : traverse programs program (.NodeBinary t0 kind lhs rhs) vs = .ok r) :
    ∃ lt lhs1 vs1 rt rhs1 vs2, traverse programs program lhs vs = .ok (lt, lhs1, vs1) ∧
      traverse programs program rhs vs1 = .ok (rt, rhs1, vs2) ∧
      TypeCompatable lt rt = true ∧ binaryResult kind lt = .ok r.1 ∧
      r = (r.1, .NodeBinary r.1 kind lhs1 rhs1, vs2) := by
  rw [traverse] at h
  obtain ⟨⟨lt, lhs1, vs1⟩, h1, h⟩ := Except.bind_ok_inv h
  obtain ⟨⟨rt, rhs1, vs2⟩, h2, h⟩ := Except.bind_ok_inv h
  refine ⟨lt, lhs1, vs1, rt, rhs1, vs2, h1, h2, ?_⟩
  by_cases hc : TypeCompatable lt rt = true
  · simp only [hc, Bool.not_true, Bool.false_eq_true, ↓reduceIte, bind, Except.bind, pure,
      Except.pure] at h
    cases hb : binaryResult kind lt with
    | error e => simp [hb] at h
    | ok t =>
      simp [hb] at h
      subst h
      exact ⟨hc, rfl, rfl⟩
  · simp [hc, bind, Except.bind, throw, throwThe, MonadExceptOf.throw] at h

theorem structLiteralMember_not_mem (name : String) (ty : Ty) :
    ∀ (ms : List String) (ts : List Ty) (found : Bool), name ∉ ms →
      structLiteralMember name ty ms ts found = .ok found
  | [], _, _, _ => by simp [structLiteralMember]
  | m :: ms, ts, found, h => by
    have hm : m ≠ name := fun e => h (by simp [e])
    unfold structLiteralMember
    rw [if_neg hm]
    exact structLiteralMember_not_mem name ty ms ts.tail found (fun hmem => h (by simp [hmem]))

theorem structLiteralMember_mem (name : String) (ty : Ty) :
    ∀ (ms : List String) (ts : List Ty) (found : Bool) (j : Nat) (T : Ty), ms.Nodup →
      ms[j]? = some name → ts[j]? = some T →
      structLiteralMember name ty ms ts found =
        if TypeCompatable ty T then .ok true else .error (.Panic .structLiteralMemberType)
  | [], _, _, j, _, _, h, _ => by simp at h
  | m :: ms, ts, found, 0, T, hnd, h, ht => by
    simp only [List.getElem?_cons_zero, Option.some.injEq] at h
    subst h
    cases ts with
    | nil => simp at ht
    | cons t ts1 =>
      simp only [List.getElem?_cons_zero, Option.some.injEq] at ht
      subst ht
      unfold structLiteralMember
      rw [if_pos rfl]
      by_cases hc : TypeCompatable ty t = true
      · simp only [hc, if_true]
        exact structLiteralMember_not_mem m ty ms ts1 true (List.nodup_cons.mp hnd).1
      · simp [hc]
  | m :: ms, ts, found, j + 1, T, hnd, h, ht => by
    simp only [List.getElem?_cons_succ] at h
    have hm : m ≠ name := by
      rintro rfl
      exact (List.nodup_cons.mp hnd).1 (List.getElem?_mem h)
    unfold structLiteralMember
    rw [if_neg hm]
    refine structLiteralMember_mem name ty ms ts.tail found j T (List.nodup_cons.mp hnd).2 h ?_
    cases ts with
    | nil => simp at ht
    | cons t ts1 => simpa using ht

theorem structLiteralMember_true_iff (name : String) (ty : Ty) (ms : List String) (ts : List Ty)
    (hnd : ms.Nodup) (hlen : ms.length = ts.length) :
    structLiteralMember name ty ms ts false = .ok true ↔ MemberAccepted ms ts name ty := by
  constructor
  · intro h
    by_cases hmem : name ∈ ms
    · obtain ⟨j, hj⟩ := List.getElem?_of_mem hmem
      have hlt : j < ts.length := by
        rw [← hlen]
        exact (List.getElem?_eq_some_iff.mp hj).1
      have hT : ts[j]? = some ts[j] := List.getElem?_eq_getElem hlt
      rw [structLiteralMember_mem name ty ms ts false j _ hnd hj hT] at h
      refine ⟨j, ts[j], hj, hT, ?_⟩
      by_contra hc
      simp [hc] at h
    · rw [structLiteralMember_not_mem name ty ms ts false hmem] at h
      simp at h
  · rintro ⟨j, T, hj, hT, hc⟩
    rw [structLiteralMember_mem name ty ms ts false j T hnd hj hT]
    simp [hc]

theorem traverseList_cons_ok (programs : List Program) (program : Program) (value : Node)
    (values : List Node) (vs : Vars) (ty : Ty) (value1 : Node) (vs2 : Vars)
    (hv : traverse programs program value vs = .ok (ty, value1, vs2))
    (tys : List Ty) (values1 : List Node) (vs1 : Vars) :
    traverseList programs program (value :: values) vs = .ok (tys, values1, vs1) ↔
      ∃ tys2 vals2, tys = ty :: tys2 ∧ values1 = value1 :: vals2 ∧
        traverseList programs program values vs2 = .ok (tys2, vals2, vs1) := by
  rw [traverseList]
  simp only [hv, bind, Except.bind]
  cases htl : traverseList programs program values vs2 with
  | error e => simp
  | ok r =>
    obtain ⟨tys2, vals2, vs3⟩ := r
    simp only [pure, Except.pure, Except.ok.injEq, Prod.mk.injEq]
    constructor
    · rintro ⟨rfl, rfl, rfl⟩
      exact ⟨tys2, vals2, rfl, rfl, rfl, rfl, rfl⟩
    · rintro ⟨tys3, vals3, rfl, rfl, rfl, rfl, rfl⟩
      exact ⟨rfl, rfl, rfl⟩

theorem traverseMembers_ok_iff (programs : List Program) (program : Program)
    (ms : List String) (ts : List Ty) (hnd : ms.Nodup) (hlen : ms.length = ts.length) :
    ∀ (names : List String) (values : List Node) (vs : Vars) (values1 : List Node) (vs1 : Vars),
      names.length = values.length →
      (traverseMembers programs program (.struct ms ts) names values vs = .ok (values1, vs1) ↔
        ∃ tys, traverseList programs program values vs = .ok (tys, values1, vs1) ∧
          List.Forall₂ (MemberAccepted ms ts) names tys)
  | [], [], vs, values1, vs1, _ => by
    rw [traverseMembers, traverseList]
    constructor
    · intro h
      cases h
      exact ⟨[], rfl, List.Forall₂.nil⟩
    · rintro ⟨tys, h, -⟩
      cases h
      rfl
  | _ :: _, [], _, _, _, h => by simp at h
  | [], _ :: _, _, _, _, h => by simp at h
  | name :: names, value :: values, vs, values1, vs1, h => by
    have ih := traverseMembers_ok_iff programs program ms ts hnd hlen names values
    have hl : names.length = values.length := by simpa using h
    rw [traverseMembers]
    cases hv : traverse programs program value vs with
    | error e =>
      rw [traverseList]
      simp [bind, Except.bind, hv]
    | ok r =>
      obtain ⟨ty, value1, vs2⟩ := r
      simp only [traverseList_cons_ok programs program value values vs ty value1 vs2 hv]
      simp only [bind, Except.bind, Ty.MemberNames, Ty.MemberTypes]
      have hiff := structLiteralMember_true_iff name ty ms ts hnd hlen
      cases hs : structLiteralMember name ty ms ts false with
      | error e =>
        have hna : ¬ MemberAccepted ms ts name ty := by
          rw [← hiff, hs]
          simp
        constructor
        · intro h0
          cases h0
        · rintro ⟨tys, ⟨tys2, vals2, rfl, rfl, _⟩, hf⟩
          cases hf with
          | cons h1 _ => exact absurd h1 hna
      | ok found =>
        cases found with
        | false =>
          have hna : ¬ MemberAccepted ms ts name ty := by
            rw [← hiff, hs]
            simp
          simp only [Bool.not_false, if_true, throw, throwThe, MonadExceptOf.throw]
          constructor
          · intro h0
            cases h0
          · rintro ⟨tys, ⟨tys2, vals2, rfl, rfl, _⟩, hf⟩
            cases hf with
            | cons h1 _ => exact absurd h1 hna
        | true =>
          have hacc : MemberAccepted ms ts name ty := hiff.mp hs
          simp only [Bool.not_true, Bool.false_eq_true, if_false]
          cases htm : traverseMembers programs program (.struct ms ts) names values vs2 with
          | error e =>
            constructor
            · intro h0
              cases h0
            · rintro ⟨tys, ⟨tys2, vals2, rfl, rfl, htl2⟩, hf⟩
              cases hf with
              | cons _ h2 =>
                have := (ih vs2 vals2 vs1 hl).mpr ⟨tys2, htl2, h2⟩
                rw [htm] at this
                cases this
          | ok rm =>
            obtain ⟨vals2, vs3⟩ := rm
            obtain ⟨tys2, htl2, hf2⟩ := (ih vs2 vals2 vs3 hl).mp htm
            simp only [pure, Except.pure, Except.ok.injEq, Prod.mk.injEq]
            constructor
            · rintro ⟨rfl, rfl⟩
              exact ⟨ty :: tys2, ⟨tys2, vals2, rfl, rfl, htl2⟩, List.Forall₂.cons hacc hf2⟩
            · rintro ⟨tys, ⟨tys3, vals3, rfl, rfl, htl3⟩, -⟩
              rw [htl2] at htl3
              simp only [Except.ok.injEq, Prod.mk.injEq] at htl3
              obtain ⟨-, rfl, rfl⟩ := htl3
              exact ⟨rfl, rfl⟩

theorem Forall₂.getElem?_left {α β : Type} {R : α → β → Prop} {l1 : List α} {l2 : List β}
    (h : List.Forall₂ R l1 l2) : ∀ (i : Nat) (a : α), l1[i]? = some a → ∃ b, l2[i]? = some b ∧ R a b := by
  induction h with
  | nil => intro i a hi; simp at hi
  | cons hab _ ih =>
    intro i a hi
    cases i with
    | zero =>
      simp only [List.getElem?_cons_zero, Option.some.injEq] at hi
      subst hi
      exact ⟨_, by simp, hab⟩
    | succ i =>
      simp only [List.getElem?_cons_succ] at hi ⊢
      exact ih i a hi

theorem traverseArguments_ok_iff (programs : List Program) (program : Program) :
    ∀ (pts : List Ty) (as : List Node) (vs : Vars) (as1 : List Node) (vs1 : Vars),
      pts.length = as.length →
      (traverseArguments programs program pts as vs = .ok (as1, vs1) ↔
        ∃ tys, traverseList programs program as vs = .ok (tys, as1, vs1) ∧
          List.Forall₂ (fun pt t => TypeCompatable pt t = true) pts tys)
  | [], [], vs, as1, vs1, _ => by
    rw [traverseArguments, traverseList]
    constructor
    · intro h
      cases h
      exact ⟨[], rfl, List.Forall₂.nil⟩
    · rintro ⟨tys, h, -⟩
      cases h
      rfl
  | _ :: _, [], _, _, _, h => by simp at h
  | [], _ :: _, _, _, _, h => by simp at h
  | pt :: pts, a :: as, vs, as1, vs1, h => by
    have ih := traverseArguments_ok_iff programs program pts as
    have hl : pts.length = as.length := by simpa using h
    rw [traverseArguments]
    cases hv : traverse programs program a vs with
    | error e =>
      rw [traverseList]
      simp [bind, Except.bind, hv]
    | ok r =>
      obtain ⟨ty, a1, vs2⟩ := r
      simp only [traverseList_cons_ok programs program a as vs ty a1 vs2 hv]
      simp only [bind, Except.bind]
      by_cases hc : TypeCompatable pt ty = true
      · simp only [hc, Bool.not_true, Bool.false_eq_true, if_false]
        cases hta : traverseArguments programs program pts as vs2 with
        | error e =>
          constructor
          · intro h0
            cases h0
          · rintro ⟨tys, ⟨tys2, vals2, rfl, rfl, htl2⟩, hf⟩
            cases hf with
            | cons _ h2 =>
              have := (ih vs2 vals2 vs1 hl).mpr ⟨tys2, htl2, h2⟩
              rw [hta] at this
              cases this
        | ok rm =>
          obtain ⟨vals2, vs3⟩ := rm
          obtain ⟨tys2, htl2, hf2⟩ := (ih vs2 vals2 vs3 hl).mp hta
          simp only [pure, Except.pure, Except.ok.injEq, Prod.mk.injEq]
          constructor
          · rintro ⟨rfl, rfl⟩
            exact ⟨ty :: tys2, ⟨tys2, vals2, rfl, rfl, htl2⟩, List.Forall₂.cons hc hf2⟩
          · rintro ⟨tys, ⟨tys3, vals3, rfl, rfl, htl3⟩, -⟩
            rw [htl2] at htl3
            simp only [Except.ok.injEq, Prod.mk.injEq] at htl3
            obtain ⟨-, rfl, rfl⟩ := htl3
            exact ⟨rfl, rfl⟩
      · simp only [hc, Bool.not_false, if_true, throw, throwThe, MonadExceptOf.throw]
        constructor
        · intro h0
          cases h0
        · rintro ⟨tys, ⟨tys2, vals2, rfl, rfl, _⟩, hf⟩
          cases hf with
          | cons h1 _ => exact absurd h1 hc

theorem alignLoop_not_mem : ∀ (ls : List Nat) (offset : Nat) (vs : Vars) (v : Nat), v ∉ ls →
    alignLoop ls offset vs v = vs v
  | [], _, _, _, _ => rfl
  | l :: ls, offset, vs, v, h => by
    rw [alignLoop, alignLoop_not_mem ls _ _ v (fun hm => h (by simp [hm]))]
    have : v ≠ l := fun e => h (by simp [e])
    simp [Vars.setOffset, Vars.set, this]

theorem alignLoop_fields : ∀ (ls : List Nat) (offset : Nat) (vs : Vars) (v : Nat),
    (alignLoop ls offset vs v).Name = (vs v).Name ∧ (alignLoop ls offset vs v).Typ = (vs v).Typ ∧
      (alignLoop ls offset vs v).Kind = (vs v).Kind
  | [], _, _, _ => ⟨rfl, rfl, rfl⟩
  | l :: ls, offset, vs, v => by
    rw [alignLoop]
    have := alignLoop_fields ls (offset + 8) (vs.setOffset l (offset + 8)) v
    rw [this.1, this.2.1, this.2.2]
    by_cases h : v = l <;> simp [Vars.setOffset, Vars.set, h]

theorem alignLoop_offset : ∀ (ls : List Nat) (offset : Nat) (vs : Vars) (i v : Nat), ls.Nodup →
    ls[i]? = some v → (alignLoop ls offset vs v).Offset = offset + 8 * (i + 1)
  | [], _, _, _, _, _, h => by simp at h
  | l :: ls, offset, vs, 0, v, hnd, h => by
    simp only [List.getElem?_cons_zero, Option.some.injEq] at h
    subst h
    rw [alignLoop, alignLoop_not_mem ls _ _ l (List.nodup_cons.mp hnd).1]
    simp [Vars.setOffset, Vars.set]
  | l :: ls, offset, vs, i + 1, v, hnd, h => by
    simp only [List.getElem?_cons_succ] at h
    rw [alignLoop, alignLoop_offset ls _ _ i v (List.nodup_cons.mp hnd).2 h]
    omega

theorem alignLoop_idempotent (ls : List Nat) (hnd : ls.Nodup) (offset : Nat) (vs : Vars) :
    alignLoop ls offset (alignLoop ls offset vs) = alignLoop ls offset vs := by
  funext v
  by_cases hv : v ∈ ls
  · obtain ⟨i, hi⟩ := List.getElem?_of_mem hv
    have h1 := alignLoop_offset ls offset (alignLoop ls offset vs) i v hnd hi
    have h2 := alignLoop_offset ls offset vs i v hnd hi
    have h3 := alignLoop_fields ls offset (alignLoop ls offset vs) v
    cases hx : alignLoop ls offset (alignLoop ls offset vs) v
    cases hy : alignLoop ls offset vs v
    rw [hx, hy] at h3
    rw [hx] at h1
    rw [hy] at h2
    simp only at h1 h2 h3
    simp only [Variable.mk.injEq]
    exact ⟨h3.1, h3.2.1, h3.2.2, by omega⟩
  · exact alignLoop_not_mem ls offset _ v hv

/-! ## The binary levels of the expression parser -/

theorem consumeOperator_eq (t : Tokenizer) (tok : Token) (h : t.Fetch = .ok tok) :
    ∀ ops : List (TokenKind × BinaryKind),
      consumeOperator t ops = .ok ((operatorOf ops tok.kind).map (fun k => (k, t.Succ)))
  | [] => rfl
  | (tk, k) :: ops => by
    rw [consumeOperator]
    by_cases hk : tok.kind = tk
    · simp [Tokenizer.Consume, Tokenizer.Test, h, Token.Test, hk, operatorOf]
    · have hk2 : ¬ tk = tok.kind := fun e => hk e.symm
      simp only [Tokenizer.Consume, Tokenizer.Test, h, Token.Test, hk, decide_False]
      rw [consumeOperator_eq t tok h ops]
      have hb : ((tk, k).1 == tok.kind) = false := by simpa using hk2
      simp only [operatorOf]
      rw [List.find?_cons_of_neg _ (by simp [hb])]

theorem binaryLoop_exit (ops : List (TokenKind × BinaryKind)) (next : Parser Node) (fuel : Nat)
    (n : Node) (s : ParserState) (tok : Token) (h : s.tokenizer.Fetch = .ok tok)
    (hk : operatorOf ops tok.kind = none) :
    binaryLoop ops next (fuel + 1) n s = .ok (n, s) := by
  rw [binaryLoop, consumeOperator_eq _ tok h, hk]
  rfl

theorem binaryLoop_step (ops : List (TokenKind × BinaryKind)) (next : Parser Node) (fuel : Nat)
    (n : Node) (s : ParserState) (tok : Token) (k : BinaryKind) (rhs : Node) (s2 : ParserState)
    (h : s.tokenizer.Fetch = .ok tok) (hk : operatorOf ops tok.kind = some k)
    (hn : next s.succ = .ok (rhs, s2)) :
    binaryLoop ops next (fuel + 1) n s =
      binaryLoop ops next fuel (.NodeBinary .undefined k n rhs) s2 := by
  rw [binaryLoop, consumeOperator_eq _ tok h, hk]
  simp only [Option.map_some']
  rw [ParserState.succ] at hn
  rw [hn]

theorem binaryLevel_single (ops : List (TokenKind × BinaryKind)) (next : Parser Node)
    (fuel : Nat) (s : ParserState) (n : Node) (s1 : ParserState) (tok : Token)
    (hn : next s = .ok (n, s1)) (h : s1.tokenizer.Fetch = .ok tok)
    (hk : operatorOf ops tok.kind = none) :
    binaryLevel ops next (fuel + 1) s = .ok (n, s1) := by
  rw [binaryLevel, hn]
  exact binaryLoop_exit ops next fuel n s1 tok h hk

theorem binaryLevel_pair (ops : List (TokenKind × BinaryKind)) (next : Parser Node)
    (fuel : Nat) (s0 : ParserState) (a : Node) (s1 : ParserState) (tok1 : Token)
    (k1 : BinaryKind) (b : Node) (s2 : ParserState) (tok2 : Token)
    (ha : next s0 = .ok (a, s1)) (h1 : s1.tokenizer.Fetch = .ok tok1)
    (hk1 : operatorOf ops tok1.kind = some k1) (hb : next s1.succ = .ok (b, s2))
    (h2 : s2.tokenizer.Fetch = .ok tok2) (hk2 : operatorOf ops tok2.kind = none) :
    binaryLevel ops next (fuel + 2) s0 = .ok (.NodeBinary .undefined k1 a b, s2) := by
  rw [binaryLevel, ha]
  simp only
  rw [binaryLoop_step ops next (fuel + 1) a s1 tok1 k1 b s2 h1 hk1 hb]
  exact binaryLoop_exit ops next fuel _ s2 tok2 h2 hk2

theorem binaryLevel_triple (ops : List (TokenKind × BinaryKind)) (next : Parser Node)
    (fuel : Nat) (s0 : ParserState) (a : Node) (s1 : ParserState) (tok1 : Token)
    (k1 : BinaryKind) (b : Node) (s2 : ParserState) (tok2 : Token) (k2 : BinaryKind) (c : Node)
    (s3 : ParserState) (tok3 : Token)
    (ha : next s0 = .ok (a, s1)) (h1 : s1.tokenizer.Fetch = .ok tok1)
    (hk1 : operatorOf ops tok1.kind = some k1) (hb : next s1.succ = .ok (b, s2))
    (h2 : s2.tokenizer.Fetch = .ok tok2) (hk2 : operatorOf ops tok2.kind = some k2)
    (hc : next s2.succ = .ok (c, s3)) (h3 : s3.tokenizer.Fetch = .ok tok3)
    (hk3 : operatorOf ops tok3.kind = none) :
    binaryLevel ops next (fuel + 3) s0 =
      .ok (.NodeBinary .undefined k2 (.NodeBinary .undefined k1 a b) c, s3) := by
  rw [binaryLevel, ha]
  simp only
  rw [binaryLoop_step ops next (fuel + 2) a s1 tok1 k1 b s2 h1 hk1 hb,
    binaryLoop_step ops next (fuel + 1) _ s2 tok2 k2 c s3 h2 hk2 hc]
  exact binaryLoop_exit ops next fuel _ s3 tok3 h3 hk3

theorem operatorOf_append_none {l1 l2 : List (TokenKind × BinaryKind)} {k : TokenKind}
    (h : operatorOf (l1 ++ l2) k = none) : operatorOf l1 k = none ∧ operatorOf l2 k = none := by
  simp only [operatorOf, Option.map_eq_none', List.find?_append, Option.or_eq_none] at h ⊢
  exact h

theorem operatorOf_levels_none {k : TokenKind} (h : operatorOf binaryOperators k = none) :
    operatorOf logicalOrOperators k = none ∧ operatorOf logicalAndOperators k = none ∧
      operatorOf equalityOperators k = none ∧ operatorOf relationalOperators k = none ∧
      operatorOf addOperators k = none ∧ operatorOf mulOperators k = none := by
  unfold binaryOperators at h
  obtain ⟨h, h6⟩ := operatorOf_append_none h
  obtain ⟨h, h5⟩ := operatorOf_append_none h
  obtain ⟨h, h4⟩ := operatorOf_append_none h
  obtain ⟨h, h3⟩ := operatorOf_append_none h
  obtain ⟨h1, h2⟩ := operatorOf_append_none h
  exact ⟨h1, h2, h3, h4, h5, h6⟩

/-- Above a level that returns `(n, s1)` at a token that is no binary operator,
the levels up to `expr` return the same. -/
theorem expr_of_add (unary : Parser Node) (fuel : Nat) (s : ParserState) (n : Node)
    (s1 : ParserState) (tok : Token) (hn : add unary (fuel + 1) s = .ok (n, s1))
    (h : s1.tokenizer.Fetch = .ok tok) (hk : operatorOf binaryOperators tok.kind = none) :
    expr unary (fuel + 1) s = .ok (n, s1) := by
  obtain ⟨h1, h2, h3, h4, -, -⟩ := operatorOf_levels_none hk
  have hr := binaryLevel_single relationalOperators (add unary (fuel + 1)) fuel s n s1 tok hn h h4
  have he := binaryLevel_single equalityOperators (relational unary (fuel + 1)) fuel s n s1 tok
    hr h h3
  have ha := binaryLevel_single logicalAndOperators (equality unary (fuel + 1)) fuel s n s1 tok
    he h h2
  exact binaryLevel_single logicalOrOperators (logicalAnd unary (fuel + 1)) fuel s n s1 tok
    ha h h1

/-! ## Scopes and the function registry in the statement parsers -/

@[simp] theorem ParserState.withTokenizer_Env (s : ParserState) (t : Tokenizer) :
    (s.withTokenizer t).Env = s.Env := rfl

@[simp] theorem ParserState.withTokenizer_functions (s : ParserState) (t : Tokenizer) :
    (s.withTokenizer t).functions = s.functions := rfl

@[simp] theorem ParserState.withTokenizer_vars (s : ParserState) (t : Tokenizer) :
    (s.withTokenizer t).vars = s.vars := rfl

@[simp] theorem ParserState.withTokenizer_allocated (s : ParserState) (t : Tokenizer) :
    (s.withTokenizer t).allocated = s.allocated := rfl

@[simp] theorem ParserState.withTokenizer_tokenizer (s : ParserState) (t : Tokenizer) :
    (s.withTokenizer t).tokenizer = t := rfl

@[simp] theorem ParserState.withTokenizer_withTokenizer (s : ParserState) (t u : Tokenizer) :
    (s.withTokenizer t).withTokenizer u = s.withTokenizer u := rfl

@[simp] theorem ParserState.withVars_Env (s : ParserState) (vs : Vars) :
    (s.withVars vs).Env = s.Env := rfl

@[simp] theorem ParserState.withVars_functions (s : ParserState) (vs : Vars) :
    (s.withVars vs).functions = s.functions := rfl

@[simp] theorem ParserState.withFunctions_Env (s : ParserState) (fs : List Function) :
    (s.withFunctions fs).Env = s.Env := rfl

@[simp] theorem ParserState.withFunctions_functions (s : ParserState) (fs : List Function) :
    (s.withFunctions fs).functions = fs := rfl

@[simp] theorem ParserState.withVars_vars (s : ParserState) (vs : Vars) :
    (s.withVars vs).vars = vs := rfl

@[simp] theorem ParserState.withVars_allocated (s : ParserState) (vs : Vars) :
    (s.withVars vs).allocated = s.allocated := rfl

@[simp] theorem ParserState.withFunctions_vars (s : ParserState) (fs : List Function) :
    (s.withFunctions fs).vars = s.vars := rfl

@[simp] theorem ParserState.withFunctions_allocated (s : ParserState) (fs : List Function) :
    (s.withFunctions fs).allocated = s.allocated := rfl

@[simp] theorem ParserState.withFunctions_tokenizer (s : ParserState) (fs : List Function) :
    (s.withFunctions fs).tokenizer = s.tokenizer := rfl

@[simp] theorem ParserState.withEnv_Env (s : ParserState) (env : List Environment) :
    (s.withEnv env).Env = env := rfl

@[simp] theorem ParserState.withEnv_functions (s : ParserState) (env : List Environment) :
    (s.withEnv env).functions = s.functions := rfl

theorem Frame.frame_refl (s : ParserState) : Frame s s := ⟨rfl, rfl, rfl⟩

theorem Frame.trans {s s1 s2 : ParserState} (h1 : Frame s s1) (h2 : Frame s1 s2) : Frame s s2 :=
  ⟨h2.depth.trans h1.depth, h2.parents.trans h1.parents, h2.signatures.trans h1.signatures⟩

theorem Frame.of_eq {s s1 : ParserState} (he : s1.Env = s.Env)
    (hf : s1.functions = s.functions) : Frame s s1 :=
  ⟨by rw [he], by rw [he], by rw [hf]⟩

theorem Frame.tokenizer (s : ParserState) (t : Tokenizer) : Frame s (s.withTokenizer t) :=
  Frame.of_eq rfl rfl

theorem Frame.left {s s1 s2 : ParserState} (he : s1.Env = s.Env)
    (hf : s1.functions = s.functions) (h : Frame s1 s2) : Frame s s2 :=
  (Frame.of_eq he hf).trans h

theorem Frame.right {s s1 s2 : ParserState} (h : Frame s s1) (he : s2.Env = s1.Env)
    (hf : s2.functions = s1.functions) : Frame s s2 :=
  h.trans (Frame.of_eq he hf)

theorem OnlyTokenizer.frame {α : Type} {p : Parser α} (hp : OnlyTokenizer p) {s : ParserState}
    {a : α} {s1 : ParserState} (h : p s = .ok (a, s1)) : Frame s s1 := by
  have := hp s a s1 h
  rw [this]
  exact Frame.of_eq rfl rfl

theorem OnlyTokenizer.keeps {α : Type} {p : Parser α} (hp : OnlyTokenizer p) : Keeps p :=
  fun _ _ _ h => hp.frame h

theorem Balanced.toKeeps {α : Type} {p : Parser α} (hp : Balanced p) : Keeps p :=
  fun s a s1 h => ⟨by rw [(hp s a s1 h).1], by rw [(hp s a s1 h).1], (hp s a s1 h).2⟩

theorem updateFunction_signature (label : String) (g : Function → Function)
    (hg : ∀ f, (g f).signature = f.signature) (fs : List Function) :
    (updateFunction label g fs).map Function.signature = fs.map Function.signature := by
  simp only [updateFunction, List.map_map]
  apply List.map_congr_left
  intro f _
  simp only [Function.comp]
  split
  · exact hg f
  · rfl

theorem identifier_ok {s : ParserState} {ident : String} {s1 : ParserState}
    (h : identifier s = .ok (ident, s1)) :
    ∃ tok, s.tokenizer.Fetch = .ok tok ∧ tok.kind = .TokenIdentifier ∧ ident = tok.str ∧
      s1 = s.withTokenizer s.tokenizer.Succ := by
  unfold identifier at h
  cases hf : s.tokenizer.Fetch with
  | error e => simp [hf] at h
  | ok tok =>
    simp only [hf] at h
    by_cases hk : tok.kind = .TokenIdentifier
    · simp [Token.Test, hk, Tokenizer.Expect, Tokenizer.Consume, Tokenizer.Test, hf] at h
      exact ⟨tok, rfl, hk, h.1.symm, h.2.symm⟩
    · simp [Token.Test, hk] at h

theorem identifier_onlyTokenizer : OnlyTokenizer identifier := by
  intro s a s1 h
  obtain ⟨tok, -, -, -, rfl⟩ := identifier_ok h
  rfl

theorem stepIn_ok {s : ParserState} {u : Unit} {s1 : ParserState} (h : stepIn s = .ok (u, s1)) :
    s1.Env.tail = s.Env ∧ s1.Env.length = s.Env.length + 1 ∧ s1.functions = s.functions ∧
      s1.tokenizer = s.tokenizer := by
  unfold stepIn at h
  cases he : s.Env with
  | nil => simp [he] at h
  | cons e rest =>
    simp only [he, Except.ok.injEq, Prod.mk.injEq, true_and] at h
    subst h
    exact ⟨rfl, rfl, rfl, rfl⟩

theorem stepOut_ok {s : ParserState} {u : Unit} {s1 : ParserState}
    (h : stepOut s = .ok (u, s1)) :
    s1.Env = s.Env.tail ∧ s1.functions = s.functions ∧ s.Env ≠ [] := by
  unfold stepOut at h
  cases he : s.Env with
  | nil => simp [he] at h
  | cons e rest =>
    simp only [he, Except.ok.injEq, Prod.mk.injEq, true_and] at h
    subst h
    simp

/-- A call of `stepIn`, parsing that returns inside the new scope, and a call of
`stepOut` lead back to the scope at the start. -/
theorem scope_balanced {s s1 s2 s3 s4 : ParserState} {u v : Unit}
    (hin : stepIn s = .ok (u, s1)) (h12 : Frame s1 s2) (hout : stepOut s3 = .ok (v, s4))
    (he : s3.Env = s2.Env) (hf : s3.functions = s2.functions) :
    s4.Env = s.Env ∧ s4.functions.map Function.signature = s.functions.map Function.signature := by
  obtain ⟨h1, -, h1f, -⟩ := stepIn_ok hin
  obtain ⟨h4, h4f, -⟩ := stepOut_ok hout
  refine ⟨?_, ?_⟩
  · rw [h4, he, h12.parents, h1]
  · rw [h4f, hf, h12.signatures, h1f]

theorem AddLocalVar_keeps (ty : Ty) (name : String) : Keeps (AddLocalVar ty name) := by
  intro s a s1 h
  unfold AddLocalVar at h
  cases he : s.Env with
  | nil => simp [he] at h
  | cons e rest =>
    simp only [he] at h
    cases hf : s.FindFunction e.FunctionName with
    | none => simp [hf] at h
    | some fn =>
      simp only [hf, Except.ok.injEq, Prod.mk.injEq] at h
      obtain ⟨-, rfl⟩ := h
      refine ⟨by simp [he], by simp [he], ?_⟩
      show (updateFunction e.FunctionName _ s.functions).map Function.signature = _
      apply updateFunction_signature
      intro f
      rfl

theorem localVariableDeclaration_keeps : Keeps localVariableDeclaration := by
  intro s a s1 h
  unfold localVariableDeclaration at h
  split at h
  · cases h
  · split at h
    · cases h
    · rename_i ident s2 hid
      split at h
      · cases h
      · split at h
        · cases h
        · split at h
          · cases h
          · rename_i v s3 hadd
            simp only [Except.ok.injEq, Prod.mk.injEq] at h
            obtain ⟨-, rfl⟩ := h
            exact (identifier_onlyTokenizer.frame hid).trans (AddLocalVar_keeps _ _ _ _ _ hadd)

theorem commaLoop_keeps {item : Parser Node} (hitem : Keeps item) :
    ∀ (fuel : Nat) (items : List Node), Keeps (commaLoop item fuel items)
  | 0, _ => by
    intro s a s1 h
    simp [commaLoop] at h
  | fuel + 1, items => by
    intro s a s1 h
    rw [commaLoop] at h
    split at h
    · cases h
    · simp only [Except.ok.injEq, Prod.mk.injEq] at h
      obtain ⟨-, rfl⟩ := h
      exact Frame.frame_refl _
    · split at h
      · cases h
      · rename_i x s2 hx
        exact (Frame.tokenizer s _).trans
          ((hitem _ _ _ hx).trans (commaLoop_keeps hitem fuel _ _ _ _ h))

theorem exprList_keeps {expr : Parser Node} (hexpr : Keeps expr) (fuel : Nat) :
    Keeps (exprList expr fuel) := by
  intro s a s1 h
  unfold exprList at h
  split at h
  · cases h
  · rename_i x s2 hx
    split at h
    · cases h
    · rename_i exprs s3 hl
      simp only [Except.ok.injEq, Prod.mk.injEq] at h
      obtain ⟨-, rfl⟩ := h
      exact (hexpr _ _ _ hx).trans (commaLoop_keeps hexpr fuel _ _ _ _ hl)

theorem localVarList_keeps (fuel : Nat) : Keeps (localVarList fuel) := by
  intro s a s1 h
  unfold localVarList at h
  split at h
  · cases h
  · rename_i x s2 hx
    split at h
    · cases h
    · rename_i exprs s3 hl
      simp only [Except.ok.injEq, Prod.mk.injEq] at h
      obtain ⟨-, rfl⟩ := h
      exact (localVariableDeclaration_keeps _ _ _ hx).trans
        (commaLoop_keeps localVariableDeclaration_keeps fuel _ _ _ _ hl)

theorem simpleStmt_keeps {expr : Parser Node} (hexpr : Keeps expr) (fuel : Nat) :
    Keeps (simpleStmt expr fuel) := by
  intro s a s1 h
  unfold simpleStmt at h
  split at h
  · cases h
  · simp only [Except.ok.injEq, Prod.mk.injEq] at h
    obtain ⟨-, rfl⟩ := h
    exact Frame.frame_refl _
  · split at h
    · cases h
    · simp only [Except.ok.injEq, Prod.mk.injEq] at h
      obtain ⟨-, rfl⟩ := h
      exact Frame.frame_refl _
    · split at h
      · cases h
      · split at h
        · cases h
        · rename_i n s2 h1
          split at h
          · cases h
          · split at h
            · cases h
            · rename_i m s3 h3
              simp only [Except.ok.injEq, Prod.mk.injEq] at h
              obtain ⟨-, rfl⟩ := h
              exact (exprList_keeps hexpr fuel _ _ _ h1).trans
                ((Frame.tokenizer _ _).trans (exprList_keeps hexpr fuel _ _ _ h3))
      · split at h
        · cases h
        · rename_i n s2 h1
          split at h
          · cases h
          · split at h
            · cases h
            · rename_i m s3 h3
              simp only [Except.ok.injEq, Prod.mk.injEq] at h
              obtain ⟨-, rfl⟩ := h
              exact (localVarList_keeps fuel _ _ _ h1).trans
                ((Frame.tokenizer _ _).trans (exprList_keeps hexpr fuel _ _ _ h3))
      · split at h
        · cases h
        · rename_i x s2 h1
          simp only [Except.ok.injEq, Prod.mk.injEq] at h
          obtain ⟨-, rfl⟩ := h
          exact hexpr _ _ _ h1

theorem Frame.vars (s : ParserState) (vs : Vars) : Frame s (s.withVars vs) :=
  Frame.of_eq rfl rfl

theorem localVarStmt_keeps {decl : Parser Node} {type_ : Parser Ty} {expr : Parser Node}
    (hdecl : Keeps decl) (htype : Keeps type_) (hexpr : Keeps expr) :
    Keeps (localVarStmt decl type_ expr) := by
  intro s a s1 h
  unfold localVarStmt at h
  split at h
  · cases h
  · split at h
    · cases h
    · rename_i v s2 hv
      have h2 : Frame s s2 := (Frame.tokenizer _ _).trans (hdecl _ _ _ hv)
      split at h
      · cases h
      · split at h
        · cases h
        · split at h
          · cases h
          · rename_i x s4 hx
            simp only [Except.ok.injEq, Prod.mk.injEq] at h
            obtain ⟨-, rfl⟩ := h
            exact h2.trans ((Frame.tokenizer _ _).trans (hexpr _ _ _ hx))
      · split at h
        · cases h
        · rename_i ty s3 hty
          have h3 : Frame s s3 := h2.trans (htype _ _ _ hty)
          split at h
          · cases h
          · split at h
            · cases h
            · split at h
              · cases h
              · rename_i x s5 hx
                simp only [Except.ok.injEq, Prod.mk.injEq] at h
                obtain ⟨-, rfl⟩ := h
                exact h3.trans ((Frame.vars _ _).trans
                  ((Frame.tokenizer _ _).trans (hexpr _ _ _ hx)))
            · simp only [Except.ok.injEq, Prod.mk.injEq] at h
              obtain ⟨-, rfl⟩ := h
              exact h3.trans (Frame.vars _ _)

theorem localStmt_keeps {metaIfStmt forStmt localVarStmt1 : Parser Node}
    {simpleStmt : Parser (Option Node)} {exprList : Parser Node}
    (hif : Keeps metaIfStmt) (hfor : Keeps forStmt) (hvar : Keeps localVarStmt1)
    (hsimple : Keeps simpleStmt) (hlist : Keeps exprList) :
    Keeps (localStmt metaIfStmt forStmt localVarStmt1 simpleStmt exprList) := by
  intro s a s1 h
  unfold localStmt at h
  split at h
  · cases h
  · split at h
    · cases h
    · rename_i n s2 hn
      simp only [Except.ok.injEq, Prod.mk.injEq] at h
      obtain ⟨-, rfl⟩ := h
      exact hif _ _ _ hn
  · split at h
    · cases h
    · split at h
      · cases h
      · rename_i n s2 hn
        simp only [Except.ok.injEq, Prod.mk.injEq] at h
        obtain ⟨-, rfl⟩ := h
        exact hfor _ _ _ hn
    · split at h
      · cases h
      · split at h
        · cases h
        · rename_i n s2 hn
          simp only [Except.ok.injEq, Prod.mk.injEq] at h
          obtain ⟨-, rfl⟩ := h
          exact hvar _ _ _ hn
      · split at h
        · cases h
        · split at h
          · cases h
          · simp only [Except.ok.injEq, Prod.mk.injEq] at h
            obtain ⟨-, rfl⟩ := h
            exact Frame.tokenizer _ _
          · cases h
          · simp only [Except.ok.injEq, Prod.mk.injEq] at h
            obtain ⟨-, rfl⟩ := h
            exact Frame.tokenizer _ _
          · split at h
            · cases h
            · rename_i n s2 hn
              simp only [Except.ok.injEq, Prod.mk.injEq] at h
              obtain ⟨-, rfl⟩ := h
              exact (Frame.tokenizer _ _).trans (hlist _ _ _ hn)
        · exact hsimple _ _ _ h

theorem ifStmt_balanced {expr : Parser Node} {type_ : Parser Ty} (hexpr : Keeps expr)
    {fuel : Nat} (hlist : Keeps (localStmtList expr type_ fuel)) :
    Balanced (ifStmt expr type_ (fuel + 1)) := by
  intro s a s9 h
  rw [ifStmt] at h
  obtain ⟨⟨u, s1⟩, h1, h⟩ := Except.bind_ok_inv h
  obtain ⟨t2, -, h⟩ := Except.bind_ok_inv h
  obtain ⟨⟨cond, s3⟩, h3, h⟩ := Except.bind_ok_inv h
  obtain ⟨t4, -, h⟩ := Except.bind_ok_inv h
  obtain ⟨⟨body, s5⟩, h5, h⟩ := Except.bind_ok_inv h
  obtain ⟨t6, -, h⟩ := Except.bind_ok_inv h
  obtain ⟨⟨v, s7⟩, h7, h⟩ := Except.bind_ok_inv h
  simp only [pure, Except.pure, Except.ok.injEq, Prod.mk.injEq] at h
  obtain ⟨-, rfl⟩ := h
  have hf : Frame s1 s5 := (Frame.tokenizer _ _).trans ((hexpr _ _ _ h3).trans
    ((Frame.tokenizer _ _).trans (hlist _ _ _ h5)))
  exact scope_balanced h1 hf h7 rfl rfl

theorem elseStmt_balanced {expr : Parser Node} {type_ : Parser Ty}
    {fuel : Nat} (hlist : Keeps (localStmtList expr type_ fuel))
    (hmeta : Balanced (metaIfStmt expr type_ fuel)) :
    Balanced (elseStmt expr type_ (fuel + 1)) := by
  intro s a s9 h
  rw [elseStmt] at h
  obtain ⟨t1, -, h⟩ := Except.bind_ok_inv h
  obtain ⟨⟨braced, t2⟩, -, h⟩ := Except.bind_ok_inv h
  cases braced with
  | true =>
    simp only [if_true] at h
    obtain ⟨⟨u, s3⟩, h3, h⟩ := Except.bind_ok_inv h
    obtain ⟨⟨body, s4⟩, h4, h⟩ := Except.bind_ok_inv h
    obtain ⟨t5, -, h⟩ := Except.bind_ok_inv h
    obtain ⟨⟨v, s6⟩, h6, h⟩ := Except.bind_ok_inv h
    simp only [pure, Except.pure, Except.ok.injEq, Prod.mk.injEq] at h
    obtain ⟨-, rfl⟩ := h
    have hb := scope_balanced h3 (hlist _ _ _ h4) h6 rfl rfl
    exact hb
  | false =>
    simp only [Bool.false_eq_true, if_false] at h
    have hb := hmeta _ _ _ h
    exact hb

theorem metaIfStmt_balanced {expr : Parser Node} {type_ : Parser Ty}
    {fuel : Nat} (hif : Balanced (ifStmt expr type_ fuel))
    (helse : Balanced (elseStmt expr type_ fuel)) :
    Balanced (metaIfStmt expr type_ (fuel + 1)) := by
  intro s a s9 h
  rw [metaIfStmt] at h
  split at h
  · cases h
  · split at h
    · cases h
    · split at h
      · cases h
      · rename_i ifNode s1 h1
        obtain ⟨he1, hf1⟩ := hif _ _ _ h1
        split at h
        · cases h
        · split at h
          · cases h
          · rename_i elseNode s2 h2
            obtain ⟨he2, hf2⟩ := helse _ _ _ h2
            simp only [Except.ok.injEq, Prod.mk.injEq] at h
            obtain ⟨-, rfl⟩ := h
            exact ⟨he2.trans he1, hf2.trans hf1⟩
        · simp only [Except.ok.injEq, Prod.mk.injEq] at h
          obtain ⟨-, rfl⟩ := h
          exact ⟨he1, hf1⟩

theorem forStmt_balanced {expr : Parser Node} {type_ : Parser Ty} (hexpr : Keeps expr)
    {fuel : Nat} (hlist : Keeps (localStmtList expr type_ fuel)) :
    Balanced (forStmt expr type_ (fuel + 1)) := by
  intro s a s9 h
  rw [forStmt] at h
  obtain ⟨⟨u, s1⟩, h1, h⟩ := Except.bind_ok_inv h
  obtain ⟨t2, -, h⟩ := Except.bind_ok_inv h
  obtain ⟨⟨braced, t3⟩, -, h⟩ := Except.bind_ok_inv h
  cases braced with
  | true =>
    simp only [if_true] at h
    obtain ⟨⟨body, s4⟩, h4, h⟩ := Except.bind_ok_inv h
    obtain ⟨t5, -, h⟩ := Except.bind_ok_inv h
    obtain ⟨⟨v, s6⟩, h6, h⟩ := Except.bind_ok_inv h
    simp only [pure, Except.pure, Except.ok.injEq, Prod.mk.injEq] at h
    obtain ⟨-, rfl⟩ := h
    exact scope_balanced h1 ((Frame.tokenizer _ _).trans (hlist _ _ _ h4)) h6 rfl rfl
  | false =>
    simp only [Bool.false_eq_true, if_false] at h
    obtain ⟨tok, -, h⟩ := Except.bind_ok_inv h
    obtain ⟨⟨st, s4⟩, h4, h⟩ := Except.bind_ok_inv h
    have hs4 : Frame s1 s4 := (Frame.tokenizer _ _).trans (simpleStmt_keeps hexpr fuel _ _ _ h4)
    obtain ⟨⟨braced2, t5⟩, -, h⟩ := Except.bind_ok_inv h
    cases braced2 with
    | true =>
      simp only [if_true] at h
      split at h
      · cases h
      · obtain ⟨⟨body, s6⟩, h6, h⟩ := Except.bind_ok_inv h
        obtain ⟨t7, -, h⟩ := Except.bind_ok_inv h
        obtain ⟨⟨v, s8⟩, h8, h⟩ := Except.bind_ok_inv h
        simp only [pure, Except.pure, Except.ok.injEq, Prod.mk.injEq] at h
        obtain ⟨-, rfl⟩ := h
        exact scope_balanced h1 (hs4.trans ((Frame.tokenizer _ _).trans (hlist _ _ _ h6)))
          h8 rfl rfl
      · cases h
    | false =>
      simp only [Bool.false_eq_true, if_false] at h
      obtain ⟨t6, -, h⟩ := Except.bind_ok_inv h
      obtain ⟨⟨cond, s7⟩, h7, h⟩ := Except.bind_ok_inv h
      obtain ⟨t8, -, h⟩ := Except.bind_ok_inv h
      obtain ⟨⟨update, s9⟩, h9, h⟩ := Except.bind_ok_inv h
      obtain ⟨t10, -, h⟩ := Except.bind_ok_inv h
      obtain ⟨⟨body, s11⟩, h11, h⟩ := Except.bind_ok_inv h
      obtain ⟨t12, -, h⟩ := Except.bind_ok_inv h
      obtain ⟨⟨v, s13⟩, h13, h⟩ := Except.bind_ok_inv h
      simp only [pure, Except.pure, Except.ok.injEq, Prod.mk.injEq] at h
      obtain ⟨-, rfl⟩ := h
      have hf : Frame s1 s11 := hs4.trans ((Frame.tokenizer _ _).trans ((hexpr _ _ _ h7).trans
        ((Frame.tokenizer _ _).trans ((simpleStmt_keeps hexpr fuel _ _ _ h9).trans
          ((Frame.tokenizer _ _).trans (hlist _ _ _ h11))))))
      exact scope_balanced h1 hf h13 rfl rfl

theorem localStmtListLoop_keeps {expr : Parser Node} {type_ : Parser Ty} (hexpr : Keeps expr)
    (htype : Keeps type_) :
    ∀ (fuel : Nat), (∀ k, k ≤ fuel → Balanced (metaIfStmt expr type_ k)) →
      (∀ k, k ≤ fuel → Balanced (forStmt expr type_ k)) →
      ∀ k, k ≤ fuel + 1 → ∀ stmts b, Keeps (localStmtListLoop expr type_ k stmts b)
  | _, _, _, 0, _, _, _ => by
    intro s a s1 h
    simp [localStmtListLoop] at h
  | fuel, hmeta, hfor, k + 1, hk, stmts, b => by
    intro s a s1 h
    have ih := localStmtListLoop_keeps hexpr htype fuel hmeta hfor k (by omega)
    rw [localStmtListLoop] at h
    split at h
    · cases h
    · simp only [Except.ok.injEq, Prod.mk.injEq] at h
      obtain ⟨-, rfl⟩ := h
      exact Frame.frame_refl _
    · split at h
      · cases h
      · split at h
        · cases h
        · exact (Frame.tokenizer _ _).trans (ih _ _ _ _ _ h)
        · split at h
          · cases h
          · cases h
          · rename_i stmt s2 hstmt
            split at h
            · cases h
            · have h2 : Frame s s2 :=
                localStmt_keeps (hmeta k (by omega)).toKeeps (hfor k (by omega)).toKeeps
                  (localVarStmt_keeps localVariableDeclaration_keeps htype hexpr)
                  (simpleStmt_keeps hexpr k) (exprList_keeps hexpr k) _ _ _ hstmt
              exact h2.trans ((Frame.tokenizer _ _).trans (ih _ _ _ _ _ h))

theorem statements_keep {expr : Parser Node} {type_ : Parser Ty} (hexpr : Keeps expr)
    (htype : Keeps type_) : ∀ fuel k, k ≤ fuel → StatementsKeep expr type_ k := by
  have hzero : StatementsKeep expr type_ 0 := by
    refine ⟨?_, ?_, ?_, ?_, ?_, ?_⟩
    · intro s a s1 h; simp [localStmtList] at h
    · intro stmts b s a s1 h; simp [localStmtListLoop] at h
    · intro s a s1 h; simp [metaIfStmt] at h
    · intro s a s1 h; simp [ifStmt] at h
    · intro s a s1 h; simp [elseStmt] at h
    · intro s a s1 h; simp [forStmt] at h
  intro fuel
  induction fuel with
  | zero =>
    intro k hk
    have : k = 0 := by omega
    subst this
    exact hzero
  | succ n ih =>
    intro k hk
    by_cases hle : k ≤ n
    · exact ih k hle
    · have hkn : k = n + 1 := by omega
      subst hkn
      have hloop := localStmtListLoop_keeps hexpr htype n (fun k hk => (ih k hk).2.2.1)
        (fun k hk => (ih k hk).2.2.2.2.2)
      have hn := ih n (Nat.le_refl n)
      refine ⟨?_, hloop (n + 1) (by omega), metaIfStmt_balanced hn.2.2.2.1 hn.2.2.2.2.1,
        ifStmt_balanced hexpr hn.1, elseStmt_balanced hn.1 hn.2.2.1,
        forStmt_balanced hexpr hn.1⟩
      intro s a s1 h
      rw [localStmtList] at h
      split at h
      · cases h
      · rename_i stmts s2 hl
        simp only [Except.ok.injEq, Prod.mk.injEq] at h
        obtain ⟨-, rfl⟩ := h
        exact hloop n (by omega) _ _ _ _ _ hl

theorem SameScope.scope_refl (s : ParserState) : SameScope s s := ⟨rfl, rfl⟩

theorem SameScope.scope_trans {s s1 s2 : ParserState} (h1 : SameScope s s1) (h2 : SameScope s1 s2) :
    SameScope s s2 :=
  ⟨h2.1.trans h1.1, h2.2.trans h1.2⟩

theorem Frame.sameScope {s s1 : ParserState} (h : Frame s s1) : SameScope s s1 :=
  ⟨h.depth, h.parents⟩

theorem SameScope.scope_of_eq {s s1 : ParserState} (h : s1.Env = s.Env) : SameScope s s1 :=
  ⟨by rw [h], by rw [h]⟩

theorem parameterLoop_sameScope {type_ : Parser Ty} (htype : Keeps type_) (label : String) :
    ∀ (fuel : Nat) (parameters : List Node) (s : ParserState) (r : List Node)
      (s1 : ParserState), parameterLoop type_ label fuel parameters s = .ok (r, s1) →
      SameScope s s1
  | 0, _, _, _, _, h => by simp [parameterLoop] at h
  | fuel + 1, parameters, s, r, s9, h => by
    rw [parameterLoop] at h
    obtain ⟨⟨closed, t1⟩, -, h⟩ := Except.bind_ok_inv h
    cases closed with
    | true =>
      simp only [if_true, pure, Except.pure, Except.ok.injEq, Prod.mk.injEq] at h
      obtain ⟨-, rfl⟩ := h
      exact SameScope.scope_of_eq rfl
    | false =>
      simp only [Bool.false_eq_true, if_false] at h
      obtain ⟨t2, -, h⟩ := Except.bind_ok_inv h
      obtain ⟨⟨lvarNode, s3⟩, h3, h⟩ := Except.bind_ok_inv h
      obtain ⟨⟨ty, s4⟩, h4, h⟩ := Except.bind_ok_inv h
      split at h
      · cases h
      · have ih := parameterLoop_sameScope htype label fuel _ _ _ _ h
        have h13 : SameScope s s3 :=
          ((Frame.tokenizer s t2).trans (localVariableDeclaration_keeps _ _ _ h3)).sameScope
        exact (h13.scope_trans (htype _ _ _ h4).sameScope).scope_trans
          ((SameScope.scope_of_eq rfl).scope_trans ih)

theorem returnTypeLoop_sameScope {type_ : Parser Ty} (htype : Keeps type_) :
    ∀ (fuel : Nat) (types : List Ty) (s : ParserState) (r : List Ty) (s1 : ParserState),
      returnTypeLoop type_ fuel types s = .ok (r, s1) →
      SameScope s s1 ∧ s1.functions.map Function.signature = s.functions.map Function.signature
  | 0, _, _, _, _, h => by simp [returnTypeLoop] at h
  | fuel + 1, types, s, r, s9, h => by
    rw [returnTypeLoop] at h
    obtain ⟨⟨more, t1⟩, -, h⟩ := Except.bind_ok_inv h
    cases more with
    | true =>
      simp only [if_true] at h
      obtain ⟨⟨ty, s2⟩, h2, h⟩ := Except.bind_ok_inv h
      have ih := returnTypeLoop_sameScope htype fuel _ _ _ _ h
      have h12 := (Frame.tokenizer s t1).trans (htype _ _ _ h2)
      exact ⟨h12.sameScope.scope_trans ih.1, ih.2.trans h12.signatures⟩
    | false =>
      simp only [Bool.false_eq_true, if_false, pure, Except.pure, Except.ok.injEq,
        Prod.mk.injEq] at h
      obtain ⟨-, rfl⟩ := h
      exact ⟨SameScope.scope_refl _, rfl⟩

theorem funcReturnType_sameScope {type_ : Parser Ty} (htype : Keeps type_) (label : String)
    (fuel : Nat) (s : ParserState) (u : Unit) (s1 : ParserState)
    (h : funcReturnType type_ label fuel s = .ok (u, s1)) : SameScope s s1 := by
  unfold funcReturnType at h
  simp only [bind, Except.bind] at h
  split at h
  · cases h
  · rename_i r hc
    obtain ⟨paren, t2⟩ := r
    cases paren with
    | true =>
      simp only [if_true] at h
      split at h
      · cases h
      · rename_i r3 h3
        obtain ⟨ty, s3⟩ := r3
        simp only at h
        split at h
        · cases h
        · rename_i r4 h4
          obtain ⟨types, s4⟩ := r4
          simp only at h
          split at h
          · cases h
          · simp only [pure, Except.pure, Except.ok.injEq, Prod.mk.injEq] at h
            obtain ⟨-, rfl⟩ := h
            have h03 : SameScope s s3 :=
              (SameScope.scope_of_eq rfl).scope_trans (htype _ _ _ h3).sameScope
            exact (h03.scope_trans (returnTypeLoop_sameScope htype fuel _ _ _ _ h4).1).scope_trans
              (SameScope.scope_of_eq rfl)
    | false =>
      simp only [Bool.false_eq_true, if_false] at h
      split at h
      · cases h
      · rename_i b hb
        cases b with
        | true =>
          simp only [if_true] at h
          split at h
          · cases h
          · rename_i r3 h3
            obtain ⟨ty, s3⟩ := r3
            simp only [pure, Except.pure, Except.ok.injEq, Prod.mk.injEq] at h
            obtain ⟨-, rfl⟩ := h
            exact ((SameScope.scope_of_eq rfl).scope_trans (htype _ _ _ h3).sameScope).scope_trans
              (SameScope.scope_of_eq rfl)
        | false =>
          simp only [Bool.false_eq_true, if_false, pure, Except.pure, Except.ok.injEq,
            Prod.mk.injEq] at h
          obtain ⟨-, rfl⟩ := h
          exact SameScope.scope_of_eq rfl

theorem stepInFunction_ok {name : String} {s : ParserState} {u : Unit} {s1 : ParserState}
    (h : stepInFunction name s = .ok (u, s1)) :
    s1.Env.tail = s.Env ∧ s1.functions = s.functions ∧ s1.tokenizer = s.tokenizer ∧
      s1.vars = s.vars ∧ s1.allocated = s.allocated ∧ s1.FunctionName = name := by
  unfold stepInFunction at h
  cases he : s.Env with
  | nil => simp [he] at h
  | cons e rest =>
    simp only [he, Except.ok.injEq, Prod.mk.injEq, true_and] at h
    subst h
    exact ⟨rfl, rfl, rfl, rfl, rfl, rfl⟩

theorem funcParameters_scope {type_ : Parser Ty} (htype : Keeps type_) (fuel : Nat)
    (s : ParserState) (r : String × List Node) (s1 : ParserState)
    (h : funcParameters type_ fuel s = .ok (r, s1)) : s1.Env.tail = s.Env ∧ s1.Env ≠ [] := by
  unfold funcParameters at h
  obtain ⟨t1, -, h⟩ := Except.bind_ok_inv h
  obtain ⟨⟨ident, s2⟩, h2, h⟩ := Except.bind_ok_inv h
  obtain ⟨⟨u, s3⟩, h3, h⟩ := Except.bind_ok_inv h
  obtain ⟨t5, -, h⟩ := Except.bind_ok_inv h
  obtain ⟨⟨parameters, s6⟩, h6, h⟩ := Except.bind_ok_inv h
  simp only [pure, Except.pure, Except.ok.injEq, Prod.mk.injEq] at h
  obtain ⟨-, rfl⟩ := h
  have hs := parameterLoop_sameScope htype _ _ _ _ _ _ h6
  have h3e := (stepInFunction_ok h3).1
  have h2e : s2.Env = s.Env := by
    have := identifier_onlyTokenizer _ _ _ h2
    rw [this]
    rfl
  have htail : s6.Env.tail = s.Env := by
    rw [hs.2]
    simp only [ParserState.withTokenizer_Env, ParserState.withFunctions_Env]
    rw [h3e, h2e]
  refine ⟨htail, ?_⟩
  intro hnil
  have hlen := hs.1
  simp only [ParserState.withTokenizer_Env, ParserState.withFunctions_Env] at hlen
  unfold stepInFunction at h3
  cases he : s2.Env with
  | nil => simp [he] at h3
  | cons e rest =>
    simp only [he, Except.ok.injEq, Prod.mk.injEq, true_and] at h3
    subst h3
    simp [hnil] at hlen

theorem funcDefinition_scope {type_ : Parser Ty} {body : Parser Node} (htype : Keeps type_)
    (hbody : Keeps body) (fuel : Nat) (s : ParserState) (n : Node) (s9 : ParserState)
    (h : funcDefinition type_ body fuel s = .ok (n, s9)) : s9.Env = s.Env := by
  unfold funcDefinition at h
  obtain ⟨⟨⟨ident, parameters⟩, s1⟩, h1, h⟩ := Except.bind_ok_inv h
  obtain ⟨⟨u, s2⟩, h2, h⟩ := Except.bind_ok_inv h
  obtain ⟨⟨braced, t3⟩, -, h⟩ := Except.bind_ok_inv h
  obtain ⟨h1t, -⟩ := funcParameters_scope htype fuel s _ s1 h1
  have h12 := funcReturnType_sameScope htype ident fuel s1 u s2 h2
  cases braced with
  | true =>
    simp only [if_true] at h
    obtain ⟨⟨bodyNode, s4⟩, h4, h⟩ := Except.bind_ok_inv h
    obtain ⟨t5, -, h⟩ := Except.bind_ok_inv h
    obtain ⟨⟨v, s7⟩, h7, h⟩ := Except.bind_ok_inv h
    simp only [pure, Except.pure, Except.ok.injEq, Prod.mk.injEq] at h
    obtain ⟨-, rfl⟩ := h
    have h24 := ((Frame.tokenizer s2 t3).trans (hbody _ _ _ h4)).sameScope
    rw [(stepOut_ok h7).1]
    simp only [ParserState.withTokenizer_Env, ParserState.withFunctions_Env]
    rw [h24.2, h12.2, h1t]
  | false =>
    simp only [Bool.false_eq_true, if_false] at h
    obtain ⟨⟨v, s4⟩, h4, h⟩ := Except.bind_ok_inv h
    simp only [pure, Except.pure, Except.ok.injEq, Prod.mk.injEq] at h
    obtain ⟨-, rfl⟩ := h
    rw [(stepOut_ok h4).1]
    simp only [ParserState.withTokenizer_Env]
    rw [h12.2, h1t]

theorem binaryLoop_onlyTokenizer (ops : List (TokenKind × BinaryKind)) {next : Parser Node}
    (hnext : OnlyTokenizer next) :
    ∀ (fuel : Nat) (n : Node), OnlyTokenizer (binaryLoop ops next fuel n)
  | 0, _ => by
    intro s a s1 h
    simp [binaryLoop] at h
  | fuel + 1, n => by
    intro s a s1 h
    rw [binaryLoop] at h
    split at h
    · cases h
    · simp only [Except.ok.injEq, Prod.mk.injEq] at h
      obtain ⟨-, rfl⟩ := h
      rfl
    · split at h
      · cases h
      · rename_i rhs s2 hn
        have h2 := hnext _ _ _ hn
        have h3 := binaryLoop_onlyTokenizer ops hnext fuel _ _ _ _ h
        rw [h3, h2]
        rfl

theorem binaryLevel_onlyTokenizer (ops : List (TokenKind × BinaryKind)) {next : Parser Node}
    (hnext : OnlyTokenizer next) (fuel : Nat) : OnlyTokenizer (binaryLevel ops next fuel) := by
  intro s a s1 h
  unfold binaryLevel at h
  split at h
  · cases h
  · rename_i n s2 hn
    have h2 := hnext _ _ _ hn
    have h3 := binaryLoop_onlyTokenizer ops hnext fuel _ _ _ _ h
    rw [h3, h2]
    rfl

theorem expr_onlyTokenizer {unary : Parser Node} (hunary : OnlyTokenizer unary) (fuel : Nat) :
    OnlyTokenizer (expr unary fuel) :=
  binaryLevel_onlyTokenizer _ (binaryLevel_onlyTokenizer _ (binaryLevel_onlyTokenizer _
    (binaryLevel_onlyTokenizer _ (binaryLevel_onlyTokenizer _
      (binaryLevel_onlyTokenizer _ hunary fuel) fuel) fuel) fuel) fuel) fuel

theorem numberLiteral_onlyTokenizer : OnlyTokenizer numberLiteral := by
  intro s a s1 h
  unfold numberLiteral at h
  split at h
  · cases h
  · split at h
    · cases h
    · simp only [Except.ok.injEq, Prod.mk.injEq] at h
      obtain ⟨-, rfl⟩ := h
      rfl

theorem boolLiteral_onlyTokenizer : OnlyTokenizer boolLiteral := by
  intro s a s1 h
  unfold boolLiteral at h
  split at h
  · cases h
  · split at h
    · cases h
    · simp only [Except.ok.injEq, Prod.mk.injEq] at h
      obtain ⟨-, rfl⟩ := h
      rfl

theorem primary_onlyTokenizer {expr operand : Parser Node} (hexpr : OnlyTokenizer expr)
    (hoperand : OnlyTokenizer operand) : OnlyTokenizer (primary expr operand) := by
  intro s a s1 h
  unfold primary at h
  split at h
  · cases h
  · split at h
    · cases h
    · rename_i n s2 hn
      split at h
      · cases h
      · simp only [Except.ok.injEq, Prod.mk.injEq] at h
        obtain ⟨-, rfl⟩ := h
        have h2 := hexpr _ _ _ hn
        rw [h2]
        rfl
  · split at h
    · cases h
    · split at h
      · cases h
      · rename_i v s2 hv
        simp only [Except.ok.injEq, Prod.mk.injEq] at h
        obtain ⟨-, rfl⟩ := h
        exact numberLiteral_onlyTokenizer _ _ _ hv
    · split at h
      · cases h
      · split at h
        · cases h
        · rename_i v s2 hv
          simp only [Except.ok.injEq, Prod.mk.injEq] at h
          obtain ⟨-, rfl⟩ := h
          exact boolLiteral_onlyTokenizer _ _ _ hv
      · exact hoperand _ _ _ h

theorem unary_onlyTokenizer {primary : Parser Node} (hprimary : OnlyTokenizer primary) :
    ∀ fuel : Nat, OnlyTokenizer (unary primary fuel)
  | 0 => by
    intro s a s1 h
    simp [unary] at h
  | fuel + 1 => by
    have ih := unary_onlyTokenizer hprimary fuel
    intro s a s1 h
    rw [unary] at h
    split at h
    · cases h
    · have := hprimary _ _ _ h
      rw [this]
      rfl
    · split at h
      · cases h
      · split at h
        · cases h
        · rename_i n s2 hn
          simp only [Except.ok.injEq, Prod.mk.injEq] at h
          obtain ⟨-, rfl⟩ := h
          have := hprimary _ _ _ hn
          rw [this]
          rfl
      · split at h
        · cases h
        · split at h
          · cases h
          · rename_i n s2 hn
            simp only [Except.ok.injEq, Prod.mk.injEq] at h
            obtain ⟨-, rfl⟩ := h
            have := ih _ _ _ hn
            rw [this]
            rfl
        · split at h
          · cases h
          · split at h
            · cases h
            · rename_i n s2 hn
              simp only [Except.ok.injEq, Prod.mk.injEq] at h
              obtain ⟨-, rfl⟩ := h
              have := ih _ _ _ hn
              rw [this]
              rfl
          · split at h
            · cases h
            · split at h
              · cases h
              · rename_i n s2 hn
                simp only [Except.ok.injEq, Prod.mk.injEq] at h
                obtain ⟨-, rfl⟩ := h
                have := ih _ _ _ hn
                rw [this]
                rfl
            · exact hprimary _ _ _ h

theorem unreachedParser_onlyTokenizer (α : Type) : OnlyTokenizer (unreachedParser α) := by
  intro s a s1 h
  simp [unreachedParser] at h

theorem exprOf_onlyTokenizer {operand : Parser Node} (hoperand : OnlyTokenizer operand) :
    ∀ fuel : Nat, OnlyTokenizer (exprOf operand fuel)
  | 0 => by
    intro s a s1 h
    simp [exprOf] at h
  | fuel + 1 => by
    rw [exprOf]
    exact expr_onlyTokenizer (unary_onlyTokenizer
      (primary_onlyTokenizer (exprOf_onlyTokenizer hoperand fuel) hoperand) _) _

theorem basicType_onlyTokenizer : OnlyTokenizer basicType := by
  intro s a s1 h
  unfold basicType at h
  split at h
  · cases h
  · rename_i ident s2 hid
    have h2 := identifier_onlyTokenizer _ _ _ hid
    repeat' split at h
    all_goals first
      | (cases h; done)
      | (cases h; exact h2)

theorem Except.exists_ok {ε α σ : Type} (x : Except ε (α × σ)) (h : x.toBool = true) :
    ∃ a s, x = .ok (a, s) := by
  cases x with
  | error e => simp [Except.toBool] at h
  | ok r => exact ⟨r.1, r.2, rfl⟩

theorem find_updateFunction (label : String) (g : Function → Function)
    (hg : ∀ f, (g f).Label = f.Label) :
    ∀ (fs : List Function) (fn : Function),
      fs.find? (fun f => f.Label == label) = some fn →
      (updateFunction label g fs).find? (fun f => f.Label == label) = some (g fn)
  | [], _, h => by simp at h
  | f :: fs, fn, h => by
    simp only [updateFunction, List.map_cons]
    by_cases hf : f.Label = label
    · have hb : (f.Label == label) = true := by simpa using hf
      rw [List.find?_cons_of_pos _ (by simpa using hf)] at h
      cases h
      simp only [hb, if_true]
      rw [List.find?_cons_of_pos _ (by simpa [hg] using hf)]
    · have hb : (f.Label == label) = false := by simpa using hf
      rw [List.find?_cons_of_neg _ (by simpa using hf)] at h
      simp only [hb, Bool.false_eq_true, if_false]
      rw [List.find?_cons_of_neg _ (by simpa using hf)]
      exact find_updateFunction label g hg fs fn h

theorem find_signature_congr (label : String) :
    ∀ (fs gs : List Function), gs.map Function.signature = fs.map Function.signature →
      (gs.find? (fun f => f.Label == label)).map Function.signature =
        (fs.find? (fun f => f.Label == label)).map Function.signature
  | [], [], _ => rfl
  | [], _ :: _, h => by simp at h
  | _ :: _, [], h => by simp at h
  | f :: fs, g :: gs, h => by
    simp only [List.map_cons, List.cons.injEq] at h
    have hl : g.Label = f.Label := by
      have := congrArg (fun x => x.1) h.1
      simpa [Function.signature] using this
    by_cases hf : f.Label = label
    · rw [List.find?_cons_of_pos _ (by show (g.Label == label) = true; rw [hl]; simpa using hf),
        List.find?_cons_of_pos _ (by simpa using hf)]
      simp [h.1]
    · rw [List.find?_cons_of_neg _
          (by show ¬ (g.Label == label) = true; rw [hl]; simpa using hf),
        List.find?_cons_of_neg _ (by simpa using hf)]
      exact find_signature_congr label fs gs h.2

theorem find_RegisterFunction (fn : Function) :
    ∀ fs : List Function,
      (RegisterFunction fs fn).find? (fun f => f.Label == fn.Label) = some fn := by
  intro fs
  unfold RegisterFunction
  split
  · rename_i hany
    induction fs with
    | nil => simp at hany
    | cons f fs ih =>
      simp only [List.map_cons]
      by_cases hf : f.Label = fn.Label
      · have hb : (f.Label == fn.Label) = true := by simpa using hf
        simp only [hb, if_true]
        rw [List.find?_cons_of_pos _ (by simp)]
      · have hb : (f.Label == fn.Label) = false := by simpa using hf
        simp only [hb, Bool.false_eq_true, if_false]
        rw [List.find?_cons_of_neg _ (by simpa using hf)]
        apply ih
        simpa [hb] using hany
  · rename_i hany
    rw [List.find?_append]
    have : fs.find? (fun f => f.Label == fn.Label) = none := by
      rw [List.find?_eq_none]
      intro f hf hlab
      exact hany (List.any_eq_true.mpr ⟨f, hf, hlab⟩)
    rw [this]
    simp

theorem localVariableDeclaration_ok {s : ParserState} {n : Node} {s1 : ParserState}
    (h : localVariableDeclaration s = .ok (n, s1)) :
    n = .NodeLocalVariable .undefined s.allocated ∧ s1.allocated = s.allocated + 1 ∧
      (∃ name, s1.vars = s.vars.set s.allocated
        { Name := name, Typ := .undefined, Kind := .VariableLocal, Offset := 0 }) ∧
      Frame s s1 := by
  have hframe := localVariableDeclaration_keeps _ _ _ h
  unfold localVariableDeclaration at h
  split at h
  · cases h
  · split at h
    · cases h
    · rename_i ident s2 hid
      have h2 := identifier_onlyTokenizer _ _ _ hid
      split at h
      · cases h
      · split at h
        · cases h
        · split at h
          · cases h
          · rename_i v s3 hadd
            simp only [Except.ok.injEq, Prod.mk.injEq] at h
            obtain ⟨rfl, rfl⟩ := h
            unfold AddLocalVar at hadd
            split at hadd
            · cases hadd
            · split at hadd
              · cases hadd
              · simp only [Except.ok.injEq, Prod.mk.injEq] at hadd
                obtain ⟨rfl, rfl⟩ := hadd
                have ha : s2.allocated = s.allocated := by rw [h2]; rfl
                have hv : s2.vars = s.vars := by rw [h2]; rfl
                refine ⟨by rw [ha], ?_, ⟨ident, ?_⟩, hframe⟩
                · show s2.allocated + 1 = s.allocated + 1
                  rw [ha]
                · show s2.vars.set s2.allocated _ = _
                  rw [ha, hv]

theorem map_variableType_congr (vs ws : Vars) (bound : Nat) (hvs : ∀ w, w < bound → ws w = vs w) :
    ∀ parameters : List Node,
      (∀ p ∈ parameters, ∃ v, p = Node.NodeLocalVariable .undefined v ∧ v < bound) →
      parameters.map (variableType ws) = parameters.map (variableType vs)
  | [], _ => rfl
  | p :: ps, h => by
    obtain ⟨v, rfl, hv⟩ := h p (by simp)
    simp only [List.map_cons, variableType, Node.Variable, hvs v hv, List.cons.injEq, true_and]
    exact map_variableType_congr vs ws bound hvs ps (fun q hq => h q (by simp [hq]))

theorem parameterLoop_ok {type_ : Parser Ty} (htype : OnlyTokenizer type_) (label : String)
    (rt : Ty) :
    ∀ (fuel : Nat) (parameters : List Node) (s : ParserState) (r : List Node)
      (s1 : ParserState), parameterLoop type_ label fuel parameters s = .ok (r, s1) →
      ParametersRegistered label rt parameters s → ParametersRegistered label rt r s1
  | 0, _, _, _, _, h, _ => by simp [parameterLoop] at h
  | fuel + 1, parameters, s, r, s9, h, hinv => by
    rw [parameterLoop] at h
    obtain ⟨⟨closed, t1⟩, -, h⟩ := Except.bind_ok_inv h
    cases closed with
    | true =>
      simp only [if_true, pure, Except.pure, Except.ok.injEq, Prod.mk.injEq] at h
      obtain ⟨rfl, rfl⟩ := h
      exact hinv
    | false =>
      simp only [Bool.false_eq_true, if_false] at h
      obtain ⟨t2, -, h⟩ := Except.bind_ok_inv h
      obtain ⟨⟨lvarNode, s3⟩, h3, h⟩ := Except.bind_ok_inv h
      obtain ⟨⟨ty, s4⟩, h4, h⟩ := Except.bind_ok_inv h
      obtain ⟨hnode, halloc, ⟨name, hvars⟩, hframe⟩ := localVariableDeclaration_ok h3
      have h43 := htype _ _ _ h4
      have h4f : s4.functions = s3.functions := by rw [h43]; rfl
      have h4v : s4.vars = s3.vars := by rw [h43]; rfl
      have h4a : s4.allocated = s3.allocated := by rw [h43]; rfl
      simp only [ParserState.withTokenizer_allocated] at hnode halloc
      simp only [ParserState.withTokenizer_allocated, ParserState.withTokenizer_vars] at hvars
      subst hnode
      simp only [Node.Variable] at h
      refine parameterLoop_ok htype label rt fuel _ _ _ _ h ?_
      unfold ParametersRegistered ParserState.FindFunction
      simp only [ParserState.withFunctions_functions, ParserState.withFunctions_vars,
        ParserState.withVars_vars, ParserState.withFunctions_allocated,
        ParserState.withVars_allocated]
      rw [h4a, halloc, h4f, h4v, hvars]
      refine ⟨?_, ?_⟩
      · intro p hp
        rcases List.mem_append.mp hp with hp | hp
        · obtain ⟨v, hv, hlt⟩ := hinv.1 p hp
          exact ⟨v, hv, by omega⟩
        · simp only [List.mem_singleton] at hp
          exact ⟨s.allocated, hp, by omega⟩
      · have hsig3 : (s3.functions.find? (fun f => f.Label == label)).map Function.signature =
            some (label, parameters.map (variableType s.vars), rt, false) := by
          rw [find_signature_congr label _ _ hframe.signatures]
          exact hinv.2
        cases hfind : s3.functions.find? (fun f => f.Label == label) with
        | none => simp [hfind] at hsig3
        | some rec3 =>
          simp only [hfind, Option.map_some', Option.some.injEq] at hsig3
          have hupd := find_updateFunction label
            (fun f => { Label := f.Label, ParameterTypes := f.ParameterTypes ++ [ty],
                        ReturnValueType := f.ReturnValueType,
                        LocalVariables := f.LocalVariables, IsDefined := f.IsDefined })
            (fun f => rfl) s3.functions rec3 hfind
          rw [hupd]
          simp only [Option.map_some', Function.signature, Option.some.injEq, Prod.mk.injEq]
          simp only [Function.signature, Prod.mk.injEq] at hsig3
          refine ⟨hsig3.1, ?_, hsig3.2.2.1, hsig3.2.2.2⟩
          rw [hsig3.2.1, List.map_append]
          have hother : ∀ w, w < s.allocated →
              ((s.vars.set s.allocated
                { Name := name, Typ := .undefined, Kind := .VariableLocal, Offset := 0 }).setType
                  s.allocated ty) w = s.vars w := by
            intro w hw
            rw [Vars.setType_other _ _ (by omega)]
            simp [Vars.set, Nat.ne_of_lt hw]
          rw [map_variableType_congr s.vars _ s.allocated hother parameters hinv.1]
          simp [variableType, Node.Variable, Vars.setType_typ_self]

theorem funcParameters_ok {type_ : Parser Ty} (htype : OnlyTokenizer type_) (fuel : Nat)
    (s : ParserState) (ident : String) (parameters : List Node) (sp : ParserState)
    (h : funcParameters type_ fuel s = .ok ((ident, parameters), sp)) :
    ParametersRegistered ident .undefined parameters sp := by
  unfold funcParameters at h
  obtain ⟨t1, -, h⟩ := Except.bind_ok_inv h
  obtain ⟨⟨ident1, s2⟩, h2, h⟩ := Except.bind_ok_inv h
  obtain ⟨⟨u, s3⟩, h3, h⟩ := Except.bind_ok_inv h
  obtain ⟨t5, -, h⟩ := Except.bind_ok_inv h
  obtain ⟨⟨parameters1, s6⟩, h6, h⟩ := Except.bind_ok_inv h
  simp only [pure, Except.pure, Except.ok.injEq, Prod.mk.injEq] at h
  obtain ⟨⟨rfl, rfl⟩, rfl⟩ := h
  have hname := (stepInFunction_ok h3).2.2.2.2.2
  rw [hname] at h6
  refine parameterLoop_ok htype ident1 .undefined fuel [] _ _ _ h6 ⟨?_, ?_⟩
  · intro p hp
    simp at hp
  · unfold ParserState.FindFunction
    simp only [ParserState.withTokenizer_functions, ParserState.withFunctions_functions,
      List.map_nil]
    have := find_RegisterFunction (NewFunction ident1 [] .undefined) s3.functions
    simp only [NewFunction] at this ⊢
    rw [this]
    rfl

theorem Tokenizer.Consume_ok {t : Tokenizer} {tok : Token} (h : t.Fetch = .ok tok)
    (kind : TokenKind) :
    t.Consume kind = .ok (decide (tok.kind = kind), if tok.kind = kind then t.Succ else t) := by
  by_cases hk : tok.kind = kind <;> simp [Tokenizer.Consume, Tokenizer.Test, h, Token.Test, hk]

theorem find_setReturnValueType (label : String) (ty : Ty) (s : ParserState) (pts : List Ty)
    (rt0 : Ty) (d : Bool)
    (h : (s.FindFunction label).map Function.signature = some (label, pts, rt0, d)) :
    ((setReturnValueType label ty s).FindFunction label).map Function.signature =
      some (label, pts, ty, d) := by
  unfold ParserState.FindFunction at h ⊢
  cases hfind : s.functions.find? (fun f => f.Label == label) with
  | none => simp [hfind] at h
  | some fn =>
    simp only [hfind, Option.map_some', Option.some.injEq, Function.signature,
      Prod.mk.injEq] at h
    unfold setReturnValueType
    simp only [ParserState.withFunctions_functions]
    rw [find_updateFunction label
      (fun f => { Label := f.Label, ParameterTypes := f.ParameterTypes, ReturnValueType := ty,
                  LocalVariables := f.LocalVariables, IsDefined := f.IsDefined })
      (fun f => rfl) s.functions fn hfind]
    simp [Function.signature, h.1, h.2.1, h.2.2.2]

theorem returnTypeLoop_onlyTokenizer {type_ : Parser Ty} (htype : OnlyTokenizer type_) :
    ∀ (fuel : Nat) (types : List Ty), OnlyTokenizer (returnTypeLoop type_ fuel types)
  | 0, _ => by
    intro s a s1 h
    simp [returnTypeLoop] at h
  | fuel + 1, types => by
    intro s a s1 h
    rw [returnTypeLoop] at h
    obtain ⟨⟨more, t1⟩, -, h⟩ := Except.bind_ok_inv h
    cases more with
    | true =>
      simp only [if_true] at h
      obtain ⟨⟨ty, s2⟩, h2, h⟩ := Except.bind_ok_inv h
      have h3 := returnTypeLoop_onlyTokenizer htype fuel _ _ _ _ h
      have h2' := htype _ _ _ h2
      rw [h3, h2']
      rfl
    | false =>
      simp only [Bool.false_eq_true, if_false, pure, Except.pure, Except.ok.injEq,
        Prod.mk.injEq] at h
      obtain ⟨-, rfl⟩ := h
      rfl

theorem funcReturnType_ok {type_ : Parser Ty} (htype : OnlyTokenizer type_) (label : String)
    (fuel : Nat) (s : ParserState) (u : Unit) (s1 : ParserState) (pts : List Ty) (rt0 : Ty)
    (h : funcReturnType type_ label fuel s = .ok (u, s1))
    (hreg : (s.FindFunction label).map Function.signature = some (label, pts, rt0, false)) :
    s1.vars = s.vars ∧ ∃ rt,
      (s1.FindFunction label).map Function.signature = some (label, pts, rt, false) ∧
      ∀ tok, s.tokenizer.Fetch = .ok tok →
        (tok.kind = .TokenLparen → ∃ types, rt = .multiple types) ∧
        (tok.kind ≠ .TokenLparen → isType s = .ok false → rt = .void) ∧
        (tok.kind ≠ .TokenLparen → isType s = .ok true →
          ∃ s2, type_ (setReturnValueType label .void s) = .ok (rt, s2)) := by
  unfold funcReturnType at h
  simp only [bind, Except.bind] at h
  have hvoid := find_setReturnValueType label .void s pts rt0 false hreg
  have hisType : isType (setReturnValueType label .void s) = isType s := rfl
  split at h
  · cases h
  · rename_i r hc
    obtain ⟨paren, t2⟩ := r
    cases paren with
    | true =>
      simp only [if_true] at h
      split at h
      · cases h
      · rename_i r3 h3
        obtain ⟨ty, s3⟩ := r3
        simp only at h
        split at h
        · cases h
        · rename_i r4 h4
          obtain ⟨types, s4⟩ := r4
          simp only at h
          split at h
          · cases h
          · rename_i t5 h5
            simp only [pure, Except.pure, Except.ok.injEq, Prod.mk.injEq] at h
            obtain ⟨-, rfl⟩ := h
            have e3 := htype _ _ _ h3
            have e4 := returnTypeLoop_onlyTokenizer htype fuel _ _ _ _ h4
            have hs4 : s4 = (setReturnValueType label .void s).withTokenizer s4.tokenizer := by
              rw [e4, e3]
              rfl
            have hf4 : (s4.withTokenizer t5).FindFunction label =
                (setReturnValueType label .void s).FindFunction label := by
              rw [hs4]
              rfl
            refine ⟨?_, .multiple types, ?_, ?_⟩
            · show s4.vars = s.vars
              rw [hs4]
              rfl
            · apply find_setReturnValueType label (.multiple types) _ pts .void false
              rw [hf4]
              exact hvoid
            · intro tok htok
              have hc2 : (setReturnValueType label .void s).tokenizer.Consume .TokenLparen = _ :=
                Tokenizer.Consume_ok htok .TokenLparen
              rw [hc2] at hc
              simp only [Except.ok.injEq, Prod.mk.injEq, decide_eq_true_eq] at hc
              exact ⟨fun _ => ⟨types, rfl⟩, fun hne => absurd hc.1 hne,
                fun hne => absurd hc.1 hne⟩
    | false =>
      simp only [Bool.false_eq_true, if_false] at h
      split at h
      · cases h
      · rename_i b hb
        rw [hisType] at hb
        cases b with
        | true =>
          simp only [if_true] at h
          split at h
          · cases h
          · rename_i r3 h3
            obtain ⟨ty, s3⟩ := r3
            simp only [pure, Except.pure, Except.ok.injEq, Prod.mk.injEq] at h
            obtain ⟨-, rfl⟩ := h
            have e3 := htype _ _ _ h3
            have hf3 : s3.FindFunction label =
                (setReturnValueType label .void s).FindFunction label := by
              rw [e3]
              rfl
            refine ⟨?_, ty, ?_, ?_⟩
            · show s3.vars = s.vars
              rw [e3]
              rfl
            · apply find_setReturnValueType label ty _ pts .void false
              rw [hf3]
              exact hvoid
            · intro tok htok
              have hc2 : (setReturnValueType label .void s).tokenizer.Consume .TokenLparen = _ :=
                Tokenizer.Consume_ok htok .TokenLparen
              rw [hc2] at hc
              simp only [Except.ok.injEq, Prod.mk.injEq, decide_eq_false_iff_not] at hc
              refine ⟨fun he => absurd he hc.1, fun _ hf => ?_, fun _ _ => ⟨s3, h3⟩⟩
              rw [hb] at hf
              cases hf
        | false =>
          simp only [Bool.false_eq_true, if_false, pure, Except.pure, Except.ok.injEq,
            Prod.mk.injEq] at h
          obtain ⟨-, rfl⟩ := h
          refine ⟨rfl, .void, hvoid, ?_⟩
          intro tok htok
          have hc2 : (setReturnValueType label .void s).tokenizer.Consume .TokenLparen = _ :=
            Tokenizer.Consume_ok htok .TokenLparen
          rw [hc2] at hc
          simp only [Except.ok.injEq, Prod.mk.injEq, decide_eq_false_iff_not] at hc
          refine ⟨fun he => absurd he hc.1, fun _ _ => rfl, fun _ ht => ?_⟩
          rw [hb] at ht
          cases ht

/-! ## The look-ahead of `simpleStmt` -/

theorem simpleStmtScan_eq_first (tokens : List Token)
    (hend : ∃ t ∈ tokens, t.IsTerminator = true) :
    ∃ form, simpleStmtScan tokens = .ok form ∧
      (form = .assign ↔ ∃ t, firstAssignToken tokens = some t ∧ t.kind = .TokenEqual) ∧
      (form = .shortVarDecl ↔
        ∃ t, firstAssignToken tokens = some t ∧ t.kind = .TokenColonEqual) ∧
      (form = .exprStmt ↔ firstAssignToken tokens = none) := by
  induction tokens with
  | nil => obtain ⟨t, ht, -⟩ := hend; cases ht
  | cons a rest ih =>
    unfold simpleStmtScan
    by_cases hterm : a.IsTerminator = true
    · have h1 : (a.Test .TokenNewLine || a.Test .TokenSemicolon) = true := hterm
      rw [if_pos h1]
      refine ⟨.exprStmt, rfl, ?_, ?_, ?_⟩ <;> simp [firstAssignToken, List.takeWhile, hterm]
    · have h1 : ¬ (a.Test .TokenNewLine || a.Test .TokenSemicolon) = true := hterm
      rw [if_neg h1]
      simp only [Bool.not_eq_true] at hterm
      by_cases heq : a.Test .TokenEqual = true
      · rw [if_pos heq]
        have hk : a.kind = .TokenEqual := by simpa [Token.Test] using heq
        refine ⟨.assign, rfl, ?_, ?_, ?_⟩ <;>
          simp [firstAssignToken, List.takeWhile, hterm, List.find?, heq, hk]
      · rw [if_neg heq]
        by_cases hce : a.Test .TokenColonEqual = true
        · rw [if_pos hce]
          have hk : a.kind = .TokenColonEqual := by simpa [Token.Test] using hce
          simp only [Bool.not_eq_true] at heq
          refine ⟨.shortVarDecl, rfl, ?_, ?_, ?_⟩ <;>
            simp [firstAssignToken, List.takeWhile, hterm, List.find?, heq, hce, hk]
        · rw [if_neg hce]
          simp only [Bool.not_eq_true] at heq hce
          have hend1 : ∃ t ∈ rest, t.IsTerminator = true := by
            obtain ⟨t, ht, hx⟩ := hend
            rcases List.mem_cons.mp ht with rfl | ht
            · rw [hterm] at hx; cases hx
            · exact ⟨t, ht, hx⟩
          have hfa : firstAssignToken (a :: rest) = firstAssignToken rest := by
            simp [firstAssignToken, List.takeWhile, hterm, List.find?, heq, hce]
          rw [hfa]
          exact ih hend1

theorem simpleStmt_eq_simpleStmtAs (expr : Parser Node) (fuel : Nat) (s : ParserState)
    (tok : Token) (hcur : s.tokenizer.Fetch = .ok tok) (hterm : tok.IsTerminator = false)
    (form : SimpleStmtForm)
    (hscan : simpleStmtScan (s.tokenizer.tokens.drop s.tokenizer.pos) = .ok form) :
    simpleStmt expr fuel s = simpleStmtAs expr fuel form s := by
  have hnl : tok.Test .TokenNewLine = false := by
    cases h : tok.Test .TokenNewLine
    · rfl
    · simp [Token.IsTerminator, h] at hterm
  have hsc : tok.Test .TokenSemicolon = false := by
    cases h : tok.Test .TokenSemicolon
    · rfl
    · simp [Token.IsTerminator, h] at hterm
  unfold simpleStmt
  simp only [Tokenizer.Test, hcur, hnl, hsc, hscan]
  cases form <;> rfl

/-! ## The lexer: bytes and rounds -/

theorem runeLen_pos (c : Char) : 0 < runeLen c := by
  unfold runeLen
  split
  · exact Nat.one_pos
  · split
    · decide
    · split <;> decide

theorem byteLen_nil : byteLen [] = 0 := rfl

theorem byteLen_cons (p : Piece) (s : GoString) : byteLen (p :: s) = p.width + byteLen s := by
  simp [byteLen]

theorem byteLen_append (s t : GoString) : byteLen (s ++ t) = byteLen s + byteLen t := by
  simp [byteLen]

theorem byteLen_replicate_stray (n : Nat) : byteLen (List.replicate n Piece.stray) = n := by
  induction n with
  | zero => rfl
  | succ n ih => rw [List.replicate_succ, byteLen_cons, ih]; simp [Piece.width]; omega

theorem Piece.width_pos (p : Piece) : 0 < p.width := by
  cases p
  · exact runeLen_pos _
  · exact Nat.one_pos

theorem dropBytes_len (s : GoString) : ∀ (n : Nat) (r : GoString),
    dropBytes n s = .ok r → byteLen r + n = byteLen s := by
  induction s with
  | nil =>
    intro n r h
    cases n with
    | zero => rw [dropBytes] at h; cases h; rfl
    | succ n => rw [dropBytes] at h; cases h
  | cons p s ih =>
    intro n r h
    cases n with
    | zero => rw [dropBytes] at h; cases h; rfl
    | succ n =>
      cases p with
      | stray =>
        rw [dropBytes] at h
        have := ih n r h
        rw [byteLen_cons]
        simp only [Piece.width]
        omega
      | rune c =>
        rw [dropBytes] at h
        split at h
        · rename_i hle
          have := ih _ r h
          rw [byteLen_cons]
          simp only [Piece.width]
          omega
        · rename_i hle
          cases h
          rw [byteLen_append, byteLen_replicate_stray, byteLen_cons]
          simp only [Piece.width]
          omega

theorem getIdentifierLoop_len (h : Callees) (s : GoString) : ∀ (first : Bool) (res : String),
    byteLen (getIdentifierLoop h first res s).2 ≤ byteLen s := by
  induction s with
  | nil => intro first res; rw [getIdentifierLoop]
  | cons p s ih =>
    intro first res
    rw [getIdentifierLoop]
    split
    · exact Nat.le_refl _
    · exact Nat.le_trans (ih _ _) (by rw [byteLen_cons]; omega)

theorem findSymbol_some {input : GoString} {symbol : TokenKind × String}
    (h : findSymbol input = some symbol) :
    symbol ∈ symbols ∧ HasPrefix input symbol.2 = true :=
  ⟨List.mem_of_find?_eq_some h, by simpa using List.find?_some h⟩

theorem symbols_not_empty : ∀ symbol ∈ symbols,
    0 < byteLen (GoString.ofString symbol.2) ∧ symbol.1 ≠ .TokenEof := by
  decide

theorem keywords_not_eof : ∀ keyword ∈ keywords, keyword.1 ≠ .TokenEof := by
  decide

theorem runeAt_zero_cons (p : Piece) (s : GoString) : runeAt (p :: s) 0 = .ok p.decode := by
  simp [runeAt]

theorem runeLiteral_len {input : GoString} {token : Token} {rest : GoString}
    (h : runeLiteral input = .ok (token, rest)) :
    byteLen rest < byteLen input ∧ token.kind = .TokenNumber := by
  unfold runeLiteral at h
  split at h
  · cases h
  · split at h
    · cases h
    · rename_i input1 h1
      split at h
      · cases h
      · split at h
        · cases h
        · rename_i input2 h2
          split at h
          · cases h
          · split at h
            · cases h
            · split at h
              · cases h
              · rename_i input3 h3
                simp only [Except.ok.injEq, Prod.mk.injEq] at h
                obtain ⟨rfl, rfl⟩ := h
                have := dropBytes_len _ _ _ h1
                have := dropBytes_len _ _ _ h2
                have := dropBytes_len _ _ _ h3
                exact ⟨by omega, rfl⟩

theorem tokenizeStep_shortens (h : Callees) (hp : h.Progress) (input : GoString)
    (token : Option Token) (rest : GoString)
    (hstep : tokenizeStep h input = .ok (token, rest)) :
    byteLen rest < byteLen input ∧ ∀ t ∈ token, t.kind ≠ .TokenEof := by
  unfold tokenizeStep at hstep
  split at hstep
  · rename_i symbol hsym
    obtain ⟨hmem, -⟩ := findSymbol_some hsym
    obtain ⟨hpos, hkind⟩ := symbols_not_empty symbol hmem
    split at hstep
    · cases hstep
    · rename_i r hr
      simp only [Except.ok.injEq, Prod.mk.injEq] at hstep
      obtain ⟨rfl, rfl⟩ := hstep
      have := dropBytes_len _ _ _ hr
      refine ⟨by omega, ?_⟩
      intro t ht
      simp only [Option.mem_def, Option.some.injEq] at ht
      subst ht
      exact hkind
  · split at hstep
    · cases hstep
    · rename_i c hc
      cases input with
      | nil => cases hc
      | cons p s =>
        rw [runeAt_zero_cons] at hc
        cases hc
        split at hstep
        · rename_i halpha
          have hlen : byteLen (getIdentifier h (p :: s)).2 < byteLen (p :: s) := by
            unfold getIdentifier
            rw [getIdentifierLoop]
            have hcond : ((true && h.IsDigit p.decode) ||
                !(h.isAlnum p.decode || p.decode == '_')) = false := by
              simp only [Bool.or_eq_true, beq_iff_eq] at halpha
              rcases halpha with ha | hu
              · simp [hp.alpha_alnum _ ha, hp.alpha_not_digit _ ha]
              · simp [hu, hp.underscore_not_digit]
            rw [hcond]
            simp only [Bool.false_eq_true, if_false]
            have := getIdentifierLoop_len h s false ("".push p.decode)
            rw [byteLen_cons]
            have := p.width_pos
            omega
          split at hstep
          · rename_i keyword hk
            simp only [Except.ok.injEq, Prod.mk.injEq] at hstep
            obtain ⟨rfl, rfl⟩ := hstep
            refine ⟨hlen, ?_⟩
            intro t ht
            simp only [Option.mem_def, Option.some.injEq] at ht
            subst ht
            exact keywords_not_eof keyword (List.mem_of_find?_eq_some hk)
          · simp only [Except.ok.injEq, Prod.mk.injEq] at hstep
            obtain ⟨rfl, rfl⟩ := hstep
            refine ⟨hlen, ?_⟩
            intro t ht
            simp only [Option.mem_def, Option.some.injEq] at ht
            subst ht
            simp [NewToken]
        · split at hstep
          · split at hstep
            · cases hstep
            · rename_i r hr
              simp only [Except.ok.injEq, Prod.mk.injEq] at hstep
              obtain ⟨rfl, rfl⟩ := hstep
              have := dropBytes_len _ _ _ hr
              exact ⟨by omega, by simp⟩
          · split at hstep
            · rename_i hdigit
              simp only [Except.ok.injEq, Prod.mk.injEq] at hstep
              obtain ⟨rfl, rfl⟩ := hstep
              refine ⟨hp.strtoi_shortens p s hdigit, ?_⟩
              intro t ht
              simp only [Option.mem_def, Option.some.injEq] at ht
              subst ht
              simp
            · split at hstep
              · split at hstep
                · cases hstep
                · rename_i tok r hr
                  simp only [Except.ok.injEq, Prod.mk.injEq] at hstep
                  obtain ⟨rfl, rfl⟩ := hstep
                  obtain ⟨hl, hk⟩ := runeLiteral_len hr
                  refine ⟨hl, ?_⟩
                  intro t ht
                  simp only [Option.mem_def, Option.some.injEq] at ht
                  subst ht
                  rw [hk]
                  decide
              · cases hstep

theorem tokenizeLoop_terminates (h : Callees) (hp : h.Progress) : ∀ (fuel : Nat)
    (tokens : List Token) (input : GoString), byteLen input < fuel →
    ∃ r, tokenizeLoop h fuel tokens input = some r := by
  intro fuel
  induction fuel with
  | zero => intro tokens input hlt; omega
  | succ fuel ih =>
    intro tokens input hlt
    rw [tokenizeLoop]
    split
    · exact ⟨_, rfl⟩
    · cases hstep : tokenizeStep h input with
      | error e => exact ⟨_, rfl⟩
      | ok r =>
        obtain ⟨token, rest⟩ := r
        have := (tokenizeStep_shortens h hp input token rest hstep).1
        exact ih _ rest (by omega)

theorem tokenizeLoop_mono (h : Callees) : ∀ (fuel : Nat) (tokens : List Token) (input : GoString)
    (r : Except LexFailure (List Token)), tokenizeLoop h fuel tokens input = some r →
    ∀ more, fuel ≤ more → tokenizeLoop h more tokens input = some r := by
  intro fuel
  induction fuel with
  | zero => intro tokens input r hr; rw [tokenizeLoop] at hr; cases hr
  | succ fuel ih =>
    intro tokens input r hr more hle
    obtain ⟨m, rfl⟩ : ∃ m, more = m + 1 := ⟨more - 1, by omega⟩
    rw [tokenizeLoop] at hr ⊢
    split
    · rename_i he
      rw [if_pos he] at hr
      exact hr
    · rename_i he
      rw [if_neg he] at hr
      cases hstep : tokenizeStep h input with
      | error e => rw [hstep] at hr; exact hr
      | ok x =>
        obtain ⟨token, rest⟩ := x
        rw [hstep] at hr
        exact ih _ _ _ hr m (by omega)

theorem tokenizeLoop_eof (h : Callees) (hp : h.Progress) : ∀ (fuel : Nat) (tokens : List Token)
    (input : GoString) (out : List Token),
    (∀ t ∈ tokens, t.kind ≠ .TokenEof) →
    tokenizeLoop h fuel tokens input = some (.ok out) →
    ∃ front, out = front ++ [NewToken .TokenEof "" ""] ∧ ∀ t ∈ front, t.kind ≠ .TokenEof := by
  intro fuel
  induction fuel with
  | zero => intro tokens input out _ hr; rw [tokenizeLoop] at hr; cases hr
  | succ fuel ih =>
    intro tokens input out htok hr
    rw [tokenizeLoop] at hr
    split at hr
    · simp only [Option.some.injEq, Except.ok.injEq] at hr
      exact ⟨tokens, hr.symm, htok⟩
    · cases hstep : tokenizeStep h input with
      | error e => rw [hstep] at hr; cases hr
      | ok x =>
        obtain ⟨token, rest⟩ := x
        rw [hstep] at hr
        refine ih _ rest out ?_ hr
        intro t ht
        rcases List.mem_append.mp ht with ht | ht
        · exact htok t ht
        · exact (tokenizeStep_shortens h hp input token rest hstep).2 t (by simpa using ht)

theorem readDigits_len (s : GoString) : ∀ v : Int, byteLen (readDigits v s).2 ≤ byteLen s := by
  induction s with
  | nil => intro v; rw [readDigits]
  | cons p s ih =>
    intro v
    rw [readDigits]
    split
    · exact Nat.le_trans (ih _) (by rw [byteLen_cons]; omega)
    · exact Nat.le_refl _

theorem asciiCallees_progress : asciiCallees.Progress where
  alpha_alnum := by
    intro c hc
    simp only [asciiCallees] at hc ⊢
    rw [hc]
    rfl
  alpha_not_digit := by
    intro c hc
    simp only [asciiCallees, Bool.or_eq_true, Bool.and_eq_true, decide_eq_true_eq] at hc ⊢
    simp only [Bool.and_eq_false_imp, decide_eq_true_eq, decide_eq_false_iff_not]
    omega
  underscore_not_digit := by decide
  strtoi_shortens := by
    intro p s hd
    simp only [asciiCallees, Bool.and_eq_true, decide_eq_true_eq] at hd ⊢
    rw [readDigits, if_pos hd]
    have := readDigits_len s (10 * 0 + ((p.decode.toNat - 48 : Nat) : Int))
    rw [byteLen_cons]
    have := p.width_pos
    omega

theorem HasPrefix_cons {p : Piece} {s : GoString} {start : String}
    (h : HasPrefix (p :: s) start = true) (hne : start.data ≠ []) :
    ∃ c, p = .rune c ∧ start.data.head? = some c := by
  unfold HasPrefix GoString.ofString at h
  cases hd : start.data with
  | nil => exact absurd hd hne
  | cons c cs =>
    rw [hd] at h
    simp only [List.map_cons, List.isPrefixOf, Bool.and_eq_true, beq_iff_eq] at h
    exact ⟨c, h.1.symm, rfl⟩

theorem symbols_data_ne : ∀ symbol ∈ symbols, symbol.2.data ≠ [] := by
  decide

theorem findSymbol_start {p : Piece} {s : GoString} {symbol : TokenKind × String}
    (h : findSymbol (p :: s) = some symbol) : ∃ c, p = .rune c ∧ c ∈ symbolStarts := by
  obtain ⟨hmem, hpre⟩ := findSymbol_some h
  obtain ⟨c, hc, hhead⟩ := HasPrefix_cons hpre (symbols_data_ne symbol hmem)
  exact ⟨c, hc, List.mem_filterMap.mpr ⟨symbol, hmem, hhead⟩⟩

theorem symbolStarts_ascii : ∀ c ∈ symbolStarts,
    runeLen c = 1 ∧ IsDecimalDigit c = false ∧ c ≠ '\'' := by
  decide

theorem findSymbol_stray (s : GoString) : findSymbol (.stray :: s) = none := by
  cases h : findSymbol (.stray :: s) with
  | none => rfl
  | some symbol =>
    obtain ⟨c, hc, -⟩ := findSymbol_start h
    cases hc

theorem findSymbol_wide {c : Char} (s : GoString) (hc : 1 < runeLen c) :
    findSymbol (.rune c :: s) = none := by
  cases h : findSymbol (.rune c :: s) with
  | none => rfl
  | some symbol =>
    obtain ⟨d, hd, hmem⟩ := findSymbol_start h
    cases hd
    have := (symbolStarts_ascii c hmem).1
    omega

theorem findSymbol_digit {c : Char} (s : GoString) (hc : IsDecimalDigit c = true) :
    findSymbol (.rune c :: s) = none := by
  cases h : findSymbol (.rune c :: s) with
  | none => rfl
  | some symbol =>
    obtain ⟨d, hd, hmem⟩ := findSymbol_start h
    cases hd
    have := (symbolStarts_ascii c hmem).2.1
    rw [hc] at this
    cases this

theorem findSymbol_quote (s : GoString) : findSymbol (.rune '\'' :: s) = none := by
  cases h : findSymbol (.rune '\'' :: s) with
  | none => rfl
  | some symbol =>
    obtain ⟨d, hd, hmem⟩ := findSymbol_start h
    cases hd
    exact absurd rfl (symbolStarts_ascii _ hmem).2.2

theorem dropBytes_one_narrow {c : Char} (s : GoString) (hc : runeLen c = 1) :
    dropBytes 1 (.rune c :: s) = .ok s := by
  rw [dropBytes, if_pos (by omega)]
  have : 0 + 1 - runeLen c = 0 := by omega
  rw [this]
  cases s <;> rw [dropBytes]

theorem dropBytes_one_wide {c : Char} (s : GoString) (hc : 1 < runeLen c) :
    dropBytes 1 (.rune c :: s) = .ok (.stray :: (List.replicate (runeLen c - 2) .stray ++ s)) := by
  rw [dropBytes, if_neg (by omega)]
  have : runeLen c - (0 + 1) = (runeLen c - 2) + 1 := by omega
  rw [this, List.replicate_succ]
  rfl

theorem tokenizeStep_stray (h : Callees) (s : GoString)
    (hstray : h.isAlpha (Char.ofNat 0xFFFD) = false ∧ h.IsDigit (Char.ofNat 0xFFFD) = false) :
    tokenizeStep h (.stray :: s) = .error .ErrorAt := by
  have h1 : (Char.ofNat 0xFFFD == '_') = false := by decide
  have h2 : IsSpace (Char.ofNat 0xFFFD) = false := by decide
  have h3 : (Char.ofNat 0xFFFD == '\'') = false := by decide
  unfold tokenizeStep
  simp only [findSymbol_stray, runeAt_zero_cons, Piece.decode, hstray.1, hstray.2, h1, h2, h3,
    Bool.or_self, Bool.false_eq_true, if_false]

theorem IsDecimalDigit_facts {c : Char} (hc : IsDecimalDigit c = true) :
    (c == '_') = false ∧ IsSpace c = false ∧ runeLen c = 1 := by
  simp only [IsDecimalDigit, Bool.and_eq_true, decide_eq_true_eq] at hc
  refine ⟨?_, ?_, ?_⟩
  · rw [beq_eq_false_iff_ne]
    rintro rfl
    revert hc
    decide
  · simp only [IsSpace, Bool.or_eq_false_iff, Bool.and_eq_false_imp, decide_eq_true_eq,
      decide_eq_false_iff_not, beq_eq_false_iff_ne]
    omega
  · unfold runeLen
    rw [if_pos (by omega)]

theorem tokenizeStep_literal (h : Callees) (hr : h.ReadsDecimal) (ds : List Char)
    (rest : GoString) (hlit : IsLiteral ds = true) (hval : decimalValue ds < 2 ^ 63)
    (hrest : ∀ p s, rest = p :: s → IsDecimalDigit p.decode = false) :
    tokenizeStep h (ds.map .rune ++ rest) =
      .ok (some { kind := .TokenNumber, val := (decimalValue ds : Int),
                  str := toString (decimalValue ds : Int),
                  rest := GoString.text (ds.map .rune ++ rest) }, rest) := by
  have hstr := hr.strtoi_literal ds rest hlit hval hrest
  cases ds with
  | nil => simp [IsLiteral] at hlit
  | cons d ds =>
    have hd : IsDecimalDigit d = true := by
      simp only [IsLiteral, List.all_cons, Bool.and_eq_true] at hlit
      exact hlit.2.1
    obtain ⟨h1, h2, -⟩ := IsDecimalDigit_facts hd
    obtain ⟨h3, h4⟩ := hr.digit d hd
    simp only [List.map_cons, List.cons_append] at hstr ⊢
    unfold tokenizeStep
    simp only [findSymbol_digit _ hd, runeAt_zero_cons, Piece.decode, h1, h2, h3, h4,
      Bool.or_self, Bool.false_eq_true, if_false, if_true, hstr]

theorem tokenizeStep_number (h : Callees) (hr : h.ReadsDecimal) (ds : List Char)
    (rest : GoString) (hlit : IsLiteral ds = true) (hval : decimalValue ds < 2 ^ 63)
    (hrest : ∀ p s, rest = p :: s → IsDecimalDigit p.decode = false) :
    ∃ token, tokenizeStep h (ds.map .rune ++ rest) = .ok (some token, rest) ∧
      token.kind = .TokenNumber ∧ token.val = (decimalValue ds : Int) :=
  ⟨_, tokenizeStep_literal h hr ds rest hlit hval hrest, rfl, rfl⟩

theorem tokenizeStep_operator (h : Callees) (o : Operator) (rest : GoString) :
    ∃ token, tokenizeStep h (.rune o.char :: rest) = .ok (some token, rest) ∧
      token.kind = o.kind ∧ token.val = 0 := by
  have hdrop : ∀ c : Char, runeLen c = 1 →
      dropBytes 1 (.rune c :: rest) = .ok rest := fun c hc => dropBytes_one_narrow rest hc
  cases o
  · refine ⟨NewToken .TokenPlus "+" (GoString.text (.rune '+' :: rest)), ?_, rfl, rfl⟩
    have hf : findSymbol (.rune '+' :: rest) = some (.TokenPlus, "+") := by
      simp [findSymbol, symbols, HasPrefix, GoString.ofString, List.isPrefixOf]
    unfold tokenizeStep
    simp only [Operator.char, hf]
    have hb : byteLen (GoString.ofString "+") = 1 := by decide
    rw [hb, hdrop '+' (by decide)]
  · refine ⟨NewToken .TokenMinus "-" (GoString.text (.rune '-' :: rest)), ?_, rfl, rfl⟩
    have hf : findSymbol (.rune '-' :: rest) = some (.TokenMinus, "-") := by
      simp [findSymbol, symbols, HasPrefix, GoString.ofString, List.isPrefixOf]
    unfold tokenizeStep
    simp only [Operator.char, hf]
    have hb : byteLen (GoString.ofString "-") = 1 := by decide
    rw [hb, hdrop '-' (by decide)]
  · refine ⟨NewToken .TokenStar "*" (GoString.text (.rune '*' :: rest)), ?_, rfl, rfl⟩
    have hf : findSymbol (.rune '*' :: rest) = some (.TokenStar, "*") := by
      simp [findSymbol, symbols, HasPrefix, GoString.ofString, List.isPrefixOf]
    unfold tokenizeStep
    simp only [Operator.char, hf]
    have hb : byteLen (GoString.ofString "*") = 1 := by decide
    rw [hb, hdrop '*' (by decide)]
  · refine ⟨NewToken .TokenSlash "/" (GoString.text (.rune '/' :: rest)), ?_, rfl, rfl⟩
    have hf : findSymbol (.rune '/' :: rest) = some (.TokenSlash, "/") := by
      simp [findSymbol, symbols, HasPrefix, GoString.ofString, List.isPrefixOf]
    unfold tokenizeStep
    simp only [Operator.char, hf]
    have hb : byteLen (GoString.ofString "/") = 1 := by decide
    rw [hb, hdrop '/' (by decide)]

theorem tokenizeLoop_literals (h : Callees) (hr : h.ReadsDecimal) :
    ∀ (more : List (Operator × List Char)) (first : List Char) (acc : List Token) (fuel : Nat),
    IsLiteral first = true → decimalValue first < 2 ^ 63 →
    (∀ x ∈ more, IsLiteral x.2 = true ∧ decimalValue x.2 < 2 ^ 63) →
    2 * more.length + 1 < fuel →
    ∃ tokens, tokenizeLoop h fuel acc (literalsText first more) = some (.ok (acc ++ tokens)) ∧
      tokens.map (fun t => (t.kind, t.val)) = literalsTokens first more := by
  intro more
  induction more with
  | nil =>
    intro first acc fuel hlit hval _ hfuel
    obtain ⟨m, rfl⟩ : ∃ m, fuel = m + 2 := ⟨fuel - 2, by omega⟩
    obtain ⟨number, hstep, hnk, hnv⟩ :=
      tokenizeStep_number h hr first [] hlit hval (fun p s hps => by cases hps)
    have hne : first.map Piece.rune ++ [] ≠ [] := by
      cases first with
      | nil => simp [IsLiteral] at hlit
      | cons d ds => simp
    rw [literalsText, ← List.append_nil (first.map Piece.rune), tokenizeLoop, if_neg hne, hstep]
    simp only [Option.toList]
    rw [tokenizeLoop, if_pos rfl]
    exact ⟨[number, NewToken .TokenEof "" ""], by simp,
      by simp [literalsTokens, NewToken, hnk, hnv]⟩
  | cons x more ih =>
    intro first acc fuel hlit hval hmore hfuel
    obtain ⟨m, rfl⟩ : ∃ m, fuel = m + 2 := ⟨fuel - 2, by omega⟩
    have hop : IsDecimalDigit x.1.char = false := by cases x.1 <;> decide
    obtain ⟨number, hstep, hnk, hnv⟩ := tokenizeStep_number h hr first
      (.rune x.1.char :: literalsText x.2 more) hlit hval (fun p s hps => by cases hps; exact hop)
    obtain ⟨token, hstep2, hk, hv⟩ := tokenizeStep_operator h x.1 (literalsText x.2 more)
    have hne : first.map Piece.rune ++ Piece.rune x.1.char :: literalsText x.2 more ≠ [] := by
      simp
    obtain ⟨hx1, hx2⟩ := hmore x (List.mem_cons_self _ _)
    simp only [List.length_cons] at hfuel
    obtain ⟨tokens, hrun, hmap⟩ := ih x.2 ((acc ++ [number]) ++ [token]) m hx1 hx2
      (fun y hy => hmore y (List.mem_cons_of_mem _ hy)) (by omega)
    rw [literalsText, tokenizeLoop, if_neg hne, hstep]
    simp only [Option.toList]
    rw [tokenizeLoop, if_neg (List.cons_ne_nil _ _), hstep2]
    simp only [Option.toList]
    rw [hrun]
    refine ⟨number :: token :: tokens, by simp, ?_⟩
    simp [literalsTokens, hk, hv, hnk, hnv, hmap]

theorem char_toNat_lt (c : Char) : c.toNat < 1114112 := by
  have h := c.valid
  simp only [UInt32.isValidChar, Nat.isValidChar] at h
  show c.val.toNat < 1114112
  omega

theorem runeLiteral_val {input : GoString} {token : Token} {rest : GoString}
    (h : runeLiteral input = .ok (token, rest)) : token.val < 1114112 := by
  unfold runeLiteral at h
  split at h
  · cases h
  · split at h
    · cases h
    · split at h
      · cases h
      · rename_i content hc
        split at h
        · cases h
        · split at h
          · cases h
          · split at h
            · cases h
            · split at h
              · cases h
              · simp only [Except.ok.injEq, Prod.mk.injEq] at h
                rw [← h.1]
                have := char_toNat_lt content
                simp only
                omega

theorem tokenizeStep_val (h : Callees) (bound : Int) (hb : 1114112 ≤ bound)
    (hstr : ∀ s, (h.strtoi s).1 < bound) (input : GoString)
    (token : Option Token) (rest : GoString)
    (hstep : tokenizeStep h input = .ok (token, rest)) : ∀ t ∈ token, t.val < bound := by
  intro t ht
  simp only [Option.mem_def] at ht
  subst ht
  unfold tokenizeStep at hstep
  split at hstep
  · split at hstep
    · cases hstep
    · simp only [Except.ok.injEq, Prod.mk.injEq, Option.some.injEq] at hstep
      rw [← hstep.1]
      simp only [NewToken]
      omega
  · split at hstep
    · cases hstep
    · split at hstep
      · split at hstep <;>
        · simp only [Except.ok.injEq, Prod.mk.injEq, Option.some.injEq] at hstep
          rw [← hstep.1]
          simp only [NewToken]
          omega
      · split at hstep
        · split at hstep
          · cases hstep
          · simp only [Except.ok.injEq, Prod.mk.injEq] at hstep
            cases hstep.1
        · split at hstep
          · simp only [Except.ok.injEq, Prod.mk.injEq, Option.some.injEq] at hstep
            rw [← hstep.1]
            exact hstr _
          · split at hstep
            · split at hstep
              · cases hstep
              · rename_i tok r hlit
                simp only [Except.ok.injEq, Prod.mk.injEq, Option.some.injEq] at hstep
                rw [← hstep.1]
                have := runeLiteral_val hlit
                omega
            · cases hstep

theorem tokenizeLoop_val (h : Callees) (bound : Int) (hb : 1114112 ≤ bound)
    (hstr : ∀ s, (h.strtoi s).1 < bound) : ∀ (fuel : Nat) (tokens : List Token)
    (input : GoString) (out : List Token), (∀ t ∈ tokens, t.val < bound) →
    tokenizeLoop h fuel tokens input = some (.ok out) → ∀ t ∈ out, t.val < bound := by
  intro fuel
  induction fuel with
  | zero => intro tokens input out _ hr; rw [tokenizeLoop] at hr; cases hr
  | succ fuel ih =>
    intro tokens input out htok hr
    rw [tokenizeLoop] at hr
    split at hr
    · simp only [Option.some.injEq, Except.ok.injEq] at hr
      subst hr
      intro t ht
      rcases List.mem_append.mp ht with ht | ht
      · exact htok t ht
      · simp only [List.mem_singleton] at ht
        subst ht
        simp only [NewToken]
        omega
    · cases hstep : tokenizeStep h input with
      | error e => rw [hstep] at hr; cases hr
      | ok x =>
        obtain ⟨token, rest⟩ := x
        rw [hstep] at hr
        refine ih _ rest out ?_ hr
        intro t ht
        rcases List.mem_append.mp ht with ht | ht
        · exact htok t ht
        · exact tokenizeStep_val h bound hb hstr input token rest hstep t (by simpa using ht)

theorem readDigits_literal (rest : GoString)
    (hrest : ∀ p s, rest = p :: s → IsDecimalDigit p.decode = false) :
    ∀ (ds : List Char) (n : Nat), ds.all IsDecimalDigit = true →
      readDigits (n : Int) (ds.map .rune ++ rest) =
        (((ds.foldl (fun v d => 10 * v + (d.toNat - 48)) n : Nat) : Int), rest) := by
  intro ds
  induction ds with
  | nil =>
    intro n _
    cases rest with
    | nil => rfl
    | cons p s =>
      have hp := hrest p s rfl
      simp only [IsDecimalDigit, Bool.and_eq_false_imp, decide_eq_true_eq,
        decide_eq_false_iff_not] at hp
      simp only [List.map_nil, List.nil_append, List.foldl_nil]
      rw [readDigits, if_neg (by omega)]
  | cons d ds ih =>
    intro n hall
    simp only [List.all_cons, Bool.and_eq_true] at hall
    have hd := hall.1
    simp only [IsDecimalDigit, Bool.and_eq_true, decide_eq_true_eq] at hd
    simp only [List.map_cons, List.cons_append, List.foldl_cons]
    rw [readDigits, if_pos (by simpa [Piece.decode] using hd)]
    have := ih (10 * n + (d.toNat - 48)) hall.2
    simp only [Piece.decode]
    rw [← this]
    push_cast
    rfl

theorem asciiCallees_readsDecimal : asciiCallees.ReadsDecimal where
  digit := by
    intro c hc
    simp only [IsDecimalDigit, Bool.and_eq_true, decide_eq_true_eq] at hc
    simp only [asciiCallees, Bool.and_eq_true, decide_eq_true_eq, Bool.or_eq_false_iff,
      Bool.and_eq_false_imp, decide_eq_false_iff_not]
    omega
  strtoi_literal := by
    intro ds rest hlit _ hrest
    simp only [IsLiteral, Bool.and_eq_true] at hlit
    have := readDigits_literal rest hrest ds 0 hlit.2
    simpa [asciiCallees, decimalValue] using this

theorem takeBytes_ok (s : GoString) : ∀ n, n ≤ byteLen s → ∃ r, takeBytes n s = .ok r := by
  induction s with
  | nil =>
    intro n hn
    have : n = 0 := by simpa [byteLen] using hn
    subst this
    exact ⟨[], by rw [takeBytes]⟩
  | cons p s ih =>
    intro n hn
    cases n with
    | zero => exact ⟨[], by rw [takeBytes]⟩
    | succ n =>
      rw [byteLen_cons] at hn
      cases p with
      | stray =>
        simp only [Piece.width] at hn
        obtain ⟨r, hr⟩ := ih n (by omega)
        exact ⟨.stray :: r, by rw [takeBytes, hr]⟩
      | rune c =>
        simp only [Piece.width] at hn
        by_cases hc : runeLen c ≤ n + 1
        · obtain ⟨r, hr⟩ := ih (n + 1 - runeLen c) (by omega)
          exact ⟨.rune c :: r, by rw [takeBytes, if_pos hc, hr]⟩
        · exact ⟨_, by rw [takeBytes, if_neg hc]⟩

theorem runeLiteral_wide {c : Char} (rest : GoString) (hc : 1 < runeLen c) :
    runeLiteral (.rune '\'' :: .rune c :: rest) = .error .Madden := by
  have hq : runeLen '\'' = 1 := by decide
  obtain ⟨str, hstr⟩ := takeBytes_ok (.rune '\'' :: .rune c :: rest) 3 (by
    rw [byteLen_cons, byteLen_cons]
    simp only [Piece.width]
    omega)
  have hclose : (Char.ofNat 0xFFFD != '\'') = true := by decide
  unfold runeLiteral
  simp only [hstr, dropBytes_one_narrow _ hq, dropBytes_one_wide _ hc, runeAt_zero_cons,
    Piece.decode, hclose, if_true]

theorem runeLiteral_narrow {c : Char} (rest : GoString) (hc : runeLen c = 1) :
    runeLiteral (.rune '\'' :: .rune c :: .rune '\'' :: rest) =
      .ok ({ kind := .TokenNumber, val := c.toNat, str := String.mk ['\'', c, '\''],
             rest := GoString.text (.rune '\'' :: .rune c :: .rune '\'' :: rest) }, rest) := by
  have hq : runeLen '\'' = 1 := by decide
  have hstr : takeBytes 3 (.rune '\'' :: .rune c :: .rune '\'' :: rest) =
      .ok [.rune '\'', .rune c, .rune '\''] := by
    rw [takeBytes, if_pos (by omega)]
    have h1 : 2 + 1 - runeLen '\'' = 1 + 1 := by omega
    rw [h1, takeBytes, if_pos (by omega)]
    have h2 : 1 + 1 - runeLen c = 0 + 1 := by omega
    rw [h2, takeBytes, if_pos (by omega)]
    have h3 : 0 + 1 - runeLen '\'' = 0 := by omega
    rw [h3]
    cases rest <;> rw [takeBytes]
  have hclose : ('\'' != '\'') = false := by decide
  unfold runeLiteral
  simp only [hstr, dropBytes_one_narrow _ hq, dropBytes_one_narrow _ hc, runeAt_zero_cons,
    Piece.decode, hclose, Bool.false_eq_true, if_false]
  rfl

theorem tokenizeStep_quote (h : Callees) (s : GoString)
    (hquote : h.isAlpha '\'' = false ∧ h.IsDigit '\'' = false) :
    (∀ e, runeLiteral (.rune '\'' :: s) = .error e →
      tokenizeStep h (.rune '\'' :: s) = .error e) ∧
    (∀ token rest, runeLiteral (.rune '\'' :: s) = .ok (token, rest) →
      tokenizeStep h (.rune '\'' :: s) = .ok (some token, rest)) := by
  have h1 : ('\'' == '_') = false := by decide
  have h2 : IsSpace '\'' = false := by decide
  have h3 : ('\'' == '\'') = true := by decide
  constructor
  · intro e he
    unfold tokenizeStep
    simp only [findSymbol_quote, runeAt_zero_cons, Piece.decode, hquote.1, hquote.2, h1, h2, h3,
      Bool.or_self, Bool.false_eq_true, if_false, if_true, he]
  · intro token rest he
    unfold tokenizeStep
    simp only [findSymbol_quote, runeAt_zero_cons, Piece.decode, hquote.1, hquote.2, h1, h2, h3,
      Bool.or_self, Bool.false_eq_true, if_false, if_true, he]

theorem tokenizeStep_two (h : Callees) (a b : Char) (symbol : TokenKind × String)
    (rest : GoString) (ha : runeLen a = 1) (hb : runeLen b = 1)
    (hlen : byteLen (GoString.ofString symbol.2) = 2)
    (hf : findSymbol (.rune a :: .rune b :: rest) = some symbol) :
    tokenizeStep h (.rune a :: .rune b :: rest) =
      .ok (some (NewToken symbol.1 symbol.2 (GoString.text (.rune a :: .rune b :: rest))),
        rest) := by
  have hdrop : dropBytes 2 (.rune a :: .rune b :: rest) = .ok rest := by
    rw [dropBytes, if_pos (by omega)]
    have h1 : 1 + 1 - runeLen a = 0 + 1 := by omega
    rw [h1]
    exact dropBytes_one_narrow rest hb
  unfold tokenizeStep
  simp only [hf, hlen, hdrop]

/-! ## The loop of `getIdentifier` -/

theorem getIdentifierLoop_split (h : Callees) (s : GoString)
    (hstray : Piece.stray ∈ s → IsIdentifierChar h (Char.ofNat 0xFFFD) = false) :
    ∀ (first : Bool) (res : String), ∃ taken : List Char,
      (getIdentifierLoop h first res s).1.data = res.data ++ taken ∧
      taken.map Piece.rune ++ (getIdentifierLoop h first res s).2 = s ∧
      (∀ c ∈ taken, IsIdentifierChar h c = true) ∧
      (first = true → ∀ c, taken.head? = some c → h.IsDigit c = false) ∧
      ((getIdentifierLoop h first res s).2 = [] ∨
        ∃ p r, (getIdentifierLoop h first res s).2 = p :: r ∧
          ((first = true ∧ taken = [] ∧ h.IsDigit p.decode = true) ∨
            IsIdentifierChar h p.decode = false)) := by
  induction s with
  | nil =>
    intro first res
    rw [getIdentifierLoop]
    exact ⟨[], by simp, rfl, by simp, by simp, Or.inl rfl⟩
  | cons p s ih =>
    intro first res
    rw [getIdentifierLoop]
    split
    · rename_i hstop
      refine ⟨[], by simp, rfl, by simp, by simp, Or.inr ⟨p, s, rfl, ?_⟩⟩
      simp only [Bool.or_eq_true, Bool.and_eq_true, Bool.not_eq_true'] at hstop
      rcases hstop with ⟨hf, hd⟩ | hn
      · exact Or.inl ⟨hf, rfl, hd⟩
      · exact Or.inr hn
    · rename_i hgo
      simp only [Bool.or_eq_true, Bool.and_eq_true, Bool.not_eq_true', not_or, not_and,
        Bool.not_eq_false] at hgo
      obtain ⟨hdigit, hchar⟩ := hgo
      have hchar1 : IsIdentifierChar h p.decode = true := by
        simpa [IsIdentifierChar] using hchar
      obtain ⟨taken, h1, h2, h3, -, h5⟩ :=
        ih (fun hm => hstray (List.mem_cons_of_mem _ hm)) false (res.push p.decode)
      have hp : p = Piece.rune p.decode := by
        cases p with
        | rune c => rfl
        | stray =>
          have := hstray (List.mem_cons_self _ _)
          simp only [Piece.decode] at hchar1
          rw [hchar1] at this
          cases this
      refine ⟨p.decode :: taken, ?_, ?_, ?_, ?_, ?_⟩
      · rw [h1]
        simp [String.push]
      · rw [List.map_cons, List.cons_append, h2, ← hp]
      · intro c hc
        rcases List.mem_cons.mp hc with rfl | hc
        · exact hchar1
        · exact h3 c hc
      · intro hf c hc
        simp only [List.head?_cons, Option.some.injEq] at hc
        subst hc
        cases hd : h.IsDigit p.decode with
        | false => rfl
        | true => exact absurd hd (by simpa using hdigit hf)
      · rcases h5 with h5 | ⟨q, r, hq, hcase⟩
        · exact Or.inl h5
        · refine Or.inr ⟨q, r, hq, Or.inr ?_⟩
          rcases hcase with ⟨hf, -, -⟩ | hn
          · cases hf
          · exact hn

/-! ## Struct literals with repeated member names; declared names -/

theorem structLiteralMember_true_iff_every (name : String) (ty : Ty) :
    ∀ (ms : List String) (ts : List Ty) (found : Bool), ms.length = ts.length →
      (structLiteralMember name ty ms ts found = .ok true ↔
        (found = true ∨ name ∈ ms) ∧
          ∀ (j : Nat) (T : Ty), ms[j]? = some name → ts[j]? = some T →
            TypeCompatable ty T = true)
  | [], ts, found, _ => by
    unfold structLiteralMember
    simp
  | m :: ms, [], _, h => by simp at h
  | m :: ms, t :: ts1, found, h => by
    have hl : ms.length = ts1.length := by simpa using h
    unfold structLiteralMember
    by_cases hm : m = name
    · subst hm
      rw [if_pos rfl]
      by_cases hc : TypeCompatable ty t = true
      · simp only [hc, if_true]
        rw [structLiteralMember_true_iff_every m ty ms ts1 true hl]
        constructor
        · rintro ⟨-, hall⟩
          refine ⟨Or.inr (List.mem_cons_self _ _), ?_⟩
          intro j T hj hT
          cases j with
          | zero =>
            simp only [List.getElem?_cons_zero, Option.some.injEq] at hT
            subst hT
            exact hc
          | succ j =>
            simp only [List.getElem?_cons_succ] at hj hT
            exact hall j T hj hT
        · rintro ⟨-, hall⟩
          exact ⟨Or.inl rfl, fun j T hj hT => hall (j + 1) T (by simpa using hj) (by simpa using hT)⟩
      · simp only [hc, Bool.false_eq_true, if_false]
        constructor
        · intro h0
          cases h0
        · rintro ⟨-, hall⟩
          exact absurd (hall 0 t (by simp) (by simp)) hc
    · rw [if_neg hm]
      simp only [List.tail_cons]
      rw [structLiteralMember_true_iff_every name ty ms ts1 found hl]
      have hmem : name ∈ m :: ms ↔ name ∈ ms := by
        simp only [List.mem_cons]
        constructor
        · rintro (h1 | h1)
          · exact absurd h1.symm hm
          · exact h1
        · exact Or.inr
      rw [hmem]
      constructor
      · rintro ⟨h1, hall⟩
        refine ⟨h1, ?_⟩
        intro j T hj hT
        cases j with
        | zero =>
          simp only [List.getElem?_cons_zero, Option.some.injEq] at hj
          exact absurd hj hm
        | succ j =>
          simp only [List.getElem?_cons_succ] at hj hT
          exact hall j T hj hT
      · rintro ⟨h1, hall⟩
        exact ⟨h1, fun j T hj hT => hall (j + 1) T (by simpa using hj) (by simpa using hT)⟩

theorem structLiteralMember_every_iff (name : String) (ty : Ty) (ms : List String)
    (ts : List Ty) (hlen : ms.length = ts.length) :
    structLiteralMember name ty ms ts false = .ok true ↔ MemberAcceptedEvery ms ts name ty := by
  rw [structLiteralMember_true_iff_every name ty ms ts false hlen]
  simp [MemberAcceptedEvery]

theorem traverseMembers_ok_iff_of (programs : List Program) (program : Program)
    (ms : List String) (ts : List Ty) (A : String → Ty → Prop)
    (hA : ∀ name ty, structLiteralMember name ty ms ts false = .ok true ↔ A name ty) :
    ∀ (names : List String) (values : List Node) (vs : Vars) (values1 : List Node) (vs1 : Vars),
      names.length = values.length →
      (traverseMembers programs program (.struct ms ts) names values vs = .ok (values1, vs1) ↔
        ∃ tys, traverseList programs program values vs = .ok (tys, values1, vs1) ∧
          List.Forall₂ A names tys)
  | [], [], vs, values1, vs1, _ => by
    rw [traverseMembers, traverseList]
    constructor
    · intro h
      cases h
      exact ⟨[], rfl, List.Forall₂.nil⟩
    · rintro ⟨tys, h, -⟩
      cases h
      rfl
  | _ :: _, [], _, _, _, h => by simp at h
  | [], _ :: _, _, _, _, h => by simp at h
  | name :: names, value :: values, vs, values1, vs1, h => by
    have ih := traverseMembers_ok_iff_of programs program ms ts A hA names values
    have hl : names.length = values.length := by simpa using h
    rw [traverseMembers]
    cases hv : traverse programs program value vs with
    | error e =>
      rw [traverseList]
      simp [bind, Except.bind, hv]
    | ok r =>
      obtain ⟨ty, value1, vs2⟩ := r
      simp only [traverseList_cons_ok programs program value values vs ty value1 vs2 hv]
      simp only [bind, Except.bind, Ty.MemberNames, Ty.MemberTypes]
      have hiff := hA name ty
      cases hs : structLiteralMember name ty ms ts false with
      | error e =>
        have hna : ¬ A name ty := by
          rw [← hiff, hs]
          simp
        constructor
        · intro h0
          cases h0
        · rintro ⟨tys, ⟨tys2, vals2, rfl, rfl, _⟩, hf⟩
          cases hf with
          | cons h1 _ => exact absurd h1 hna
      | ok found =>
        cases found with
        | false =>
          have hna : ¬ A name ty := by
            rw [← hiff, hs]
            simp
          simp only [Bool.not_false, if_true, throw, throwThe, MonadExceptOf.throw]
          constructor
          · intro h0
            cases h0
          · rintro ⟨tys, ⟨tys2, vals2, rfl, rfl, _⟩, hf⟩
            cases hf with
            | cons h1 _ => exact absurd h1 hna
        | true =>
          have hacc : A name ty := hiff.mp hs
          simp only [Bool.not_true, Bool.false_eq_true, if_false]
          cases htm : traverseMembers programs program (.struct ms ts) names values vs2 with
          | error e =>
            constructor
            · intro h0
              cases h0
            · rintro ⟨tys, ⟨tys2, vals2, rfl, rfl, htl2⟩, hf⟩
              cases hf with
              | cons _ h2 =>
                have := (ih vs2 vals2 vs1 hl).mpr ⟨tys2, htl2, h2⟩
                rw [htm] at this
                cases this
          | ok rm =>
            obtain ⟨vals2, vs3⟩ := rm
            obtain ⟨tys2, htl2, hf2⟩ := (ih vs2 vals2 vs3 hl).mp htm
            simp only [pure, Except.pure, Except.ok.injEq, Prod.mk.injEq]
            constructor
            · rintro ⟨rfl, rfl⟩
              exact ⟨ty :: tys2, ⟨tys2, vals2, rfl, rfl, htl2⟩, List.Forall₂.cons hacc hf2⟩
            · rintro ⟨tys, ⟨tys3, vals3, rfl, rfl, htl3⟩, -⟩
              rw [htl2] at htl3
              simp only [Except.ok.injEq, Prod.mk.injEq] at htl3
              obtain ⟨-, rfl, rfl⟩ := htl3
              exact ⟨rfl, rfl⟩

theorem find_name_eq_none (l : List (String × Nat)) (x : String) :
    (l.find? (fun e => e.1 == x)).map (fun e => e.2) = none ↔ ∀ v, (x, v) ∉ l := by
  rw [Option.map_eq_none', List.find?_eq_none]
  constructor
  · intro h v hv
    exact h (x, v) hv (by simp)
  · intro h e he hx
    have hx1 : e.1 = x := by simpa using hx
    exact h e.2 (by rw [← hx1]; exact he)

theorem localVariableDeclaration_declared (s : ParserState) (tok : Token) (e : Environment)
    (rest : List Environment) (hcur : s.tokenizer.Fetch = .ok tok)
    (hkind : tok.kind = .TokenIdentifier) (henv : s.Env = e :: rest)
    (hdecl : ∃ v, (tok.str, v) ∈ e.locals) :
    localVariableDeclaration s = .error .BadToken := by
  have hid : identifier s = .ok (tok.str, s.withTokenizer s.tokenizer.Succ) := by
    unfold identifier
    simp [hcur, Token.Test, hkind, Tokenizer.Expect, Tokenizer.Consume, Tokenizer.Test]
  unfold localVariableDeclaration
  simp only [hcur, hid, ParserState.withTokenizer_Env, henv]
  cases hx : e.FindLocalVar tok.str with
  | none =>
    obtain ⟨v, hv⟩ := hdecl
    exact absurd hv ((find_name_eq_none e.locals tok.str).mp hx v)
  | some v => rfl

theorem topLevelVariableDeclaration_declared (s : ParserState) (tok : Token)
    (hcur : s.tokenizer.Fetch = .ok tok) (hkind : tok.kind = .TokenIdentifier)
    (henv : s.Env ≠ []) (hdecl : ∃ v, (tok.str, v) ∈ s.topLevelVariables) :
    topLevelVariableDeclaration s = .error .BadToken := by
  have hid : identifier s = .ok (tok.str, s.withTokenizer s.tokenizer.Succ) := by
    unfold identifier
    simp [hcur, Token.Test, hkind, Tokenizer.Expect, Tokenizer.Consume, Tokenizer.Test]
  obtain ⟨e, rest, henv1⟩ : ∃ e rest, s.Env = e :: rest := by
    cases h : s.Env with
    | nil => exact absurd h henv
    | cons e rest => exact ⟨e, rest, rfl⟩
  unfold topLevelVariableDeclaration
  simp only [hcur, hid, ParserState.withTokenizer_Env, henv1]
  have hx1 : (s.withTokenizer s.tokenizer.Succ).FindTopLevelVariable tok.str =
      s.FindTopLevelVariable tok.str := rfl
  cases hx : s.FindTopLevelVariable tok.str with
  | none =>
    obtain ⟨v, hv⟩ := hdecl
    exact absurd hv ((find_name_eq_none s.topLevelVariables tok.str).mp hx v)
  | some v => simp only [hx1, hx]

/-! # The claims -/

/-! ## C1 -/

/-- C1 (the code at the failing input): for the program set in which `A` imports
`B` and `B` imports `A`, both untraversed, `Semantic` neither returns nor reports
any error, however many scans it is given: every scan leaves both programs
untraversed, traverses nothing and starts the next scan. -/
theorem Semantic_cyclicPrograms_never_stops (fuel : Nat) (vs : Vars) :
    Semantic fuel cyclicPrograms vs = .OutOfFuel cyclicPrograms vs [] := by
  unfold Semantic
  induction fuel with
  | zero => rfl
  | succ n ih =>
    have hscan : scanLoop [] cyclicPrograms vs [] true = .ok (cyclicPrograms, vs, [], false) := by
      simp [scanLoop, cyclicPrograms, exampleProgram, ready, imported]
    rw [SemanticLoop, hscan]
    simpa using ih

/-! ## C2 -/

/-- C2: for every program set whose import relation among the loaded programs is
acyclic, `Semantic` stops after finitely many scans: a traversal fails, or it
returns, and then every program has `Traversed = true`, the events of a program
that was already traversed are none, and the events of a program that was not are
one `Start` followed by the `Visit`s of its top-level nodes in source order, so
that each of its top-level nodes was traversed exactly once in the run. -/
theorem Semantic_terminates_of_acyclic (ps : List Program) (vs : Vars) (hac : Acyclic ps) :
    ∃ fuel, (∃ e ps1 tr, Semantic fuel ps vs = .Aborted e ps1 tr) ∨
      (∃ ps1 vs1 tr, Semantic fuel ps vs = .Returned ps1 vs1 tr ∧
        (∀ p ∈ ps1, p.Traversed = true) ∧
        ∀ (i : Nat) (p : Program), ps[i]? = some p →
          (p.Traversed = true → tr.filter (fun e => decide (e.program = i)) = []) ∧
          (p.Traversed = false →
            (∃ flags, tr.filter (fun e => decide (e.program = i)) =
              Event.Start i flags :: sourceVisits i p.Sources 0) ∧
            ∀ (s k : Nat) (src : Source), p.Sources[s]? = some src → k < src.Code.length →
              tr.count (Event.Visit i s k) = 1)) := by
  refine ⟨untraversed ps + 1, ?_⟩
  have hstop := SemanticLoop_stops ps hac (untraversed ps) ps vs [] (RunInv.init ps) (Nat.le_refl _)
  have hinv := Semantic_inv (untraversed ps + 1) ps vs
  unfold Semantic at hinv ⊢
  cases hout : SemanticLoop (untraversed ps + 1) ps vs [] with
  | Aborted e ps1 tr => exact Or.inl ⟨e, ps1, tr, rfl⟩
  | OutOfFuel ps1 vs1 tr =>
    rw [hout] at hstop
    exact absurd hstop (by simp [Outcome.Stopped])
  | Returned ps1 vs1 tr =>
    rw [hout] at hstop hinv
    refine Or.inr ⟨ps1, vs1, tr, rfl, hstop, ?_⟩
    intro i p hp
    have hinv : RunInv ps ps1 tr := hinv
    have hi : i < ps1.length := by
      rw [hinv.len]
      exact (List.getElem?_eq_some.1 hp).1
    have hq : ps1[i]? = some ps1[i] := List.getElem?_eq_getElem hi
    refine ⟨?_, ?_⟩
    · intro hpt
      rw [List.filter_eq_nil_iff]
      intro e he
      simpa using hinv.idle i p _ hp hq (Or.inr hpt) e he
    · intro hpt
      obtain ⟨flags, hf⟩ := hinv.busy i p _ hp hq hpt (hstop _ (List.getElem_mem hi))
      exact ⟨⟨flags, hf⟩, fun s k src hs hk => count_visit_of_filter hf hs hk⟩

/-- C2 (witness): the theorem at the program set in which `A` imports `B`. -/
theorem Semantic_terminates_of_acyclic_witness :
    Acyclic chainPrograms ∧
    ∃ fuel, (∃ e ps1 tr, Semantic fuel chainPrograms exampleVars = .Aborted e ps1 tr) ∨
      (∃ ps1 vs1 tr, Semantic fuel chainPrograms exampleVars = .Returned ps1 vs1 tr ∧
        (∀ p ∈ ps1, p.Traversed = true) ∧
        ∀ (i : Nat) (p : Program), chainPrograms[i]? = some p →
          (p.Traversed = true → tr.filter (fun e => decide (e.program = i)) = []) ∧
          (p.Traversed = false →
            (∃ flags, tr.filter (fun e => decide (e.program = i)) =
              Event.Start i flags :: sourceVisits i p.Sources 0) ∧
            ∀ (s k : Nat) (src : Source), p.Sources[s]? = some src → k < src.Code.length →
              tr.count (Event.Visit i s k) = 1)) :=
  ⟨chainPrograms_acyclic,
    Semantic_terminates_of_acyclic chainPrograms exampleVars chainPrograms_acyclic⟩

/-! ## C3 -/

/-- C3: in every run of `Semantic`, however it ends, when the traversal of the
nodes of a program `p` starts (the event `Start i flags`), `p` is a program of the
slice that was untraversed, and every program `q` of the slice whose name is
imported by a source of `p` has its `Traversed` flag set at that moment; such a
`q` was traversed before the run or its own traversal started earlier in the
trace. -/
theorem Semantic_dependency_ready_order (fuel : Nat) (ps : List Program) (vs : Vars)
    (pre post : List Event) (i : Nat) (flags : List Bool)
    (h : (Semantic fuel ps vs).trace = pre ++ Event.Start i flags :: post) :
    flags.length = ps.length ∧ ∃ p, ps[i]? = some p ∧ p.Traversed = false ∧
      ∀ (j : Nat) (q : Program), ps[j]? = some q → q.Name ∈ imported p →
        flags[j]? = some true ∧ (q.Traversed = true ∨ ∃ f, Event.Start j f ∈ pre) :=
  (Semantic_inv fuel ps vs).toAbort.traceOk pre i flags post h

/-- C3 (witness): in the run on the program set in which `A` imports `B`, the
traversal of `A` starts after that of `B`, with the flag of `B` set. -/
theorem Semantic_dependency_ready_order_witness :
    (Semantic 3 chainPrograms exampleVars).trace =
        [Event.Start 1 [false, false], Event.Visit 1 0 0] ++
          Event.Start 0 [false, true] :: [Event.Visit 0 0 0] ∧
      ([false, true].length = chainPrograms.length ∧
        ∃ p, chainPrograms[0]? = some p ∧ p.Traversed = false ∧
          ∀ (j : Nat) (q : Program), chainPrograms[j]? = some q → q.Name ∈ imported p →
            [false, true][j]? = some true ∧
              (q.Traversed = true ∨
                ∃ f, Event.Start j f ∈ [Event.Start 1 [false, false], Event.Visit 1 0 0])) :=
  ⟨rfl, Semantic_dependency_ready_order 3 chainPrograms exampleVars
    [Event.Start 1 [false, false], Event.Visit 1 0 0] [Event.Visit 0 0 0] 0 [false, true] rfl⟩

/-! ## C4 -/

/-- C4: when every program already has `Traversed = true`, `Semantic` returns after
its first scan with the programs, their nodes and the variable store unchanged
and with an empty trace (no call of `traverse`); and in any run, however it ends,
the slice keeps its length and a program that had `Traversed = true` is unchanged,
so no flag goes from true to false. -/
theorem Semantic_idempotent_on_traversed (fuel : Nat) (ps : List Program) (vs : Vars) :
    ((∀ p ∈ ps, p.Traversed = true) → Semantic (fuel + 1) ps vs = .Returned ps vs []) ∧
    (Semantic fuel ps vs).programs.length = ps.length ∧
    ∀ (i : Nat) (p q : Program), ps[i]? = some p → (Semantic fuel ps vs).programs[i]? = some q →
      p.Traversed = true → q = p := by
  refine ⟨?_, ?_, ?_⟩
  · intro hall
    simp [Semantic, SemanticLoop, scanLoop_all_traversed ps [] vs [] true hall]
  · exact (Semantic_inv fuel ps vs).toAbort.len
  · intro i p q hp hq hpt
    exact ((Semantic_inv fuel ps vs).toAbort.rel i p q hp hq).mono hpt

/-- C4 (witness): two traversed programs are returned as they are after one scan. -/
theorem Semantic_idempotent_on_traversed_witness :
    (∀ p ∈ finishedPrograms, p.Traversed = true) ∧
      Semantic 1 finishedPrograms exampleVars = .Returned finishedPrograms exampleVars [] :=
  ⟨by simp [finishedPrograms, exampleProgram],
    (Semantic_idempotent_on_traversed 0 finishedPrograms exampleVars).1
      (by simp [finishedPrograms, exampleProgram])⟩

/-! ## C5 -/

/-- C5: when `traverse` succeeds on a short declaration `x1, ..., xn := f(...)`, the
left side being the list of the fresh local variables `xs` (pairwise distinct,
as the parser declares them) and the right side a single call of a function that
is found in its program with declared return type `Multiple(cs)`, then there are
as many components as variables, the `Type` of the variable of each `xi` is the
`i`-th component, and the node of each `xi` has that component as its
`ExprType`. -/
theorem traverse_shortVarDecl_multiple_call (programs : List Program) (program : Program)
    (t0 tl tr tc : Ty) (xs : List (Ty × Nat)) (pkg label : String) (arguments : List Node)
    (p : Program) (fn : Function) (cs : List Ty) (vs : Vars) (t : Ty) (n : Node) (vs1 : Vars)
    (hnodup : (xs.map Prod.snd).Nodup)
    (hp : packageToProgram programs pkg = some p)
    (hf : p.FindFunction label = some fn)
    (hret : fn.ReturnValueType = .multiple cs)
    (h : traverse programs program
      (.NodeShortVarDeclStmt t0
        (.NodeLocalVarList tl (xs.map (fun x => Node.NodeLocalVariable x.1 x.2)))
        (.NodeExprList tr [.NodeFunctionCall tc pkg label arguments])) vs = .ok (t, n, vs1)) :
    cs.length = xs.length ∧
    (∀ (j : Nat) (x : Ty × Nat), xs[j]? = some x → cs[j]? = some (vs1 x.2).Typ) ∧
    ∃ rhs1, n = .NodeShortVarDeclStmt .stmt
      (.NodeLocalVarList .stmt (List.zipWith (fun x c => Node.NodeLocalVariable c x.2) xs cs))
      rhs1 := by
  rw [traverse] at h
  rw [traverse_localVarList] at h
  simp only [bind, Except.bind] at h
  cases hr : traverse programs program
      (.NodeExprList tr [.NodeFunctionCall tc pkg label arguments]) vs with
  | error e => simp [hr] at h
  | ok r =>
    obtain ⟨rhsType, rhs1, vs2⟩ := r
    have ht := traverse_exprList_call programs program tr tc pkg label arguments p fn vs
      rhsType rhs1 vs2 hp hf hr
    rw [hret] at ht
    subst ht
    simp only [hr, shortVarDeclCount, Ty.Kind, if_true, Node.Children, List.length_map,
      Ty.Components] at h
    by_cases hlen : xs.length = cs.length
    · simp only [hlen, ne_eq, not_true_eq_false, if_false] at h
      have hmap : xs.map (fun x => Node.NodeLocalVariable (vs x.2).Typ x.2) =
          (xs.map (fun x => ((vs x.2).Typ, x.2))).map
            (fun x => Node.NodeLocalVariable x.1 x.2) := by
        simp
      obtain ⟨vs3, hb, _, hb3⟩ := bindShortVarDecl_multiple cs
        (xs.map (fun x => ((vs x.2).Typ, x.2))) 0 vs2 (by simp [hlen])
      rw [hmap, hb] at h
      simp only [pure, Except.pure, Except.ok.injEq, Prod.mk.injEq] at h
      obtain ⟨_, hn, hv⟩ := h
      refine ⟨hlen.symm, ?_, ?_⟩
      · intro j x hx
        have := hb3 (by simpa using hnodup) j ((vs x.2).Typ, x.2) (by simp [hx])
        rw [← hv]
        simpa using this
      · refine ⟨rhs1, ?_⟩
        rw [← hn]
        simp [Node.setChildren, List.zipWith_map_left]
    · simp [hlen, throw, throwThe, MonadExceptOf.throw] at h

/-- C5 (witness): for `func f() (int, bool)` and `a, b := f()`, `a` gets the type
`Int` and `b` the type `Bool`. -/
theorem traverse_shortVarDecl_multiple_call_witness :
    [Ty.int, Ty.bool].length = [(Ty.undefined, 0), (Ty.undefined, 1)].length ∧
    (((freshVars.setType 0 .int).setType 1 .bool) 0).Typ = .int ∧
    (((freshVars.setType 0 .int).setType 1 .bool) 1).Typ = .bool ∧
    ∃ rhs1, Node.NodeShortVarDeclStmt .stmt
        (.NodeLocalVarList .stmt [.NodeLocalVariable .int 0, .NodeLocalVariable .bool 1])
        (.NodeExprList (.multiple [.int, .bool])
          [.NodeFunctionCall (.multiple [.int, .bool]) "main" "f" []]) =
      .NodeShortVarDeclStmt .stmt
        (.NodeLocalVarList .stmt (List.zipWith (fun x c => Node.NodeLocalVariable c x.2)
          [(Ty.undefined, 0), (Ty.undefined, 1)] [Ty.int, Ty.bool])) rhs1 :=
  have h := traverse_shortVarDecl_multiple_call [pairFunctionProgram] pairFunctionProgram
    .undefined .undefined .undefined .undefined [(.undefined, 0), (.undefined, 1)] "main" "f" []
    pairFunctionProgram pairFunction [.int, .bool] freshVars .stmt
    (.NodeShortVarDeclStmt .stmt
      (.NodeLocalVarList .stmt [.NodeLocalVariable .int 0, .NodeLocalVariable .bool 1])
      (.NodeExprList (.multiple [.int, .bool])
        [.NodeFunctionCall (.multiple [.int, .bool]) "main" "f" []]))
    ((freshVars.setType 0 .int).setType 1 .bool) (by decide) rfl rfl rfl rfl
  ⟨h.1, (Option.some.inj (h.2.1 0 (.undefined, 0) rfl)).symm,
    (Option.some.inj (h.2.1 1 (.undefined, 1) rfl)).symm, h.2.2⟩

/-! ## C6 -/

/-- C6: on an assignment node whose two sides are traversed successfully with
types that are not `TypeCompatable`, `traverse` stops with the alarm of the
assignment; and when both sides are expressions, as the parser builds them,
neither the traversal of the left side nor that of the right side, which is all
that precedes the alarm, nor a successful traversal of the whole node changes the
variable store, so every recorded `Type` stays what it was. -/
theorem traverse_assign_mismatch_and_store (programs : List Program) (program : Program)
    (t0 : Ty) (lhs rhs : Node) (vs : Vars) :
    (∀ lt l1 vs1 rt r1 vs2, traverse programs program lhs vs = .ok (lt, l1, vs1) →
      traverse programs program rhs vs1 = .ok (rt, r1, vs2) → TypeCompatable lt rt = false →
      traverse programs program (.NodeAssign t0 lhs rhs) vs = .error (.Alarm .assignMismatch)) ∧
    (lhs.IsExpr = true → rhs.IsExpr = true →
      (∀ lt l1 vs1, traverse programs program lhs vs = .ok (lt, l1, vs1) →
        vs1 = vs ∧ ∀ rt r1 vs2, traverse programs program rhs vs1 = .ok (rt, r1, vs2) →
          vs2 = vs) ∧
      (∀ t n vs1, traverse programs program (.NodeAssign t0 lhs rhs) vs = .ok (t, n, vs1) →
        vs1 = vs)) := by
  refine ⟨?_, ?_⟩
  · intro lt l1 vs1 rt r1 vs2 hl hr hc
    rw [traverse]
    simp [hl, hr, hc, bind, Except.bind, throw, throwThe, MonadExceptOf.throw]
  · intro hel her
    refine ⟨?_, ?_⟩
    · intro lt l1 vs1 hl
      have e1 := traverse_expr_vars programs program lhs vs lt l1 vs1 hel hl
      subst e1
      exact ⟨rfl, fun rt r1 vs2 hr => traverse_expr_vars programs program rhs _ rt r1 vs2 her hr⟩
    · intro t n vs1 h
      rw [traverse] at h
      obtain ⟨⟨lt, l1, vs2⟩, h1, h2⟩ := Except.bind_ok_inv h
      obtain ⟨⟨rt, r1, vs3⟩, h3, h4⟩ := Except.bind_ok_inv h2
      have e1 := traverse_expr_vars programs program lhs vs lt l1 vs2 hel h1
      subst e1
      have e2 := traverse_expr_vars programs program rhs _ rt r1 vs3 her h3
      subst e2
      simp only [pure, Except.pure, throw, throwThe, MonadExceptOf.throw] at h4
      split at h4
      · simp only [Except.ok.injEq, Prod.mk.injEq] at h4
        exact h4.2.2.symm
      · cases h4

/-- C6 (witness): after `var x int`, the assignment `x = "s"` stops with the alarm
of the assignment. -/
theorem traverse_assign_mismatch_and_store_witness :
    traverse [emptyProgram] emptyProgram
      (.NodeAssign .undefined (.NodeExprList .undefined [.NodeLocalVariable .undefined 0])
        (.NodeExprList .undefined [.NodeString .undefined 0])) exampleVars =
      .error (.Alarm .assignMismatch) :=
  (traverse_assign_mismatch_and_store [emptyProgram] emptyProgram .undefined
    (.NodeExprList .undefined [.NodeLocalVariable .undefined 0])
    (.NodeExprList .undefined [.NodeString .undefined 0]) exampleVars).1
    .int (.NodeExprList .int [.NodeLocalVariable .int 0]) exampleVars
    .string (.NodeExprList .string [.NodeString .string 0]) exampleVars rfl rfl rfl

/-! ## C7 -/

/-- C7 (the code at the failing input): a short declaration stops with an alarm
whenever the number of its left-hand operands differs from the number of
components of a `Multiple` right-hand type, or else from the number of right-hand
operands; but the assignment `a, b = g()` with an unresolved `g` has two operands
on the left, one expression of type `Undefined` on the right, and is traversed
without any error. -/
theorem traverse_assign_count_unchecked :
    (∀ programs program t0 lhs rhs vs t1 lhs1 vs1 rhsType rhs1 vs2,
      traverse programs program lhs vs = .ok (t1, lhs1, vs1) →
      traverse programs program rhs vs1 = .ok (rhsType, rhs1, vs2) →
      (rhsType.Kind = .TypeMultiple → lhs1.Children.length ≠ rhsType.Components.length →
        traverse programs program (.NodeShortVarDeclStmt t0 lhs rhs) vs =
          .error (.Alarm .shortVarDeclComponents)) ∧
      (rhsType.Kind ≠ .TypeMultiple → lhs1.Children.length ≠ rhs1.Children.length →
        traverse programs program (.NodeShortVarDeclStmt t0 lhs rhs) vs =
          .error (.Alarm .shortVarDeclCount))) ∧
    traverse [emptyProgram] emptyProgram assignFromUnresolvedCall exampleVars =
      .ok (.stmt,
        .NodeAssign .stmt
          (.NodeExprList (.multiple [.int, .int])
            [.NodeLocalVariable .int 0, .NodeLocalVariable .int 1])
          (.NodeExprList .undefined [.NodeFunctionCall .undefined "" "g" []]),
        exampleVars) := by
  refine ⟨?_, rfl⟩
  intro programs program t0 lhs rhs vs t1 lhs1 vs1 rhsType rhs1 vs2 hl hr
  refine ⟨?_, ?_⟩
  · intro hk hn
    rw [traverse]
    simp [hl, hr, bind, Except.bind, shortVarDeclCount, hk, hn]
  · intro hk hn
    rw [traverse]
    simp [hl, hr, bind, Except.bind, shortVarDeclCount, hk, hn]

/-! ## C8 -/

/-- C8: `traverse` succeeds on an append call exactly when both arguments are
traversed successfully, the type of the first is a slice, and the type of the
second is `TypeEquals` to the element type of that slice; the type returned and
written into the node is then the type of the first argument. An element type
other than `Undefined` never accepts an `Undefined` value, and a `string` value
is never appended to a slice of `int`. -/
theorem traverse_appendCall (programs : List Program) (program : Program) (t0 : Ty)
    (a b : Node) (vs : Vars) :
    ((∃ r, traverse programs program (.NodeAppendCall t0 a b) vs = .ok r) ↔
      ∃ e t2 a1 b1 vs1 vs2, traverse programs program a vs = .ok (.slice e, a1, vs1) ∧
        traverse programs program b vs1 = .ok (t2, b1, vs2) ∧ TypeEquals e t2 = true) ∧
    (∀ t1 t2 a1 b1 vs1 vs2, traverse programs program a vs = .ok (t1, a1, vs1) →
      traverse programs program b vs1 = .ok (t2, b1, vs2) →
      (∀ r, traverse programs program (.NodeAppendCall t0 a b) vs = .ok r →
        r = (t1, .NodeAppendCall t1 a1 b1, vs2)) ∧
      (∀ e, t1 = .slice e → e ≠ .undefined → t2 = .undefined →
        traverse programs program (.NodeAppendCall t0 a b) vs =
          .error (.Panic .appendSecondArgument)) ∧
      (t1 = .slice .int → t2 = .string →
        traverse programs program (.NodeAppendCall t0 a b) vs =
          .error (.Panic .appendSecondArgument))) := by
  rw [traverse]
  cases ha : traverse programs program a vs with
  | error e => simp [bind, Except.bind]
  | ok ra =>
    obtain ⟨t1, a1, vs1⟩ := ra
    cases hb : traverse programs program b vs1 with
    | error e =>
      simp only [bind, Except.bind, hb]
      refine ⟨?_, ?_⟩
      · constructor
        · rintro ⟨r, hr⟩; cases hr
        · rintro ⟨e1, t2, a2, b1, vs3, vs2, h1, h2, _⟩
          simp only [Except.ok.injEq, Prod.mk.injEq] at h1
          rw [← h1.2.2, hb] at h2
          cases h2
      · intro t1' t2 a2 b1 vs3 vs2 h1 h2
        simp only [Except.ok.injEq, Prod.mk.injEq] at h1
        rw [← h1.2.2, hb] at h2
        cases h2
    | ok rb =>
      obtain ⟨t2, b1, vs2⟩ := rb
      simp only [bind, Except.bind, hb]
      refine ⟨?_, ?_⟩
      · constructor
        · rintro ⟨r, hr⟩
          cases t1 <;> simp [Ty.Kind, Ty.PtrTo, pure, Except.pure, throw, throwThe,
            MonadExceptOf.throw] at hr
          rename_i e
          refine ⟨e, t2, a1, b1, vs1, vs2, rfl, hb, ?_⟩
          by_contra hne
          simp [hne] at hr
        · rintro ⟨e, t2', a2, b2, vs3, vs4, h1, h2, h3⟩
          simp only [Except.ok.injEq, Prod.mk.injEq] at h1
          obtain ⟨rfl, rfl, rfl⟩ := h1
          rw [hb] at h2
          simp only [Except.ok.injEq, Prod.mk.injEq] at h2
          obtain ⟨rfl, rfl, rfl⟩ := h2
          simp [Ty.Kind, Ty.PtrTo, pure, Except.pure, h3]
      · intro t1' t2' a2 b2 vs3 vs4 h1 h2
        simp only [Except.ok.injEq, Prod.mk.injEq] at h1
        obtain ⟨rfl, rfl, rfl⟩ := h1
        rw [hb] at h2
        simp only [Except.ok.injEq, Prod.mk.injEq] at h2
        obtain ⟨rfl, rfl, rfl⟩ := h2
        refine ⟨?_, ?_, ?_⟩
        · intro r hr
          cases t1 <;> simp [Ty.Kind, Ty.PtrTo, pure, Except.pure, throw, throwThe,
            MonadExceptOf.throw] at hr
          rename_i e
          by_cases heq : TypeEquals e t2 = true
          · simp [heq] at hr
            exact hr.symm
          · simp [heq] at hr
        · rintro e rfl hne rfl
          have : TypeEquals e .undefined = false := by
            by_contra hcon
            exact hne (TypeEquals_undefined_right e (by simpa using hcon))
          simp [Ty.Kind, Ty.PtrTo, pure, Except.pure, throw, throwThe, MonadExceptOf.throw, this]
        · rintro rfl rfl
          simp [Ty.Kind, Ty.PtrTo, pure, Except.pure, throw, throwThe, MonadExceptOf.throw,
            TypeEquals]

/-- C8 (witness): after `var s []int`, the call `append(s, "x")` stops with the
panic of the second argument. -/
theorem traverse_appendCall_witness :
    traverse [emptyProgram] emptyProgram
      (.NodeAppendCall .undefined (.NodeLocalVariable .undefined 0) (.NodeString .undefined 0))
      sliceVars = .error (.Panic .appendSecondArgument) :=
  ((traverse_appendCall [emptyProgram] emptyProgram .undefined (.NodeLocalVariable .undefined 0)
    (.NodeString .undefined 0) sliceVars).2 (.slice .int) .string
    (.NodeLocalVariable (.slice .int) 0) (.NodeString .string 0) sliceVars sliceVars
    rfl rfl).2.2 rfl rfl

/-! ## C9 -/

/-- C9: (1) in `localVarStmt`, when `isType` is false after the declared name (no
type is written), the statement is accepted only if the next token is `=`: the
node then holds the declared variable and an initializer, and with any other
token the parser stops in `Expect`. (2) On a `var` node with an initializer whose
variable has the type `Undefined`, as the declaration leaves it, `traverse`
succeeds whenever the initializer is traversed successfully, and the `Type` of
the variable and the `ExprType` of its node become the type of the initializer.
(3) On a `var` node with an initializer whose variable has a written type `T`,
with an expression as initializer that is traversed successfully with type `tx`,
`traverse` succeeds exactly when `T` and `tx` are `TypeCompatable`, and the
`Type` of the variable is still `T` afterwards. -/
theorem localVarStmt_initializer_and_type (programs : List Program) (program : Program) :
    (∀ (localVariableDeclaration : Parser Node) (type_ : Parser Ty) (expr : Parser Node)
      (s s2 : ParserState) (t1 : Tokenizer) (v : Node),
      s.tokenizer.Expect .TokenVar = .ok t1 →
      localVariableDeclaration (s.withTokenizer t1) = .ok (v, s2) →
      isType s2 = .ok false →
      (s2.tokenizer.Test .TokenEqual = .ok false →
        localVarStmt localVariableDeclaration type_ expr s = .error .Madden) ∧
      (∀ n s3, localVarStmt localVariableDeclaration type_ expr s = .ok (n, s3) →
        s2.tokenizer.Test .TokenEqual = .ok true ∧
        ∃ x, n = .NodeVarStmt .undefined .NodeLocalVarStmt s3.FunctionName v (some x))) ∧
    (∀ (t0 tv : Ty) (kind : VarStmtKind) (functionName : String) (v : Nat) (x x1 : Node)
      (tx : Ty) (vs vs2 : Vars),
      (vs v).Typ = .undefined →
      traverse programs program x vs = .ok (tx, x1, vs2) →
      traverse programs program
          (.NodeVarStmt t0 kind functionName (.NodeLocalVariable tv v) (some x)) vs =
        .ok (.stmt, .NodeVarStmt .stmt kind functionName (.NodeLocalVariable tx v) (some x1),
          vs2.setType v tx) ∧
      ((vs2.setType v tx) v).Typ = tx) ∧
    (∀ (t0 tv : Ty) (kind : VarStmtKind) (functionName : String) (v : Nat) (x x1 : Node)
      (tx : Ty) (vs vs2 : Vars),
      (vs v).Typ.Kind ≠ .TypeUndefined → x.IsExpr = true →
      traverse programs program x vs = .ok (tx, x1, vs2) →
      ((∃ r, traverse programs program
          (.NodeVarStmt t0 kind functionName (.NodeLocalVariable tv v) (some x)) vs = .ok r) ↔
        TypeCompatable (vs v).Typ tx = true) ∧
      ∀ t n vs3, traverse programs program
          (.NodeVarStmt t0 kind functionName (.NodeLocalVariable tv v) (some x)) vs =
            .ok (t, n, vs3) → (vs3 v).Typ = (vs v).Typ) := by
  refine ⟨?_, ?_, ?_⟩
  · intro decl type_ expr s s2 t1 v h1 h2 h3
    refine ⟨?_, ?_⟩
    · intro h4
      simp only [localVarStmt, h1, h2, h3]
      simp [Tokenizer.Expect, Tokenizer.Consume, h4]
    · intro n s3 h
      simp only [localVarStmt, h1, h2, h3] at h
      cases h4 : s2.tokenizer.Test .TokenEqual with
      | error e => simp [Tokenizer.Expect, Tokenizer.Consume, h4] at h
      | ok b =>
        cases b with
        | false => simp [Tokenizer.Expect, Tokenizer.Consume, h4] at h
        | true =>
          simp only [Tokenizer.Expect, Tokenizer.Consume, h4] at h
          refine ⟨rfl, ?_⟩
          cases h5 : expr (s2.withTokenizer s2.tokenizer.Succ) with
          | error e => simp [h5] at h
          | ok r =>
            obtain ⟨x, s4⟩ := r
            simp only [h5, Except.ok.injEq, Prod.mk.injEq] at h
            exact ⟨x, by rw [← h.1, h.2]⟩
  · intro t0 tv kind functionName v x x1 tx vs vs2 hu hx
    refine ⟨?_, Vars.setType_typ_self _ _ _⟩
    rw [traverse]
    simp only [traverse, bind, Except.bind, hx, hu, Ty.Kind, if_true, Node.Variable,
      TypeCompatable_self, Node.Kind, reduceCtorEq, if_false, pure, Except.pure,
      Node.setExprType]
  · intro t0 tv kind functionName v x x1 tx vs vs2 hu hex hx
    have hvs := traverse_expr_vars programs program x vs tx x1 vs2 hex hx
    subst hvs
    rw [traverse]
    simp only [traverse, bind, Except.bind, hx, hu, if_false, Node.Kind, reduceCtorEq, pure,
      Except.pure]
    by_cases hc : TypeCompatable (vs2 v).Typ tx = true
    · simp [hc]
    · simp [hc, throw, throwThe, MonadExceptOf.throw]

/-- C9 (witness): `var x 1` is refused by the parser; `var x = 1` gives `x` the
type `Int`; and after `var x int` the initializer `"s"` is refused while the type
of `x` is `Int`. -/
theorem localVarStmt_initializer_and_type_witness :
    localVarStmt declareVariableZero (unreachedParser Ty) (unreachedParser Node)
        varWithoutEqualState = .error .Madden ∧
    (traverse [emptyProgram] emptyProgram
        (.NodeVarStmt .undefined .NodeLocalVarStmt "f" (.NodeLocalVariable .undefined 0)
          (some (.NodeNum .undefined 1))) freshVars =
      .ok (.stmt, .NodeVarStmt .stmt .NodeLocalVarStmt "f" (.NodeLocalVariable .int 0)
        (some (.NodeNum .int 1)), freshVars.setType 0 .int) ∧
      ((freshVars.setType 0 .int) 0).Typ = .int) ∧
    ¬ (∃ r, traverse [emptyProgram] emptyProgram
        (.NodeVarStmt .undefined .NodeLocalVarStmt "f" (.NodeLocalVariable .undefined 0)
          (some (.NodeString .undefined 0))) exampleVars = .ok r) :=
  ⟨((localVarStmt_initializer_and_type [emptyProgram] emptyProgram).1 declareVariableZero
      (unreachedParser Ty) (unreachedParser Node) varWithoutEqualState
      (varWithoutEqualState.withTokenizer
        varWithoutEqualState.tokenizer.Succ.Succ)
      varWithoutEqualState.tokenizer.Succ (.NodeLocalVariable .undefined 0) rfl rfl rfl).1 rfl,
    (localVarStmt_initializer_and_type [emptyProgram] emptyProgram).2.1 .undefined .undefined
      .NodeLocalVarStmt "f" 0 (.NodeNum .undefined 1) (.NodeNum .int 1) .int freshVars freshVars
      rfl rfl,
    fun h => absurd
      ((((localVarStmt_initializer_and_type [emptyProgram] emptyProgram).2.2 .undefined
        .undefined .NodeLocalVarStmt "f" 0 (.NodeString .undefined 0) (.NodeString .string 0)
        .string exampleVars exampleVars (by decide) rfl rfl).1).1 h) (by decide)⟩

/-! ## C10 -/

/-- C10 (the code at the failing input): in a function whose declared return type
is not `Void`, `traverse` on a `return` without argument, which is the node that
`localStmt` builds for a bare `return`, calls `traverse(node.Target)` on `nil` and
stops with the Go run-time panic of a nil dereference, not with one of the
reports of the semantic pass. With an argument, or in a `Void` function, the
branch behaves as described: it succeeds exactly when there is no argument
(`Void`), or when the argument is traversed successfully with a type that is
`TypeCompatable` with the declared return type. -/
theorem traverse_bare_return_nil_dereference (programs : List Program) (program : Program)
    (fn : Function) (functionName : String) (t0 : Ty) (vs : Vars)
    (hf : program.FindFunction functionName = some fn) :
    (fn.ReturnValueType.Kind ≠ .TypeVoid →
      traverse programs program (.NodeReturn t0 functionName none) vs =
        .error .NilDereference) ∧
    (fn.ReturnValueType.Kind = .TypeVoid → ∀ target,
      ((∃ r, traverse programs program (.NodeReturn t0 functionName target) vs = .ok r) ↔
        target = none)) ∧
    (fn.ReturnValueType.Kind ≠ .TypeVoid → ∀ x,
      ((∃ r, traverse programs program (.NodeReturn t0 functionName (some x)) vs = .ok r) ↔
        ∃ ty x1 vs1, traverse programs program x vs = .ok (ty, x1, vs1) ∧
          TypeCompatable fn.ReturnValueType ty = true)) := by
  refine ⟨?_, ?_, ?_⟩
  · intro hk
    rw [traverse]
    simp [hf, hk, throw, throwThe, MonadExceptOf.throw]
  · intro hk target
    cases target with
    | none =>
      rw [traverse]
      simp [hf, hk, pure, Except.pure]
    | some x =>
      rw [traverse]
      simp [hf, hk, throw, throwThe, MonadExceptOf.throw]
  · intro hk x
    rw [traverse]
    simp only [hf, hk, if_false]
    cases hx : traverse programs program x vs with
    | error e => simp [bind, Except.bind]
    | ok r =>
      obtain ⟨ty, x1, vs1⟩ := r
      by_cases hc : TypeCompatable fn.ReturnValueType ty = true
      · simp [bind, Except.bind, hc, pure, Except.pure]
      · simp [bind, Except.bind, hc, throw, throwThe, MonadExceptOf.throw]

/-- C10 (witness): `localStmt` turns `return` at the end of a line into a return
node without target, and `traverse` stops on it with a nil dereference inside
`func f() int`. -/
theorem traverse_bare_return_nil_dereference_witness :
    localStmt (unreachedParser Node) (unreachedParser Node) (unreachedParser Node)
        (unreachedParser (Option Node)) (unreachedParser Node) bareReturnState =
      .ok (some (.NodeReturn .undefined "f" none),
        bareReturnState.withTokenizer bareReturnState.tokenizer.Succ) ∧
    intFunctionProgram.FindFunction "f" = some intFunction ∧
    intFunction.ReturnValueType.Kind ≠ .TypeVoid ∧
    traverse [intFunctionProgram] intFunctionProgram (.NodeReturn .undefined "f" none)
      exampleVars = .error .NilDereference :=
  ⟨rfl, rfl, by decide,
    (traverse_bare_return_nil_dereference [intFunctionProgram] intFunctionProgram intFunction
      "f" .undefined exampleVars rfl).1 (by decide)⟩

/-! ## C11 -/

/-- C11 (the code at the failing inputs): when `traverse` succeeds on a binary
node of kind Sub, Mul, Div or Mod, the left operand has type `Int` and the node
gets `Int`, but the right operand is only known to be `Int` or `Undefined`; for
LogicalAnd and LogicalOr the same holds with `Bool`. `1 - g()` and `true && g()`
with an undeclared `g` are accepted, the right operand having type `Undefined`. -/
theorem traverse_arithmetic_logical_operands (programs : List Program) (program : Program)
    (t0 : Ty) (kind : BinaryKind) (lhs rhs : Node) (vs : Vars) (t : Ty) (n : Node)
    (vs2 : Vars) :
    (traverse programs program (.NodeBinary t0 kind lhs rhs) vs = .ok (t, n, vs2) →
      ∃ lt lhs1 vs1 rt rhs1, traverse programs program lhs vs = .ok (lt, lhs1, vs1) ∧
        traverse programs program rhs vs1 = .ok (rt, rhs1, vs2) ∧
        n = .NodeBinary t kind lhs1 rhs1 ∧
        (kind ∈ [.NodeSub, .NodeMul, .NodeDiv, .NodeMod] →
          lt = .int ∧ (rt = .int ∨ rt = .undefined) ∧ t = .int) ∧
        (kind ∈ [.NodeLogicalAnd, .NodeLogicalOr] →
          lt = .bool ∧ (rt = .bool ∨ rt = .undefined) ∧ t = .bool)) ∧
    traverse [emptyProgram] emptyProgram subUnresolvedCall exampleVars =
      .ok (.int, .NodeBinary .int .NodeSub (.NodeNum .int 1)
        (.NodeFunctionCall .undefined "" "g" []), exampleVars) ∧
    traverse [emptyProgram] emptyProgram andUnresolvedCall exampleVars =
      .ok (.bool, .NodeBinary .bool .NodeLogicalAnd (.NodeBool .bool 1)
        (.NodeFunctionCall .undefined "" "g" []), exampleVars) := by
  refine ⟨?_, rfl, rfl⟩
  intro h
  obtain ⟨lt, lhs1, vs1, rt, rhs1, vs3, h1, h2, hc, hb, hr⟩ := traverse_binary_ok _ _ _ _ _ _ _ _ h
  simp only [Prod.mk.injEq] at hr
  obtain ⟨-, rfl, rfl⟩ := hr
  simp only at hb
  refine ⟨lt, lhs1, vs1, rt, rhs1, h1, h2, rfl, ?_, ?_⟩
  · intro hk
    have hlt : lt = .int := by
      apply Ty.eq_int_of_kind
      by_contra hne
      simp only [List.mem_cons, List.mem_singleton, List.not_mem_nil, or_false] at hk
      rcases hk with rfl | rfl | rfl | rfl <;> simp [binaryResult, hne] at hb
    subst hlt
    refine ⟨rfl, TypeCompatable_int_left _ hc, ?_⟩
    simp only [List.mem_cons, List.mem_singleton, List.not_mem_nil, or_false] at hk
    rcases hk with rfl | rfl | rfl | rfl <;> simp [binaryResult, Ty.Kind] at hb <;> exact hb.symm
  · intro hk
    have hlt : lt = .bool := by
      apply Ty.eq_bool_of_kind
      by_contra hne
      simp only [List.mem_cons, List.mem_singleton, List.not_mem_nil, or_false] at hk
      rcases hk with rfl | rfl <;> simp [binaryResult, hne] at hb
    subst hlt
    refine ⟨rfl, TypeCompatable_bool_left _ hc, ?_⟩
    simp only [List.mem_cons, List.mem_singleton, List.not_mem_nil, or_false] at hk
    rcases hk with rfl | rfl <;> simp [binaryResult, Ty.Kind] at hb <;> exact hb.symm

/-! ## C12 -/

/-- C12: when `traverse` succeeds on `e` with type `T`, it gives `Addr(e)` the
type `Pointer(T)` and `Deref(Addr(e))` the type `T` again; `Deref(e)` is the alarm
of a non-pointer whenever `T` is no pointer, and has the pointee type when `T` is
a pointer. -/
theorem traverse_addr_deref (programs : List Program) (program : Program) (t0 t1 : Ty)
    (e e1 : Node) (vs vs1 : Vars) (T : Ty)
    (h : traverse programs program e vs = .ok (T, e1, vs1)) :
    traverse programs program (.NodeAddr t0 e) vs = .ok (.ptr T, .NodeAddr (.ptr T) e1, vs1) ∧
    traverse programs program (.NodeDeref t1 (.NodeAddr t0 e)) vs =
      .ok (T, .NodeDeref T (.NodeAddr (.ptr T) e1), vs1) ∧
    (T.Kind ≠ .TypePtr →
      traverse programs program (.NodeDeref t1 e) vs = .error (.Alarm .derefNonPointer)) ∧
    (∀ U, T = .ptr U →
      traverse programs program (.NodeDeref t1 e) vs = .ok (U, .NodeDeref U e1, vs1)) := by
  have ha : traverse programs program (.NodeAddr t0 e) vs =
      .ok (.ptr T, .NodeAddr (.ptr T) e1, vs1) := by
    rw [traverse]
    simp [h, bind, Except.bind, pure, Except.pure]
  refine ⟨ha, ?_, ?_, ?_⟩
  · rw [traverse]
    simp [ha, bind, Except.bind, pure, Except.pure, Ty.Kind, Ty.PtrTo]
  · intro hk
    rw [traverse]
    simp [h, bind, Except.bind, hk, throw, throwThe, MonadExceptOf.throw]
  · rintro U rfl
    rw [traverse]
    simp [h, bind, Except.bind, pure, Except.pure, Ty.Kind, Ty.PtrTo]

/-- C12 (witness): for an `int` variable `x`, `&x` has type `*int`, `*&x` has type
`int`, and `*x` is the alarm. -/
theorem traverse_addr_deref_witness :
    traverse [emptyProgram] emptyProgram
        (.NodeAddr .undefined (.NodeLocalVariable .undefined 0)) exampleVars =
      .ok (.ptr .int, .NodeAddr (.ptr .int) (.NodeLocalVariable .int 0), exampleVars) ∧
    traverse [emptyProgram] emptyProgram
        (.NodeDeref .undefined (.NodeAddr .undefined (.NodeLocalVariable .undefined 0)))
        exampleVars =
      .ok (.int, .NodeDeref .int (.NodeAddr (.ptr .int) (.NodeLocalVariable .int 0)),
        exampleVars) ∧
    traverse [emptyProgram] emptyProgram
        (.NodeDeref .undefined (.NodeLocalVariable .undefined 0)) exampleVars =
      .error (.Alarm .derefNonPointer) :=
  have h := traverse_addr_deref [emptyProgram] emptyProgram .undefined .undefined
    (.NodeLocalVariable .undefined 0) (.NodeLocalVariable .int 0) exampleVars exampleVars .int rfl
  ⟨h.1, h.2.1, h.2.2.1 (by decide)⟩

/-! ## C13 -/

/-- C13: for a struct literal of a named type whose struct has the members `ms` of
the types `ts`, `traverse` succeeds exactly when every value is traversed
successfully and every pair of a name and the type of its value passes the test
of the branch: the name is a member, and the type is compatible with the type of
every member of that name; the type returned and written into the node is the
named type. A name that is no member makes `traverse` fail, with the panic of the
unknown member when it is the first pair. When the names of the members are
pairwise distinct, the test is the one of the single member of that name. -/
theorem traverse_structLiteral (programs : List Program) (program : Program) (t0 : Ty)
    (N : String) (ms : List String) (ts : List Ty) (names : List String) (values : List Node)
    (vs : Vars) (hlen : ms.length = ts.length) (hnv : names.length = values.length) :
    (∀ t n vs1,
      traverse programs program
          (.NodeStructLiteral t0 (.userDefined N (.struct ms ts)) names values) vs =
        .ok (t, n, vs1) ↔
      ∃ tys values1, traverseList programs program values vs = .ok (tys, values1, vs1) ∧
        List.Forall₂ (MemberAcceptedEvery ms ts) names tys ∧
        t = .userDefined N (.struct ms ts) ∧
        n = .NodeStructLiteral (.userDefined N (.struct ms ts)) (.userDefined N (.struct ms ts))
          names values1) ∧
    (∀ (i : Nat) (name : String), names[i]? = some name → name ∉ ms → ∀ r,
      traverse programs program
        (.NodeStructLiteral t0 (.userDefined N (.struct ms ts)) names values) vs ≠ .ok r) ∧
    (∀ name names1 value values1 ty value1 vs1, names = name :: names1 →
      values = value :: values1 →
      traverse programs program value vs = .ok (ty, value1, vs1) → name ∉ ms →
      traverse programs program
          (.NodeStructLiteral t0 (.userDefined N (.struct ms ts)) names values) vs =
        .error (.Panic .structLiteralNoMember)) ∧
    (ms.Nodup → ∀ name ty, MemberAcceptedEvery ms ts name ty ↔ MemberAccepted ms ts name ty) := by
  have hmem := traverseMembers_ok_iff_of programs program ms ts (MemberAcceptedEvery ms ts)
    (fun name ty => structLiteralMember_every_iff name ty ms ts hlen)
  have hiff : ∀ t n vs1,
      traverse programs program
          (.NodeStructLiteral t0 (.userDefined N (.struct ms ts)) names values) vs =
        .ok (t, n, vs1) ↔
      ∃ tys values1, traverseList programs program values vs = .ok (tys, values1, vs1) ∧
        List.Forall₂ (MemberAcceptedEvery ms ts) names tys ∧
        t = .userDefined N (.struct ms ts) ∧
        n = .NodeStructLiteral (.userDefined N (.struct ms ts)) (.userDefined N (.struct ms ts))
          names values1 := by
    intro t n vs1
    rw [traverse]
    simp only [Ty.PtrTo]
    cases htm : traverseMembers programs program (.struct ms ts) names values vs with
    | error e =>
      simp only [bind, Except.bind]
      constructor
      · intro h
        cases h
      · rintro ⟨tys, values1, htl, hf, -, -⟩
        have := (hmem names values vs values1 vs1 hnv).mpr ⟨tys, htl, hf⟩
        rw [htm] at this
        cases this
    | ok r =>
      obtain ⟨values2, vs2⟩ := r
      obtain ⟨tys, htl, hf⟩ := (hmem names values vs values2 vs2 hnv).mp htm
      simp only [bind, Except.bind, pure, Except.pure, Except.ok.injEq, Prod.mk.injEq]
      constructor
      · rintro ⟨rfl, rfl, rfl⟩
        exact ⟨tys, values2, htl, hf, rfl, rfl⟩
      · rintro ⟨tys1, values1, htl1, -, rfl, rfl⟩
        rw [htl] at htl1
        simp only [Except.ok.injEq, Prod.mk.injEq] at htl1
        obtain ⟨-, rfl, rfl⟩ := htl1
        exact ⟨rfl, rfl, rfl⟩
  refine ⟨hiff, ?_, ?_, ?_⟩
  · rintro i name hi hmem1 ⟨t, n, vs1⟩ hr
    obtain ⟨tys, values1, -, hf, -, -⟩ := (hiff t n vs1).mp hr
    obtain ⟨ty, -, hin, -⟩ := Forall₂.getElem?_left hf i name hi
    exact hmem1 hin
  · rintro name names1 value values1 ty value1 vs1 rfl rfl hv hmem1
    rw [traverse]
    simp only [Ty.PtrTo]
    rw [traverseMembers]
    simp [hv, bind, Except.bind, Ty.MemberNames, Ty.MemberTypes,
      structLiteralMember_not_mem name ty ms ts false hmem1, throw, throwThe,
      MonadExceptOf.throw]
  · intro hnd name ty
    exact (structLiteralMember_every_iff name ty ms ts hlen).symm.trans
      (structLiteralMember_true_iff name ty ms ts hnd hlen)

/-- C13 (witness): with `type P struct { x int; y string }` the literal `P{x: 1}`
is accepted with type `P`, and `P{z: 1}` is the panic of the unknown member. -/
theorem traverse_structLiteral_witness :
    traverse [emptyProgram] emptyProgram
        (.NodeStructLiteral .undefined pointType ["x"] [.NodeNum .undefined 1]) exampleVars =
      .ok (pointType, .NodeStructLiteral pointType pointType ["x"] [.NodeNum .int 1],
        exampleVars) ∧
    traverse [emptyProgram] emptyProgram
        (.NodeStructLiteral .undefined pointType ["z"] [.NodeNum .undefined 1]) exampleVars =
      .error (.Panic .structLiteralNoMember) :=
  ⟨((traverse_structLiteral [emptyProgram] emptyProgram .undefined "P" ["x", "y"]
      [.int, .string] ["x"] [.NodeNum .undefined 1] exampleVars rfl rfl).1
      pointType _ exampleVars).mpr
      ⟨[.int], [.NodeNum .int 1], rfl,
        List.Forall₂.cons
          (((traverse_structLiteral [emptyProgram] emptyProgram .undefined "P" ["x", "y"]
            [.int, .string] ["x"] [.NodeNum .undefined 1] exampleVars rfl rfl).2.2.2
            (by decide) "x" .int).mpr ⟨0, .int, rfl, rfl, rfl⟩)
          List.Forall₂.nil, rfl, rfl⟩,
    (traverse_structLiteral [emptyProgram] emptyProgram .undefined "P" ["x", "y"]
      [.int, .string] ["z"] [.NodeNum .undefined 1] exampleVars rfl rfl).2.2.1
      "z" [] (.NodeNum .undefined 1) [] .int (.NodeNum .int 1) exampleVars rfl rfl rfl
      (by decide)⟩

/-- C13 (counterexample): with `type P struct { x int; x string }` the pair of the
literal `P{x: 1}` names the member `x` of the type `int`, with which the type of
its value is compatible, and the value is traversed; but `traverse` tests the
second member `x` of the type `string` as well and stops with the panic of the
member type. -/
theorem traverse_structLiteral_duplicate_member :
    MemberAccepted ["x", "x"] [.int, .string] "x" .int ∧
    traverseList [emptyProgram] emptyProgram [.NodeNum .undefined 1] exampleVars =
      .ok ([.int], [.NodeNum .int 1], exampleVars) ∧
    traverse [emptyProgram] emptyProgram
        (.NodeStructLiteral .undefined duplicateMemberType ["x"] [.NodeNum .undefined 1])
        exampleVars =
      .error (.Panic .structLiteralMemberType) :=
  ⟨⟨0, .int, rfl, rfl, rfl⟩, rfl, rfl⟩

/-! ## C14 -/

/-- C14: for a call into the package `node.In`. When no program of this name is
loaded, `packageToProgram` returns `nil` and `p.FindFunction` is a nil dereference,
a run-time panic, before any argument is traversed. When a program `p` of this
name is loaded and declares the callee, `traverse` succeeds exactly when all
arguments are traversed successfully, there are as many arguments as parameters,
and the type of every argument is compatible with the parameter type at its
position; the node then gets the declared return type, and a wrong number of
arguments is the alarm of the count. When `p` does not declare the callee,
`traverse` adds no error of its own: it traverses every argument and gives the
node the type `Undefined`. -/
theorem traverse_functionCall (programs : List Program) (program : Program) (t0 : Ty)
    (pkg label : String) (arguments : List Node) (vs : Vars) :
    (packageToProgram programs pkg = none →
      traverse programs program (.NodeFunctionCall t0 pkg label arguments) vs =
        .error .NilDereference) ∧
    ∀ p, packageToProgram programs pkg = some p →
    (∀ fn, p.FindFunction label = some fn →
      (∀ t n vs1,
        traverse programs program (.NodeFunctionCall t0 pkg label arguments) vs =
          .ok (t, n, vs1) ↔
        ∃ tys arguments1,
          traverseList programs program arguments vs = .ok (tys, arguments1, vs1) ∧
          arguments.length = fn.ParameterTypes.length ∧
          List.Forall₂ (fun pt ty => TypeCompatable pt ty = true) fn.ParameterTypes tys ∧
          t = fn.ReturnValueType ∧
          n = .NodeFunctionCall fn.ReturnValueType pkg label arguments1) ∧
      (arguments.length ≠ fn.ParameterTypes.length →
        traverse programs program (.NodeFunctionCall t0 pkg label arguments) vs =
          .error (.Alarm .callArgumentCount))) ∧
    (p.FindFunction label = none →
      traverse programs program (.NodeFunctionCall t0 pkg label arguments) vs =
        match traverseList programs program arguments vs with
        | .error e => .error e
        | .ok (_, arguments1, vs1) =>
          .ok (.undefined, .NodeFunctionCall .undefined "" label arguments1, vs1)) := by
  refine ⟨fun hnone => by rw [traverse]; simp only [hnone]; rfl, ?_⟩
  intro p hp
  constructor
  · intro fn hfn
    constructor
    · intro t n vs1
      rw [traverse]
      simp only [hp, hfn]
      by_cases hl : fn.ParameterTypes.length = arguments.length
      · rw [if_neg (not_not.mpr hl)]
        simp only [bind, Except.bind]
        cases hta : traverseArguments programs program fn.ParameterTypes arguments vs with
        | error e =>
          constructor
          · intro h0
            cases h0
          · rintro ⟨tys, arguments1, htl, -, hf, -, -⟩
            have := (traverseArguments_ok_iff programs program fn.ParameterTypes arguments vs
              arguments1 vs1 hl).mpr ⟨tys, htl, hf⟩
            rw [hta] at this
            cases this
        | ok r =>
          obtain ⟨arguments2, vs2⟩ := r
          obtain ⟨tys, htl, hf⟩ := (traverseArguments_ok_iff programs program fn.ParameterTypes
            arguments vs arguments2 vs2 hl).mp hta
          simp only [pure, Except.pure, Except.ok.injEq, Prod.mk.injEq]
          constructor
          · rintro ⟨rfl, rfl, rfl⟩
            exact ⟨tys, arguments2, htl, hl.symm, hf, rfl, rfl⟩
          · rintro ⟨tys1, arguments1, htl1, -, -, rfl, rfl⟩
            rw [htl] at htl1
            simp only [Except.ok.injEq, Prod.mk.injEq] at htl1
            obtain ⟨-, rfl, rfl⟩ := htl1
            exact ⟨rfl, rfl, rfl⟩
      · simp only [ne_eq, hl, not_false_eq_true, if_true, bind, Except.bind, throw, throwThe,
          MonadExceptOf.throw]
        constructor
        · intro h0
          cases h0
        · rintro ⟨tys, arguments1, -, hl2, -⟩
          exact absurd hl2.symm hl
    · intro hl
      rw [traverse]
      simp only [hp, hfn]
      have hl2 : fn.ParameterTypes.length ≠ arguments.length := fun e => hl e.symm
      simp [hl2, bind, Except.bind, throw, throwThe, MonadExceptOf.throw]
  · intro hfn
    rw [traverse]
    simp only [hp, hfn]
    cases traverseList programs program arguments vs with
    | error e => rfl
    | ok r => rfl

/-- C14 (witness): with `func f(a int) int`, the call `f(1)` has type `int`, `f()`
is the alarm of the count, and `g(1)` for an undeclared `g` has type `Undefined`
with its argument traversed; the call `foo.Bar()` into a package `foo` that is
not loaded is a nil dereference. -/
theorem traverse_functionCall_witness :
    traverse [unaryFunctionProgram] unaryFunctionProgram
        (.NodeFunctionCall .undefined "main" "f" [.NodeNum .undefined 1]) exampleVars =
      .ok (.int, .NodeFunctionCall .int "main" "f" [.NodeNum .int 1], exampleVars) ∧
    traverse [unaryFunctionProgram] unaryFunctionProgram
        (.NodeFunctionCall .undefined "main" "f" []) exampleVars =
      .error (.Alarm .callArgumentCount) ∧
    traverse [unaryFunctionProgram] unaryFunctionProgram
        (.NodeFunctionCall .undefined "main" "g" [.NodeNum .undefined 1]) exampleVars =
      .ok (.undefined, .NodeFunctionCall .undefined "" "g" [.NodeNum .int 1], exampleVars) ∧
    traverse [unaryFunctionProgram] unaryFunctionProgram
        (.NodeFunctionCall .undefined "foo" "Bar" []) exampleVars =
      .error .NilDereference :=
  ⟨((((traverse_functionCall [unaryFunctionProgram] unaryFunctionProgram .undefined "main" "f"
      [.NodeNum .undefined 1] exampleVars).2 unaryFunctionProgram rfl).1 unaryFunction rfl).1
      .int _ exampleVars).mpr
      ⟨[.int], [.NodeNum .int 1], rfl, rfl, List.Forall₂.cons rfl List.Forall₂.nil, rfl, rfl⟩,
    (((traverse_functionCall [unaryFunctionProgram] unaryFunctionProgram .undefined "main" "f"
      [] exampleVars).2 unaryFunctionProgram rfl).1 unaryFunction rfl).2 (by decide),
    ((traverse_functionCall [unaryFunctionProgram] unaryFunctionProgram .undefined "main" "g"
      [.NodeNum .undefined 1] exampleVars).2 unaryFunctionProgram rfl).2 rfl,
    (traverse_functionCall [unaryFunctionProgram] unaryFunctionProgram .undefined "foo" "Bar"
      [] exampleVars).1 rfl⟩

/-! ## C15 -/

/-- C15: for a function whose locals are pairwise distinct variables,
`alignLocalVars` gives the `i`-th local in declaration order (counted from 1) the
offset `8 * i`, hence positive and strictly increasing offsets; it changes no
other variable and no other field; running it again changes nothing; and the
store that `traverse` returns for a function definition has these offsets. -/
theorem alignLocalVars_offsets (program : Program) (functionName : String) (fn : Function)
    (vs : Vars) (hfn : program.FindFunction functionName = some fn)
    (hnd : fn.LocalVariables.Nodup) :
    ∃ vs1, alignLocalVars program functionName vs = .ok vs1 ∧
      (∀ (i v : Nat), fn.LocalVariables[i]? = some v → (vs1 v).Offset = 8 * (i + 1)) ∧
      (∀ (i j v w : Nat), fn.LocalVariables[i]? = some v → fn.LocalVariables[j]? = some w →
        i < j → 0 < (vs1 v).Offset ∧ (vs1 v).Offset < (vs1 w).Offset) ∧
      (∀ v, v ∉ fn.LocalVariables → vs1 v = vs v) ∧
      (∀ v, (vs1 v).Name = (vs v).Name ∧ (vs1 v).Typ = (vs v).Typ ∧
        (vs1 v).Kind = (vs v).Kind) ∧
      alignLocalVars program functionName vs1 = .ok vs1 ∧
      (∀ programs t0 parameters body r,
        traverse programs program (.NodeFunctionDef t0 functionName parameters body) vs =
          .ok r →
        ∀ (i v : Nat), fn.LocalVariables[i]? = some v → (r.2.2 v).Offset = 8 * (i + 1)) := by
  have hoff : ∀ (ws : Vars) (i v : Nat), fn.LocalVariables[i]? = some v →
      (alignLoop fn.LocalVariables 0 ws v).Offset = 8 * (i + 1) := by
    intro ws i v hi
    rw [alignLoop_offset fn.LocalVariables 0 ws i v hnd hi]
    omega
  refine ⟨alignLoop fn.LocalVariables 0 vs, by simp [alignLocalVars, hfn], hoff vs, ?_,
    fun v hv => alignLoop_not_mem _ _ _ v hv, fun v => alignLoop_fields _ _ _ v, ?_, ?_⟩
  · intro i j v w hi hj hij
    rw [hoff vs i v hi, hoff vs j w hj]
    omega
  · simp [alignLocalVars, hfn, alignLoop_idempotent fn.LocalVariables hnd]
  · intro programs t0 parameters body r hr i v hi
    rw [traverse] at hr
    obtain ⟨⟨_, parameters1, vs1⟩, -, hr⟩ := Except.bind_ok_inv hr
    obtain ⟨⟨_, body1, vs2⟩, -, hr⟩ := Except.bind_ok_inv hr
    obtain ⟨vs3, h3, hr⟩ := Except.bind_ok_inv hr
    simp only [pure, Except.pure, Except.ok.injEq] at hr
    subst hr
    simp only [alignLocalVars, hfn, Except.ok.injEq] at h3
    subst h3
    exact hoff vs2 i v hi

/-- C15 (witness): the locals 3, 1 and 4 of `f`, in this order, get the offsets
8, 16 and 24. -/
theorem alignLocalVars_offsets_witness :
    ∃ vs1, alignLocalVars threeLocalsProgram "f" exampleVars = .ok vs1 ∧
      (vs1 3).Offset = 8 ∧ (vs1 1).Offset = 16 ∧ (vs1 4).Offset = 24 :=
  (alignLocalVars_offsets threeLocalsProgram "f" threeLocalsFunction exampleVars rfl
    (by decide)).imp fun _ h => ⟨h.1, h.2.1 0 3 rfl, h.2.1 1 1 rfl, h.2.1 2 4 rfl⟩

/-! ## C16 -/

/-- C16: multiplication binds tighter than addition. Let `unary` return the
operands `a`, `b` and `c` one after the other, with one token between `a` and `b`,
one between `b` and `c`, and a token that is no binary operator after `c`. If the
two tokens are `+` and `*`, `expr` returns `Add(a, Mul(b, c))`; if they are `*`
and `+`, it returns `Add(Mul(a, b), c)`; two rounds of every loop suffice. -/
theorem expr_precedence (unary : Parser Node) (fuel : Nat) (s0 : ParserState) (a : Node)
    (s1 : ParserState) (tok1 : Token) (b : Node) (s2 : ParserState) (tok2 : Token) (c : Node)
    (s3 : ParserState) (tok3 : Token)
    (ha : unary s0 = .ok (a, s1)) (h1 : s1.tokenizer.Fetch = .ok tok1)
    (hb : unary s1.succ = .ok (b, s2)) (h2 : s2.tokenizer.Fetch = .ok tok2)
    (hc : unary s2.succ = .ok (c, s3)) (h3 : s3.tokenizer.Fetch = .ok tok3)
    (hk3 : operatorOf binaryOperators tok3.kind = none) :
    (tok1.kind = .TokenPlus → tok2.kind = .TokenStar →
      expr unary (fuel + 2) s0 =
        .ok (.NodeBinary .undefined .NodeAdd a (.NodeBinary .undefined .NodeMul b c), s3)) ∧
    (tok1.kind = .TokenStar → tok2.kind = .TokenPlus →
      expr unary (fuel + 2) s0 =
        .ok (.NodeBinary .undefined .NodeAdd (.NodeBinary .undefined .NodeMul a b) c, s3)) := by
  obtain ⟨-, -, -, -, h5, h6⟩ := operatorOf_levels_none hk3
  constructor
  · intro hp hs
    apply expr_of_add unary (fuel + 1) s0 _ s3 tok3 _ h3 hk3
    have hma : mul unary (fuel + 2) s0 = .ok (a, s1) :=
      binaryLevel_single mulOperators unary (fuel + 1) s0 a s1 tok1 ha h1 (by rw [hp]; rfl)
    have hmb : mul unary (fuel + 2) s1.succ = .ok (.NodeBinary .undefined .NodeMul b c, s3) :=
      binaryLevel_pair mulOperators unary fuel s1.succ b s2 tok2 .NodeMul c s3 tok3 hb h2
        (by rw [hs]; rfl) hc h3 h6
    exact binaryLevel_pair addOperators (mul unary (fuel + 2)) fuel s0 a s1 tok1 .NodeAdd _ s3
      tok3 hma h1 (by rw [hp]; rfl) hmb h3 h5
  · intro hs hp
    apply expr_of_add unary (fuel + 1) s0 _ s3 tok3 _ h3 hk3
    have hma : mul unary (fuel + 2) s0 = .ok (.NodeBinary .undefined .NodeMul a b, s2) :=
      binaryLevel_pair mulOperators unary fuel s0 a s1 tok1 .NodeMul b s2 tok2 ha h1
        (by rw [hs]; rfl) hb h2 (by rw [hp]; rfl)
    have hmc : mul unary (fuel + 2) s2.succ = .ok (c, s3) :=
      binaryLevel_single mulOperators unary (fuel + 1) s2.succ c s3 tok3 hc h3 h6
    exact binaryLevel_pair addOperators (mul unary (fuel + 2)) fuel s0 _ s2 tok2 .NodeAdd c s3
      tok3 hma h2 (by rw [hp]; rfl) hmc h3 h5

/-- C16 (witness): `1+2*3` parses to `Add(Num(1), Mul(Num(2), Num(3)))`, and
`1*2+3` to `Add(Mul(Num(1), Num(2)), Num(3))`. -/
theorem expr_precedence_witness :
    exprOf (unreachedParser Node) 3 (stateAt onePlusTwoTimesThree 0) =
      .ok (.NodeBinary .undefined .NodeAdd (.NodeNum .undefined 1)
        (.NodeBinary .undefined .NodeMul (.NodeNum .undefined 2) (.NodeNum .undefined 3)),
        stateAt onePlusTwoTimesThree 5) ∧
    exprOf (unreachedParser Node) 3 (stateAt oneTimesTwoPlusThree 0) =
      .ok (.NodeBinary .undefined .NodeAdd
        (.NodeBinary .undefined .NodeMul (.NodeNum .undefined 1) (.NodeNum .undefined 2))
        (.NodeNum .undefined 3), stateAt oneTimesTwoPlusThree 5) :=
  ⟨(expr_precedence unaryOfLiterals 1 (stateAt onePlusTwoTimesThree 0) (.NodeNum .undefined 1)
      (stateAt onePlusTwoTimesThree 1) (mkToken .TokenPlus 0 "+") (.NodeNum .undefined 2)
      (stateAt onePlusTwoTimesThree 3) (mkToken .TokenStar 0 "*") (.NodeNum .undefined 3)
      (stateAt onePlusTwoTimesThree 5) (mkToken .TokenEof 0 "")
      rfl rfl rfl rfl rfl rfl rfl).1 rfl rfl,
    (expr_precedence unaryOfLiterals 1 (stateAt oneTimesTwoPlusThree 0) (.NodeNum .undefined 1)
      (stateAt oneTimesTwoPlusThree 1) (mkToken .TokenStar 0 "*") (.NodeNum .undefined 2)
      (stateAt oneTimesTwoPlusThree 3) (mkToken .TokenPlus 0 "+") (.NodeNum .undefined 3)
      (stateAt oneTimesTwoPlusThree 5) (mkToken .TokenEof 0 "")
      rfl rfl rfl rfl rfl rfl rfl).2 rfl rfl⟩

/-! ## C17 -/

/-- C17: every binary level is left-associative. For each of `logicalOr`,
`logicalAnd`, `equality`, `relational`, `add` and `mul`, with `next` the function
that parses its operands: if `next` returns `a`, `b` and `c` one after the other,
with an operator `op1` of the level between `a` and `b`, an operator `op2` of the
level between `b` and `c`, and no operator of the level after `c`, the level
returns `op2(op1(a, b), c)`; three rounds of its loop suffice. -/
theorem binaryLevels_left_associative (unary : Parser Node) (fuel : Nat)
    (ops : List (TokenKind × BinaryKind)) (next level : Parser Node)
    (hl : (ops, next, level) ∈ binaryLevels unary (fuel + 3))
    (s0 : ParserState) (a : Node) (s1 : ParserState) (tok1 : Token)
    (op1 : BinaryKind) (b : Node) (s2 : ParserState) (tok2 : Token) (op2 : BinaryKind) (c : Node)
    (s3 : ParserState) (tok3 : Token)
    (ha : next s0 = .ok (a, s1)) (h1 : s1.tokenizer.Fetch = .ok tok1)
    (hk1 : operatorOf ops tok1.kind = some op1) (hb : next s1.succ = .ok (b, s2))
    (h2 : s2.tokenizer.Fetch = .ok tok2) (hk2 : operatorOf ops tok2.kind = some op2)
    (hc : next s2.succ = .ok (c, s3)) (h3 : s3.tokenizer.Fetch = .ok tok3)
    (hk3 : operatorOf ops tok3.kind = none) :
    level s0 = .ok (.NodeBinary .undefined op2 (.NodeBinary .undefined op1 a b) c, s3) := by
  have hlevel : level = binaryLevel ops next (fuel + 3) := by
    simp only [binaryLevels, List.mem_cons, Prod.mk.injEq, List.mem_singleton,
      List.not_mem_nil, or_false] at hl
    rcases hl with ⟨rfl, rfl, rfl⟩ | ⟨rfl, rfl, rfl⟩ | ⟨rfl, rfl, rfl⟩ | ⟨rfl, rfl, rfl⟩ |
      ⟨rfl, rfl, rfl⟩ | ⟨rfl, rfl, rfl⟩ <;> rfl
  rw [hlevel]
  exact binaryLevel_triple ops next fuel s0 a s1 tok1 op1 b s2 tok2 op2 c s3 tok3 ha h1 hk1 hb
    h2 hk2 hc h3 hk3

/-- C17 (witness): `1-2-3` parses to `Sub(Sub(Num(1), Num(2)), Num(3))`. -/
theorem binaryLevels_left_associative_witness :
    add unaryOfLiterals 3 (stateAt oneMinusTwoMinusThree 0) =
      .ok (.NodeBinary .undefined .NodeSub
        (.NodeBinary .undefined .NodeSub (.NodeNum .undefined 1) (.NodeNum .undefined 2))
        (.NodeNum .undefined 3), stateAt oneMinusTwoMinusThree 5) :=
  binaryLevels_left_associative unaryOfLiterals 0 addOperators (mul unaryOfLiterals 3)
    (add unaryOfLiterals 3) (by simp [binaryLevels])
    (stateAt oneMinusTwoMinusThree 0) (.NodeNum .undefined 1)
    (stateAt oneMinusTwoMinusThree 1) (mkToken .TokenMinus 0 "-") .NodeSub (.NodeNum .undefined 2)
    (stateAt oneMinusTwoMinusThree 3) (mkToken .TokenMinus 0 "-") .NodeSub (.NodeNum .undefined 3)
    (stateAt oneMinusTwoMinusThree 5) (mkToken .TokenEof 0 "")
    rfl rfl rfl rfl rfl rfl rfl rfl rfl

/-! ## C18 -/

/-- C18: whenever the current token is none of `func`, `var` and `type`,
`topLevelStmt` stops with `BadToken`, whatever the three parsing functions it may
call are, and so returns no node. -/
theorem topLevelStmt_rejects (funcDefinition topLevelVarStmt typeStmt : Parser Node)
    (s : ParserState) (tok : Token) (h : s.tokenizer.Fetch = .ok tok)
    (hf : tok.kind ≠ .TokenFunc) (hv : tok.kind ≠ .TokenVar) (ht : tok.kind ≠ .TokenType) :
    topLevelStmt funcDefinition topLevelVarStmt typeStmt s = .error .BadToken ∧
    ∀ r, topLevelStmt funcDefinition topLevelVarStmt typeStmt s ≠ .ok r := by
  have hb : topLevelStmt funcDefinition topLevelVarStmt typeStmt s = .error .BadToken := by
    simp only [topLevelStmt, Tokenizer.Test, h, Token.Test, bind, Except.bind, hf, hv, ht,
      decide_False, Bool.false_eq_true, if_false, throw, throwThe, MonadExceptOf.throw, pure,
      Except.pure]
    by_cases h1 : tok.kind = .TokenIf
    · simp [h1]
    · by_cases h2 : tok.kind = .TokenFor
      · simp [h2]
      · by_cases h3 : tok.kind = .TokenReturn
        · simp [h3]
        · simp [h1, h2, h3]
  refine ⟨hb, ?_⟩
  intro r hr
  rw [hb] at hr
  cases hr

/-- C18 (witness): `topLevelStmt` refuses the tokens `if`, `for`, `return` and a
number, without calling any of its three parsing functions. -/
theorem topLevelStmt_rejects_witness :
    topLevelStmt (unreachedParser Node) (unreachedParser Node) (unreachedParser Node)
        (stateAt [mkToken .TokenIf 0 "if", mkToken .TokenEof 0 ""] 0) = .error .BadToken ∧
    topLevelStmt (unreachedParser Node) (unreachedParser Node) (unreachedParser Node)
        (stateAt [mkToken .TokenFor 0 "for", mkToken .TokenEof 0 ""] 0) = .error .BadToken ∧
    topLevelStmt (unreachedParser Node) (unreachedParser Node) (unreachedParser Node)
        (stateAt [mkToken .TokenReturn 0 "return", mkToken .TokenEof 0 ""] 0) =
      .error .BadToken ∧
    topLevelStmt (unreachedParser Node) (unreachedParser Node) (unreachedParser Node)
        (stateAt [mkToken .TokenNumber 1 "1", mkToken .TokenEof 0 ""] 0) = .error .BadToken :=
  ⟨(topLevelStmt_rejects (unreachedParser Node) (unreachedParser Node) (unreachedParser Node)
      (stateAt [mkToken .TokenIf 0 "if", mkToken .TokenEof 0 ""] 0) (mkToken .TokenIf 0 "if")
      rfl (by decide) (by decide) (by decide)).1,
    (topLevelStmt_rejects (unreachedParser Node) (unreachedParser Node) (unreachedParser Node)
      (stateAt [mkToken .TokenFor 0 "for", mkToken .TokenEof 0 ""] 0) (mkToken .TokenFor 0 "for")
      rfl (by decide) (by decide) (by decide)).1,
    (topLevelStmt_rejects (unreachedParser Node) (unreachedParser Node) (unreachedParser Node)
      (stateAt [mkToken .TokenReturn 0 "return", mkToken .TokenEof 0 ""] 0)
      (mkToken .TokenReturn 0 "return") rfl (by decide) (by decide) (by decide)).1,
    (topLevelStmt_rejects (unreachedParser Node) (unreachedParser Node) (unreachedParser Node)
      (stateAt [mkToken .TokenNumber 1 "1", mkToken .TokenEof 0 ""] 0)
      (mkToken .TokenNumber 1 "1") rfl (by decide) (by decide) (by decide)).1⟩

/-! ## C19 -/

/-- C19: let `type_` change nothing but the tokenizer and let the parser of the
body keep the signatures of the function records. When `funcDefinition` returns,
it has read the name `ident` and the parameters, and at `var node *Node` the
registry holds under `ident` a record with the types of the parameter variables,
in order, with `IsDefined = false`, and with a return type that is a `Multiple`
when `(` follows the parameter list, `Void` when no type follows, and what `type_`
reads otherwise. If `{` follows, the body is parsed in a state with this very
record, the node is the definition with these parameters, and afterwards the
record has `IsDefined = true`; if not, the node is the bare declaration and the
record keeps `IsDefined = false`. -/
theorem funcDefinition_registers_before_body (type_ : Parser Ty) (body : Parser Node)
    (htype : OnlyTokenizer type_) (hbody : Keeps body) (fuel : Nat) (s : ParserState)
    (node : Node) (s9 : ParserState)
    (h : funcDefinition type_ body fuel s = .ok (node, s9)) :
    ∃ ident parameters sp sr rt,
      funcParameters type_ fuel s = .ok ((ident, parameters), sp) ∧
      funcReturnType type_ ident fuel sp = .ok ((), sr) ∧
      (sr.FindFunction ident).map Function.signature =
        some (ident, parameters.map (variableType sr.vars), rt, false) ∧
      (∀ tok, sp.tokenizer.Fetch = .ok tok →
        (tok.kind = .TokenLparen → ∃ types, rt = .multiple types) ∧
        (tok.kind ≠ .TokenLparen → isType sp = .ok false → rt = .void) ∧
        (tok.kind ≠ .TokenLparen → isType sp = .ok true →
          ∃ s2, type_ (setReturnValueType ident .void sp) = .ok (rt, s2))) ∧
      (∀ tok, sr.tokenizer.Fetch = .ok tok →
        (tok.kind = .TokenLbrace →
          ∃ bodyNode sb, body sr.succ = .ok (bodyNode, sb) ∧
            (sr.succ.FindFunction ident).map Function.signature =
              some (ident, parameters.map (variableType sr.vars), rt, false) ∧
            node = .NodeFunctionDef .undefined ident parameters bodyNode ∧
            (s9.FindFunction ident).map Function.signature =
              some (ident, parameters.map (variableType sr.vars), rt, true)) ∧
        (tok.kind ≠ .TokenLbrace →
          node = .NodeMarker .undefined .NodeStatementFunctionDeclaration ∧
          (s9.FindFunction ident).map Function.signature =
            some (ident, parameters.map (variableType sr.vars), rt, false))) := by
  unfold funcDefinition at h
  obtain ⟨⟨⟨ident, parameters⟩, sp⟩, h1, h⟩ := Except.bind_ok_inv h
  obtain ⟨⟨u, sr⟩, h2, h⟩ := Except.bind_ok_inv h
  obtain ⟨⟨braced, t3⟩, hc, h⟩ := Except.bind_ok_inv h
  have hp := funcParameters_ok htype fuel s ident parameters sp h1
  obtain ⟨hvars, rt, hreg, hrt⟩ := funcReturnType_ok htype ident fuel sp u sr _ _ h2 hp.2
  rw [← hvars] at hreg
  refine ⟨ident, parameters, sp, sr, rt, h1, h2, hreg, hrt, ?_⟩
  intro tok htok
  rw [Tokenizer.Consume_ok htok .TokenLbrace] at hc
  simp only [Except.ok.injEq, Prod.mk.injEq] at hc
  obtain ⟨hbr, ht3⟩ := hc
  cases braced with
  | true =>
    simp only [decide_eq_true_eq] at hbr
    simp only [hbr, if_true] at ht3
    subst ht3
    simp only [if_true] at h
    obtain ⟨⟨bodyNode, s4⟩, h4, h⟩ := Except.bind_ok_inv h
    obtain ⟨t5, -, h⟩ := Except.bind_ok_inv h
    obtain ⟨⟨v, s7⟩, h7, h⟩ := Except.bind_ok_inv h
    simp only [pure, Except.pure, Except.ok.injEq, Prod.mk.injEq] at h
    obtain ⟨rfl, rfl⟩ := h
    refine ⟨fun _ => ⟨bodyNode, s4, h4, hreg, rfl, ?_⟩, fun hne => absurd hbr hne⟩
    have hsig4 : (s4.functions.find? (fun f => f.Label == ident)).map Function.signature =
        some (ident, parameters.map (variableType sr.vars), rt, false) := by
      rw [find_signature_congr ident _ _ (hbody _ _ _ h4).signatures]
      exact hreg
    have h7f := (stepOut_ok h7).2.1
    unfold ParserState.FindFunction
    rw [h7f]
    simp only [ParserState.withFunctions_functions]
    cases hfind : s4.functions.find? (fun f => f.Label == ident) with
    | none => simp [hfind] at hsig4
    | some fn =>
      simp only [hfind, Option.map_some', Option.some.injEq, Function.signature,
        Prod.mk.injEq] at hsig4
      rw [find_updateFunction ident
        (fun f => { Label := f.Label, ParameterTypes := f.ParameterTypes,
                    ReturnValueType := f.ReturnValueType,
                    LocalVariables := f.LocalVariables, IsDefined := true })
        (fun f => rfl) s4.functions fn hfind]
      simp [Function.signature, hsig4.1, hsig4.2.1, hsig4.2.2.1]
  | false =>
    simp only [decide_eq_false_iff_not] at hbr
    simp only [hbr, if_false] at ht3
    subst ht3
    simp only [Bool.false_eq_true, if_false] at h
    obtain ⟨⟨v, s4⟩, h4, h⟩ := Except.bind_ok_inv h
    simp only [pure, Except.pure, Except.ok.injEq, Prod.mk.injEq] at h
    obtain ⟨rfl, rfl⟩ := h
    refine ⟨fun he => absurd he hbr, fun _ => ⟨rfl, ?_⟩⟩
    have h4f := (stepOut_ok h4).2.1
    unfold ParserState.FindFunction
    rw [h4f]
    exact hreg

/-- C19 (witness): `func g(a int) bool { }` is parsed, and after it the registry
holds `g` with the parameter types `[int]`, the return type `bool` and
`IsDefined = true`; after the declaration `func g()` it holds `g` without
parameters, with the return type `Void` and `IsDefined = false`. -/
theorem funcDefinition_registers_before_body_witness :
    (∃ node s9,
      funcDefinition basicType (localStmtList (exprOf (unreachedParser Node) 3) basicType 3) 3
        (stateAt funcTokens 0) = .ok (node, s9) ∧
      ∃ (ident : String) (parameters : List Node) (sr : ParserState) (rt : Ty),
        (sr.FindFunction ident).map Function.signature =
          some (ident, parameters.map (variableType sr.vars), rt, false)) ∧
    (funcDefinition basicType (localStmtList (exprOf (unreachedParser Node) 3) basicType 3) 3
        (stateAt funcTokens 0)).toOption.map
        (fun r => (r.2.FindFunction "g").map Function.signature) =
      some (some ("g", [.int], .bool, true)) ∧
    (funcDefinition basicType (localStmtList (exprOf (unreachedParser Node) 3) basicType 3) 3
        (stateAt funcDeclarationTokens 0)).toOption.map
        (fun r => (r.2.FindFunction "g").map Function.signature) =
      some (some ("g", [], .void, false)) :=
  ⟨(Except.exists_ok
    (funcDefinition basicType (localStmtList (exprOf (unreachedParser Node) 3) basicType 3) 3
      (stateAt funcTokens 0)) (by decide)).imp fun node hn => hn.imp fun s9 h =>
    ⟨h, (funcDefinition_registers_before_body basicType
      (localStmtList (exprOf (unreachedParser Node) 3) basicType 3) basicType_onlyTokenizer
      (statements_keep
        (exprOf_onlyTokenizer (unreachedParser_onlyTokenizer Node) 3).keeps
        basicType_onlyTokenizer.keeps 3 3 (Nat.le_refl 3)).1
      3 (stateAt funcTokens 0) node s9 h).elim
      fun ident h1 => h1.elim fun parameters h2 => h2.elim fun _ h3 => h3.elim fun sr h4 =>
        h4.elim fun rt h5 => ⟨ident, parameters, sr, rt, h5.2.2.1⟩⟩,
    rfl, rfl⟩

/-! ## C20 -/

/-- C20: let `expr` and `type_` change nothing but the tokenizer. Whenever
`ifStmt`, `elseStmt`, `metaIfStmt`, `forStmt` or `funcDefinition` returns, `Env` is
the chain of scopes it was before the call. -/
theorem scope_entry_exit_balanced (expr : Parser Node) (type_ : Parser Ty)
    (hexpr : OnlyTokenizer expr) (htype : OnlyTokenizer type_) (fuel : Nat) (s : ParserState)
    (n : Node) (s1 : ParserState) :
    (ifStmt expr type_ fuel s = .ok (n, s1) → s1.Env = s.Env) ∧
    (elseStmt expr type_ fuel s = .ok (n, s1) → s1.Env = s.Env) ∧
    (metaIfStmt expr type_ fuel s = .ok (n, s1) → s1.Env = s.Env) ∧
    (forStmt expr type_ fuel s = .ok (n, s1) → s1.Env = s.Env) ∧
    (∀ rounds, funcDefinition type_ (localStmtList expr type_ fuel) rounds s = .ok (n, s1) →
      s1.Env = s.Env) := by
  have hk := statements_keep hexpr.keeps htype.keeps fuel fuel (Nat.le_refl fuel)
  exact ⟨fun h => (hk.2.2.2.1 s n s1 h).1, fun h => (hk.2.2.2.2.1 s n s1 h).1,
    fun h => (hk.2.2.1 s n s1 h).1, fun h => (hk.2.2.2.2.2 s n s1 h).1,
    fun rounds h => funcDefinition_scope htype.keeps hk.1 rounds s n s1 h⟩

/-- C20 (witness): a `for` statement that declares `x` in its body and
`if 1 { } else { }` are parsed, and `Env` is afterwards what it was. -/
theorem scope_entry_exit_balanced_witness :
    (∃ n s1, forStmt (exprOf (unreachedParser Node) 3) basicType 5 (stateAt forTokens 0) =
        .ok (n, s1) ∧ s1.Env = (stateAt forTokens 0).Env) ∧
    (∃ n s1, metaIfStmt (exprOf (unreachedParser Node) 3) basicType 4 (stateAt ifElseTokens 0) =
        .ok (n, s1) ∧ s1.Env = (stateAt ifElseTokens 0).Env) :=
  ⟨(Except.exists_ok
      (forStmt (exprOf (unreachedParser Node) 3) basicType 5 (stateAt forTokens 0))
      (by decide)).imp fun n hn => hn.imp fun s1 h =>
      ⟨h, (scope_entry_exit_balanced (exprOf (unreachedParser Node) 3) basicType
        (exprOf_onlyTokenizer (unreachedParser_onlyTokenizer Node) 3) basicType_onlyTokenizer
        5 (stateAt forTokens 0) n s1).2.2.2.1 h⟩,
    (Except.exists_ok
      (metaIfStmt (exprOf (unreachedParser Node) 3) basicType 4 (stateAt ifElseTokens 0))
      (by decide)).imp fun n hn => hn.imp fun s1 h =>
      ⟨h, (scope_entry_exit_balanced (exprOf (unreachedParser Node) 3) basicType
        (exprOf_onlyTokenizer (unreachedParser_onlyTokenizer Node) 3) basicType_onlyTokenizer
        4 (stateAt ifElseTokens 0) n s1).2.2.1 h⟩⟩

/-! ## C21 -/

/-- C21: let the current token be the identifier `x`, in a scope `e` of a
function that is registered. If `x` is among the locals of `e`,
`localVariableDeclaration` stops with `BadToken`. If it is not, whatever the
enclosing scopes declare, the call returns the node of a new variable of type
`Undefined`, which is entered into `e` and appended to the locals of the
function, and nothing else is declared; and from then on a declaration of `x` in
this scope stops with `BadToken`. `topLevelVariableDeclaration` stops with
`BadToken` if `x` is among the top-level variables of the program; otherwise it
appends one new variable of type `Undefined` to them, and from then on a
top-level declaration of `x` stops with `BadToken`. -/
theorem variableDeclaration_redeclaration (s : ParserState) (tok : Token) (e : Environment)
    (rest : List Environment) (f : Function)
    (hcur : s.tokenizer.Fetch = .ok tok) (hkind : tok.kind = .TokenIdentifier)
    (henv : s.Env = e :: rest) (hfn : s.FindFunction e.FunctionName = some f) :
    ((∃ v, (tok.str, v) ∈ e.locals) → localVariableDeclaration s = .error .BadToken) ∧
    ((∀ v, (tok.str, v) ∉ e.locals) → ∃ s1,
      localVariableDeclaration s = .ok (.NodeLocalVariable .undefined s.allocated, s1) ∧
      s1.Env = { locals := (tok.str, s.allocated) :: e.locals, FunctionName := e.FunctionName }
        :: rest ∧
      s1.functions = updateFunction e.FunctionName
        (fun g => { Label := g.Label, ParameterTypes := g.ParameterTypes,
                    ReturnValueType := g.ReturnValueType,
                    LocalVariables := g.LocalVariables ++ [s.allocated],
                    IsDefined := g.IsDefined }) s.functions ∧
      s1.vars = s.vars.set s.allocated
        { Name := tok.str, Typ := .undefined, Kind := .VariableLocal, Offset := 0 } ∧
      s1.allocated = s.allocated + 1 ∧ s1.topLevelVariables = s.topLevelVariables ∧
      s1.tokenizer = s.tokenizer.Succ ∧
      ∀ (s2 : ParserState) (tok2 : Token), s2.Env = s1.Env → s2.tokenizer.Fetch = .ok tok2 →
        tok2.kind = .TokenIdentifier → tok2.str = tok.str →
        localVariableDeclaration s2 = .error .BadToken) ∧
    ((∃ v, (tok.str, v) ∈ s.topLevelVariables) →
      topLevelVariableDeclaration s = .error .BadToken) ∧
    ((∀ v, (tok.str, v) ∉ s.topLevelVariables) → ∃ s1,
      topLevelVariableDeclaration s =
        .ok (.NodeTopLevelVariable .undefined tok.str (some s.allocated), s1) ∧
      s1.topLevelVariables = s.topLevelVariables ++ [(tok.str, s.allocated)] ∧
      s1.vars = s.vars.set s.allocated
        { Name := tok.str, Typ := .undefined, Kind := .VariableTopLevel, Offset := 0 } ∧
      s1.allocated = s.allocated + 1 ∧ s1.Env = s.Env ∧ s1.functions = s.functions ∧
      s1.tokenizer = s.tokenizer.Succ ∧
      ∀ (s2 : ParserState) (tok2 : Token), s2.topLevelVariables = s1.topLevelVariables →
        s2.Env = s1.Env → s2.tokenizer.Fetch = .ok tok2 →
        tok2.kind = .TokenIdentifier → tok2.str = tok.str →
        topLevelVariableDeclaration s2 = .error .BadToken) := by
  have hid : identifier s = .ok (tok.str, s.withTokenizer s.tokenizer.Succ) := by
    unfold identifier
    simp [hcur, Token.Test, hkind, Tokenizer.Expect, Tokenizer.Consume, Tokenizer.Test]
  refine ⟨localVariableDeclaration_declared s tok e rest hcur hkind henv, ?_,
    topLevelVariableDeclaration_declared s tok hcur hkind (by rw [henv]; simp), ?_⟩
  · intro h
    have hnone : e.FindLocalVar tok.str = none := (find_name_eq_none e.locals tok.str).mpr h
    unfold localVariableDeclaration
    simp only [hcur, hid, ParserState.withTokenizer_Env, henv, hnone]
    unfold AddLocalVar
    have hfn1 : (s.withTokenizer s.tokenizer.Succ).FindFunction e.FunctionName = some f := hfn
    simp only [ParserState.withTokenizer_Env, henv, hfn1]
    refine ⟨_, rfl, rfl, rfl, rfl, rfl, rfl, rfl, ?_⟩
    intro s2 tok2 henv2 hcur2 hkind2 hstr
    exact localVariableDeclaration_declared s2 tok2 _ rest hcur2 hkind2 henv2
      ⟨s.allocated, by rw [hstr]; exact List.mem_cons_self _ _⟩
  · intro h
    have hnone : s.FindTopLevelVariable tok.str = none :=
      (find_name_eq_none s.topLevelVariables tok.str).mpr h
    unfold topLevelVariableDeclaration
    have hx1 : (s.withTokenizer s.tokenizer.Succ).FindTopLevelVariable tok.str =
        s.FindTopLevelVariable tok.str := rfl
    simp only [hcur, hid, ParserState.withTokenizer_Env, henv, hx1, hnone]
    refine ⟨_, rfl, rfl, rfl, rfl, henv, rfl, rfl, ?_⟩
    intro s2 tok2 htop2 henv2 hcur2 hkind2 hstr
    refine topLevelVariableDeclaration_declared s2 tok2 hcur2 hkind2 ?_
      ⟨s.allocated, ?_⟩
    · rw [henv2]
      show s.Env ≠ []
      rw [henv]
      simp
    · rw [htop2, hstr]
      show (tok.str, s.allocated) ∈ s.topLevelVariables ++ [(tok.str, s.allocated)]
      simp

/-- C21 (witness): the tokens are `x x`; `x` is declared in the enclosing scope and
as a top-level variable, not in the current scope. The first local declaration
succeeds and enters the variable 3 into the current scope, where the second one
stops with `BadToken`; the top-level declaration stops at once. -/
theorem variableDeclaration_redeclaration_witness :
    shadowingState.tokenizer.Fetch = .ok (mkToken .TokenIdentifier 0 "x") ∧
    (∃ s1, localVariableDeclaration shadowingState = .ok (.NodeLocalVariable .undefined 3, s1) ∧
      s1.Env = [{ locals := [("x", 3), ("y", 1)], FunctionName := "f" },
                { locals := [("x", 0)], FunctionName := "f" }] ∧
      s1.allocated = 4 ∧
      s1.tokenizer.Fetch = .ok (mkToken .TokenIdentifier 0 "x") ∧
      localVariableDeclaration s1 = .error .BadToken) ∧
    topLevelVariableDeclaration shadowingState = .error .BadToken :=
  have h := variableDeclaration_redeclaration shadowingState (mkToken .TokenIdentifier 0 "x")
    { locals := [("y", 1)], FunctionName := "f" } [{ locals := [("x", 0)], FunctionName := "f" }]
    { Label := "f", ParameterTypes := [], ReturnValueType := .undefined,
      LocalVariables := [0, 1], IsDefined := false } rfl rfl rfl rfl
  ⟨rfl,
    (h.2.1 (fun v hv => by simp [mkToken] at hv)).imp fun s1 h1 =>
      ⟨h1.1, h1.2.1, h1.2.2.2.2.1, by rw [Tokenizer.Fetch, h1.2.2.2.2.2.2.1]; rfl,
        h1.2.2.2.2.2.2.2 s1 (mkToken .TokenIdentifier 0 "x") rfl
          (by rw [Tokenizer.Fetch, h1.2.2.2.2.2.2.1]; rfl) rfl rfl⟩,
    h.2.2.1 ⟨2, by decide⟩⟩

/-! ## C22 -/

/-- C22: let the current token be an identifier that is none of `int`, `rune`,
`bool`, `string` and `struct` and names no registered type. Then `type_` reports
no error: it reads the identifier and returns the `Type` that `FindType` gave
for the unknown name. -/
theorem type_unknown_returns (unknown : Ty) (fuel : Nat) (s : ParserState) (tok : Token)
    (hcur : s.tokenizer.Fetch = .ok tok) (hkind : tok.kind = .TokenIdentifier)
    (hname : tok.str ≠ "int" ∧ tok.str ≠ "rune" ∧ tok.str ≠ "bool" ∧ tok.str ≠ "string" ∧
      tok.str ≠ "struct")
    (hunknown : s.FindType tok.str = none) :
    type_ unknown (fuel + 1) s = .ok (unknown, s.withTokenizer s.tokenizer.Succ) := by
  have hid : identifier s = .ok (tok.str, s.withTokenizer s.tokenizer.Succ) := by
    unfold identifier
    simp [hcur, Token.Test, hkind, Tokenizer.Expect, Tokenizer.Consume, Tokenizer.Test]
  have hfind : (s.withTokenizer s.tokenizer.Succ).FindType tok.str = none := hunknown
  obtain ⟨h1, h2, h3, h4, h5⟩ := hname
  rw [type_]
  simp [Tokenizer.Consume, Tokenizer.Test, hcur, Token.Test, hkind, hid, h1, h2, h3, h4, h5,
    hfind]

/-- C22 (witness): in the top-level statement `var x foo` no type `foo` is
registered; `type_` returns at `foo`, and `topLevelVarStmt` returns the statement. -/
theorem type_unknown_returns_witness :
    (stateAt varUnknownTypeTokens 2).FindType "foo" = none ∧
    type_ .undefined 1 (stateAt varUnknownTypeTokens 2) =
      .ok (.undefined, stateAt varUnknownTypeTokens 3) ∧
    (topLevelVarStmt (type_ .undefined 1) (stateAt varUnknownTypeTokens 0)).toBool = true :=
  ⟨rfl, type_unknown_returns .undefined 0 (stateAt varUnknownTypeTokens 2)
    (mkToken .TokenIdentifier 0 "foo") rfl rfl (by decide) rfl, by decide⟩

/-! ## C23 -/

/-- C23: let the callees be such that a letter is a character of an identifier
and no digit, `_` is no digit, and `strtoi` returns less than it was given at a
digit. Then for every input a round of the loop of `Tokenize` that does not stop
the program leaves fewer bytes than it was given; `Tokenize` has one outcome for
every number of rounds beyond the number of bytes of the input, so the loop
ends; and whenever `Tokenize` returns tokens, they are not empty, the last one
is `EOF` and none before it is. -/
theorem Tokenize_terminates (h : Callees) (hp : h.Progress) (input : GoString) :
    (∀ token rest, tokenizeStep h input = .ok (token, rest) → byteLen rest < byteLen input) ∧
    (∃ r, ∀ fuel, byteLen input < fuel → Tokenize h fuel input = some r) ∧
    (∀ fuel tokens, Tokenize h fuel input = some (.ok tokens) →
      tokens ≠ [] ∧ (tokens.getLast?.map fun t => t.kind) = some .TokenEof ∧
      ∀ t ∈ tokens.dropLast, t.kind ≠ .TokenEof) := by
  refine ⟨?_, ?_, ?_⟩
  · intro token rest hstep
    exact (tokenizeStep_shortens h hp input token rest hstep).1
  · obtain ⟨r, hr⟩ := tokenizeLoop_terminates h hp (byteLen input + 1) [] input
      (Nat.lt_succ_self _)
    exact ⟨r, fun fuel hlt => tokenizeLoop_mono h _ _ _ r hr fuel (by omega)⟩
  · intro fuel tokens hrun
    obtain ⟨front, rfl, hfront⟩ := tokenizeLoop_eof h hp fuel [] input tokens
      (fun t ht => by cases ht) hrun
    refine ⟨by simp, by simp [NewToken], ?_⟩
    rw [List.dropLast_concat]
    exact hfront

/-- C23 (witness): with the letters and digits of ASCII, `if x >= 10` and a
newline are lexed in six rounds and one more for `EOF`. -/
theorem Tokenize_terminates_witness :
    (∃ r, ∀ fuel, byteLen (GoString.ofString "if x >= 10\n") < fuel →
      Tokenize asciiCallees fuel (GoString.ofString "if x >= 10\n") = some r) ∧
    (Tokenize asciiCallees 12 (GoString.ofString "if x >= 10\n")).map
        (Except.map (List.map fun t => t.kind)) =
      some (.ok [.TokenIf, .TokenIdentifier, .TokenGreaterEqual, .TokenNumber, .TokenNewLine,
        .TokenEof]) :=
  ⟨(Tokenize_terminates asciiCallees asciiCallees_progress
    (GoString.ofString "if x >= 10\n")).2.1, rfl⟩

/-! ## C24 -/

/-- C24: let the callees read decimal literals: a decimal digit is a digit and
no letter, and `strtoi` returns the value of a literal that fits the type `int`
and the string after it. Then for every input made of such literals separated
by single operators `+`, `-`, `*`, `/`, `Tokenize` returns one `Number` token per
literal with the value of the literal and one symbol token per operator, in
source order, followed by `EOF`. -/
theorem Tokenize_literals (h : Callees) (hr : h.ReadsDecimal) (first : List Char)
    (more : List (Operator × List Char))
    (hfirst : IsLiteral first = true ∧ decimalValue first < 2 ^ 63)
    (hmore : ∀ x ∈ more, IsLiteral x.2 = true ∧ decimalValue x.2 < 2 ^ 63) :
    ∃ tokens,
      (∀ fuel, 2 * more.length + 1 < fuel →
        Tokenize h fuel (literalsText first more) = some (.ok tokens)) ∧
      tokens.map (fun t => (t.kind, t.val)) = literalsTokens first more := by
  obtain ⟨tokens, hrun, hmap⟩ := tokenizeLoop_literals h hr more first [] (2 * more.length + 2)
    hfirst.1 hfirst.2 hmore (by omega)
  refine ⟨tokens, fun fuel hfuel => ?_, hmap⟩
  exact tokenizeLoop_mono h _ _ _ _ hrun fuel (by omega)

/-- C24 (witness): `1+2*3` is lexed to `Number(1)`, `+`, `Number(2)`, `*`,
`Number(3)`, `EOF`. -/
theorem Tokenize_literals_witness :
    literalsText ['1'] [(.plus, ['2']), (.star, ['3'])] = GoString.ofString "1+2*3" ∧
    ∃ tokens,
      (∀ fuel, 5 < fuel →
        Tokenize asciiCallees fuel (GoString.ofString "1+2*3") = some (.ok tokens)) ∧
      tokens.map (fun t => (t.kind, t.val)) =
        [(.TokenNumber, 1), (.TokenPlus, 0), (.TokenNumber, 2), (.TokenStar, 0),
          (.TokenNumber, 3), (.TokenEof, 0)] :=
  ⟨rfl, Tokenize_literals asciiCallees asciiCallees_readsDecimal ['1']
    [(.plus, ['2']), (.star, ['3'])] (by decide) (by decide)⟩

/-- C24 (counterexample): the input `9223372036854775808` is one decimal literal
of the value `2 ^ 63`. Whatever the callees are, as long as `strtoi` returns a
value of the type `int`, which is below `2 ^ 63`, `Tokenize` does not return a
`Number` token with the value of the literal. -/
theorem Tokenize_literal_beyond_int :
    IsLiteral "9223372036854775808".data = true ∧
    ¬ ∃ h : Callees, (∀ s, (h.strtoi s).1 < 2 ^ 63) ∧
      ∃ fuel tokens,
        Tokenize h fuel (literalsText "9223372036854775808".data []) = some (.ok tokens) ∧
        tokens.map (fun t => (t.kind, t.val)) =
          literalsTokens "9223372036854775808".data [] := by
  refine ⟨by decide, ?_⟩
  rintro ⟨h, hb, fuel, tokens, hrun, hmap⟩
  have hval := tokenizeLoop_val h (2 ^ 63) (by norm_num) hb fuel [] _ tokens
    (fun t ht => by cases ht) hrun
  have hv : decimalValue "9223372036854775808".data = 9223372036854775808 := by decide
  rw [literalsTokens, hv] at hmap
  cases tokens with
  | nil => cases hmap
  | cons t ts =>
    simp only [List.map_cons, List.cons.injEq, Prod.mk.injEq] at hmap
    have := hval t (List.mem_cons_self _ _)
    rw [hmap.1.2] at this
    norm_num at this

/-! ## C25 -/

/-- C25: at an input that starts with `==`, `!=`, `<=` or `>=`, a round of
`Tokenize` appends the token of these two characters and goes on after them;
and in `symbols` no symbol that is a proper start of another symbol stands
before it. -/
theorem Tokenize_longest_match (h : Callees) (rest : GoString) :
    tokenizeStep h (.rune '=' :: .rune '=' :: rest) =
      .ok (some (NewToken .TokenDoubleEqual "=="
        (GoString.text (.rune '=' :: .rune '=' :: rest))), rest) ∧
    tokenizeStep h (.rune '!' :: .rune '=' :: rest) =
      .ok (some (NewToken .TokenNotEqual "!="
        (GoString.text (.rune '!' :: .rune '=' :: rest))), rest) ∧
    tokenizeStep h (.rune '<' :: .rune '=' :: rest) =
      .ok (some (NewToken .TokenLessEqual "<="
        (GoString.text (.rune '<' :: .rune '=' :: rest))), rest) ∧
    tokenizeStep h (.rune '>' :: .rune '=' :: rest) =
      .ok (some (NewToken .TokenGreaterEqual ">="
        (GoString.text (.rune '>' :: .rune '=' :: rest))), rest) ∧
    symbols.Pairwise (fun a b => ¬ (a.2.data <+: b.2.data ∧ a.2 ≠ b.2)) := by
  refine ⟨?_, ?_, ?_, ?_, by decide⟩
  · exact tokenizeStep_two h '=' '=' (.TokenDoubleEqual, "==") rest (by decide) (by decide)
      (by decide) (by simp [findSymbol, symbols, HasPrefix, GoString.ofString, List.isPrefixOf])
  · exact tokenizeStep_two h '!' '=' (.TokenNotEqual, "!=") rest (by decide) (by decide)
      (by decide) (by simp [findSymbol, symbols, HasPrefix, GoString.ofString, List.isPrefixOf])
  · exact tokenizeStep_two h '<' '=' (.TokenLessEqual, "<=") rest (by decide) (by decide)
      (by decide) (by simp [findSymbol, symbols, HasPrefix, GoString.ofString, List.isPrefixOf])
  · exact tokenizeStep_two h '>' '=' (.TokenGreaterEqual, ">=") rest (by decide) (by decide)
      (by decide) (by simp [findSymbol, symbols, HasPrefix, GoString.ofString, List.isPrefixOf])

/-! ## C26 -/

/-- C26: let `c` be a white space character of more than one byte that is no
letter for `isAlpha`, and let U+FFFD be neither a letter nor a digit. At an input
that starts with `c`, whatever follows and whatever was lexed before, `Tokenize`
skips one byte of `c`, reads the rest of `c` as U+FFFD in the next round, and
stops with `errorAt`. -/
theorem Tokenize_wide_space (h : Callees) (c : Char) (rest : GoString) (tokens : List Token)
    (fuel : Nat) (hspace : IsSpace c = true) (hwide : 1 < runeLen c)
    (halpha : h.isAlpha c = false)
    (hstray : h.isAlpha (Char.ofNat 0xFFFD) = false ∧ h.IsDigit (Char.ofNat 0xFFFD) = false) :
    tokenizeStep h (.rune c :: rest) =
      .ok (none, .stray :: (List.replicate (runeLen c - 2) .stray ++ rest)) ∧
    tokenizeLoop h (fuel + 2) tokens (.rune c :: rest) = some (.error .ErrorAt) := by
  have hu : (c == '_') = false := by
    rw [beq_eq_false_iff_ne]
    rintro rfl
    revert hwide
    decide
  have hstep : tokenizeStep h (.rune c :: rest) =
      .ok (none, .stray :: (List.replicate (runeLen c - 2) .stray ++ rest)) := by
    unfold tokenizeStep
    simp only [findSymbol_wide _ hwide, runeAt_zero_cons, Piece.decode, halpha, hu, hspace,
      Bool.or_self, Bool.false_eq_true, if_false, if_true, dropBytes_one_wide _ hwide]
  refine ⟨hstep, ?_⟩
  rw [tokenizeLoop, if_neg (List.cons_ne_nil _ _), hstep]
  simp only [Option.toList, List.append_nil]
  rw [tokenizeLoop, if_neg (List.cons_ne_nil _ _), tokenizeStep_stray h _ hstray]

/-- C26 (witness): the input that holds nothing but a no-break space, U+00A0, for
which `unicode.IsSpace` holds and which is two bytes wide. -/
theorem Tokenize_wide_space_witness :
    IsSpace (Char.ofNat 0xA0) = true ∧ runeLen (Char.ofNat 0xA0) = 2 ∧
    Tokenize asciiCallees 2 [.rune (Char.ofNat 0xA0)] = some (.error .ErrorAt) :=
  ⟨by decide, by decide,
    (Tokenize_wide_space asciiCallees (Char.ofNat 0xA0) [] [] 0 (by decide) (by decide)
      (by decide) (by decide)).2⟩

/-! ## C27 -/

/-- C27: let `'` be neither a letter nor a digit for the callees. For a character
`c` of one byte the input `'c'` is lexed to one `Number` token with the code point
of `c` as its value, followed by `EOF`. For a character `c` of more than one byte
`Tokenize` stops at `'c'` with `madden`: the closing quote is looked for one byte
after the first byte of `c`. At the input `'`, which is shorter than three bytes,
the slice `input[:3]` is a run-time panic. -/
theorem Tokenize_rune_literal (h : Callees) (c : Char) (fuel : Nat)
    (hquote : h.isAlpha '\'' = false ∧ h.IsDigit '\'' = false) :
    (runeLen c = 1 →
      Tokenize h (fuel + 2) [.rune '\'', .rune c, .rune '\''] =
        some (.ok [{ kind := .TokenNumber, val := c.toNat, str := String.mk ['\'', c, '\''],
                     rest := String.mk ['\'', c, '\''] }, NewToken .TokenEof "" ""])) ∧
    (1 < runeLen c → ∀ rest,
      Tokenize h (fuel + 1) (.rune '\'' :: .rune c :: rest) = some (.error .Madden)) ∧
    Tokenize h (fuel + 1) [.rune '\''] = some (.error .SliceOutOfRange) := by
  refine ⟨?_, ?_, ?_⟩
  · intro hc
    have hstep := (tokenizeStep_quote h [.rune c, .rune '\''] hquote).2 _ _
      (runeLiteral_narrow [] hc)
    unfold Tokenize
    rw [tokenizeLoop, if_neg (List.cons_ne_nil _ _), hstep]
    simp only [Option.toList, List.nil_append]
    rw [tokenizeLoop, if_pos rfl]
    rfl
  · intro hc rest
    have hstep := (tokenizeStep_quote h (.rune c :: rest) hquote).1 _ (runeLiteral_wide rest hc)
    unfold Tokenize
    rw [tokenizeLoop, if_neg (List.cons_ne_nil _ _), hstep]
  · have hlit : runeLiteral [.rune '\''] = .error .SliceOutOfRange := by
      have hq : runeLen '\'' = 1 := by decide
      unfold runeLiteral
      rw [takeBytes, if_pos (by omega)]
      have h1 : 2 + 1 - runeLen '\'' = 1 + 1 := by omega
      rw [h1, takeBytes]
    have hstep := (tokenizeStep_quote h [] hquote).1 _ hlit
    unfold Tokenize
    rw [tokenizeLoop, if_neg (List.cons_ne_nil _ _), hstep]

/-- C27 (witness): `'e'` is lexed to `Number(101)` and `EOF`; at `'é'`, where `é` is
two bytes wide, `Tokenize` stops with `madden`. -/
theorem Tokenize_rune_literal_witness :
    Tokenize asciiCallees 2 (GoString.ofString "'e'") =
      some (.ok [{ kind := .TokenNumber, val := 101, str := "'e'", rest := "'e'" },
        NewToken .TokenEof "" ""]) ∧
    runeLen 'é' = 2 ∧
    Tokenize asciiCallees 1 (GoString.ofString "'é'") = some (.error .Madden) :=
  ⟨(Tokenize_rune_literal asciiCallees 'e' 0 (by decide)).1 (by decide), by decide,
    (Tokenize_rune_literal asciiCallees 'é' 0 (by decide)).2.1 (by decide) [.rune '\'']⟩

/-! ## C28 -/

/-- C28: whenever `traverse` returns on a node, which includes every call on a
descendant at the moment that call returns, the `ExprType` of the node is the
type that `traverse` returned; and on a control or declaration node the type is
`Stmt`. -/
theorem traverse_memoizes (programs : List Program) (program : Program) (n : Node) (vs : Vars)
    (t : Ty) (n1 : Node) (vs1 : Vars)
    (h : traverse programs program n vs = .ok (t, n1, vs1)) :
    n1.ExprType = t ∧ (n.IsControlOrDeclaration = true → t = .stmt) := by
  cases n
  case NodeReturn e f target =>
    cases target <;>
    · rw [traverse] at h
      try simp only [bind, Except.bind, pure, Except.pure, throw, throwThe, MonadExceptOf.throw] at h
      repeat' split at h
      all_goals first
        | (cases h; done)
        | (simp only [Except.ok.injEq, Prod.mk.injEq] at h
           obtain ⟨rfl, rfl, -⟩ := h
           exact ⟨rfl, fun _ => rfl⟩)
  case NodeVarStmt e k f lvar value =>
    cases value <;>
    · rw [traverse] at h
      try simp only [bind, Except.bind, pure, Except.pure, throw, throwThe, MonadExceptOf.throw] at h
      repeat' split at h
      all_goals first
        | (cases h; done)
        | (simp only [Except.ok.injEq, Prod.mk.injEq] at h
           obtain ⟨rfl, rfl, -⟩ := h
           exact ⟨rfl, fun _ => rfl⟩)
  all_goals
    rw [traverse] at h
    try simp only [bind, Except.bind, pure, Except.pure, throw, throwThe, MonadExceptOf.throw] at h
    repeat' split at h
    all_goals first
      | (cases h; done)
      | (simp only [Except.ok.injEq, Prod.mk.injEq] at h
         obtain ⟨rfl, rfl, -⟩ := h
         exact ⟨rfl, fun hc => by first | rfl | cases hc⟩)

/-- C28 (witness): the statement `x := 1` is traversed, and it carries `Stmt`. -/
theorem traverse_memoizes_witness :
    traverse [] emptyProgram declareOne freshVars =
      .ok (.stmt, .NodeShortVarDeclStmt .stmt (.NodeLocalVarList .stmt [.NodeLocalVariable .int 0])
        (.NodeExprList .int [.NodeNum .int 1]), freshVars.setType 0 .int) ∧
    (Node.NodeShortVarDeclStmt .stmt (.NodeLocalVarList .stmt [.NodeLocalVariable .int 0])
        (.NodeExprList .int [.NodeNum .int 1])).ExprType = .stmt :=
  ⟨rfl, (traverse_memoizes [] emptyProgram declareOne freshVars .stmt
    (.NodeShortVarDeclStmt .stmt (.NodeLocalVarList .stmt [.NodeLocalVariable .int 0])
      (.NodeExprList .int [.NodeNum .int 1])) (freshVars.setType 0 .int) rfl).1⟩

/-- C28 (counterexample): in `x := 1` the call of `traverse` on the node of `x`
returns `Undefined` and writes it into the node; when `traverse` has returned on
the statement, the `ExprType` of that node is `Int`. -/
theorem traverse_shortVarDecl_overwrites :
    traverse [] emptyProgram (.NodeLocalVariable .undefined 0) freshVars =
      .ok (.undefined, .NodeLocalVariable .undefined 0, freshVars) ∧
    traverse [] emptyProgram declareOne freshVars =
      .ok (.stmt, .NodeShortVarDeclStmt .stmt (.NodeLocalVarList .stmt [.NodeLocalVariable .int 0])
        (.NodeExprList .int [.NodeNum .int 1]), freshVars.setType 0 .int) ∧
    (Node.NodeLocalVariable .int 0).ExprType ≠ .undefined :=
  ⟨rfl, rfl, by simp [Node.ExprType]⟩

/-! ## C29 -/

/-- C29: let the current token be `tok`. If `tok` is a newline or a semicolon,
`simpleStmt` returns `nil` and leaves the state as it is. If it is not, and a
newline or semicolon follows, `simpleStmt` is one of its three productions: the
assignment if and only if the first `=` or `:=` before the next newline or
semicolon is `=`, the short declaration if and only if it is `:=`, the expression
statement if and only if there is no such token. -/
theorem simpleStmt_production (expr : Parser Node) (fuel : Nat) (s : ParserState) (tok : Token)
    (hcur : s.tokenizer.Fetch = .ok tok) :
    (tok.IsTerminator = true → simpleStmt expr fuel s = .ok (none, s)) ∧
    (tok.IsTerminator = false →
      (∃ t ∈ s.tokenizer.tokens.drop s.tokenizer.pos, t.IsTerminator = true) →
      ∃ form, simpleStmt expr fuel s = simpleStmtAs expr fuel form s ∧
        (form = .assign ↔ ∃ t, firstAssignToken (s.tokenizer.tokens.drop s.tokenizer.pos) = some t ∧
          t.kind = .TokenEqual) ∧
        (form = .shortVarDecl ↔
          ∃ t, firstAssignToken (s.tokenizer.tokens.drop s.tokenizer.pos) = some t ∧
            t.kind = .TokenColonEqual) ∧
        (form = .exprStmt ↔
          firstAssignToken (s.tokenizer.tokens.drop s.tokenizer.pos) = none)) := by
  constructor
  · intro hterm
    unfold simpleStmt
    simp only [Tokenizer.Test, hcur]
    by_cases hnl : tok.Test .TokenNewLine = true
    · simp only [hnl]
    · simp only [Bool.not_eq_true] at hnl
      have hsc : tok.Test .TokenSemicolon = true := by
        simpa [Token.IsTerminator, hnl] using hterm
      simp only [hnl, hsc]
  · intro hterm hend
    obtain ⟨form, hscan, h1, h2, h3⟩ := simpleStmtScan_eq_first _ hend
    exact ⟨form, simpleStmt_eq_simpleStmtAs expr fuel s tok hcur hterm form hscan, h1, h2, h3⟩

/-- C29 (witness): at the start of `x = 1` the first such token is `=`, and
`simpleStmt` is the assignment. -/
theorem simpleStmt_production_witness :
    (stateAt assignTokens 0).tokenizer.Fetch = .ok (mkToken .TokenIdentifier 0 "x") ∧
    firstAssignToken assignTokens = some (mkToken .TokenEqual 0 "=") ∧
    simpleStmt (exprOf (unreachedParser Node) 3) 3 (stateAt assignTokens 0) =
      simpleStmtAs (exprOf (unreachedParser Node) 3) 3 .assign (stateAt assignTokens 0) :=
  ⟨rfl, by decide,
    ((simpleStmt_production (exprOf (unreachedParser Node) 3) 3 (stateAt assignTokens 0)
      (mkToken .TokenIdentifier 0 "x") rfl).2 (by decide)
      ⟨mkToken .TokenNewLine 0 "\n", by decide, by decide⟩).elim
      fun form h => by
        have hform : form = .assign := h.2.1.mpr ⟨mkToken .TokenEqual 0 "=", by decide, rfl⟩
        rw [← hform]
        exact h.1⟩

/-! ## C30 -/

/-- C30: let the current token exist, and let no newline, semicolon, `=` or `:=`
stand at or after it. Then the scan of `simpleStmt` runs past the last token, the
`EOF` token included, and `Prefetch` stops the parser with an index out of range. -/
theorem simpleStmt_scan_leaves_tokens (expr : Parser Node) (fuel : Nat) (s : ParserState)
    (tok : Token) (hcur : s.tokenizer.Fetch = .ok tok)
    (hnone : ∀ t ∈ s.tokenizer.tokens.drop s.tokenizer.pos,
      t.kind ≠ .TokenNewLine ∧ t.kind ≠ .TokenSemicolon ∧ t.kind ≠ .TokenEqual ∧
        t.kind ≠ .TokenColonEqual) :
    simpleStmt expr fuel s = .error .IndexOutOfRange := by
  have hscan : ∀ tokens : List Token,
      (∀ t ∈ tokens, t.kind ≠ .TokenNewLine ∧ t.kind ≠ .TokenSemicolon ∧
        t.kind ≠ .TokenEqual ∧ t.kind ≠ .TokenColonEqual) →
      simpleStmtScan tokens = .error .IndexOutOfRange := by
    intro tokens
    induction tokens with
    | nil => intro _; rfl
    | cons a rest ih =>
      intro h
      obtain ⟨h1, h2, h3, h4⟩ := h a (List.mem_cons_self _ _)
      unfold simpleStmtScan
      simp only [Token.Test, h1, h2, h3, h4, decide_False, Bool.or_self, Bool.false_eq_true,
        if_false]
      exact ih fun t ht => h t (List.mem_cons_of_mem _ ht)
  have hmem : tok ∈ s.tokenizer.tokens.drop s.tokenizer.pos := by
    unfold Tokenizer.Fetch at hcur
    split at hcur
    · rename_i t ht
      cases hcur
      rw [List.getElem?_eq_some] at ht
      obtain ⟨hlt, ht⟩ := ht
      rw [← ht, List.mem_iff_getElem]
      exact ⟨0, by simp; omega, by simp⟩
    · cases hcur
  obtain ⟨h1, h2, -, -⟩ := hnone tok hmem
  unfold simpleStmt
  simp only [Tokenizer.Test, hcur, Token.Test, h1, h2, decide_False, hscan _ hnone]

/-- C30 (witness): `f()` and `}` at the end of a file without a newline at its
end; the tokens are of the kinds that `Tokenize` returns for this text, they end
with `EOF`, and `simpleStmt` stops with an index out of range. -/
theorem simpleStmt_scan_leaves_tokens_witness :
    (Tokenize asciiCallees 5 (GoString.ofString "f()\x7d")).map
        (Except.map (List.map fun t => t.kind)) =
      some (.ok (callAtEndTokens.map fun t => t.kind)) ∧
    (callAtEndTokens.getLast?.map fun t => t.kind) = some .TokenEof ∧
    simpleStmt (exprOf (unreachedParser Node) 3) 3 (stateAt callAtEndTokens 0) =
      .error .IndexOutOfRange :=
  ⟨rfl, by decide,
    simpleStmt_scan_leaves_tokens (exprOf (unreachedParser Node) 3) 3 (stateAt callAtEndTokens 0)
      (mkToken .TokenIdentifier 0 "f") rfl (by decide)⟩

/-! ## C31 -/

/-- C31: without a `go.mod` under `path`, `readModuleNameIfExists` returns the empty
string. With a `go.mod` whose first line is `module M`, it returns the word
`module`, the text before the first blank of that line, and so not `M`, unless
`M` is the word `module` itself. -/
theorem readModuleNameIfExists_first_word (files : Files) (path : String) (M : String) :
    (files.Stat (forceTrailingSlash path ++ "go.mod") = false →
      readModuleNameIfExists files path = "") ∧
    (files.Stat (forceTrailingSlash path ++ "go.mod") = true →
      firstField '\n' (files.ReadFile (forceTrailingSlash path ++ "go.mod")) = "module " ++ M →
      readModuleNameIfExists files path = "module" ∧
        (M ≠ "module" → readModuleNameIfExists files path ≠ M)) := by
  constructor
  · intro hstat
    simp [readModuleNameIfExists, hstat]
  · intro hstat hline
    have hres : readModuleNameIfExists files path = "module" := by
      simp only [readModuleNameIfExists, hstat, Bool.not_true, Bool.false_eq_true, if_false,
        hline]
      simp [firstField, List.takeWhile]
    exact ⟨hres, fun hM heq => hM (by rw [← heq, hres])⟩

/-- C31 (witness): the `go.mod` under `proj` starts with the line
`module example.com/m`; the function returns `module`. Under `other` there is no
`go.mod`, and it returns the empty string. -/
theorem readModuleNameIfExists_first_word_witness :
    firstField '\n' (moduleFiles.ReadFile "proj/go.mod") = "module example.com/m" ∧
    readModuleNameIfExists moduleFiles "proj" = "module" ∧
    readModuleNameIfExists moduleFiles "proj" ≠ "example.com/m" ∧
    readModuleNameIfExists moduleFiles "other" = "" :=
  have h := readModuleNameIfExists_first_word moduleFiles "proj" "example.com/m"
  have h1 := h.2 (by decide) (by decide)
  ⟨by decide, h1.1, h1.2 (by decide),
    (readModuleNameIfExists_first_word moduleFiles "other" "").1 (by decide)⟩

/-! ## C32 -/

/-- C32: let `s` be a string in which a byte that starts no character, if there is
one, is no character of an identifier. Then `getIdentifier` returns `id` and
`rest` with `id ++ rest = s`; `id` consists only of alphanumeric characters and
underscores and does not begin with a digit; every start of `s` of this kind is
a start of `id`; and `rest` is empty or begins with a character that, put behind
`id`, gives no such text. -/
theorem getIdentifier_splits (h : Callees) (s : GoString)
    (hstray : Piece.stray ∈ s → IsIdentifierChar h (Char.ofNat 0xFFFD) = false) :
    GoString.ofString (getIdentifier h s).1 ++ (getIdentifier h s).2 = s ∧
    IsIdentifierText h (GoString.ofString (getIdentifier h s).1) ∧
    (∀ t : GoString, t <+: s → IsIdentifierText h t →
      t <+: GoString.ofString (getIdentifier h s).1) ∧
    ((getIdentifier h s).2 = [] ∨ ∃ p r, (getIdentifier h s).2 = p :: r ∧
      ¬ IsIdentifierText h (GoString.ofString (getIdentifier h s).1 ++ [p])) := by
  obtain ⟨taken, h1, h2, h3, h4, h5⟩ := getIdentifierLoop_split h s hstray true ""
  have hid : GoString.ofString (getIdentifier h s).1 = taken.map Piece.rune := by
    unfold GoString.ofString getIdentifier
    rw [h1]
    rfl
  have hrest : (getIdentifier h s).2 = (getIdentifierLoop h true "" s).2 := rfl
  rw [hid, hrest]
  have htext : IsIdentifierText h (taken.map Piece.rune) := by
    constructor
    · intro p hp
      obtain ⟨c, hc, rfl⟩ := List.mem_map.mp hp
      exact h3 c hc
    · intro p hp
      cases taken with
      | nil => cases hp
      | cons c cs =>
        simp only [List.map_cons, List.head?_cons, Option.some.injEq] at hp
        subst hp
        exact h4 rfl c rfl
  have hnext : ∀ p r, (getIdentifierLoop h true "" s).2 = p :: r →
      ∀ t : GoString, (taken.map Piece.rune ++ [p]) <+: t → ¬ IsIdentifierText h t := by
    intro p r hpr t hpre htext1
    rcases h5 with h5 | ⟨q, r1, hq, hcase⟩
    · rw [h5] at hpr
      cases hpr
    · rw [hq] at hpr
      cases hpr
      rcases hcase with ⟨-, hnil, hd⟩ | hn
      · subst hnil
        obtain ⟨u, rfl⟩ := hpre
        have := htext1.2 p rfl
        rw [hd] at this
        cases this
      · have hmem : p ∈ t := hpre.subset (by simp)
        have := htext1.1 p hmem
        rw [hn] at this
        cases this
  refine ⟨h2, htext, ?_, ?_⟩
  · intro t hts ht
    rw [← h2] at hts
    rcases List.prefix_or_prefix_of_prefix hts (List.prefix_append _ _) with hle | hle
    · exact hle
    · obtain ⟨u, hu⟩ := hle
      cases u with
      | nil => rw [← hu, List.append_nil]
      | cons p u =>
        exfalso
        obtain ⟨v, hv⟩ := hts
        rw [← hu, List.append_assoc] at hv
        have hrest1 : (getIdentifierLoop h true "" s).2 = p :: (u ++ v) :=
          (List.append_cancel_left hv).symm
        refine hnext p _ hrest1 t ?_ ht
        rw [← hu]
        exact (List.prefix_append_right_inj _).mpr ⟨u, rfl⟩
  · rcases h5 with h5 | ⟨q, r1, hq, -⟩
    · exact Or.inl h5
    · exact Or.inr ⟨q, r1, hq, hnext q r1 hq _ (List.prefix_refl _)⟩

/-- C32 (witness): `x1 = 2` is split into `x1` and ` = 2`, and `1x` into the empty
identifier and `1x`. -/
theorem getIdentifier_splits_witness :
    getIdentifier asciiCallees (GoString.ofString "x1 = 2") = ("x1", GoString.ofString " = 2") ∧
    getIdentifier asciiCallees (GoString.ofString "1x") = ("", GoString.ofString "1x") ∧
    GoString.ofString (getIdentifier asciiCallees (GoString.ofString "x1 = 2")).1 ++
      (getIdentifier asciiCallees (GoString.ofString "x1 = 2")).2 = GoString.ofString "x1 = 2" :=
  ⟨rfl, rfl,
    (getIdentifier_splits asciiCallees (GoString.ofString "x1 = 2")
      (fun _ => by decide)).1⟩

end Myuugo
